import Mathlib

/-!
# Hash tables with dynamic growth: linear probing, cuckoo, extendible, hybrid

A shallow embedding of `inthash.c`, `tables/linear.c`, `tables/cuckoo.c`,
`tables/xtndbln.c` and `tables/xuckoo.c`.

Modelling conventions

* A C call either returns, stops the process (a failed `assert`, an access
  outside an allocated array, a division by zero, a null dereference), or
  never returns.  `Res` has one constructor for each.  Loops whose number of
  iterations is not bounded by the code itself take a `fuel` argument and
  give `Res.diverge` when it runs out.
* Arrays are lists whose length is the allocated length; every read and write
  is bounds-checked and gives `Res.abort` outside the allocation.  Memory
  that C leaves uninitialised (`malloc`, `realloc`) holds `0`.
* `int` values are exact integers: every size is bounded by `MAX_TABLE_SIZE`
  (or twice it) and the header that defines `MAX_TABLE_SIZE` and `int64` is
  not part of the sources, so `MAX_TABLE_SIZE` is a parameter and `int64` is
  read as the unsigned 64-bit type announced by `inthash.c`.
* Timing statistics (`clock()`, the `accum_*_time` and average fields) are
  floating point and influence nothing else; they are left out.
* `malloc`/`realloc` are assumed to succeed.
-/

/-- Outcome of running a C function: it returned a value, the process stopped
(assertion failure or undefined behaviour), or the fuel ran out. -/
inductive Res (α : Type) where
  | ret : α → Res α
  | abort : Res α
  | diverge : Res α
  deriving DecidableEq, Repr

namespace Res

/-- Sequencing of two computations. -/
def bind {α β : Type} (x : Res α) (f : α → Res β) : Res β :=
  match x with
  | ret a => f a
  | abort => abort
  | diverge => diverge

end Res

/-- Bounds-checked array read `a[i]`. -/
def rd {α : Type} (a : List α) (i : Nat) : Res α :=
  match a[i]? with
  | some v => Res.ret v
  | none => Res.abort

/-- Bounds-checked array write `a[i] = v`. -/
def wr {α : Type} (a : List α) (i : Nat) (v : α) : Res (List α) :=
  if i < a.length then Res.ret (a.set i v) else Res.abort

/-! ## inthash.c -/

def A1 : Nat := 885390553
def B1 : Nat := 639360243
def p1 : Nat := 2147483629
def A2 : Nat := 853977193
def B2 : Nat := 306837493
def p2 : Nat := 2147483563

/-- First hash function: `(A1 * k + B1) % p1` in unsigned 64-bit arithmetic. -/
@[irreducible] def h1 (k : Nat) : Nat := ((A1 * k + B1) % 2 ^ 64) % p1

/-- Second hash function: `(A2 * k + B2) % p2` in unsigned 64-bit arithmetic. -/
@[irreducible] def h2 (k : Nat) : Nat := ((A2 * k + B2) % 2 ^ 64) % p2

/-- Modelled from the spec: the type `int64` of the header `inthash.h`, which is
not among the sources.  Keys are 64-bit integers taken as non-negative values
(`inthash.c` announces hash functions for 64-bit unsigned integers and the
tables print keys with `%llu`), so arithmetic on them is modulo `2 ^ 64`. -/
def int64_modulus : Nat := 2 ^ 64

/-- Conversion of an unsigned 64-bit value to the return type `int` (32 bits,
two's complement): the value of `return e;` in a function returning `int`
when `e` has type `int64`. -/
def to_int (v : Nat) : Int :=
  if v % 2 ^ 32 < 2 ^ 31 then ((v % 2 ^ 32 : Nat) : Int)
  else ((v % 2 ^ 32 : Nat) : Int) - 2 ^ 32

/-- The value returned by the C function `h1`, as an `int`. -/
def h1_int (k : Nat) : Int := to_int (h1 k)

/-- The value returned by the C function `h2`, as an `int`. -/
def h2_int (k : Nat) : Int := to_int (h2 k)

/-- The formula of the specification for `h1`: the multiply-add over the exact
integers, reduced modulo the prime. -/
def h1_exact (k : Nat) : Nat := (885390553 * k + 639360243) % 2147483629

/-- The formula of the specification for `h2`: the multiply-add over the exact
integers, reduced modulo the prime. -/
def h2_exact (k : Nat) : Nat := (853977193 * k + 306837493) % 2147483563

/-! ## tables/linear.c -/

namespace Linear

/-- Step between probed cells. -/
def STEP_SIZE : Nat := 1

/-- The `struct linear_table` (timing and average fields left out). -/
structure LinearHashTable where
  slots : List Nat
  inuse : List Bool
  size : Nat
  load : Nat
  preexist : Nat
  collision_count : Nat
  deriving DecidableEq, Repr

/-- Fresh arrays of `size` cells, all free; every counter reset.  The
assertion `size < MAX_TABLE_SIZE` stops the process when it fails. -/
def initialise_table (MAX_TABLE_SIZE : Nat) (size : Nat) : Res LinearHashTable :=
  if size < MAX_TABLE_SIZE then
    Res.ret { slots := List.replicate size 0, inuse := List.replicate size false,
              size := size, load := 0, preexist := 0, collision_count := 0 }
  else Res.abort

/-- Creation of a table with `size` cells. -/
def new_linear_hash_table (MAX_TABLE_SIZE : Nat) (size : Nat) : Res LinearHashTable :=
  initialise_table MAX_TABLE_SIZE size

/-- How a probe loop ends: on the key itself, or by leaving the `while` with
the final values of `h` and `steps`. -/
inductive Probe where
  | hit : Probe
  | stop (h steps : Nat) : Probe
  deriving DecidableEq, Repr

/-- The loop `while (inuse[h] && steps < size)` shared (textually) by insert and
lookup: returns `hit` when a probed cell holds `key`.  The first argument
bounds the remaining iterations; it is `size - steps` at every call. -/
def probe (t : LinearHashTable) (key : Nat) : Nat → Nat → Nat → Res Probe
  | rem, h, steps =>
    (rd t.inuse h).bind fun used =>
      if used && decide (steps < t.size) then
        (rd t.slots h).bind fun k =>
          if k = key then Res.ret Probe.hit
          else
            match rem with
            | 0 => Res.diverge
            | rem + 1 => probe t key rem ((h + STEP_SIZE) % t.size) (steps + 1)
      else Res.ret (Probe.stop h steps)

/-- The probe loop with a count of the executions of its body: `iters` is not
a variable of the C function, it is the number of times the body was entered
so far. -/
def probe_count (t : LinearHashTable) (key : Nat) : Nat → Nat → Nat → Nat → Res (Probe × Nat)
  | rem, h, steps, iters =>
    (rd t.inuse h).bind fun used =>
      if used && decide (steps < t.size) then
        (rd t.slots h).bind fun k =>
          if k = key then Res.ret (Probe.hit, iters + 1)
          else
            match rem with
            | 0 => Res.diverge
            | rem + 1 =>
              probe_count t key rem ((h + STEP_SIZE) % t.size) (steps + 1) (iters + 1)
      else Res.ret (Probe.stop h steps, iters)

/-- The loop of `double_table`: re-insert every key of the old arrays, cell
`i`, `i + 1`, ... with `n` cells left to visit. -/
def rehash (ins : LinearHashTable → Nat → Res (LinearHashTable × Bool))
    (oldslots : List Nat) (oldinuse : List Bool) :
    Nat → Nat → LinearHashTable → Res LinearHashTable
  | 0, _, t => Res.ret t
  | n + 1, i, t =>
    (rd oldinuse i).bind fun used =>
      if used then
        (rd oldslots i).bind fun k =>
          (ins t k).bind fun r => rehash ins oldslots oldinuse n (i + 1) r.1
      else rehash ins oldslots oldinuse n (i + 1) t

/-- Body of `double_table`, with the insertion function it calls back. -/
def double_table_with (MAX_TABLE_SIZE : Nat)
    (ins : LinearHashTable → Nat → Res (LinearHashTable × Bool))
    (t : LinearHashTable) : Res LinearHashTable :=
  (initialise_table MAX_TABLE_SIZE (t.size * 2)).bind fun t0 =>
    rehash ins t.slots t.inuse t.size 0 t0

/-- Insertion of `key`; `fuel` bounds the depth of the recursion through
`double_table`.  Returns the new table and the C return value. -/
def linear_hash_table_insert (MAX_TABLE_SIZE : Nat) :
    Nat → LinearHashTable → Nat → Res (LinearHashTable × Bool)
  | fuel, t, key =>
    if t.size = 0 then Res.abort
    else
      (probe t key t.size (h1 key % t.size) 0).bind fun p =>
        match p with
        | Probe.hit => Res.ret ({ t with preexist := t.preexist + 1 }, false)
        | Probe.stop h steps =>
          let t1 : LinearHashTable :=
            if steps ≠ 0 then { t with collision_count := t.collision_count + 1 } else t
          if steps = t1.size then
            match fuel with
            | 0 => Res.diverge
            | fuel + 1 =>
              (double_table_with MAX_TABLE_SIZE
                  (linear_hash_table_insert MAX_TABLE_SIZE fuel) t1).bind fun t2 =>
                linear_hash_table_insert MAX_TABLE_SIZE fuel t2 key
          else
            (wr t1.slots h key).bind fun s =>
              (wr t1.inuse h true).bind fun u =>
                Res.ret ({ t1 with slots := s, inuse := u, load := t1.load + 1 }, true)

/-- The function `double_table`. -/
def double_table (MAX_TABLE_SIZE : Nat) (fuel : Nat) (t : LinearHashTable) :
    Res LinearHashTable :=
  double_table_with MAX_TABLE_SIZE (linear_hash_table_insert MAX_TABLE_SIZE fuel) t

/-- Lookup of `key`. -/
def linear_hash_table_lookup (t : LinearHashTable) (key : Nat) : Res Bool :=
  if t.size = 0 then Res.abort
  else
    (probe t key t.size (h1 key % t.size) 0).bind fun p =>
      match p with
      | Probe.hit => Res.ret true
      | Probe.stop _ _ => Res.ret false

/-- A run of the client: insert the keys of a list one after the other. -/
def insert_all (MAX_TABLE_SIZE : Nat) (fuel : Nat) :
    LinearHashTable → List Nat → Res LinearHashTable
  | t, [] => Res.ret t
  | t, k :: ks =>
    (linear_hash_table_insert MAX_TABLE_SIZE fuel t k).bind fun r =>
      insert_all MAX_TABLE_SIZE fuel r.1 ks

end Linear


namespace Linear

/-- Shape of the struct: both arrays have `size` cells and `size` is positive. -/
structure WF (t : LinearHashTable) : Prop where
  pos : 0 < t.size
  slots_len : t.slots.length = t.size
  inuse_len : t.inuse.length = t.size

/-- The cell `p` is in use and holds `k`. -/
def holds (t : LinearHashTable) (p k : Nat) : Prop :=
  t.inuse[p]? = some true ∧ t.slots[p]? = some k

/-- The key `k` is held by some cell in use. -/
def stored (t : LinearHashTable) (k : Nat) : Prop := ∃ p, holds t p k

/-- Cells `h0, h0 + 1, ..., h0 + s - 1` (cyclically) are in use and hold keys
other than `key`. -/
def busy (t : LinearHashTable) (key h0 s : Nat) : Prop :=
  ∀ j, j < s → t.inuse[(h0 + j) % t.size]? = some true ∧
    ∃ k, t.slots[(h0 + j) % t.size]? = some k ∧ k ≠ key

/-- Probe chains are unbroken: every cell between the home cell of a stored key
and the cell that holds it is in use. -/
def Chain (t : LinearHashTable) : Prop :=
  ∀ p k, holds t p k → ∀ d, d < t.size → (h1 k % t.size + d) % t.size = p →
    ∀ j, j < d → t.inuse[(h1 k % t.size + j) % t.size]? = some true

/-- Invariant of the linear table. -/
def Inv (t : LinearHashTable) : Prop := WF t ∧ Chain t

/-- Number of cells in use. -/
def cnt (t : LinearHashTable) : Nat := t.inuse.count true

/-- Creation followed by the insertion of a list of keys. -/
def run (MAX_TABLE_SIZE fuel n : Nat) (keys : List Nat) : Res LinearHashTable :=
  (new_linear_hash_table MAX_TABLE_SIZE n).bind fun t => insert_all MAX_TABLE_SIZE fuel t keys

/-- The table after writing `key` into the free cell `h`. -/
def place (t : LinearHashTable) (h key : Nat) : LinearHashTable :=
  { t with slots := t.slots.set h key, inuse := t.inuse.set h true, load := t.load + 1 }

/-- Specification of an insertion that returns. -/
def InsOk (ins : LinearHashTable → Nat → Res (LinearHashTable × Bool)) : Prop :=
  ∀ t k r, Inv t → ins t k = Res.ret r →
    Inv r.1 ∧ ∀ x, stored r.1 x ↔ stored t x ∨ x = k

/-- The update of `collision_count` after the probe loop. -/
def bump (t : LinearHashTable) (steps : Nat) : LinearHashTable :=
  if steps ≠ 0 then { t with collision_count := t.collision_count + 1 } else t

/-- Specification of an insertion into a table with a free cell: it
returns, keeps the size and uses at most one more cell. -/
def InsFree (ins : LinearHashTable → Nat → Res (LinearHashTable × Bool)) : Prop :=
  ∀ t k, WF t → cnt t < t.size →
    ∃ r, ins t k = Res.ret r ∧ WF r.1 ∧ r.1.size = t.size ∧ cnt r.1 ≤ cnt t + 1

/-- The counter `load` is the number of cells in use, and no key is held by
two cells in use. -/
def Bal (t : LinearHashTable) : Prop :=
  t.load = cnt t ∧ ∀ p q k, holds t p k → holds t q k → p = q

/-- Specification of an insertion that returns: it keeps `Bal`. -/
def InsBal (ins : LinearHashTable → Nat → Res (LinearHashTable × Bool)) : Prop :=
  ∀ t k r, Inv t → Bal t → ins t k = Res.ret r → Bal r.1

/-- Specification of the insertion of an absent key into a table with a free
cell: it returns true, keeps the size, and adds one key. -/
def Fresh (ins : LinearHashTable → Nat → Res (LinearHashTable × Bool)) : Prop :=
  ∀ t k, Inv t → Bal t → cnt t < t.size → ¬ stored t k →
    ∃ r, ins t k = Res.ret (r, true) ∧ Inv r ∧ Bal r ∧ r.size = t.size ∧
      r.load = t.load + 1 ∧ cnt r = cnt t + 1 ∧ ∀ x, stored r x ↔ stored t x ∨ x = k

end Linear

/-! ## tables/cuckoo.c -/

namespace Cuckoo

/-- A multiple by which to increase a table's size. -/
def EXPANSION_FACTOR : Nat := 2

/-- One of the two internal tables: parallel arrays `slots` and `inuse`. -/
structure InnerTable where
  slots : List Nat
  inuse : List Bool
  deriving DecidableEq, Repr

/-- The `struct cuckoo_table` (timing fields left out). -/
structure CuckooHashTable where
  table1 : InnerTable
  table2 : InnerTable
  size : Nat
  nkeys : Nat
  deriving DecidableEq, Repr

/-- Two `calloc`ed arrays of `size` cells. -/
def new_inner_table (size : Nat) : InnerTable :=
  { slots := List.replicate size 0, inuse := List.replicate size false }

/-- The index `h1(key) % size` or `h2(key) % size`; a zero `size` is a
division by zero. -/
def get_cuckoo_index (size : Nat) (first_table : Bool) (key : Nat) : Res Nat :=
  if size = 0 then Res.abort
  else if first_table then Res.ret (h1 key % size) else Res.ret (h2 key % size)

/-- The effect of `realloc` to `n` cells: the old content is kept up to `n`
cells, new cells hold `fill`. -/
def realloc {α : Type} (a : List α) (n : Nat) (fill : α) : List α :=
  a.take n ++ List.replicate (n - a.length) fill

/-- The loop `for (ix = size; ix < new_size; ix++) inuse[ix] = false`, with `n`
iterations left. -/
def clear_loop : Nat → Nat → List Bool → Res (List Bool)
  | 0, _, inuse => Res.ret inuse
  | n + 1, ix, inuse => (wr inuse ix false).bind fun u => clear_loop n (ix + 1) u

/-- The loop `for (ix = 0; ix < size; ix++)` of `upsize_inner_table` that moves
every key whose index changed, with `n` iterations left. -/
def move_loop (new_size : Nat) (first_table : Bool) :
    Nat → Nat → InnerTable → Res InnerTable
  | 0, _, table => Res.ret table
  | n + 1, ix, table =>
    (rd table.inuse ix).bind fun used =>
      if used then
        (rd table.slots ix).bind fun k =>
          (get_cuckoo_index new_size first_table k).bind fun new_index =>
            if ix ≠ new_index then
              (wr table.slots new_index k).bind fun s =>
                (wr table.inuse ix false).bind fun u1 =>
                  (wr u1 new_index true).bind fun u2 =>
                    move_loop new_size first_table n (ix + 1) { slots := s, inuse := u2 }
            else move_loop new_size first_table n (ix + 1) table
      else move_loop new_size first_table n (ix + 1) table

/-- Growth of one inner table by `factor`; returns the table and the status.
The guard `factor < 0` of the source is kept although a natural number never
takes it. -/
def upsize_inner_table (MAX_TABLE_SIZE : Nat) (table : InnerTable) (first_table : Bool)
    (size : Nat) (factor : Nat) : Res (InnerTable × Bool) :=
  if (factor : Int) < 0 then Res.ret (table, false)
  else
    let new_size := size * factor
    if new_size > MAX_TABLE_SIZE then Res.ret (table, false)
    else
      (clear_loop (new_size - size) size (realloc table.inuse new_size false)).bind fun u =>
        (move_loop new_size first_table size 0
            { slots := realloc table.slots new_size 0, inuse := u }).bind fun t2 =>
          Res.ret (t2, true)

/-- Growth of both inner tables; the second is grown only when the first
succeeded, and `size` is multiplied in every case. -/
def upsize_hash_table (MAX_TABLE_SIZE : Nat) (table : CuckooHashTable) (factor : Nat) :
    Res (CuckooHashTable × Bool) :=
  (upsize_inner_table MAX_TABLE_SIZE table.table1 true table.size factor).bind fun r1 =>
    if r1.2 then
      (upsize_inner_table MAX_TABLE_SIZE table.table2 false table.size factor).bind fun r2 =>
        Res.ret ({ table with table1 := r1.1, table2 := r2.1, size := table.size * factor }, r2.2)
    else
      Res.ret ({ table with table1 := r1.1, size := table.size * factor }, false)

/-- A table with `size` cells in each inner table. -/
def new_cuckoo_hash_table (size : Nat) : CuckooHashTable :=
  { table1 := new_inner_table size, table2 := new_inner_table size, size := size, nkeys := 0 }

/-- The C expression `inuse[q] && slots[q] == key` on one inner table. -/
def slot_matches (it : InnerTable) (q key : Nat) : Res Bool :=
  (rd it.inuse q).bind fun u =>
    if u then (rd it.slots q).bind fun k => Res.ret (decide (k = key))
    else Res.ret false

/-- Lookup of `key` in both inner tables. -/
def cuckoo_hash_table_lookup (table : CuckooHashTable) (key : Nat) : Res Bool :=
  if table.size = 0 then Res.abort
  else
    (slot_matches table.table1 (h1 key % table.size) key).bind fun found =>
      if !found then slot_matches table.table2 (h2 key % table.size) key
      else Res.ret found

/-- Kick threshold `(int)log2(size) + 1`. -/
def get_kick_threshold (size : Nat) : Nat := Nat.log2 size + 1

/-- Usage flag of a cell of the chosen inner table. -/
def get_usage (table : CuckooHashTable) (first_table : Bool) (index : Nat) : Res Bool :=
  if first_table then rd table.table1.inuse index else rd table.table2.inuse index

/-- Key of a cell of the chosen inner table. -/
def get_key (table : CuckooHashTable) (first_table : Bool) (index : Nat) : Res Nat :=
  if first_table then rd table.table1.slots index else rd table.table2.slots index

/-- Write `key` to a cell of the chosen inner table and mark it in use. -/
def write_key (table : CuckooHashTable) (first_table : Bool) (index key : Nat) :
    Res CuckooHashTable :=
  if first_table then
    (wr table.table1.slots index key).bind fun s =>
      (wr table.table1.inuse index true).bind fun u =>
        Res.ret { table with table1 := { slots := s, inuse := u } }
  else
    (wr table.table2.slots index key).bind fun s =>
      (wr table.table2.inuse index true).bind fun u =>
        Res.ret { table with table2 := { slots := s, inuse := u } }

/-- Local variables of the displacement loop of `cuckoo_hash_table_insert`. -/
structure LoopState where
  table : CuckooHashTable
  use_first_table : Bool
  kick_count : Nat
  current_key : Nat
  next_key : Nat
  expansion_threshold : Nat
  deriving DecidableEq, Repr

/-- Effect of one iteration: the function returned, or the loop goes on. -/
inductive Step where
  | done (table : CuckooHashTable) (result : Bool) : Step
  | next (s : LoopState) : Step
  deriving DecidableEq, Repr

/-- The part of an iteration after the detection block. -/
def place_key (s : LoopState) : Res Step :=
  (get_cuckoo_index s.table.size s.use_first_table s.current_key).bind fun current_index =>
    (get_usage s.table s.use_first_table current_index).bind fun used =>
      (if used then
          (get_key s.table s.use_first_table current_index).bind fun k =>
            Res.ret (k, s.kick_count + 1, false)
        else Res.ret (s.next_key, s.kick_count, true)).bind fun v =>
        (write_key s.table s.use_first_table current_index s.current_key).bind fun t2 =>
          if v.2.2 then Res.ret (Step.done { t2 with nkeys := t2.nkeys + 1 } true)
          else Res.ret (Step.next
            { table := t2, use_first_table := !s.use_first_table, kick_count := v.2.1,
              current_key := v.1, next_key := v.1,
              expansion_threshold := s.expansion_threshold })

/-- One iteration of `while (loop_exit == false)`. -/
def loop_body (MAX_TABLE_SIZE : Nat) (key : Nat) (s : LoopState) : Res Step :=
  if s.kick_count > s.expansion_threshold ∨
      (s.kick_count ≠ 0 ∧ s.current_key = key ∧ s.use_first_table = true) then
    (upsize_hash_table MAX_TABLE_SIZE s.table EXPANSION_FACTOR).bind fun r =>
      if !r.2 then Res.ret (Step.done r.1 false)
      else place_key { s with table := r.1, kick_count := 0,
                              expansion_threshold := get_kick_threshold r.1.size }
  else place_key s

/-- The displacement loop, `fuel` iterations at most. -/
def insert_loop (MAX_TABLE_SIZE : Nat) (key : Nat) :
    Nat → LoopState → Res (CuckooHashTable × Bool)
  | 0, _ => Res.diverge
  | fuel + 1, s =>
    (loop_body MAX_TABLE_SIZE key s).bind fun r =>
      match r with
      | Step.done t b => Res.ret (t, b)
      | Step.next s2 => insert_loop MAX_TABLE_SIZE key fuel s2

/-- Insertion of `key`. -/
def cuckoo_hash_table_insert (MAX_TABLE_SIZE : Nat) (fuel : Nat) (table : CuckooHashTable)
    (key : Nat) : Res (CuckooHashTable × Bool) :=
  (cuckoo_hash_table_lookup table key).bind fun found =>
    if found then Res.ret (table, false)
    else
      insert_loop MAX_TABLE_SIZE key fuel
        { table := table, use_first_table := true, kick_count := 0, current_key := key,
          next_key := 0, expansion_threshold := get_kick_threshold table.size }

/-- A run of the client: insert the keys of a list one after the other; the
result is `none` as soon as a call returns false for a key that was absent,
that is, fails for capacity. -/
def insert_all (MAX_TABLE_SIZE : Nat) (fuel : Nat) :
    CuckooHashTable → List Nat → Res (Option CuckooHashTable)
  | t, [] => Res.ret (some t)
  | t, k :: ks =>
    (cuckoo_hash_table_lookup t k).bind fun present =>
      (cuckoo_hash_table_insert MAX_TABLE_SIZE fuel t k).bind fun r =>
        if !present && !r.2 then Res.ret none
        else insert_all MAX_TABLE_SIZE fuel r.1 ks

end Cuckoo

namespace Cuckoo

/-- The cell `q` of an inner table is in use and holds `k`. -/
def iholds (it : InnerTable) (q k : Nat) : Prop :=
  it.inuse[q]? = some true ∧ it.slots[q]? = some k

/-- The hash function of the first (`h1`) or second (`h2`) inner table. -/
def hashOf (first_table : Bool) (k : Nat) : Nat := if first_table then h1 k else h2 k

/-- Invariant of an inner table of `size` cells: both arrays have `size` cells
and every key sits at its hashed index. -/
def IInv (first_table : Bool) (size : Nat) (it : InnerTable) : Prop :=
  it.slots.length = size ∧ it.inuse.length = size ∧
    ∀ q k, iholds it q k → hashOf first_table k % size = q

/-- Invariant of the cuckoo table. -/
structure CInv (t : CuckooHashTable) : Prop where
  pos : 0 < t.size
  inv1 : IInv true t.size t.table1
  inv2 : IInv false t.size t.table2

/-- The key `k` is held by a cell in use of one of the inner tables. -/
def stored (t : CuckooHashTable) (k : Nat) : Prop :=
  (∃ q, iholds t.table1 q k) ∨ (∃ q, iholds t.table2 q k)

/-- State of the rehash loop of `upsize_inner_table` before cell `ix`, for the
growth from `n` to `N` cells: cells of the residue classes below `ix` are
final, the other cells in use are still those of the old table. -/
def MoveInv (first_table : Bool) (n N ix : Nat) (it : InnerTable) : Prop :=
  it.slots.length = N ∧ it.inuse.length = N ∧
    (∀ q k, iholds it q k → q % n < ix → hashOf first_table k % N = q) ∧
    (∀ q k, iholds it q k → ix ≤ q % n → q < n ∧ hashOf first_table k % n = q)

end Cuckoo

namespace Cuckoo

/-- The inner table selected by `first_table`. -/
def inner (t : CuckooHashTable) (first_table : Bool) : InnerTable :=
  if first_table then t.table1 else t.table2

/-- The table with the inner table selected by `first_table` replaced. -/
def with_inner (t : CuckooHashTable) (first_table : Bool) (it : InnerTable) :
    CuckooHashTable :=
  if first_table then { t with table1 := it } else { t with table2 := it }

end Cuckoo

namespace Cuckoo

/-- Invariant of the displacement loop of an insertion of `key` into `t0`: the
table satisfies the invariant, stays below the bound `B`, and the keys of
the table together with the key in hand are those of `t0` and `key`. -/
def LoopInv (t0 : CuckooHashTable) (key B : Nat) (s : LoopState) : Prop :=
  CInv s.table ∧ s.table.size ≤ B ∧
    ∀ x, (stored s.table x ∨ x = s.current_key) ↔ (stored t0 x ∨ x = key)

/-- Fuel that suffices for one insertion into a table of `size` cells. -/
def insert_fuel (MAX_TABLE_SIZE size : Nat) : Nat :=
  (MAX_TABLE_SIZE + 2) * (MAX_TABLE_SIZE + size + 3)

end Cuckoo

namespace Cuckoo

/-- The number of cells in use of the two inner arrays together. -/
def used_slots (t : CuckooHashTable) : Nat :=
  t.table1.inuse.count true + t.table2.inuse.count true

/-- The tables a client can reach: a new table of any size, and the table left
by any call of `cuckoo_hash_table_insert` that returned, whatever it
returned. -/
inductive CReach (MAX_TABLE_SIZE : Nat) : CuckooHashTable → Prop
  | init (size : Nat) : CReach MAX_TABLE_SIZE (new_cuckoo_hash_table size)
  | insert (t : CuckooHashTable) (fuel key : Nat) (t2 : CuckooHashTable) (b : Bool) :
      CReach MAX_TABLE_SIZE t →
      cuckoo_hash_table_insert MAX_TABLE_SIZE fuel t key = Res.ret (t2, b) →
      CReach MAX_TABLE_SIZE t2

/-- What every reachable table satisfies: `nkeys` counts the cells in use, the
arrays of an inner table have the same length, and the table either satisfies
the invariant or has a `size` that no growth can follow. -/
structure Counted (MAX_TABLE_SIZE : Nat) (t : CuckooHashTable) : Prop where
  nkeys_eq : t.nkeys = used_slots t
  len1 : t.table1.slots.length = t.table1.inuse.length
  len2 : t.table2.slots.length = t.table2.inuse.length
  shape : CInv t ∨ MAX_TABLE_SIZE < t.size ∨ t.size = 0

/-- The table an iteration of the displacement loop leaves. -/
def Step.table : Step → CuckooHashTable
  | Step.done t _ => t
  | Step.next s => s.table

/-- The states of the displacement loop at the top of an iteration, during the
insertion into `t` of a `key` that the lookup did not find. -/
inductive LoopReach (MAX_TABLE_SIZE : Nat) (t : CuckooHashTable) (key : Nat) :
    LoopState → Prop
  | init : cuckoo_hash_table_lookup t key = Res.ret false →
      LoopReach MAX_TABLE_SIZE t key
        { table := t, use_first_table := true, kick_count := 0, current_key := key,
          next_key := 0, expansion_threshold := get_kick_threshold t.size }
  | step (s s2 : LoopState) : LoopReach MAX_TABLE_SIZE t key s →
      loop_body MAX_TABLE_SIZE key s = Res.ret (Step.next s2) →
      LoopReach MAX_TABLE_SIZE t key s2

/-- The condition of the detection block at the top of an iteration. -/
def detects (key : Nat) (s : LoopState) : Prop :=
  s.kick_count > s.expansion_threshold ∨
    (s.kick_count ≠ 0 ∧ s.current_key = key ∧ s.use_first_table = true)

end Cuckoo

namespace Cuckoo

/-- No key is held by two cells in use, of one inner table or of both. -/
def Single (t : CuckooHashTable) : Prop :=
  ∀ b1 b2 q1 q2 k, iholds (inner t b1) q1 k → iholds (inner t b2) q2 k → b1 = b2 ∧ q1 = q2

end Cuckoo

namespace Cuckoo

/-- The cell that lookup reads first for `K`, cell `h1(K) mod size` of the first
inner table, exists in both arrays. -/
def InRange (K : Nat) (t : CuckooHashTable) : Prop :=
  h1 K % t.size < t.table1.inuse.length ∧ h1 K % t.size < t.table1.slots.length

/-- The table keeps `K` where lookup searches for it: in cell `h1(K) mod size`
of the first inner table, or, that cell being readable, in cell
`h2(K) mod size` of the second. -/
def Kept (K : Nat) (t : CuckooHashTable) : Prop :=
  iholds t.table1 (h1 K % t.size) K ∨ (InRange K t ∧ iholds t.table2 (h2 K % t.size) K)

/-- State of the displacement loop with respect to the key `K` being inserted:
`K` is the key in hand, about to be written to the first inner table or with
its cell of the first inner table readable, or the table keeps `K`. -/
def Tracked (K : Nat) (s : LoopState) : Prop :=
  (s.current_key = K ∧ (s.use_first_table = true ∨ InRange K s.table)) ∨ Kept K s.table

end Cuckoo

/-! ## tables/xtndbln.c -/

/-- A computation returned a value. -/
def Res.returns {α : Type} (x : Res α) : Bool :=
  match x with
  | Res.ret _ => true
  | _ => false

namespace Xtndbln

/-- The macro `get_bit_trail(x, n)`, `(x) & ((1 << n) - 1)` on an `int`: in
two's complement the trailing `n` bits of `x` are its residue modulo `2 ^ n`,
also for a negative `x`. -/
def get_bit_trail (x : Int) (n : Nat) : Nat := (x % 2 ^ n).toNat

/-- The macro `pow2(x)`, `1 << x`. -/
def pow2 (x : Nat) : Nat := 1 <<< x

/-- A bucket: its id, depth, number of keys and array of `bucketsize` keys. -/
structure Bucket where
  id : Nat
  depth : Nat
  nkeys : Nat
  keys : List Nat
  deriving DecidableEq, Repr

/-- The `struct xtndbln_table` (timing fields left out).  `buckets` is the
array of bucket pointers: `none` is `NULL`, `some a` the address of the bucket
`heap[a]`; `heap` lists the buckets allocated so far, by address. -/
structure XtndblNHashTable where
  buckets : List (Option Nat)
  heap : List Bucket
  size : Nat
  depth : Nat
  bucketsize : Nat
  nitems : Nat
  hash : Nat → Int

/-- A new empty bucket. -/
def get_new_bucket (id bucketsize depth : Nat) : Bucket :=
  { id := id, depth := depth, nkeys := 0, keys := List.replicate bucketsize 0 }

/-- Dereference of a bucket pointer. -/
def deref (heap : List Bucket) (p : Option Nat) : Res (Nat × Bucket) :=
  match p with
  | none => Res.abort
  | some a => (rd heap a).bind fun b => Res.ret (a, b)

/-- The bucket `table->buckets[index]`, with its address. -/
def bucket_at (table : XtndblNHashTable) (index : Nat) : Res (Nat × Bucket) :=
  (rd table.buckets index).bind fun p => deref table.heap p

/-- Function `swap_bucket_key`: put `key` at `index`, return the key that was there. -/
def swap_bucket_key (bucket : Bucket) (key index : Nat) : Res (Bucket × Nat) :=
  (rd bucket.keys index).bind fun swapped_key =>
    (wr bucket.keys index key).bind fun ks =>
      Res.ret ({ bucket with keys := ks }, swapped_key)

/-- Function `write_to_bucket`: `bucket->keys[bucket->nkeys++] = key`. -/
def write_to_bucket (bucket : Bucket) (key : Nat) : Res Bucket :=
  (wr bucket.keys bucket.nkeys key).bind fun ks =>
    Res.ret { bucket with keys := ks, nkeys := bucket.nkeys + 1 }

/-- Function `reinsert_key`: write `key` into the bucket it addresses. -/
def reinsert_key (table : XtndblNHashTable) (key : Nat) : Res XtndblNHashTable :=
  (bucket_at table (get_bit_trail (table.hash key) table.depth)).bind fun r =>
    (write_to_bucket r.2 key).bind fun b =>
      (wr table.heap r.1 b).bind fun hp => Res.ret { table with heap := hp }

/-- Function `double_table`: refuse when twice the size exceeds `MAX_TABLE_SIZE`, else
copy the first half of the directory into a new second half. -/
def double_table (MAX_TABLE_SIZE : Nat) (table : XtndblNHashTable) :
    Res (XtndblNHashTable × Bool) :=
  if table.size * 2 > MAX_TABLE_SIZE then Res.ret (table, false)
  else if table.buckets.length < table.size then Res.abort
  else
    Res.ret ({ table with buckets := table.buckets.take table.size ++ table.buckets.take table.size,
                          size := table.size * 2, depth := table.depth + 1 }, true)

/-- The loop of `split_bucket` that reroutes directory entries to the new
bucket: `buckets[id | (ix << depth)] = new_bucket`, with `n` iterations left. -/
def repoint_loop (id depth new_bucket : Nat) :
    Nat → Nat → List (Option Nat) → Res (List (Option Nat))
  | 0, _, buckets => Res.ret buckets
  | n + 1, ix, buckets =>
    (wr buckets (id ||| (ix <<< depth)) (some new_bucket)).bind fun b =>
      repoint_loop id depth new_bucket n (ix + 1) b

/-- The loop of `split_bucket` that re-inserts the keys of the old bucket (at
address `old`), reading `old_bucket->keys[ix]` at each turn, with `n`
iterations left. -/
def reinsert_loop (old : Nat) : Nat → Nat → XtndblNHashTable → Res XtndblNHashTable
  | 0, _, table => Res.ret table
  | n + 1, ix, table =>
    (rd table.heap old).bind fun ob =>
      (rd ob.keys ix).bind fun k =>
        (reinsert_key table k).bind fun t2 => reinsert_loop old n (ix + 1) t2

/-- The part of `split_bucket` after the optional doubling: create the sibling
bucket, reroute the directory and redistribute the keys of the old bucket. -/
def split_bucket_body (table : XtndblNHashTable) (bucket_index : Nat) :
    Res (XtndblNHashTable × Bool) :=
  (bucket_at table bucket_index).bind fun r =>
    let id := r.2.id ||| pow2 r.2.depth
    if id ≠ r.2.id + pow2 r.2.depth then Res.abort
    else
      let depth := r.2.depth + 1
      (wr table.heap r.1 { r.2 with depth := depth }).bind fun hp1 =>
        let new_bucket := hp1.length
        let hp2 := hp1 ++ [get_new_bucket id table.bucketsize depth]
        if table.depth < depth then Res.abort
        else
          (repoint_loop id depth new_bucket (pow2 (table.depth - depth)) 0
              table.buckets).bind fun bks =>
            (rd hp2 r.1).bind fun ob =>
              (wr hp2 r.1 { ob with nkeys := 0 }).bind fun hp3 =>
                (reinsert_loop r.1 table.bucketsize 0
                    { table with buckets := bks, heap := hp3 }).bind fun t2 =>
                  Res.ret (t2, true)

/-- Function `split_bucket`: double the directory when the bucket uses every bit of the
directory index (giving up when the doubling is refused), then split. -/
def split_bucket (MAX_TABLE_SIZE : Nat) (table : XtndblNHashTable) (bucket_index : Nat) :
    Res (XtndblNHashTable × Bool) :=
  (bucket_at table bucket_index).bind fun r0 =>
    (if r0.2.depth = table.depth then double_table MAX_TABLE_SIZE table
      else Res.ret (table, true)).bind fun d =>
      if !d.2 then Res.ret (d.1, false)
      else split_bucket_body d.1 bucket_index

/-- Function `new_xtndbln_hash_table`: one empty bucket of depth 0, hash function `h1`. -/
def new_xtndbln_hash_table (bucketsize : Nat) : XtndblNHashTable :=
  { buckets := [some 0], heap := [get_new_bucket 0 bucketsize 0], size := 1, depth := 0,
    bucketsize := bucketsize, nitems := 0, hash := fun k => (h1 k : Int) }

/-- Function `new_xtndbln_specified_hash_table`: the same with a given hash function. -/
def new_xtndbln_specified_hash_table (bucketsize : Nat) (hash : Nat → Int) :
    XtndblNHashTable :=
  { new_xtndbln_hash_table bucketsize with hash := hash }

/-- Function `get_xtndbln_table_size`. -/
def get_xtndbln_table_size (table : XtndblNHashTable) : Nat := table.size

/-- Function `xtndbln_hash_table_has_space`. -/
def xtndbln_hash_table_has_space (table : XtndblNHashTable) (key : Nat) : Res Bool :=
  (bucket_at table (get_bit_trail (table.hash key) table.depth)).bind fun r =>
    Res.ret (decide (r.2.nkeys < table.bucketsize))

/-- The search loop of lookup over `keys[ix], keys[ix + 1], ...`, with `n` keys
left. -/
def scan (keys : List Nat) (key : Nat) : Nat → Nat → Res Bool
  | 0, _ => Res.ret false
  | n + 1, ix =>
    (rd keys ix).bind fun k => if k = key then Res.ret true else scan keys key n (ix + 1)

/-- Function `xtndbln_hash_table_lookup`. -/
def xtndbln_hash_table_lookup (table : XtndblNHashTable) (key : Nat) : Res Bool :=
  (bucket_at table (get_bit_trail (table.hash key) table.depth)).bind fun r =>
    scan r.2.keys key r.2.nkeys 0

/-- The loop `while (bucket_full(bucket = update_bucket())) split_bucket(...)` of
insert; the value returned by `split_bucket` is not looked at.  `fuel` bounds
the number of calls of `split_bucket`.  Returns the table and the address of
the bucket found. -/
def split_loop (MAX_TABLE_SIZE : Nat) (key_hash : Int) :
    Nat → XtndblNHashTable → Res (XtndblNHashTable × Nat)
  | fuel, table =>
    (bucket_at table (get_bit_trail key_hash table.depth)).bind fun r =>
      if r.2.nkeys = table.bucketsize then
        match fuel with
        | 0 => Res.diverge
        | fuel + 1 =>
          (split_bucket MAX_TABLE_SIZE table (get_bit_trail key_hash table.depth)).bind fun s =>
            split_loop MAX_TABLE_SIZE key_hash fuel s.1
      else Res.ret (table, r.1)

/-- Function `xtndbln_hash_table_insert`. -/
def xtndbln_hash_table_insert (MAX_TABLE_SIZE : Nat) (fuel : Nat) (table : XtndblNHashTable)
    (key : Nat) : Res (XtndblNHashTable × Bool) :=
  (xtndbln_hash_table_lookup table key).bind fun found =>
    if found then Res.ret (table, false)
    else
      (split_loop MAX_TABLE_SIZE (table.hash key) fuel table).bind fun r =>
        (rd r.1.heap r.2).bind fun bucket =>
          (write_to_bucket bucket key).bind fun b =>
            (wr r.1.heap r.2 b).bind fun hp =>
              Res.ret ({ r.1 with heap := hp, nitems := r.1.nitems + 1 }, true)

/-- Function `xtndbln_hash_table_rand_swap`; `rnd` is the value returned by `rand()`. -/
def xtndbln_hash_table_rand_swap (table : XtndblNHashTable) (key : Nat) (rnd : Nat) :
    Res (XtndblNHashTable × Nat) :=
  (bucket_at table (get_bit_trail (table.hash key) table.depth)).bind fun r =>
    if ¬ (r.2.nkeys > 0) then Res.abort
    else
      (swap_bucket_key r.2 key (rnd % r.2.nkeys)).bind fun s =>
        (wr table.heap r.1 s.1).bind fun hp =>
          Res.ret ({ table with heap := hp }, s.2)

/-- A run of the client: insert the keys of a list one after the other. -/
def insert_all (MAX_TABLE_SIZE : Nat) (fuel : Nat) :
    XtndblNHashTable → List Nat → Res XtndblNHashTable
  | t, [] => Res.ret t
  | t, k :: ks =>
    (xtndbln_hash_table_insert MAX_TABLE_SIZE fuel t k).bind fun r =>
      insert_all MAX_TABLE_SIZE fuel r.1 ks

end Xtndbln

namespace Xtndbln

/-- The directory slot `i` points to the bucket `b`, stored at address `a`. -/
def points (t : XtndblNHashTable) (i a : Nat) (b : Bucket) : Prop :=
  t.buckets[i]? = some (some a) ∧ t.heap[a]? = some b

/-- What the routing invariant says of the bucket `b` reached from the
directory slot `i`. -/
structure GoodBucket (t : XtndblNHashTable) (i : Nat) (b : Bucket) : Prop where
  depth_le : b.depth ≤ t.depth
  id_eq : i % 2 ^ b.depth = b.id
  nkeys_le : b.nkeys ≤ t.bucketsize
  keys_len : b.keys.length = t.bucketsize
  routed : ∀ j k, j < b.nkeys → b.keys[j]? = some k →
    get_bit_trail (t.hash k) b.depth = b.id

/-- Invariant of the extendible table: the directory has `2 ^ depth` slots,
each points to a bucket that is good for it, and a slot that agrees with the
id of a bucket on the low `depth` bits of that bucket points to it. -/
structure XInv (t : XtndblNHashTable) : Prop where
  size_eq : t.size = 2 ^ t.depth
  len : t.buckets.length = t.size
  slot : ∀ i, i < t.size → ∃ a b, points t i a b ∧ GoodBucket t i b
  share : ∀ i j a b, j < t.size → points t i a b → j % 2 ^ b.depth = b.id →
    t.buckets[j]? = some (some a)

/-- The key `k` is held by a bucket of the directory. -/
def stored (t : XtndblNHashTable) (k : Nat) : Prop :=
  ∃ i a b j, points t i a b ∧ j < b.nkeys ∧ b.keys[j]? = some k

end Xtndbln

namespace Xtndbln

/-- The two halves of a bucket being split: `A` at the old address keeps the
id, `B` is the sibling; after `ix` keys of the old bucket were re-inserted
they hold exactly these keys, each in the half its hash addresses, and the
keys of the old bucket not yet re-inserted are still in place in `A`. -/
structure Halves (t1 : XtndblNHashTable) (old : Bucket) (ix : Nat) (A B : Bucket) : Prop where
  a_id : A.id = old.id
  a_depth : A.depth = old.depth + 1
  b_id : B.id = old.id + 2 ^ old.depth
  b_depth : B.depth = old.depth + 1
  a_len : A.keys.length = t1.bucketsize
  b_len : B.keys.length = t1.bucketsize
  count : A.nkeys + B.nkeys = ix
  rest : ∀ j, A.nkeys ≤ j → A.keys[j]? = old.keys[j]?
  a_keys : ∀ j k, j < A.nkeys → A.keys[j]? = some k →
    get_bit_trail (t1.hash k) (old.depth + 1) = old.id ∧ ∃ m, m < ix ∧ old.keys[m]? = some k
  b_keys : ∀ j k, j < B.nkeys → B.keys[j]? = some k →
    get_bit_trail (t1.hash k) (old.depth + 1) = old.id + 2 ^ old.depth ∧
      ∃ m, m < ix ∧ old.keys[m]? = some k
  cover : ∀ m k, m < ix → old.keys[m]? = some k →
    (∃ j, j < A.nkeys ∧ A.keys[j]? = some k) ∨ (∃ j, j < B.nkeys ∧ B.keys[j]? = some k)

/-- State of the redistribution loop of `split_bucket` after `ix` keys: the
table `t` differs from the table `t1` before the split by its directory `bks`
and by the two halves of the bucket `old` split at address `a`. -/
structure Redist (t1 : XtndblNHashTable) (a : Nat) (old : Bucket) (bks : List (Option Nat))
    (ix : Nat) (t : XtndblNHashTable) : Prop where
  buckets_eq : t.buckets = bks
  size_eq : t.size = t1.size
  depth_eq : t.depth = t1.depth
  bs_eq : t.bucketsize = t1.bucketsize
  hash_eq : t.hash = t1.hash
  nitems_eq : t.nitems = t1.nitems
  heap_len : t.heap.length = t1.heap.length + 1
  heap_other : ∀ c, c ≠ a → c < t1.heap.length → t.heap[c]? = t1.heap[c]?
  halves : ∃ A B, t.heap[a]? = some A ∧ t.heap[t1.heap.length]? = some B ∧ Halves t1 old ix A B

/-- What is fixed during the split of the full bucket `old`, at address `a` and
reached from slot `bi` of the table `t1`: the bucket has a spare bit, and the
new directory `bks` routes to the new address the slots whose low bits are
the id of the sibling. -/
structure SplitCtx (t1 : XtndblNHashTable) (bi a : Nat) (old : Bucket)
    (bks : List (Option Nat)) : Prop where
  inv : XInv t1
  pts : points t1 bi a old
  spare : old.depth < t1.depth
  full : old.nkeys = t1.bucketsize
  bks_len : bks.length = t1.size
  bks_new : ∀ i, i < t1.size → i % 2 ^ (old.depth + 1) = old.id + 2 ^ old.depth →
    bks[i]? = some (some t1.heap.length)
  bks_old : ∀ i, i % 2 ^ (old.depth + 1) ≠ old.id + 2 ^ old.depth → bks[i]? = t1.buckets[i]?

/-- The bucket after `write_to_bucket`. -/
def pushed (C : Bucket) (k : Nat) : Bucket :=
  { C with keys := C.keys.set C.nkeys k, nkeys := C.nkeys + 1 }

end Xtndbln

namespace Xtndbln

/-- The table `t2` is the table `t` with the bucket `b` at address `a`
replaced by `b2`, a bucket of the same id and depth; `nitems` is free. -/
structure Updated (t : XtndblNHashTable) (a : Nat) (b b2 : Bucket)
    (t2 : XtndblNHashTable) : Prop where
  buckets_eq : t2.buckets = t.buckets
  heap_eq : t2.heap = t.heap.set a b2
  size_eq : t2.size = t.size
  depth_eq : t2.depth = t.depth
  bs_eq : t2.bucketsize = t.bucketsize
  hash_eq : t2.hash = t.hash
  was : t.heap[a]? = some b
  id_eq : b2.id = b.id
  bdepth_eq : b2.depth = b.depth

end Xtndbln

namespace Xtndbln

/-- Tables reachable from a new table by insertions and random swaps that
return. -/
inductive Reach (MAX_TABLE_SIZE bucketsize : Nat) (hash : Nat → Int) :
    XtndblNHashTable → Prop where
  | init : Reach MAX_TABLE_SIZE bucketsize hash
      (new_xtndbln_specified_hash_table bucketsize hash)
  | insert (t : XtndblNHashTable) (key fuel : Nat) (r : XtndblNHashTable × Bool) :
      Reach MAX_TABLE_SIZE bucketsize hash t →
      xtndbln_hash_table_insert MAX_TABLE_SIZE fuel t key = Res.ret r →
      Reach MAX_TABLE_SIZE bucketsize hash r.1
  | swap (t : XtndblNHashTable) (key rnd : Nat) (r : XtndblNHashTable × Nat) :
      Reach MAX_TABLE_SIZE bucketsize hash t →
      xtndbln_hash_table_rand_swap t key rnd = Res.ret r →
      Reach MAX_TABLE_SIZE bucketsize hash r.1

/-- The table after an insertion that returns (the table itself otherwise). -/
def after_insert (MAX_TABLE_SIZE fuel : Nat) (t : XtndblNHashTable) (key : Nat) :
    XtndblNHashTable :=
  match xtndbln_hash_table_insert MAX_TABLE_SIZE fuel t key with
  | Res.ret r => r.1
  | _ => t

/-- The table `t` with `key` written at position `index` of the bucket `b`
stored at address `a`. -/
def swapped (t : XtndblNHashTable) (a : Nat) (b : Bucket) (index key : Nat) :
    XtndblNHashTable :=
  { t with heap := t.heap.set a { b with keys := b.keys.set index key } }

/-- The table after a random swap that returns (the table itself otherwise). -/
def after_swap (t : XtndblNHashTable) (key rnd : Nat) : XtndblNHashTable :=
  match xtndbln_hash_table_rand_swap t key rnd with
  | Res.ret r => r.1
  | _ => t

/-- A call of `xtndbln_hash_table_has_space` as a state transformer: the value
returned and the table after the call.  The body of the function makes no
assignment, so the table after the call is the table given. -/
def has_space_call (table : XtndblNHashTable) (key : Nat) : Res (XtndblNHashTable × Bool) :=
  (xtndbln_hash_table_has_space table key).bind fun b => Res.ret (table, b)

/-- The table `t1` is the table `t` itself, or `t` after the doubling of its
directory that the split of a bucket of full depth needs. -/
structure Grown (MAX : Nat) (t : XtndblNHashTable) (old : Bucket) (t1 : XtndblNHashTable) :
    Prop where
  inv : XInv t1
  heap_eq : t1.heap = t.heap
  bs_eq : t1.bucketsize = t.bucketsize
  hash_eq : t1.hash = t.hash
  nitems_eq : t1.nitems = t.nitems
  dir : ∀ i, i < t1.size → t1.buckets[i]? = t.buckets[i % t.size]?
  stored_eq : ∀ x, stored t1 x ↔ stored t x
  cases : (t1.size = t.size ∧ t1.depth = t.depth ∧ old.depth < t.depth) ∨
    (t1.size = t.size * 2 ∧ t1.depth = t.depth + 1 ∧ old.depth = t.depth ∧ t.size * 2 ≤ MAX)

end Xtndbln

namespace Xtndbln

/-- State of the teardown: the directory, and two records kept for stating
properties, which are not variables of the C function: the addresses passed to
`free_bucket` and the directory indices set to `NULL`, in the order of the
calls. -/
structure FreeState where
  buckets : List (Option Nat)
  freed : List Nat
  nulled : List Nat
  deriving DecidableEq, Repr

/-- The loop `for (jx = 0; jx < pow2(extraneous_bits); jx++)` of
`free_xtndbln_hash_table`: `buckets[ix | (jx << depth)] = NULL`, with `n`
iterations left. -/
def null_loop (ix depth : Nat) : Nat → Nat → FreeState → Res FreeState
  | 0, _, st => Res.ret st
  | n + 1, jx, st =>
    (wr st.buckets (ix ||| (jx <<< depth)) none).bind fun b =>
      null_loop ix depth n (jx + 1)
        { st with buckets := b, nulled := st.nulled ++ [ix ||| (jx <<< depth)] }

/-- The loop `for (ix = 0; ix < table->size; ix++)` of
`free_xtndbln_hash_table`, with `n` iterations left: a slot that is not `NULL`
has its bucket read, every slot of that bucket set to `NULL`, and the bucket
passed to `free_bucket`. A bucket deeper than the table would make the shift
count of `pow2` negative. -/
def free_loop (table : XtndblNHashTable) : Nat → Nat → FreeState → Res FreeState
  | 0, _, st => Res.ret st
  | n + 1, ix, st =>
    (rd st.buckets ix).bind fun p =>
      match p with
      | none => free_loop table n (ix + 1) st
      | some a =>
        (rd table.heap a).bind fun bucket =>
          if table.depth < bucket.depth then Res.abort
          else
            (null_loop ix bucket.depth (pow2 (table.depth - bucket.depth)) 0 st).bind fun st2 =>
              free_loop table n (ix + 1) { st2 with freed := st2.freed ++ [a] }

/-- Function `free_xtndbln_hash_table`, up to the release of the directory and
of the table themselves. -/
def free_xtndbln_hash_table (table : XtndblNHashTable) : Res FreeState :=
  free_loop table table.size 0 { buckets := table.buckets, freed := [], nulled := [] }

/-- State of the teardown of `t` before slot `ix`: the buckets freed are those
of the slots below `ix`, each once, and a slot is `NULL` exactly when its
bucket was freed. -/
structure FreeInv (t : XtndblNHashTable) (ix : Nat) (st : FreeState) : Prop where
  len : st.buckets.length = t.size
  freed_iff : ∀ a, a ∈ st.freed ↔ ∃ i, i < ix ∧ t.buckets[i]? = some (some a)
  nodup : st.freed.Nodup
  slots : ∀ j a, j < t.size → t.buckets[j]? = some (some a) →
    st.buckets[j]? = some (if a ∈ st.freed then none else some a)
  nulled_lt : ∀ i, i ∈ st.nulled → i < t.size

/-- The table holds the single key `a`, in a bucket that uses every bit of the
directory index. -/
structure Lone (hash : Nat → Int) (a : Nat) (t : XtndblNHashTable) : Prop where
  inv : XInv t
  hash_eq : t.hash = hash
  bs_eq : t.bucketsize = 1
  nitems_eq : t.nitems = 1
  only : ∀ x, stored t x ↔ x = a
  home : ∃ p b, points t (get_bit_trail (hash a) t.depth) p b ∧ b.depth = t.depth

end Xtndbln

namespace Xtndbln

/-- The keys a bucket holds: the first `nkeys` cells of its array. -/
def bucket_keys (b : Bucket) : List Nat := b.keys.take b.nkeys

/-- The keys held by the buckets of the table, bucket after bucket in the
order of their addresses. -/
def all_keys (t : XtndblNHashTable) : List Nat := (t.heap.map bucket_keys).flatten

/-- Every bucket allocated is referenced by a slot of the directory. -/
def Covered (t : XtndblNHashTable) : Prop :=
  ∀ a, a < t.heap.length → ∃ i, i < t.size ∧ t.buckets[i]? = some (some a)

/-- The table satisfies the invariant, its buckets are those of the directory,
no key is held twice, and `nitems` is the number of keys held. -/
structure Tally (t : XtndblNHashTable) : Prop where
  inv : XInv t
  covered : Covered t
  nodup : (all_keys t).Nodup
  count : t.nitems = (all_keys t).length

end Xtndbln

namespace Xtndbln

/-- Function `reinsert_key` with a record of what it did, kept for stating
properties: the address of the bucket written and the position written in its
array of keys (`bucket->nkeys` before the increment). -/
def reinsert_key_traced (table : XtndblNHashTable) (key : Nat) :
    Res (XtndblNHashTable × Nat × Nat) :=
  (bucket_at table (get_bit_trail (table.hash key) table.depth)).bind fun r =>
    (write_to_bucket r.2 key).bind fun b =>
      (wr table.heap r.1 b).bind fun hp => Res.ret ({ table with heap := hp }, r.1, r.2.nkeys)

/-- The reinsertion loop of `split_bucket` with the record of its iterations:
the key read from `old_bucket->keys[ix]`, the address of the bucket written
and the position written, with `n` iterations left. -/
def reinsert_loop_traced (old : Nat) :
    Nat → Nat → XtndblNHashTable → List (Nat × Nat × Nat) →
      Res (XtndblNHashTable × List (Nat × Nat × Nat))
  | 0, _, table, events => Res.ret (table, events)
  | n + 1, ix, table, events =>
    (rd table.heap old).bind fun ob =>
      (rd ob.keys ix).bind fun k =>
        (reinsert_key_traced table k).bind fun r =>
          reinsert_loop_traced old n (ix + 1) r.1 (events ++ [(k, r.2.1, r.2.2)])

/-- The function `split_bucket_body` with the record of its reinsertion loop. -/
def split_bucket_body_traced (table : XtndblNHashTable) (bucket_index : Nat) :
    Res (XtndblNHashTable × Bool × List (Nat × Nat × Nat)) :=
  (bucket_at table bucket_index).bind fun r =>
    let id := r.2.id ||| pow2 r.2.depth
    if id ≠ r.2.id + pow2 r.2.depth then Res.abort
    else
      let depth := r.2.depth + 1
      (wr table.heap r.1 { r.2 with depth := depth }).bind fun hp1 =>
        let new_bucket := hp1.length
        let hp2 := hp1 ++ [get_new_bucket id table.bucketsize depth]
        if table.depth < depth then Res.abort
        else
          (repoint_loop id depth new_bucket (pow2 (table.depth - depth)) 0
              table.buckets).bind fun bks =>
            (rd hp2 r.1).bind fun ob =>
              (wr hp2 r.1 { ob with nkeys := 0 }).bind fun hp3 =>
                (reinsert_loop_traced r.1 table.bucketsize 0
                    { table with buckets := bks, heap := hp3 } []).bind fun t2 =>
                  Res.ret (t2.1, true, t2.2)

/-- The function `split_bucket` with the record of its reinsertion loop (empty
when the doubling is refused). -/
def split_bucket_traced (MAX_TABLE_SIZE : Nat) (table : XtndblNHashTable)
    (bucket_index : Nat) : Res (XtndblNHashTable × Bool × List (Nat × Nat × Nat)) :=
  (bucket_at table bucket_index).bind fun r0 =>
    (if r0.2.depth = table.depth then double_table MAX_TABLE_SIZE table
      else Res.ret (table, true)).bind fun d =>
      if !d.2 then Res.ret (d.1, false, [])
      else split_bucket_body_traced d.1 bucket_index

end Xtndbln

namespace Xtndbln

/-- The tables on which the loop `while (bucket_full(...)) split_bucket(...)`
of an insertion evaluates its condition, for a key of hash `key_hash`: the
table given to the insertion, and the table left by each call of
`split_bucket`, which is made when the bucket of the key is full. -/
inductive SplitReach (MAX_TABLE_SIZE : Nat) (key_hash : Int) (t0 : XtndblNHashTable) :
    XtndblNHashTable → Prop where
  | start : SplitReach MAX_TABLE_SIZE key_hash t0 t0
  | step (t : XtndblNHashTable) (r : Nat × Bucket) (s : XtndblNHashTable × Bool) :
      SplitReach MAX_TABLE_SIZE key_hash t0 t →
      bucket_at t (get_bit_trail key_hash t.depth) = Res.ret r →
      r.2.nkeys = t.bucketsize →
      split_bucket MAX_TABLE_SIZE t (get_bit_trail key_hash t.depth) = Res.ret s →
      SplitReach MAX_TABLE_SIZE key_hash t0 s.1

/-- The splits that the insertion of a key of hash `key_hash` into `t0` asks
for all stay within `MAX_TABLE_SIZE`: no call of `split_bucket` made by the
loop of the insertion returns false. -/
def SplitsFit (MAX_TABLE_SIZE : Nat) (key_hash : Int) (t0 : XtndblNHashTable) : Prop :=
  ∀ t r s, SplitReach MAX_TABLE_SIZE key_hash t0 t →
    bucket_at t (get_bit_trail key_hash t.depth) = Res.ret r →
    r.2.nkeys = t.bucketsize →
    split_bucket MAX_TABLE_SIZE t (get_bit_trail key_hash t.depth) = Res.ret s →
    s.2 = true

end Xtndbln

/-! ## tables/xuckoo.c -/

namespace Xuckoo

open Xtndbln

/-- An inner table: an extendible table and the number of keys put into it. -/
structure InnerTable where
  xtable : XtndblNHashTable
  keycount : Nat

/-- The `struct xuckoo_table` (timing fields left out). -/
structure XuckooHashTable where
  table1 : InnerTable
  table2 : InnerTable
  bucketsize : Nat

/-- A new inner table with the given bucket size and hash function. -/
def new_inner_table (bucketsize : Nat) (hash : Nat → Int) : InnerTable :=
  { xtable := new_xtndbln_specified_hash_table bucketsize hash, keycount := 0 }

/-- Function `new_xuckoo_hash_table_with_bucketsize`: inner tables on `h1` and `h2`. -/
def new_xuckoo_hash_table_with_bucketsize (bucketsize : Nat) : XuckooHashTable :=
  { table1 := new_inner_table bucketsize (fun k => (h1 k : Int)),
    table2 := new_inner_table bucketsize (fun k => (h2 k : Int)),
    bucketsize := bucketsize }

/-- Function `new_xuckoo_hash_table`: bucket size 1. -/
def new_xuckoo_hash_table : XuckooHashTable :=
  { table1 := new_inner_table 1 (fun k => (h1 k : Int)),
    table2 := new_inner_table 1 (fun k => (h2 k : Int)),
    bucketsize := 1 }

/-- The helper `get_inner_table` of insert. -/
def get_inner_table (table : XuckooHashTable) (first_table : Bool) : InnerTable :=
  if first_table then table.table1 else table.table2

/-- The table with the inner table selected by `first_table` replaced (inner
tables are updated in place through their pointer). -/
def set_inner_table (table : XuckooHashTable) (first_table : Bool) (it : InnerTable) :
    XuckooHashTable :=
  if first_table then { table with table1 := it } else { table with table2 := it }

/-- The helper `get_kick_threshold` of insert: `log2` of the total of the two
directory sizes, truncated to `int`. -/
def get_kick_threshold (table : XuckooHashTable) : Nat :=
  Nat.log2 (get_xtndbln_table_size table.table1.xtable
    + get_xtndbln_table_size table.table2.xtable)

/-- Function `xuckoo_hash_table_lookup`: the second inner table is searched only when
the first does not hold the key. -/
def xuckoo_hash_table_lookup (table : XuckooHashTable) (key : Nat) : Res Bool :=
  (xtndbln_hash_table_lookup table.table1.xtable key).bind fun status =>
    if status then Res.ret true
    else xtndbln_hash_table_lookup table.table2.xtable key

/-- Local variables of the kick loop of `xuckoo_hash_table_insert`.  The field
`evicted` is not a variable of the C function: it records, for stating
properties, the keys returned by `rand_swap` so far, each with the flag of the
inner table it was evicted from (`true` for the first). -/
structure KickState where
  table : XuckooHashTable
  first_slim : Bool
  key : Nat
  kick_count : Nat
  evicted : List (Nat × Bool)

/-- The loop `while (kick_count != kick_threshold && !has_space(...))`, with
`n` iterations left; `rnd i` is the value of the call of `rand()` made when
the kick count is `i`. -/
def kick_loop (rnd : Nat → Nat) (kick_threshold : Nat) : Nat → KickState → Res KickState
  | n, s =>
    if s.kick_count ≠ kick_threshold then
      (xtndbln_hash_table_has_space (get_inner_table s.table s.first_slim).xtable s.key).bind
        fun space =>
          if !space then
            match n with
            | 0 => Res.diverge
            | n + 1 =>
              (xtndbln_hash_table_rand_swap (get_inner_table s.table s.first_slim).xtable
                  s.key (rnd s.kick_count)).bind fun r =>
                kick_loop rnd kick_threshold n
                  { table := set_inner_table s.table s.first_slim
                      { get_inner_table s.table s.first_slim with xtable := r.1 },
                    first_slim := !s.first_slim, key := r.2, kick_count := s.kick_count + 1,
                    evicted := s.evicted ++ [(r.2, s.first_slim)] }
          else Res.ret s
    else Res.ret s

/-- The kick loop of an insertion of `key`, from its initial state. -/
def kicks (rnd : Nat → Nat) (table : XuckooHashTable) (key : Nat) : Res KickState :=
  kick_loop rnd (get_kick_threshold table) (get_kick_threshold table)
    { table := table,
      first_slim := decide (table.table1.keycount ≤ table.table2.keycount),
      key := key, kick_count := 0, evicted := [] }

/-- Function `xuckoo_hash_table_insert`; `fuel` is the fuel of the final
`xtndbln_hash_table_insert`, whose return value is not looked at. -/
def xuckoo_hash_table_insert (MAX_TABLE_SIZE : Nat) (fuel : Nat) (rnd : Nat → Nat)
    (table : XuckooHashTable) (key : Nat) : Res (XuckooHashTable × Bool) :=
  (xuckoo_hash_table_lookup table key).bind fun found =>
    if found then Res.ret (table, false)
    else
      (kicks rnd table key).bind fun s =>
        (xtndbln_hash_table_insert MAX_TABLE_SIZE fuel
            (get_inner_table s.table s.first_slim).xtable s.key).bind fun r =>
          Res.ret (set_inner_table s.table s.first_slim
            { xtable := r.1,
              keycount := (get_inner_table s.table s.first_slim).keycount + 1 }, true)

/-- A run of the client: insert keys one after the other, each call with its
own outcomes of `rand()`. -/
def insert_all (MAX_TABLE_SIZE : Nat) (fuel : Nat) :
    XuckooHashTable → List (Nat × (Nat → Nat)) → Res XuckooHashTable
  | t, [] => Res.ret t
  | t, op :: ops =>
    (xuckoo_hash_table_insert MAX_TABLE_SIZE fuel op.2 t op.1).bind fun r =>
      insert_all MAX_TABLE_SIZE fuel r.1 ops

/-- Both inner tables satisfy the invariant of the extendible table. -/
def KInv (t : XuckooHashTable) : Prop := XInv t.table1.xtable ∧ XInv t.table2.xtable

/-- The key `k` is held by one of the inner tables. -/
def storedK (t : XuckooHashTable) (k : Nat) : Prop :=
  stored t.table1.xtable k ∨ stored t.table2.xtable k

/-- The insertion of `key` into the extendible table `t` needs a split that the
directory cannot grant: the key is absent, its bucket is full and uses every
directory bit, and twice the size exceeds `MAX_TABLE_SIZE`. -/
def stuck (MAX_TABLE_SIZE : Nat) (t : XtndblNHashTable) (key : Nat) : Res Bool :=
  (xtndbln_hash_table_lookup t key).bind fun found =>
    (bucket_at t (get_bit_trail (t.hash key) t.depth)).bind fun r =>
      Res.ret (!found && decide (r.2.nkeys = t.bucketsize) && decide (r.2.depth = t.depth)
        && decide (MAX_TABLE_SIZE < t.size * 2))

/-- The keys `0, ..., n - 1`, each with `rand()` returning 0. -/
def first_keys (n : Nat) : List (Nat × (Nat → Nat)) :=
  (List.range n).map fun k => (k, fun _ => 0)

/-- The flag of the inner table the key `e` was last evicted from, in a list of
evictions in the order they happened. -/
def last_from : List (Nat × Bool) → Nat → Option Bool
  | [], _ => none
  | p :: tr, e =>
    match last_from tr e with
    | some f => some f
    | none => if p.1 = e then some p.2 else none

/-- Every evicted key is in hand, last evicted from the inner table that is not
the target, or is stored in the inner table other than the one it was last
evicted from. -/
def TrailInv (s : KickState) : Prop :=
  ∀ e f, last_from s.evicted e = some f →
    (e = s.key ∧ f = !s.first_slim) ∨ stored (get_inner_table s.table (!f)).xtable e

/-- The table after an insertion that returns (the table itself otherwise). -/
def after_insert (MAX_TABLE_SIZE fuel : Nat) (rnd : Nat → Nat) (t : XuckooHashTable)
    (key : Nat) : XuckooHashTable :=
  match xuckoo_hash_table_insert MAX_TABLE_SIZE fuel rnd t key with
  | Res.ret r => r.1
  | _ => t

/-- A call of `xuckoo_hash_table_lookup` as a state transformer: the value
returned and the table after the call.  Apart from the timing fields, which
are left out, neither the function nor `xtndbln_hash_table_lookup` makes an
assignment to the tables, so the table after the call is the table given. -/
def lookup_call (table : XuckooHashTable) (key : Nat) : Res (XuckooHashTable × Bool) :=
  (xuckoo_hash_table_lookup table key).bind fun b => Res.ret (table, b)

/-- Both inner tables are reachable from new extendible tables on `h1` and
`h2` by insertions and random swaps. -/
def KReach (MAX_TABLE_SIZE bucketsize : Nat) (t : XuckooHashTable) : Prop :=
  Reach MAX_TABLE_SIZE bucketsize (fun k => (h1 k : Int)) t.table1.xtable ∧
  Reach MAX_TABLE_SIZE bucketsize (fun k => (h2 k : Int)) t.table2.xtable

/-- The hybrid tables reachable from a new one by insertions. -/
inductive HReach (MAX_TABLE_SIZE bucketsize : Nat) : XuckooHashTable → Prop where
  | init : HReach MAX_TABLE_SIZE bucketsize (new_xuckoo_hash_table_with_bucketsize bucketsize)
  | insert (t : XuckooHashTable) (key fuel : Nat) (rnd : Nat → Nat)
      (r : XuckooHashTable × Bool) :
      HReach MAX_TABLE_SIZE bucketsize t →
      xuckoo_hash_table_insert MAX_TABLE_SIZE fuel rnd t key = Res.ret r →
      HReach MAX_TABLE_SIZE bucketsize r.1

end Xuckoo

namespace Xuckoo

open Xtndbln

/-- Both inner tables are tallied, each `keycount` is the `nitems` of its
extendible table, and no key is held by both inner tables. -/
structure KTally (t : XuckooHashTable) : Prop where
  tally1 : Tally t.table1.xtable
  tally2 : Tally t.table2.xtable
  kc1 : t.table1.keycount = t.table1.xtable.nitems
  kc2 : t.table2.keycount = t.table2.xtable.nitems
  disjoint : ∀ k, k ∈ all_keys t.table1.xtable → k ∈ all_keys t.table2.xtable → False

/-- The hybrid tables reachable from a new one by insertions, with the number
of calls of `xuckoo_hash_table_insert` that returned true on the way. -/
inductive HCount (MAX_TABLE_SIZE bucketsize : Nat) : XuckooHashTable → Nat → Prop where
  | init : HCount MAX_TABLE_SIZE bucketsize
      (new_xuckoo_hash_table_with_bucketsize bucketsize) 0
  | insert (t : XuckooHashTable) (n key fuel : Nat) (rnd : Nat → Nat)
      (r : XuckooHashTable × Bool) :
      HCount MAX_TABLE_SIZE bucketsize t n →
      xuckoo_hash_table_insert MAX_TABLE_SIZE fuel rnd t key = Res.ret r →
      HCount MAX_TABLE_SIZE bucketsize r.1 (if r.2 then n + 1 else n)

end Xuckoo

namespace Xuckoo

open Xtndbln

/-- The state of the kick loop when it is entered by the insertion of `key`. -/
def kick_start (table : XuckooHashTable) (key : Nat) : KickState :=
  { table := table,
    first_slim := decide (table.table1.keycount ≤ table.table2.keycount),
    key := key, kick_count := 0, evicted := [] }

/-- The state after one iteration of the kick loop in which `rand_swap`
returned `r`. -/
def kick_step (s : KickState) (r : XtndblNHashTable × Nat) : KickState :=
  { table := set_inner_table s.table s.first_slim
      { get_inner_table s.table s.first_slim with xtable := r.1 },
    first_slim := !s.first_slim, key := r.2, kick_count := s.kick_count + 1,
    evicted := s.evicted ++ [(r.2, s.first_slim)] }

/-- The states in which the condition of the kick loop is evaluated: the state
at entry, and the state after each iteration, which is run when the kick
count differs from the threshold and the target bucket has no space. -/
inductive KickReach (rnd : Nat → Nat) (kick_threshold : Nat) (s0 : KickState) :
    KickState → Prop where
  | start : KickReach rnd kick_threshold s0 s0
  | step (s : KickState) (r : XtndblNHashTable × Nat) :
      KickReach rnd kick_threshold s0 s →
      s.kick_count ≠ kick_threshold →
      xtndbln_hash_table_has_space (get_inner_table s.table s.first_slim).xtable s.key
        = Res.ret false →
      xtndbln_hash_table_rand_swap (get_inner_table s.table s.first_slim).xtable s.key
        (rnd s.kick_count) = Res.ret r →
      KickReach rnd kick_threshold s0 (kick_step s r)

end Xuckoo

theorem h1_unfold (k : Nat) : h1 k = ((A1 * k + B1) % 2 ^ 64) % p1 := by
  unfold h1
  rfl

theorem h2_unfold (k : Nat) : h2 k = ((A2 * k + B2) % 2 ^ 64) % p2 := by
  unfold h2
  rfl

theorem h1_wraps (k : Nat) : h1 k = ((A1 * k + B1) % int64_modulus) % p1 := h1_unfold k

theorem h2_wraps (k : Nat) : h2 k = ((A2 * k + B2) % int64_modulus) % p2 := h2_unfold k

theorem h1_lt (k : Nat) : h1 k < 2147483629 := by
  rw [h1_unfold]
  exact Nat.mod_lt _ (by decide)

theorem h2_lt (k : Nat) : h2 k < 2147483563 := by
  rw [h2_unfold]
  exact Nat.mod_lt _ (by decide)

theorem to_int_small (v : Nat) (h : v < 2 ^ 31) : to_int v = (v : Int) := by
  unfold to_int
  have e : v % 2 ^ 32 = v := Nat.mod_eq_of_lt (by omega)
  rw [e, if_pos h]

section

/-- C11 (the claim as stated fails). For the key `2 ^ 35` the product
`885390553 * k` exceeds 64 bits, the multiply-add wraps around, and both hash
functions return a value other than the one the exact formula gives. -/
theorem hash_wraps_for_large_key :
    h1_int 34359738368 = 1362633286 ∧ h1_exact 34359738368 = 1362634730 ∧
    h2_int 34359738368 = 2074667053 ∧ h2_exact 34359738368 = 2074695953 ∧
    h1_int 34359738368 ≠ (h1_exact 34359738368 : Int) ∧
    h2_int 34359738368 ≠ (h2_exact 34359738368 : Int) := by
  have a1 : h1 34359738368 = 1362633286 := by
    rw [h1_unfold]; unfold A1 B1 p1; norm_num
  have a2 : h2 34359738368 = 2074667053 := by
    rw [h2_unfold]; unfold A2 B2 p2; norm_num
  have b1 : h1_exact 34359738368 = 1362634730 := by unfold h1_exact; norm_num
  have b2 : h2_exact 34359738368 = 2074695953 := by unfold h2_exact; norm_num
  have c1 : h1_int 34359738368 = 1362633286 := by
    unfold h1_int; rw [to_int_small _ (by rw [a1]; norm_num), a1]; rfl
  have c2 : h2_int 34359738368 = 2074667053 := by
    unfold h2_int; rw [to_int_small _ (by rw [a2]; norm_num), a2]; rfl
  refine ⟨c1, b1, c2, b2, ?_, ?_⟩
  · rw [c1, b1]; norm_num
  · rw [c2, b2]; norm_num

/-- C11 (amended). Hash formulas: for every key `k`, the values returned by
`h1` and `h2` are the multiply-add reduced modulo `2 ^ 64` (the width of the
key type) and then modulo the prime; they equal the exact formulas
`(885390553 * k + 639360243) mod 2147483629` and
`(853977193 * k + 306837493) mod 2147483563` whenever the multiply-add fits in
64 bits, which is so for every `k ≤ 20834584252`. -/
theorem hash_formulas (k : Nat) :
    h1_int k = ((((885390553 * k + 639360243) % 2 ^ 64) % 2147483629 : Nat) : Int) ∧
    h2_int k = ((((853977193 * k + 306837493) % 2 ^ 64) % 2147483563 : Nat) : Int) ∧
    int64_modulus = 2 ^ 64 ∧
    (885390553 * k + 639360243 < 2 ^ 64 → h1_int k = (h1_exact k : Int)) ∧
    (853977193 * k + 306837493 < 2 ^ 64 → h2_int k = (h2_exact k : Int)) ∧
    (k ≤ 20834584252 → h1_int k = (h1_exact k : Int) ∧ h2_int k = (h2_exact k : Int)) := by
  have i1 : h1_int k = (h1 k : Int) := to_int_small _ (by have := h1_lt k; omega)
  have i2 : h2_int k = (h2 k : Int) := to_int_small _ (by have := h2_lt k; omega)
  have e1 : h1 k = ((885390553 * k + 639360243) % 2 ^ 64) % 2147483629 := h1_unfold k
  have e2 : h2 k = ((853977193 * k + 306837493) % 2 ^ 64) % 2147483563 := h2_unfold k
  have f1 : 885390553 * k + 639360243 < 2 ^ 64 → h1_int k = (h1_exact k : Int) := by
    intro h
    rw [i1, e1, Nat.mod_eq_of_lt h]
    rfl
  have f2 : 853977193 * k + 306837493 < 2 ^ 64 → h2_int k = (h2_exact k : Int) := by
    intro h
    rw [i2, e2, Nat.mod_eq_of_lt h]
    rfl
  refine ⟨by rw [i1, e1], by rw [i2, e2], rfl, f1, f2, fun hk => ⟨f1 ?_, f2 ?_⟩⟩
  · norm_num
    omega
  · norm_num
    omega

/-- Witness for C11: the largest key for which the multiply-add of `h1` fits in
64 bits. -/
theorem hash_formulas_witness :
    h1_int 20834584252 = (h1_exact 20834584252 : Int) ∧
    h2_int 20834584252 = (h2_exact 20834584252 : Int) :=
  (hash_formulas 20834584252).2.2.2.2.2 (by decide)

/-- C12. Hash range: for every key `k`, the values returned by `h1` and `h2`
survive the conversion to the 32-bit `int` return type unchanged, are
non-negative and below `2147483629` and `2147483563`; so for every table size
`s ≥ 1` the C remainders `h1(k) % s` and `h2(k) % s` lie in `[0, s)` and are
the indices `h1 k % s` and `h2 k % s` used by the tables. -/
theorem hash_range (k : Nat) (s : Nat) (hs : 1 ≤ s) :
    (0 ≤ h1_int k ∧ h1_int k < 2147483629) ∧ (0 ≤ h2_int k ∧ h2_int k < 2147483563) ∧
    h1_int k = (h1 k : Int) ∧ h2_int k = (h2 k : Int) ∧
    (0 ≤ Int.tmod (h1_int k) (s : Int) ∧ Int.tmod (h1_int k) (s : Int) < (s : Int)) ∧
    (0 ≤ Int.tmod (h2_int k) (s : Int) ∧ Int.tmod (h2_int k) (s : Int) < (s : Int)) ∧
    Int.tmod (h1_int k) (s : Int) = ((h1 k % s : Nat) : Int) ∧
    Int.tmod (h2_int k) (s : Int) = ((h2 k % s : Nat) : Int) ∧
    h1 k % s < s ∧ h2 k % s < s := by
  have a1 := h1_lt k
  have a2 := h2_lt k
  have e1 : h1_int k = (h1 k : Int) := to_int_small _ (by omega)
  have e2 : h2_int k = (h2 k : Int) := to_int_small _ (by omega)
  have m1 : h1 k % s < s := Nat.mod_lt _ (by omega)
  have m2 : h2 k % s < s := Nat.mod_lt _ (by omega)
  have t1 : Int.tmod (h1_int k) (s : Int) = ((h1 k % s : Nat) : Int) := by
    rw [e1]; exact (Int.ofNat_tmod _ _).symm
  have t2 : Int.tmod (h2_int k) (s : Int) = ((h2 k % s : Nat) : Int) := by
    rw [e2]; exact (Int.ofNat_tmod _ _).symm
  refine ⟨⟨?_, ?_⟩, ⟨?_, ?_⟩, e1, e2, ⟨?_, ?_⟩, ⟨?_, ?_⟩, t1, t2, m1, m2⟩
  · rw [e1]; exact Int.ofNat_nonneg _
  · rw [e1]; exact_mod_cast a1
  · rw [e2]; exact Int.ofNat_nonneg _
  · rw [e2]; exact_mod_cast a2
  · rw [t1]; exact Int.ofNat_nonneg _
  · rw [t1]; exact_mod_cast m1
  · rw [t2]; exact Int.ofNat_nonneg _
  · rw [t2]; exact_mod_cast m2

/-- Witness for C12: the largest 64-bit key and a table of 7 cells. -/
theorem hash_range_witness :
    (0 ≤ h1_int 18446744073709551615 ∧ h1_int 18446744073709551615 < 2147483629) ∧
    (0 ≤ h2_int 18446744073709551615 ∧ h2_int 18446744073709551615 < 2147483563) ∧
    h1_int 18446744073709551615 = (h1 18446744073709551615 : Int) ∧
    h2_int 18446744073709551615 = (h2 18446744073709551615 : Int) ∧
    (0 ≤ Int.tmod (h1_int 18446744073709551615) ((7 : Nat) : Int) ∧
      Int.tmod (h1_int 18446744073709551615) ((7 : Nat) : Int) < ((7 : Nat) : Int)) ∧
    (0 ≤ Int.tmod (h2_int 18446744073709551615) ((7 : Nat) : Int) ∧
      Int.tmod (h2_int 18446744073709551615) ((7 : Nat) : Int) < ((7 : Nat) : Int)) ∧
    Int.tmod (h1_int 18446744073709551615) ((7 : Nat) : Int)
      = ((h1 18446744073709551615 % 7 : Nat) : Int) ∧
    Int.tmod (h2_int 18446744073709551615) ((7 : Nat) : Int)
      = ((h2 18446744073709551615 % 7 : Nat) : Int) ∧
    h1 18446744073709551615 % 7 < 7 ∧ h2 18446744073709551615 % 7 < 7 :=
  hash_range 18446744073709551615 7 (by decide)

end

namespace Res
@[simp] theorem bind_ret {α β : Type} (a : α) (f : α → Res β) : (ret a).bind f = f a := rfl
@[simp] theorem bind_abort {α β : Type} (f : α → Res β) : (abort : Res α).bind f = abort := rfl
@[simp] theorem bind_diverge {α β : Type} (f : α → Res β) :
    (diverge : Res α).bind f = diverge := rfl

end Res

theorem rd_of_getElem? {α : Type} {a : List α} {i : Nat} {v : α} (h : a[i]? = some v) :
    rd a i = Res.ret v := by
  simp [rd, h]

theorem rd_bool_cases (a : List Bool) (i : Nat) (h : i < a.length) :
    a[i]? = some true ∨ a[i]? = some false := by
  rw [List.getElem?_eq_getElem h]
  cases a[i] <;> simp

theorem getElem?_exists {α : Type} (a : List α) (i : Nat) (h : i < a.length) :
    ∃ v, a[i]? = some v := ⟨a[i], List.getElem?_eq_getElem h⟩

theorem wr_of_lt {α : Type} {a : List α} {i : Nat} (v : α) (h : i < a.length) :
    wr a i v = Res.ret (a.set i v) := by
  simp [wr, h]


theorem Res.bind_eq_ret {α β : Type} {x : Res α} {f : α → Res β} {b : β} :
    x.bind f = Res.ret b ↔ ∃ a, x = Res.ret a ∧ f a = Res.ret b := by
  cases x <;> simp [Res.bind]

theorem rd_eq_ret {α : Type} {a : List α} {i : Nat} {v : α} :
    rd a i = Res.ret v ↔ a[i]? = some v := by
  unfold rd
  cases h : a[i]? <;> simp

theorem wr_eq_ret {α : Type} {a b : List α} {i : Nat} {v : α} :
    wr a i v = Res.ret b ↔ i < a.length ∧ b = a.set i v := by
  unfold wr
  by_cases h : i < a.length <;> simp [h, eq_comm]

theorem lt_length_of_getElem? {α : Type} {a : List α} {i : Nat} {v : α}
    (h : a[i]? = some v) : i < a.length := by
  by_contra hc
  rw [List.getElem?_eq_none (Nat.le_of_not_lt hc)] at h
  cases h

/-- Every cell is reached from `h0` by a cyclic shift smaller than `n`. -/
theorem cyc_reach (n h0 p : Nat) (hh : h0 < n) (hp : p < n) :
    ∃ d, d < n ∧ (h0 + d) % n = p := by
  by_cases hle : h0 ≤ p
  · refine ⟨p - h0, by omega, ?_⟩
    rw [Nat.add_sub_cancel' hle, Nat.mod_eq_of_lt hp]
  · refine ⟨p + n - h0, by omega, ?_⟩
    have : h0 + (p + n - h0) = p + n := by omega
    rw [this, Nat.add_mod_right, Nat.mod_eq_of_lt hp]

/-- Cyclic shifts smaller than `n` are injective. -/
theorem cyc_inj (n h0 d s : Nat) (hd : d < n) (hs : s < n)
    (h : (h0 + d) % n = (h0 + s) % n) : d = s := by
  have h1 : d ≡ s [MOD n] := Nat.ModEq.add_left_cancel' h0 h
  have h2 := Nat.ModEq.eq_of_lt_of_lt h1 hd hs
  exact h2

theorem count_true_eq_length (l : List Bool) (h : ∀ q, q < l.length → l[q]? = some true) :
    l.count true = l.length := by
  induction l with
  | nil => rfl
  | cons b l ih =>
    have hb : b = true := by
      have := h 0 (by simp)
      simpa using this
    subst hb
    have hl : ∀ q, q < l.length → l[q]? = some true := by
      intro q hq
      have := h (q + 1) (by simpa using hq)
      simpa using this
    simp [ih hl]

theorem count_set_true_le (l : List Bool) (i : Nat) :
    (l.set i true).count true ≤ l.count true + 1 := by
  induction l generalizing i with
  | nil => simp
  | cons b l ih =>
    cases i with
    | zero => cases b <;> simp
    | succ i =>
      have := ih i
      cases b <;> simp [List.count_cons] <;> omega

theorem getElem?_set_true_of_true (l : List Bool) (i q : Nat) (h : l[q]? = some true) :
    (l.set i true)[q]? = some true := by
  rw [List.getElem?_set]
  split
  · have := lt_length_of_getElem? h
    simp_all
  · exact h

namespace Linear

theorem probe_spec (t : LinearHashTable) (key h0 : Nat) (hwf : WF t) :
    ∀ rem steps, steps ≤ t.size → t.size ≤ rem + steps → busy t key h0 steps →
      (∃ s, probe t key rem ((h0 + steps) % t.size) steps = Res.ret Probe.hit ∧
          s < t.size ∧ busy t key h0 s ∧ holds t ((h0 + s) % t.size) key) ∨
      (∃ s, probe t key rem ((h0 + steps) % t.size) steps
            = Res.ret (Probe.stop ((h0 + s) % t.size) s) ∧
          s ≤ t.size ∧ busy t key h0 s ∧
          (s = t.size ∨ t.inuse[(h0 + s) % t.size]? = some false)) := by
  intro rem
  induction rem with
  | zero =>
    intro steps hle hge hbusy
    have hs : steps = t.size := by omega
    have hlt : (h0 + steps) % t.size < t.inuse.length := by
      rw [hwf.inuse_len]; exact Nat.mod_lt _ hwf.pos
    right
    refine ⟨steps, ?_, hle, hbusy, Or.inl hs⟩
    unfold probe
    obtain ⟨b, hb⟩ := getElem?_exists t.inuse _ hlt
    rw [rd_of_getElem? hb]
    simp [hs]
  | succ rem ih =>
    intro steps hle hge hbusy
    have hlt : (h0 + steps) % t.size < t.inuse.length := by
      rw [hwf.inuse_len]; exact Nat.mod_lt _ hwf.pos
    have hlt2 : (h0 + steps) % t.size < t.slots.length := by
      rw [hwf.slots_len]; exact Nat.mod_lt _ hwf.pos
    unfold probe
    rcases rd_bool_cases t.inuse _ hlt with hb | hb
    · rw [rd_of_getElem? hb]
      by_cases hs : steps < t.size
      · obtain ⟨k, hk⟩ := getElem?_exists t.slots _ hlt2
        rw [rd_of_getElem? hk]
        by_cases hkey : k = key
        · left
          refine ⟨steps, ?_, hs, hbusy, hb, ?_⟩
          · simp [hs, hkey]
          · rw [hk, hkey]
        · have hstep : ((h0 + steps) % t.size + STEP_SIZE) % t.size
              = (h0 + (steps + 1)) % t.size := by
            simp [STEP_SIZE, Nat.add_assoc]
          have hbusy2 : busy t key h0 (steps + 1) := by
            intro j hj
            rcases Nat.lt_succ_iff_lt_or_eq.mp hj with hj | hj
            · exact hbusy j hj
            · subst hj; exact ⟨hb, k, hk, hkey⟩
          have := ih (steps + 1) hs (by omega) hbusy2
          simp only [Res.bind_ret, hs, decide_True, Bool.and_self, if_true, hkey, if_false, hstep]
          exact this
      · right
        have hs2 : steps = t.size := by omega
        refine ⟨steps, ?_, hle, hbusy, Or.inl hs2⟩
        simp [hs]
    · rw [rd_of_getElem? hb]
      right
      exact ⟨steps, by simp, hle, hbusy, Or.inr hb⟩

end Linear

namespace Linear

theorem holds_lt {t : LinearHashTable} (hwf : WF t) {p k : Nat} (h : holds t p k) :
    p < t.size := by
  have := lt_length_of_getElem? h.1
  rwa [hwf.inuse_len] at this

/-- After a probe that stopped without a hit, the key is not stored. -/
theorem not_stored_of_stop {t : LinearHashTable} (hinv : Inv t) (key s : Nat)
    (hbusy : busy t key (h1 key % t.size) s)
    (hend : s = t.size ∨ t.inuse[(h1 key % t.size + s) % t.size]? = some false) :
    ¬ stored t key := by
  rintro ⟨p, hp⟩
  have hwf := hinv.1
  have hpl := holds_lt hwf hp
  obtain ⟨d, hd, hdp⟩ := cyc_reach t.size (h1 key % t.size) p (Nat.mod_lt _ hwf.pos) hpl
  by_cases hds : d < s
  · obtain ⟨_, k, hk, hne⟩ := hbusy d hds
    rw [hdp, hp.2] at hk
    exact hne (Option.some.inj hk).symm
  · rcases hend with hend | hend
    · omega
    · by_cases hds2 : d = s
      · subst hds2
        rw [hdp, hp.1] at hend
        cases hend
      · have := hinv.2 p key hp d hd hdp s (by omega)
        rw [this] at hend
        cases hend

theorem lookup_spec {t : LinearHashTable} (hinv : Inv t) (key : Nat) :
    (linear_hash_table_lookup t key = Res.ret true ∧ stored t key) ∨
    (linear_hash_table_lookup t key = Res.ret false ∧ ¬ stored t key) := by
  have hwf := hinv.1
  have hpos : t.size ≠ 0 := Nat.pos_iff_ne_zero.mp hwf.pos
  have hp := probe_spec t key (h1 key % t.size) hwf t.size 0 (Nat.zero_le _) (by omega)
    (by intro j hj; omega)
  have e : (h1 key % t.size + 0) % t.size = h1 key % t.size := by
    rw [Nat.add_zero, Nat.mod_mod]
  rw [e] at hp
  unfold linear_hash_table_lookup
  rw [if_neg hpos]
  rcases hp with ⟨s, hs, _, _, hh⟩ | ⟨s, hs, _, hbusy, hend⟩
  · left
    rw [hs]
    exact ⟨rfl, _, hh⟩
  · right
    rw [hs]
    exact ⟨rfl, not_stored_of_stop hinv key s hbusy hend⟩

theorem holds_place {t : LinearHashTable} (hwf : WF t) (h key : Nat) (hh : h < t.size)
    (hfree : t.inuse[h]? = some false) (p k : Nat) :
    holds (place t h key) p k ↔ holds t p k ∨ (p = h ∧ k = key) := by
  unfold holds place
  simp only [List.getElem?_set]
  by_cases hph : h = p
  · subst hph
    simp [hwf.inuse_len, hwf.slots_len, hh, hfree, eq_comm]
  · have : ¬ p = h := fun e => hph e.symm
    simp [hph, this]

theorem place_inv {t : LinearHashTable} (hinv : Inv t) (key s : Nat) (hs : s < t.size)
    (hbusy : busy t key (h1 key % t.size) s)
    (hfree : t.inuse[(h1 key % t.size + s) % t.size]? = some false) :
    Inv (place t ((h1 key % t.size + s) % t.size) key) := by
  have hwf := hinv.1
  have hh : (h1 key % t.size + s) % t.size < t.size := Nat.mod_lt _ hwf.pos
  refine ⟨⟨hwf.pos, ?_, ?_⟩, ?_⟩
  · simp [place, hwf.slots_len]
  · simp [place, hwf.inuse_len]
  · intro p k hp d hd hdp j hj
    have hsz : (place t ((h1 key % t.size + s) % t.size) key).size = t.size := rfl
    rw [hsz] at hd hdp ⊢
    show (t.inuse.set _ true)[_]? = some true
    apply getElem?_set_true_of_true
    rcases (holds_place hwf _ key hh hfree p k).mp hp with hp | ⟨hp, hk⟩
    · exact hinv.2 p k hp d hd hdp j hj
    · subst hk
      rw [hp] at hdp
      have := cyc_inj t.size _ d s hd hs hdp
      subst this
      exact (hbusy j hj).1

theorem stored_place {t : LinearHashTable} (hwf : WF t) (h key : Nat) (hh : h < t.size)
    (hfree : t.inuse[h]? = some false) (x : Nat) :
    stored (place t h key) x ↔ stored t x ∨ x = key := by
  constructor
  · rintro ⟨p, hp⟩
    rcases (holds_place hwf h key hh hfree p x).mp hp with hp | ⟨_, hk⟩
    · exact Or.inl ⟨p, hp⟩
    · exact Or.inr hk
  · rintro (⟨p, hp⟩ | hx)
    · exact ⟨p, (holds_place hwf h key hh hfree p x).mpr (Or.inl hp)⟩
    · exact ⟨h, (holds_place hwf h key hh hfree h x).mpr (Or.inr ⟨rfl, hx⟩)⟩

/-- The counters `preexist` and `collision_count` play no part in the invariant. -/
theorem inv_congr {t u : LinearHashTable} (h1 : u.slots = t.slots) (h2 : u.inuse = t.inuse)
    (h3 : u.size = t.size) (hinv : Inv t) : Inv u := by
  obtain ⟨⟨a, b, c⟩, d⟩ := hinv
  refine ⟨⟨by rw [h3]; exact a, by rw [h1, h3]; exact b, by rw [h2, h3]; exact c⟩, ?_⟩
  intro p k hp
  have hp2 : holds t p k := by
    unfold holds at hp ⊢
    rwa [h1, h2] at hp
  have := d p k hp2
  rw [h3, h2]
  exact this

theorem stored_congr {t u : LinearHashTable} (h1 : u.slots = t.slots) (h2 : u.inuse = t.inuse)
    (x : Nat) : stored u x ↔ stored t x := by
  unfold stored holds
  rw [h1, h2]

end Linear

namespace Linear

theorem placed_ok {t u : LinearHashTable} (hinv : Inv t) (key s : Nat) (hs : s < t.size)
    (hbusy : busy t key (h1 key % t.size) s)
    (hfree : t.inuse[(h1 key % t.size + s) % t.size]? = some false)
    (e1 : u.slots = t.slots.set ((h1 key % t.size + s) % t.size) key)
    (e2 : u.inuse = t.inuse.set ((h1 key % t.size + s) % t.size) true)
    (e3 : u.size = t.size) :
    Inv u ∧ ∀ x, stored u x ↔ stored t x ∨ x = key := by
  have hh : (h1 key % t.size + s) % t.size < t.size := Nat.mod_lt _ hinv.1.pos
  refine ⟨inv_congr (t := place t _ key) e1 e2 e3 (place_inv hinv key s hs hbusy hfree), ?_⟩
  intro x
  rw [stored_congr (t := place t _ key) e1 e2 x]
  exact stored_place hinv.1 _ key hh hfree x

theorem busy_congr {t u : LinearHashTable} (e1 : u.slots = t.slots) (e2 : u.inuse = t.inuse)
    (e3 : u.size = t.size) (key h0 s : Nat) : busy u key h0 s ↔ busy t key h0 s := by
  unfold busy
  rw [e1, e2, e3]

/-- The empty table made by `initialise_table`. -/
theorem initialise_table_ret {MAX n : Nat} {t : LinearHashTable}
    (h : initialise_table MAX n = Res.ret t) :
    n < MAX ∧ t.slots = List.replicate n 0 ∧ t.inuse = List.replicate n false ∧
      t.size = n ∧ t.load = 0 := by
  unfold initialise_table at h
  by_cases hn : n < MAX
  · rw [if_pos hn] at h
    cases h
    exact ⟨hn, rfl, rfl, rfl, rfl⟩
  · rw [if_neg hn] at h
    cases h

theorem not_holds_empty {t : LinearHashTable} {n : Nat} (e : t.inuse = List.replicate n false)
    (p k : Nat) : ¬ holds t p k := by
  intro h
  have h1 := h.1
  rw [e, List.getElem?_replicate] at h1
  split at h1 <;> cases h1

theorem inv_empty {t : LinearHashTable} {n : Nat} (hn : 0 < n)
    (e1 : t.slots = List.replicate n 0) (e2 : t.inuse = List.replicate n false)
    (e3 : t.size = n) : Inv t := by
  refine ⟨⟨by omega, by simp [e1, e3], by simp [e2, e3]⟩, ?_⟩
  intro p k hp
  exact absurd hp (not_holds_empty e2 p k)

theorem rehash_ok {ins : LinearHashTable → Nat → Res (LinearHashTable × Bool)}
    (hins : InsOk ins) (os : List Nat) (ou : List Bool) :
    ∀ n i t t2, Inv t → rehash ins os ou n i t = Res.ret t2 →
      Inv t2 ∧ ∀ x, stored t2 x ↔
        stored t x ∨ ∃ p, i ≤ p ∧ p < i + n ∧ ou[p]? = some true ∧ os[p]? = some x := by
  intro n
  induction n with
  | zero =>
    intro i t t2 hinv h
    simp only [rehash, Res.ret.injEq] at h
    subst h
    refine ⟨hinv, fun x => ⟨Or.inl, ?_⟩⟩
    rintro (h | ⟨p, h1, h2, _⟩)
    · exact h
    · omega
  | succ n ih =>
    intro i t t2 hinv h
    rw [rehash, Res.bind_eq_ret] at h
    obtain ⟨used, hu, h⟩ := h
    rw [rd_eq_ret] at hu
    cases used with
    | true =>
      simp only [if_true, Res.bind_eq_ret, rd_eq_ret] at h
      obtain ⟨k, hk, r, hr, h⟩ := h
      obtain ⟨hinv2, hst⟩ := hins t k r hinv hr
      obtain ⟨hinv3, hst3⟩ := ih (i + 1) r.1 t2 hinv2 h
      refine ⟨hinv3, fun x => ?_⟩
      rw [hst3, hst]
      constructor
      · rintro ((h | h) | ⟨p, h1, h2, h3, h4⟩)
        · exact Or.inl h
        · subst h
          exact Or.inr ⟨i, le_refl _, by omega, hu, hk⟩
        · exact Or.inr ⟨p, by omega, by omega, h3, h4⟩
      · rintro (h | ⟨p, h1, h2, h3, h4⟩)
        · exact Or.inl (Or.inl h)
        · by_cases hpi : p = i
          · subst hpi
            rw [hk] at h4
            exact Or.inl (Or.inr (Option.some.inj h4).symm)
          · exact Or.inr ⟨p, by omega, by omega, h3, h4⟩
    | false =>
      simp only [Bool.false_eq_true, if_false] at h
      obtain ⟨hinv3, hst3⟩ := ih (i + 1) t t2 hinv h
      refine ⟨hinv3, fun x => ?_⟩
      rw [hst3]
      constructor
      · rintro (h | ⟨p, h1, h2, h3, h4⟩)
        · exact Or.inl h
        · exact Or.inr ⟨p, by omega, by omega, h3, h4⟩
      · rintro (h | ⟨p, h1, h2, h3, h4⟩)
        · exact Or.inl h
        · by_cases hpi : p = i
          · subst hpi
            rw [hu] at h3
            cases h3
          · exact Or.inr ⟨p, by omega, by omega, h3, h4⟩

theorem double_table_with_ok {MAX : Nat}
    {ins : LinearHashTable → Nat → Res (LinearHashTable × Bool)}
    (hins : InsOk ins) {t t2 : LinearHashTable} (hinv : Inv t)
    (h : double_table_with MAX ins t = Res.ret t2) :
    Inv t2 ∧ ∀ x, stored t2 x ↔ stored t x := by
  rw [double_table_with, Res.bind_eq_ret] at h
  obtain ⟨t0, h0, h⟩ := h
  obtain ⟨_, e1, e2, e3, _⟩ := initialise_table_ret h0
  have hpos : 0 < t.size * 2 := by have := hinv.1.pos; omega
  obtain ⟨hinv2, hst⟩ := rehash_ok hins t.slots t.inuse t.size 0 t0 t2
    (inv_empty hpos e1 e2 e3) h
  refine ⟨hinv2, fun x => ?_⟩
  rw [hst]
  constructor
  · rintro (⟨p, hp⟩ | ⟨p, _, _, h3, h4⟩)
    · exact absurd hp (not_holds_empty e2 p x)
    · exact ⟨p, h3, h4⟩
  · rintro ⟨p, hp⟩
    exact Or.inr ⟨p, Nat.zero_le _, by have := holds_lt hinv.1 hp; omega, hp.1, hp.2⟩

theorem bump_slots (t : LinearHashTable) (s : Nat) : (bump t s).slots = t.slots := by
  unfold bump; split <;> rfl

theorem bump_inuse (t : LinearHashTable) (s : Nat) : (bump t s).inuse = t.inuse := by
  unfold bump; split <;> rfl

theorem bump_size (t : LinearHashTable) (s : Nat) : (bump t s).size = t.size := by
  unfold bump; split <;> rfl

theorem bump_load (t : LinearHashTable) (s : Nat) : (bump t s).load = t.load := by
  unfold bump; split <;> rfl

theorem insert_hit (MAX fuel : Nat) {t : LinearHashTable} {key : Nat} (hpos : t.size ≠ 0)
    (hp : probe t key t.size (h1 key % t.size) 0 = Res.ret Probe.hit) :
    linear_hash_table_insert MAX fuel t key
      = Res.ret ({ t with preexist := t.preexist + 1 }, false) := by
  cases fuel <;> rw [linear_hash_table_insert, if_neg hpos, hp] <;> rfl

theorem insert_place (MAX fuel : Nat) {t : LinearHashTable} {key h s : Nat} (hpos : t.size ≠ 0)
    (hp : probe t key t.size (h1 key % t.size) 0 = Res.ret (Probe.stop h s))
    (hs : s ≠ t.size) (hl1 : h < t.slots.length) (hl2 : h < t.inuse.length) :
    linear_hash_table_insert MAX fuel t key
      = Res.ret ({ bump t s with slots := t.slots.set h key, inuse := t.inuse.set h true,
                                 load := t.load + 1 }, true) := by
  have e1 : wr (bump t s).slots h key = Res.ret (t.slots.set h key) := by
    rw [bump_slots]; exact wr_of_lt key hl1
  have e2 : wr (bump t s).inuse h true = Res.ret (t.inuse.set h true) := by
    rw [bump_inuse]; exact wr_of_lt true hl2
  have e3 : ¬ s = (bump t s).size := by rw [bump_size]; exact hs
  cases fuel <;> rw [linear_hash_table_insert, if_neg hpos, hp] <;>
    simp only [Res.bind_ret] <;> rw [← bump] <;>
    simp only [if_neg e3, e1, e2, Res.bind_ret, bump_load]

theorem insert_full_zero (MAX : Nat) {t : LinearHashTable} {key h : Nat} (hpos : t.size ≠ 0)
    (hp : probe t key t.size (h1 key % t.size) 0 = Res.ret (Probe.stop h t.size)) :
    linear_hash_table_insert MAX 0 t key = Res.diverge := by
  have e3 : t.size = (bump t t.size).size := by rw [bump_size]
  rw [linear_hash_table_insert, if_neg hpos, hp]
  simp only [Res.bind_ret]
  rw [← bump, if_pos e3]

theorem insert_full_succ (MAX fuel : Nat) {t : LinearHashTable} {key h : Nat}
    (hpos : t.size ≠ 0)
    (hp : probe t key t.size (h1 key % t.size) 0 = Res.ret (Probe.stop h t.size)) :
    linear_hash_table_insert MAX (fuel + 1) t key
      = (double_table_with MAX (linear_hash_table_insert MAX fuel) (bump t t.size)).bind
          fun t2 => linear_hash_table_insert MAX fuel t2 key := by
  have e3 : t.size = (bump t t.size).size := by rw [bump_size]
  rw [linear_hash_table_insert, if_neg hpos, hp]
  simp only [Res.bind_ret]
  rw [← bump, if_pos e3]

/-- The probe of an insertion or lookup, started at the home cell. -/
theorem probe_home {t : LinearHashTable} (hwf : WF t) (key : Nat) :
    (∃ s, probe t key t.size (h1 key % t.size) 0 = Res.ret Probe.hit ∧
        s < t.size ∧ busy t key (h1 key % t.size) s ∧
        holds t ((h1 key % t.size + s) % t.size) key) ∨
    (∃ s, probe t key t.size (h1 key % t.size) 0
          = Res.ret (Probe.stop ((h1 key % t.size + s) % t.size) s) ∧
        s ≤ t.size ∧ busy t key (h1 key % t.size) s ∧
        (s = t.size ∨ t.inuse[(h1 key % t.size + s) % t.size]? = some false)) := by
  have e : (h1 key % t.size + 0) % t.size = h1 key % t.size := by
    rw [Nat.add_zero, Nat.mod_mod]
  have hp := probe_spec t key (h1 key % t.size) hwf t.size 0 (Nat.zero_le _) (by omega)
    (by intro j hj; omega)
  rw [e] at hp
  exact hp

theorem insert_ok_step (MAX fuel : Nat) {t : LinearHashTable} {key : Nat}
    {r : LinearHashTable × Bool} (hinv : Inv t)
    (h : linear_hash_table_insert MAX fuel t key = Res.ret r)
    (hfull : ∀ h, probe t key t.size (h1 key % t.size) 0 = Res.ret (Probe.stop h t.size) →
      Inv r.1 ∧ ∀ x, stored r.1 x ↔ stored t x ∨ x = key) :
    Inv r.1 ∧ ∀ x, stored r.1 x ↔ stored t x ∨ x = key := by
  have hwf := hinv.1
  have hpos : t.size ≠ 0 := Nat.pos_iff_ne_zero.mp hwf.pos
  rcases probe_home hwf key with ⟨s, hs, _, _, hh⟩ | ⟨s, hs, hsle, hbusy, hend⟩
  · rw [insert_hit MAX fuel hpos hs] at h
    cases h
    refine ⟨inv_congr (t := t) rfl rfl rfl hinv, fun x => ?_⟩
    rw [stored_congr (t := t) rfl rfl x]
    constructor
    · exact Or.inl
    · rintro (h | h)
      · exact h
      · subst h; exact ⟨_, hh⟩
  · by_cases hne : s = t.size
    · rw [hne] at hs
      exact hfull _ hs
    · have hlt : (h1 key % t.size + s) % t.size < t.size := Nat.mod_lt _ hwf.pos
      rw [insert_place MAX fuel hpos hs hne (by rw [hwf.slots_len]; exact hlt)
        (by rw [hwf.inuse_len]; exact hlt)] at h
      cases h
      rcases hend with hend | hend
      · exact absurd hend hne
      · exact placed_ok hinv key s (by omega) hbusy hend rfl rfl (bump_size t s)

theorem insert_ok (MAX : Nat) : ∀ fuel, InsOk (linear_hash_table_insert MAX fuel) := by
  intro fuel
  induction fuel with
  | zero =>
    intro t key r hinv h
    apply insert_ok_step MAX 0 hinv h
    intro h0 hp
    rw [insert_full_zero MAX (Nat.pos_iff_ne_zero.mp hinv.1.pos) hp] at h
    cases h
  | succ fuel ih =>
    intro t key r hinv h
    apply insert_ok_step MAX (fuel + 1) hinv h
    intro h0 hp
    rw [insert_full_succ MAX fuel (Nat.pos_iff_ne_zero.mp hinv.1.pos) hp, Res.bind_eq_ret] at h
    obtain ⟨t2, hd, h⟩ := h
    obtain ⟨hinv2, hst2⟩ := double_table_with_ok ih
      (inv_congr (bump_slots t _) (bump_inuse t _) (bump_size t _) hinv) hd
    obtain ⟨hinv3, hst3⟩ := ih t2 key r hinv2 h
    refine ⟨hinv3, fun x => ?_⟩
    rw [hst3, hst2, stored_congr (bump_slots t _) (bump_inuse t _)]

end Linear

namespace Linear

theorem full_of_busy {t : LinearHashTable} (hwf : WF t) (key h0 : Nat) (hh : h0 < t.size)
    (hbusy : busy t key h0 t.size) : cnt t = t.size := by
  unfold cnt
  rw [← hwf.inuse_len]
  apply count_true_eq_length
  intro q hq
  rw [hwf.inuse_len] at hq
  obtain ⟨d, hd, hdq⟩ := cyc_reach t.size h0 q hh hq
  rw [← hdq]
  exact (hbusy d hd).1

theorem insert_free (MAX fuel : Nat) : InsFree (linear_hash_table_insert MAX fuel) := by
  intro t key hwf hfree
  have hpos : t.size ≠ 0 := Nat.pos_iff_ne_zero.mp hwf.pos
  rcases probe_home hwf key with ⟨s, hs, _, _, hh⟩ | ⟨s, hs, hsle, hbusy, hend⟩
  · rw [insert_hit MAX fuel hpos hs]
    exact ⟨_, rfl, ⟨hwf.pos, hwf.slots_len, hwf.inuse_len⟩, rfl, Nat.le_succ _⟩
  · have hne : s ≠ t.size := by
      intro e
      rw [e] at hbusy
      have := full_of_busy hwf key _ (Nat.mod_lt _ hwf.pos) hbusy
      omega
    have hlt : (h1 key % t.size + s) % t.size < t.size := Nat.mod_lt _ hwf.pos
    rw [insert_place MAX fuel hpos hs hne (by rw [hwf.slots_len]; exact hlt)
      (by rw [hwf.inuse_len]; exact hlt)]
    refine ⟨_, rfl, ⟨?_, ?_, ?_⟩, bump_size t s, count_set_true_le _ _⟩
    · show 0 < (bump t s).size
      rw [bump_size]; exact hwf.pos
    · show (t.slots.set _ key).length = (bump t s).size
      rw [bump_size, List.length_set, hwf.slots_len]
    · show (t.inuse.set _ true).length = (bump t s).size
      rw [bump_size, List.length_set, hwf.inuse_len]

theorem rehash_total {ins : LinearHashTable → Nat → Res (LinearHashTable × Bool)}
    (hins : InsFree ins) (os : List Nat) (ou : List Bool) :
    ∀ n i t, WF t → cnt t + n ≤ t.size → i + n ≤ os.length → i + n ≤ ou.length →
      ∃ t2, rehash ins os ou n i t = Res.ret t2 ∧ WF t2 ∧ t2.size = t.size ∧
        cnt t2 ≤ cnt t + n := by
  intro n
  induction n with
  | zero =>
    intro i t hwf _ _ _
    exact ⟨t, rfl, hwf, rfl, Nat.le_refl _⟩
  | succ n ih =>
    intro i t hwf hc h1 h2
    obtain ⟨b, hb⟩ := getElem?_exists ou i (by omega)
    obtain ⟨k, hk⟩ := getElem?_exists os i (by omega)
    rw [rehash, rd_of_getElem? hb]
    cases b with
    | true =>
      obtain ⟨r, hr, hwf2, hsz, hcnt⟩ := hins t k hwf (by omega)
      simp only [Res.bind_ret, if_true, rd_of_getElem? hk, hr]
      obtain ⟨t2, ht2, hwf3, hsz3, hcnt3⟩ := ih (i + 1) r.1 hwf2 (by omega) (by omega) (by omega)
      exact ⟨t2, ht2, hwf3, by omega, by omega⟩
    | false =>
      simp only [Res.bind_ret, Bool.false_eq_true, if_false]
      obtain ⟨t2, ht2, hwf3, hsz3, hcnt3⟩ := ih (i + 1) t hwf (by omega) (by omega) (by omega)
      exact ⟨t2, ht2, hwf3, hsz3, by omega⟩

theorem double_table_with_total (MAX : Nat)
    {ins : LinearHashTable → Nat → Res (LinearHashTable × Bool)} (hins : InsFree ins)
    {t : LinearHashTable} (hwf : WF t) :
    double_table_with MAX ins t = Res.abort ∨
    ∃ t2, double_table_with MAX ins t = Res.ret t2 ∧ WF t2 ∧ t2.size = t.size * 2 ∧
      cnt t2 ≤ t.size := by
  unfold double_table_with initialise_table
  by_cases hm : t.size * 2 < MAX
  · right
    rw [if_pos hm, Res.bind_ret]
    have hwf0 : WF { slots := List.replicate (t.size * 2) 0,
                     inuse := List.replicate (t.size * 2) false,
                     size := t.size * 2, load := 0, preexist := 0, collision_count := 0 } :=
      ⟨by have := hwf.pos; show 0 < t.size * 2; omega, by simp, by simp⟩
    have hc0 : cnt { slots := List.replicate (t.size * 2) 0,
                     inuse := List.replicate (t.size * 2) false,
                     size := t.size * 2, load := 0, preexist := 0, collision_count := 0 } = 0 := by
      simp [cnt, List.count_replicate]
    obtain ⟨t2, ht2, hwf2, hsz, hcnt⟩ := rehash_total hins t.slots t.inuse t.size 0 _ hwf0
      (by rw [hc0]; show 0 + t.size ≤ t.size * 2; omega)
      (by rw [hwf.slots_len]; omega) (by rw [hwf.inuse_len]; omega)
    exact ⟨t2, ht2, hwf2, hsz, by omega⟩
  · left
    rw [if_neg hm]
    rfl

/-- With fuel for one doubling, an insertion never runs out of fuel: it returns
or stops on the assertion of `initialise_table`. -/
theorem insert_total (MAX fuel : Nat) {t : LinearHashTable} (hwf : WF t) (key : Nat) :
    linear_hash_table_insert MAX (fuel + 1) t key = Res.abort ∨
    ∃ r, linear_hash_table_insert MAX (fuel + 1) t key = Res.ret r := by
  have hpos : t.size ≠ 0 := Nat.pos_iff_ne_zero.mp hwf.pos
  rcases probe_home hwf key with ⟨s, hs, _, _, hh⟩ | ⟨s, hs, hsle, hbusy, hend⟩
  · rw [insert_hit MAX _ hpos hs]
    exact Or.inr ⟨_, rfl⟩
  · by_cases hne : s = t.size
    · rw [hne] at hs
      rw [insert_full_succ MAX fuel hpos hs]
      have hwfb : WF (bump t t.size) :=
        ⟨by rw [bump_size]; exact hwf.pos, by rw [bump_slots, bump_size]; exact hwf.slots_len,
         by rw [bump_inuse, bump_size]; exact hwf.inuse_len⟩
      rcases double_table_with_total MAX (insert_free MAX fuel) hwfb with hd | ⟨t2, hd, hwf2, hsz, hc⟩
      · rw [hd]
        exact Or.inl rfl
      · rw [hd, Res.bind_ret]
        rw [bump_size] at hsz hc
        obtain ⟨r, hr, _⟩ := insert_free MAX fuel t2 key hwf2 (by have := hwf.pos; omega)
        exact Or.inr ⟨r, hr⟩
    · have hlt : (h1 key % t.size + s) % t.size < t.size := Nat.mod_lt _ hwf.pos
      rw [insert_place MAX _ hpos hs hne (by rw [hwf.slots_len]; exact hlt)
        (by rw [hwf.inuse_len]; exact hlt)]
      exact Or.inr ⟨_, rfl⟩

theorem insert_all_spec (MAX fuel : Nat) (keys : List Nat) :
    ∀ t, Inv t →
      insert_all MAX (fuel + 1) t keys = Res.abort ∨
      ∃ t2, insert_all MAX (fuel + 1) t keys = Res.ret t2 ∧ Inv t2 ∧
        ∀ x, stored t2 x ↔ stored t x ∨ x ∈ keys := by
  induction keys with
  | nil =>
    intro t hinv
    exact Or.inr ⟨t, rfl, hinv, fun x => by simp⟩
  | cons k ks ih =>
    intro t hinv
    rw [insert_all]
    rcases insert_total MAX fuel hinv.1 k with h | ⟨r, h⟩
    · rw [h]; exact Or.inl rfl
    · rw [h, Res.bind_ret]
      obtain ⟨hinv2, hst⟩ := insert_ok MAX (fuel + 1) t k r hinv h
      rcases ih r.1 hinv2 with h2 | ⟨t2, h2, hinv3, hst3⟩
      · exact Or.inl h2
      · refine Or.inr ⟨t2, h2, hinv3, fun x => ?_⟩
        rw [hst3, hst, List.mem_cons, or_assoc]

theorem run_spec (MAX fuel n : Nat) (keys : List Nat) (hn : 1 ≤ n) :
    run MAX (fuel + 1) n keys = Res.abort ∨
    ∃ t, run MAX (fuel + 1) n keys = Res.ret t ∧ Inv t ∧ ∀ x, stored t x ↔ x ∈ keys := by
  unfold run new_linear_hash_table
  cases h0 : initialise_table MAX n with
  | abort => exact Or.inl rfl
  | diverge =>
    unfold initialise_table at h0
    split at h0 <;> cases h0
  | ret t0 =>
    obtain ⟨_, e1, e2, e3, _⟩ := initialise_table_ret h0
    rw [Res.bind_ret]
    rcases insert_all_spec MAX fuel keys t0 (inv_empty hn e1 e2 e3) with h | ⟨t, h, hinv, hst⟩
    · exact Or.inl h
    · refine Or.inr ⟨t, h, hinv, fun x => ?_⟩
      rw [hst]
      constructor
      · rintro (⟨p, hp⟩ | h)
        · exact absurd hp (not_holds_empty e2 p x)
        · exact h
      · exact Or.inr

end Linear

section

open Linear

/-- C1. Linear table membership: for every initial size `n ≥ 1`, every list of
keys inserted one after the other into `new_linear_hash_table(n)` and every
key `K`, when no doubling trips the `MAX_TABLE_SIZE` assertion the run returns
a table (with fuel for a single level of doubling) on which
`linear_hash_table_lookup(K)` returns true if `K` is among the inserted keys
and false otherwise. -/
theorem linear_membership (MAX_TABLE_SIZE fuel n : Nat) (keys : List Nat) (K : Nat)
    (hn : 1 ≤ n) (hrun : Linear.run MAX_TABLE_SIZE (fuel + 1) n keys ≠ Res.abort) :
    ∃ t, Linear.run MAX_TABLE_SIZE (fuel + 1) n keys = Res.ret t ∧
      (linear_hash_table_lookup t K = Res.ret true ↔ K ∈ keys) ∧
      (linear_hash_table_lookup t K = Res.ret false ↔ K ∉ keys) := by
  rcases Linear.run_spec MAX_TABLE_SIZE fuel n keys hn with h | ⟨t, h, hinv, hst⟩
  · exact absurd h hrun
  · refine ⟨t, h, ?_, ?_⟩
    · rcases Linear.lookup_spec hinv K with ⟨hl, hs⟩ | ⟨hl, hs⟩
      · rw [hl]; simp [(hst K).mp hs]
      · have hK : K ∉ keys := fun hK => hs ((hst K).mpr hK)
        rw [hl]; simp [hK]
    · rcases Linear.lookup_spec hinv K with ⟨hl, hs⟩ | ⟨hl, hs⟩
      · rw [hl]; simp [(hst K).mp hs]
      · have hK : K ∉ keys := fun hK => hs ((hst K).mpr hK)
        rw [hl]; simp [hK]

/-- Witness for C1: five keys into a table of two cells (two doublings). -/
theorem linear_membership_witness :
    ∃ t, Linear.run 100 1 2 [1, 2, 3, 4, 5] = Res.ret t ∧
      (linear_hash_table_lookup t 3 = Res.ret true ↔ 3 ∈ [1, 2, 3, 4, 5]) ∧
      (linear_hash_table_lookup t 3 = Res.ret false ↔ 3 ∉ [1, 2, 3, 4, 5]) :=
  linear_membership 100 0 2 [1, 2, 3, 4, 5] 3 (by decide) (by decide!)

end

namespace Linear

theorem count_set_true_of_false (l : List Bool) (i : Nat) (h : l[i]? = some false) :
    (l.set i true).count true = l.count true + 1 := by
  induction l generalizing i with
  | nil => simp at h
  | cons b l ih =>
    cases i with
    | zero =>
      simp only [List.getElem?_cons_zero, Option.some.injEq] at h
      subst h
      simp
    | succ i =>
      simp only [List.getElem?_cons_succ] at h
      simp only [List.set_cons_succ, List.count_cons, ih i h]
      omega

theorem free_of_cnt_lt {t : LinearHashTable} (hwf : WF t) (h : cnt t < t.size) :
    ∃ p : Nat, t.inuse[p]? = some false := by
  by_contra hc
  have hall : ∀ q, q < t.inuse.length → t.inuse[q]? = some true := by
    intro q hq
    rcases rd_bool_cases t.inuse q hq with h1 | h1
    · exact h1
    · exact absurd (Exists.intro q h1) hc
  have := count_true_eq_length t.inuse hall
  unfold cnt at h
  rw [this, hwf.inuse_len] at h
  omega

theorem not_busy_of_free {t : LinearHashTable} (hwf : WF t) (key h0 p : Nat)
    (hh : h0 < t.size) (hfree : t.inuse[p]? = some false) : ¬ busy t key h0 t.size := by
  intro hbusy
  have hp : p < t.size := by
    have := lt_length_of_getElem? hfree
    rwa [hwf.inuse_len] at this
  obtain ⟨d, hd, hdp⟩ := cyc_reach t.size h0 p hh hp
  have := (hbusy d hd).1
  rw [hdp, hfree] at this
  cases this

/-- Insertion of an absent key into a table with a free cell: the key goes into
the first free cell of its probe sequence. -/
theorem insert_fresh (MAX fuel : Nat) {t : LinearHashTable} (hwf : WF t) (key : Nat)
    (hns : ¬ stored t key) (p : Nat) (hfree : t.inuse[p]? = some false) :
    ∃ s, s < t.size ∧ busy t key (h1 key % t.size) s ∧
      t.inuse[(h1 key % t.size + s) % t.size]? = some false ∧
      linear_hash_table_insert MAX fuel t key
        = Res.ret ({ bump t s with
            slots := t.slots.set ((h1 key % t.size + s) % t.size) key,
            inuse := t.inuse.set ((h1 key % t.size + s) % t.size) true,
            load := t.load + 1 }, true) := by
  have hpos : t.size ≠ 0 := Nat.pos_iff_ne_zero.mp hwf.pos
  rcases probe_home hwf key with ⟨s, _, _, _, hh⟩ | ⟨s, hs, hsle, hbusy, hend⟩
  · exact absurd ⟨_, hh⟩ hns
  · have hne : s ≠ t.size := by
      intro e
      rw [e] at hbusy
      exact not_busy_of_free hwf key _ p (Nat.mod_lt _ hwf.pos) hfree hbusy
    have hlt : (h1 key % t.size + s) % t.size < t.size := Nat.mod_lt _ hwf.pos
    rcases hend with hend | hend
    · exact absurd hend hne
    · exact ⟨s, by omega, hbusy, hend,
        insert_place MAX fuel hpos hs hne (by rw [hwf.slots_len]; exact hlt)
          (by rw [hwf.inuse_len]; exact hlt)⟩

/-- Insertion of a key that is stored: nothing but `preexist` changes. -/
theorem insert_dup (MAX fuel : Nat) {t : LinearHashTable} (hinv : Inv t) (key : Nat)
    (hs : stored t key) :
    linear_hash_table_insert MAX fuel t key
      = Res.ret ({ t with preexist := t.preexist + 1 }, false) := by
  have hwf := hinv.1
  have hpos : t.size ≠ 0 := Nat.pos_iff_ne_zero.mp hwf.pos
  rcases probe_home hwf key with ⟨s, hp, _, _, _⟩ | ⟨s, _, _, hbusy, hend⟩
  · exact insert_hit MAX fuel hpos hp
  · exact absurd hs (not_stored_of_stop hinv key s hbusy hend)

theorem holds_congr {t u : LinearHashTable} (e1 : u.slots = t.slots) (e2 : u.inuse = t.inuse)
    (p k : Nat) : holds u p k ↔ holds t p k := by
  unfold holds
  rw [e1, e2]

theorem bal_congr {t u : LinearHashTable} (e1 : u.slots = t.slots) (e2 : u.inuse = t.inuse)
    (e3 : u.load = t.load) (h : Bal t) : Bal u := by
  refine ⟨?_, fun p q k hp hq => ?_⟩
  · unfold cnt
    rw [e3, e2]
    exact h.1
  · exact h.2 p q k ((holds_congr e1 e2 p k).mp hp) ((holds_congr e1 e2 q k).mp hq)

theorem bal_placed {t u : LinearHashTable} (hwf : WF t) (hbal : Bal t) (key h : Nat)
    (hh : h < t.size) (hfree : t.inuse[h]? = some false) (hns : ¬ stored t key)
    (e1 : u.slots = t.slots.set h key) (e2 : u.inuse = t.inuse.set h true)
    (e3 : u.load = t.load + 1) : Bal u ∧ cnt u = cnt t + 1 := by
  have hc : cnt u = cnt t + 1 := by
    unfold cnt
    rw [e2]
    exact count_set_true_of_false _ _ hfree
  have hh2 : ∀ p k, holds u p k ↔ holds t p k ∨ (p = h ∧ k = key) := by
    intro p k
    rw [holds_congr (t := place t h key) e1 e2 p k]
    exact holds_place hwf h key hh hfree p k
  refine ⟨⟨by rw [e3, hc, hbal.1], fun p q k hp hq => ?_⟩, hc⟩
  rcases (hh2 p k).mp hp with hp | ⟨hp1, hp2⟩
  · rcases (hh2 q k).mp hq with hq | ⟨_, hq2⟩
    · exact hbal.2 p q k hp hq
    · subst hq2
      exact absurd ⟨p, hp⟩ hns
  · rcases (hh2 q k).mp hq with hq | ⟨hq1, _⟩
    · subst hp2
      exact absurd ⟨q, hq⟩ hns
    · rw [hp1, hq1]

end Linear

namespace Linear

theorem insert_fresh_spec (MAX fuel : Nat) : Fresh (linear_hash_table_insert MAX fuel) := by
  intro t k hinv hbal hc hns
  have hwf := hinv.1
  obtain ⟨p, hp⟩ := free_of_cnt_lt hwf hc
  obtain ⟨s, hs, hbusy, hfree, hins⟩ := insert_fresh MAX fuel hwf k hns p hp
  have hlt : (h1 k % t.size + s) % t.size < t.size := Nat.mod_lt _ hwf.pos
  obtain ⟨hinv2, hst⟩ := placed_ok (u := { bump t s with
      slots := t.slots.set ((h1 k % t.size + s) % t.size) k,
      inuse := t.inuse.set ((h1 k % t.size + s) % t.size) true,
      load := t.load + 1 }) hinv k s hs hbusy hfree rfl rfl (bump_size t s)
  obtain ⟨hbal2, hc2⟩ := bal_placed (u := { bump t s with
      slots := t.slots.set ((h1 k % t.size + s) % t.size) k,
      inuse := t.inuse.set ((h1 k % t.size + s) % t.size) true,
      load := t.load + 1 }) hwf hbal k _ hlt hfree hns rfl rfl rfl
  exact ⟨_, hins, hinv2, hbal2, bump_size t s, rfl, hc2, hst⟩

theorem insert_bal_step (MAX fuel : Nat) {t : LinearHashTable} {key : Nat}
    {r : LinearHashTable × Bool} (hinv : Inv t) (hbal : Bal t)
    (h : linear_hash_table_insert MAX fuel t key = Res.ret r)
    (hfull : ∀ h, probe t key t.size (h1 key % t.size) 0 = Res.ret (Probe.stop h t.size) →
      Bal r.1) : Bal r.1 := by
  have hwf := hinv.1
  have hpos : t.size ≠ 0 := Nat.pos_iff_ne_zero.mp hwf.pos
  rcases probe_home hwf key with ⟨s, hs, _, _, hh⟩ | ⟨s, hs, hsle, hbusy, hend⟩
  · rw [insert_hit MAX fuel hpos hs] at h
    cases h
    exact bal_congr (t := t) rfl rfl rfl hbal
  · by_cases hne : s = t.size
    · rw [hne] at hs
      exact hfull _ hs
    · have hlt : (h1 key % t.size + s) % t.size < t.size := Nat.mod_lt _ hwf.pos
      rw [insert_place MAX fuel hpos hs hne (by rw [hwf.slots_len]; exact hlt)
        (by rw [hwf.inuse_len]; exact hlt)] at h
      cases h
      have hns := not_stored_of_stop hinv key s hbusy hend
      rcases hend with hend | hend
      · exact absurd hend hne
      · exact (bal_placed hwf hbal key _ hlt hend hns rfl rfl rfl).1

theorem rehash_bal {ins : LinearHashTable → Nat → Res (LinearHashTable × Bool)}
    (hok : InsOk ins) (hb : InsBal ins) (os : List Nat) (ou : List Bool) :
    ∀ n i t t2, Inv t → Bal t → rehash ins os ou n i t = Res.ret t2 → Bal t2 := by
  intro n
  induction n with
  | zero =>
    intro i t t2 _ hbal h
    simp only [rehash, Res.ret.injEq] at h
    subst h
    exact hbal
  | succ n ih =>
    intro i t t2 hinv hbal h
    rw [rehash, Res.bind_eq_ret] at h
    obtain ⟨used, _, h⟩ := h
    cases used with
    | true =>
      simp only [if_true, Res.bind_eq_ret] at h
      obtain ⟨k, _, r, hr, h⟩ := h
      exact ih (i + 1) r.1 t2 (hok t k r hinv hr).1 (hb t k r hinv hbal hr) h
    | false =>
      simp only [Bool.false_eq_true, if_false] at h
      exact ih (i + 1) t t2 hinv hbal h

theorem bal_empty {t : LinearHashTable} {n : Nat} (e2 : t.inuse = List.replicate n false)
    (e3 : t.load = 0) : Bal t ∧ cnt t = 0 := by
  have hc : cnt t = 0 := by
    unfold cnt
    rw [e2]
    simp [List.count_replicate]
  refine ⟨⟨by rw [e3, hc], fun p q k hp _ => ?_⟩, hc⟩
  exact absurd hp (not_holds_empty e2 p k)

theorem double_table_with_bal {MAX : Nat}
    {ins : LinearHashTable → Nat → Res (LinearHashTable × Bool)}
    (hok : InsOk ins) (hb : InsBal ins) {t t2 : LinearHashTable} (hinv : Inv t)
    (h : double_table_with MAX ins t = Res.ret t2) : Bal t2 := by
  rw [double_table_with, Res.bind_eq_ret] at h
  obtain ⟨t0, h0, h⟩ := h
  obtain ⟨_, e1, e2, e3, e4⟩ := initialise_table_ret h0
  have hpos : 0 < t.size * 2 := by have := hinv.1.pos; omega
  exact rehash_bal hok hb t.slots t.inuse t.size 0 t0 t2 (inv_empty hpos e1 e2 e3)
    (bal_empty e2 e4).1 h

theorem insert_bal (MAX : Nat) : ∀ fuel, InsBal (linear_hash_table_insert MAX fuel) := by
  intro fuel
  induction fuel with
  | zero =>
    intro t key r hinv hbal h
    apply insert_bal_step MAX 0 hinv hbal h
    intro h0 hp
    rw [insert_full_zero MAX (Nat.pos_iff_ne_zero.mp hinv.1.pos) hp] at h
    cases h
  | succ fuel ih =>
    intro t key r hinv hbal h
    apply insert_bal_step MAX (fuel + 1) hinv hbal h
    intro h0 hp
    rw [insert_full_succ MAX fuel (Nat.pos_iff_ne_zero.mp hinv.1.pos) hp, Res.bind_eq_ret] at h
    obtain ⟨t2, hd, h⟩ := h
    have hinvb : Inv (bump t t.size) :=
      inv_congr (bump_slots t _) (bump_inuse t _) (bump_size t _) hinv
    obtain ⟨hinv2, _⟩ := double_table_with_ok (insert_ok MAX fuel) hinvb hd
    have hbal2 := double_table_with_bal (insert_ok MAX fuel) ih hinvb hd
    exact ih t2 key r hinv2 hbal2 h

theorem insert_all_inv (MAX fuel : Nat) (keys : List Nat) :
    ∀ t t2, Inv t → Bal t → insert_all MAX fuel t keys = Res.ret t2 → Inv t2 ∧ Bal t2 := by
  induction keys with
  | nil =>
    intro t t2 hinv hbal h
    simp only [insert_all, Res.ret.injEq] at h
    subst h
    exact ⟨hinv, hbal⟩
  | cons k ks ih =>
    intro t t2 hinv hbal h
    rw [insert_all, Res.bind_eq_ret] at h
    obtain ⟨r, hr, h⟩ := h
    exact ih r.1 t2 (insert_ok MAX fuel t k r hinv hr).1 (insert_bal MAX fuel t k r hinv hbal hr) h

/-- Every table made by `new_linear_hash_table(n)`, `n ≥ 1`, followed by
insertions satisfies the invariants. -/
theorem reach_inv {MAX fuel n : Nat} {keys : List Nat} {t : LinearHashTable} (hn : 1 ≤ n)
    (h : run MAX fuel n keys = Res.ret t) : Inv t ∧ Bal t := by
  unfold run new_linear_hash_table at h
  rw [Res.bind_eq_ret] at h
  obtain ⟨t0, h0, h⟩ := h
  obtain ⟨_, e1, e2, e3, e4⟩ := initialise_table_ret h0
  exact insert_all_inv MAX fuel keys t0 t (inv_empty hn e1 e2 e3) (bal_empty e2 e4).1 h

end Linear

namespace Linear

/-- Re-insertion of `n` distinct absent keys into a table with room for them:
every call returns true and keeps the size. -/
theorem rehash_fresh {ins : LinearHashTable → Nat → Res (LinearHashTable × Bool)}
    (hf : Fresh ins) (os : List Nat) (ou : List Bool) :
    ∀ n i t, Inv t → Bal t → cnt t + n ≤ t.size →
      (∀ p, i ≤ p → p < i + n → ou[p]? = some true ∧ ∃ k, os[p]? = some k ∧ ¬ stored t k) →
      (∀ p q k, i ≤ p → p < i + n → i ≤ q → q < i + n →
        os[p]? = some k → os[q]? = some k → p = q) →
      ∃ t2, rehash ins os ou n i t = Res.ret t2 ∧ Inv t2 ∧ Bal t2 ∧ t2.size = t.size ∧
        t2.load = t.load + n ∧ cnt t2 = cnt t + n ∧
        (∀ x, stored t2 x ↔ stored t x ∨ ∃ p, i ≤ p ∧ p < i + n ∧ os[p]? = some x) ∧
        (∀ m, m < n → ∃ tm k r, rehash ins os ou m i t = Res.ret tm ∧
          os[i + m]? = some k ∧ ins tm k = Res.ret (r, true) ∧ r.size = t.size) := by
  intro n
  induction n with
  | zero =>
    intro i t hinv hbal _ _ _
    refine ⟨t, rfl, hinv, hbal, rfl, rfl, rfl, fun x => ⟨Or.inl, ?_⟩, fun m hm => ?_⟩
    · rintro (h | ⟨p, h1, h2, _⟩)
      · exact h
      · omega
    · omega
  | succ n ih =>
    intro i t hinv hbal hc hall hdist
    obtain ⟨hu, k, hk, hns⟩ := hall i (Nat.le_refl _) (by omega)
    obtain ⟨r, hr, hinv2, hbal2, hsz, hld, hcn, hst⟩ := hf t k hinv hbal (by omega) hns
    have hstep : ∀ m, rehash ins os ou (m + 1) i t = rehash ins os ou m (i + 1) r := by
      intro m
      rw [rehash, rd_of_getElem? hu, Res.bind_ret]
      simp only [if_true]
      rw [rd_of_getElem? hk, Res.bind_ret, hr, Res.bind_ret]
    obtain ⟨t2, ht2, hinv3, hbal3, hsz3, hld3, hcn3, hst3, htr3⟩ :=
      ih (i + 1) r hinv2 hbal2 (by omega)
        (fun p hp1 hp2 => by
          obtain ⟨hu2, k2, hk2, hns2⟩ := hall p (by omega) (by omega)
          refine ⟨hu2, k2, hk2, fun hs2 => ?_⟩
          rcases (hst k2).mp hs2 with h | h
          · exact hns2 h
          · subst h
            have := hdist p i k2 (by omega) (by omega) (Nat.le_refl _) (by omega) hk2 hk
            omega)
        (fun p q k2 hp1 hp2 hq1 hq2 h1 h2 =>
          hdist p q k2 (by omega) (by omega) (by omega) (by omega) h1 h2)
    refine ⟨t2, by rw [hstep]; exact ht2, hinv3, hbal3, by omega, by omega, by omega,
      fun x => ?_, fun m hm => ?_⟩
    · rw [hst3, hst]
      constructor
      · rintro ((h | h) | ⟨p, h1, h2, h3⟩)
        · exact Or.inl h
        · subst h
          exact Or.inr ⟨i, Nat.le_refl _, by omega, hk⟩
        · exact Or.inr ⟨p, by omega, by omega, h3⟩
      · rintro (h | ⟨p, h1, h2, h3⟩)
        · exact Or.inl (Or.inl h)
        · by_cases hpi : p = i
          · subst hpi
            rw [hk] at h3
            exact Or.inl (Or.inr (Option.some.inj h3).symm)
          · exact Or.inr ⟨p, by omega, by omega, h3⟩
    · cases m with
      | zero => exact ⟨t, k, r, rfl, hk, hr, hsz⟩
      | succ m =>
        obtain ⟨tm, k2, r2, h1, h2, h3, h4⟩ := htr3 m (by omega)
        have e : i + (m + 1) = i + 1 + m := by omega
        exact ⟨tm, k2, r2, by rw [hstep]; exact h1, by rw [e]; exact h2, h3, by omega⟩

/-- A table whose cells are all in use holds `size` keys. -/
theorem cnt_of_full {t : LinearHashTable} (hwf : WF t)
    (hfull : ∀ p, p < t.size → t.inuse[p]? = some true) : cnt t = t.size := by
  unfold cnt
  rw [← hwf.inuse_len]
  apply count_true_eq_length
  intro q hq
  rw [hwf.inuse_len] at hq
  exact hfull q hq

/-- Insertion of an absent key into a full table that may double. -/
theorem insert_full_spec (MAX fuel : Nat) {t : LinearHashTable} (hinv : Inv t) (hbal : Bal t)
    (key : Nat) (hns : ¬ stored t key)
    (hfull : ∀ p, p < t.size → t.inuse[p]? = some true) (hmax : t.size * 2 < MAX) :
    ∃ t0 t2 r, initialise_table MAX (t.size * 2) = Res.ret t0 ∧
      rehash (linear_hash_table_insert MAX fuel) t.slots t.inuse t.size 0 t0 = Res.ret t2 ∧
      linear_hash_table_insert MAX fuel t2 key = Res.ret (r, true) ∧
      linear_hash_table_insert MAX (fuel + 1) t key = Res.ret (r, true) ∧
      t2.size = t.size * 2 ∧ t2.load = t.size ∧
      Inv r ∧ Bal r ∧ r.size = t.size * 2 ∧ r.load = t.load + 1 ∧
      (∀ x, stored r x ↔ stored t x ∨ x = key) ∧
      (∀ m, m < t.size → ∃ tm k r2,
        rehash (linear_hash_table_insert MAX fuel) t.slots t.inuse m 0 t0 = Res.ret tm ∧
        t.slots[m]? = some k ∧
        linear_hash_table_insert MAX fuel tm k = Res.ret (r2, true) ∧
        r2.size = t.size * 2) := by
  have hwf := hinv.1
  have hpos : t.size ≠ 0 := Nat.pos_iff_ne_zero.mp hwf.pos
  have hcnt := cnt_of_full hwf hfull
  have hlt : ∀ s, (h1 key % t.size + s) % t.size < t.size := fun s => Nat.mod_lt _ hwf.pos
  rcases probe_home hwf key with ⟨s, _, _, _, hh⟩ | ⟨s, hs, hsle, hbusy, hend⟩
  · exact absurd ⟨_, hh⟩ hns
  · have hse : s = t.size := by
      rcases hend with hend | hend
      · exact hend
      · have := hfull _ (hlt s)
        rw [hend] at this
        cases this
    rw [hse] at hs
    have hi : initialise_table MAX (t.size * 2) = Res.ret
        { slots := List.replicate (t.size * 2) 0, inuse := List.replicate (t.size * 2) false,
          size := t.size * 2, load := 0, preexist := 0, collision_count := 0 } := by
      unfold initialise_table
      rw [if_pos hmax]
    obtain ⟨_, e1, e2, e3, e4⟩ := initialise_table_ret hi
    have hinv0 := inv_empty (by omega) e1 e2 e3
    obtain ⟨hbal0, hc0⟩ := bal_empty e2 e4
    obtain ⟨t2, ht2, hinv2, hbal2, hsz2, hld2, hcn2, hst2, htr2⟩ :=
      rehash_fresh (insert_fresh_spec MAX fuel) t.slots t.inuse t.size 0 _ hinv0 hbal0
        (by rw [hc0, e3]; omega)
        (fun p _ hp => by
          have hp2 : p < t.size := by omega
          obtain ⟨k, hk⟩ := getElem?_exists t.slots p (by rw [hwf.slots_len]; exact hp2)
          exact ⟨hfull p hp2, k, hk, fun ⟨q, hq⟩ => not_holds_empty e2 q k hq⟩)
        (fun p q k _ hp _ hq h1 h2 =>
          hbal.2 p q k ⟨hfull p (by omega), h1⟩ ⟨hfull q (by omega), h2⟩)
    rw [e3] at hsz2
    rw [e4] at hld2
    rw [hc0] at hcn2
    obtain ⟨r, hr, hinv3, hbal3, hsz3, hld3, _, hst3⟩ :=
      insert_fresh_spec MAX fuel t2 key hinv2 hbal2 (by omega)
        (fun h => by
          rcases (hst2 key).mp h with ⟨q, hq⟩ | ⟨p, _, hp, hk⟩
          · exact not_holds_empty e2 q key hq
          · exact hns ⟨p, hfull p (by omega), hk⟩)
    have hd : double_table_with MAX (linear_hash_table_insert MAX fuel) (bump t t.size)
        = Res.ret t2 := by
      unfold double_table_with
      rw [bump_size, bump_slots, bump_inuse, hi, Res.bind_ret]
      exact ht2
    refine ⟨_, t2, r, hi, ht2, hr, ?_, hsz2, by omega, hinv3, hbal3, by omega, ?_,
      fun x => ?_, fun m hm => ?_⟩
    · rw [insert_full_succ MAX fuel hpos hs, hd, Res.bind_ret]
      exact hr
    · rw [hld3, hld2, hbal.1, hcnt]
      omega
    · rw [hst3, hst2]
      constructor
      · rintro ((⟨q, hq⟩ | ⟨p, _, hp, hk⟩) | h)
        · exact absurd hq (not_holds_empty e2 q x)
        · exact Or.inl ⟨p, hfull p (by omega), hk⟩
        · exact Or.inr h
      · rintro (⟨p, hp⟩ | h)
        · exact Or.inl (Or.inr ⟨p, Nat.zero_le _, by have := holds_lt hwf hp; omega, hp.2⟩)
        · exact Or.inr h
    · obtain ⟨tm, k, r2, h1, h2, h3, h4⟩ := htr2 m hm
      rw [Nat.zero_add] at h2
      exact ⟨tm, k, r2, h1, h2, h3, by rw [h4, e3]⟩

end Linear

namespace Linear

theorem stored_of_lookup {t : LinearHashTable} (hinv : Inv t) {key : Nat}
    (h : linear_hash_table_lookup t key = Res.ret true) : stored t key := by
  rcases lookup_spec hinv key with ⟨_, hs⟩ | ⟨hl, _⟩
  · exact hs
  · rw [hl] at h
    cases h

theorem not_stored_of_lookup {t : LinearHashTable} (hinv : Inv t) {key : Nat}
    (h : linear_hash_table_lookup t key = Res.ret false) : ¬ stored t key := by
  rcases lookup_spec hinv key with ⟨hl, _⟩ | ⟨_, hs⟩
  · rw [hl] at h
    cases h
  · exact hs

theorem lookup_true_iff {t : LinearHashTable} (hinv : Inv t) (key : Nat) :
    linear_hash_table_lookup t key = Res.ret true ↔ stored t key := by
  constructor
  · exact stored_of_lookup hinv
  · intro hs
    rcases lookup_spec hinv key with ⟨hl, _⟩ | ⟨_, hns⟩
    · exact hl
    · exact absurd hs hns

/-- A run that starts from a table of no cell returns only when nothing is
inserted. -/
theorem run_zero {MAX fuel : Nat} {keys : List Nat} {t : LinearHashTable}
    (h : run MAX fuel 0 keys = Res.ret t) :
    t.inuse = [] ∧ t.size = 0 ∧ t.load = 0 := by
  unfold run new_linear_hash_table at h
  rw [Res.bind_eq_ret] at h
  obtain ⟨t0, h0, h⟩ := h
  obtain ⟨_, _, e2, e3, e4⟩ := initialise_table_ret h0
  cases keys with
  | nil =>
    simp only [insert_all, Res.ret.injEq] at h
    subst h
    exact ⟨by rw [e2]; rfl, e3, e4⟩
  | cons k ks =>
    rw [insert_all, Res.bind_eq_ret] at h
    obtain ⟨r, hr, _⟩ := h
    have : linear_hash_table_insert MAX fuel t0 k = Res.abort := by
      cases fuel <;> rw [linear_hash_table_insert, if_pos e3]
    rw [this] at hr
    cases hr

/-- A reachable table on which a lookup returns has cells, so it satisfies the
invariants. -/
theorem reach_inv_of_lookup {MAX fuel n : Nat} {keys : List Nat} {t : LinearHashTable}
    {K : Nat} {b : Bool} (h : run MAX fuel n keys = Res.ret t)
    (hl : linear_hash_table_lookup t K = Res.ret b) : Inv t ∧ Bal t := by
  by_cases hn : 1 ≤ n
  · exact reach_inv hn h
  · have hn0 : n = 0 := by omega
    subst hn0
    obtain ⟨_, e2, _⟩ := run_zero h
    unfold linear_hash_table_lookup at hl
    rw [if_pos e2] at hl
    cases hl

end Linear

section

open Linear

/-- C13. Linear duplicate insert: for every table reached from
`new_linear_hash_table(n)` by insertions and every key `K` that
lookup finds in it (the table may be completely full),
`linear_hash_table_insert(K)` returns false and leaves the slot array, the
in-use flags, `size` and `load` as they were. -/
theorem linear_duplicate_insert (MAX_TABLE_SIZE fuel0 fuel n : Nat) (keys : List Nat)
    (t : LinearHashTable) (K : Nat)
    (hreach : Linear.run MAX_TABLE_SIZE fuel0 n keys = Res.ret t)
    (hK : linear_hash_table_lookup t K = Res.ret true) :
    ∃ t2, linear_hash_table_insert MAX_TABLE_SIZE fuel t K = Res.ret (t2, false) ∧
      t2.slots = t.slots ∧ t2.inuse = t.inuse ∧ t2.size = t.size ∧ t2.load = t.load := by
  obtain ⟨hinv, _⟩ := reach_inv_of_lookup hreach hK
  exact ⟨_, insert_dup MAX_TABLE_SIZE fuel hinv K (stored_of_lookup hinv hK), rfl, rfl, rfl, rfl⟩

/-- Witness for C13: the full table of two cells holding 1 and 2, and the key 2,
which sits one step after its home cell. -/
theorem linear_duplicate_insert_witness :
    ∃ t2, linear_hash_table_insert 100 0 ⟨[1, 2], [true, true], 2, 2, 0, 1⟩ 2
        = Res.ret (t2, false) ∧
      t2.slots = [1, 2] ∧ t2.inuse = [true, true] ∧ t2.size = 2 ∧ t2.load = 2 :=
  linear_duplicate_insert 100 1 0 2 [1, 2] ⟨[1, 2], [true, true], 2, 2, 0, 1⟩ 2
    (by decide!) (by decide!)

/-- C14. Linear first-free-slot placement: for every table reached from
`new_linear_hash_table(n)` by insertions that has a free cell, and
every key `K` that lookup does not find in it, `linear_hash_table_insert(K)`
returns true; with `j` the least number such that cell
`(h1(K) mod size + j) mod size` is free, `K` is written into that cell and
its flag is set, every other cell and flag is as before, `size` is kept and
`load` grows by exactly 1. -/
theorem linear_first_free_slot (MAX_TABLE_SIZE fuel0 fuel n : Nat) (keys : List Nat)
    (t : LinearHashTable) (K : Nat)
    (hreach : Linear.run MAX_TABLE_SIZE fuel0 n keys = Res.ret t)
    (hfree : ∃ p : Nat, t.inuse[p]? = some false)
    (hK : linear_hash_table_lookup t K = Res.ret false) :
    ∃ j t2, j < t.size ∧
      (∀ i, i < j → t.inuse[(h1 K % t.size + i) % t.size]? = some true) ∧
      t.inuse[(h1 K % t.size + j) % t.size]? = some false ∧
      linear_hash_table_insert MAX_TABLE_SIZE fuel t K = Res.ret (t2, true) ∧
      t2.slots = t.slots.set ((h1 K % t.size + j) % t.size) K ∧
      t2.inuse = t.inuse.set ((h1 K % t.size + j) % t.size) true ∧
      t2.slots[(h1 K % t.size + j) % t.size]? = some K ∧
      t2.inuse[(h1 K % t.size + j) % t.size]? = some true ∧
      (∀ q, q ≠ (h1 K % t.size + j) % t.size →
        t2.slots[q]? = t.slots[q]? ∧ t2.inuse[q]? = t.inuse[q]?) ∧
      t2.size = t.size ∧ t2.load = t.load + 1 := by
  obtain ⟨hinv, _⟩ := reach_inv_of_lookup hreach hK
  obtain ⟨p, hp⟩ := hfree
  have hwf := hinv.1
  obtain ⟨s, hs, hbusy, hfr, hins⟩ :=
    insert_fresh MAX_TABLE_SIZE fuel hwf K (not_stored_of_lookup hinv hK) p hp
  have hlt : (h1 K % t.size + s) % t.size < t.size := Nat.mod_lt _ hwf.pos
  refine ⟨s, _, hs, fun i hi => (hbusy i hi).1, hfr, hins, rfl, rfl, ?_, ?_, fun q hq => ⟨?_, ?_⟩,
    bump_size t s, rfl⟩
  · show (t.slots.set _ K)[_]? = some K
    rw [List.getElem?_set_self (by rw [hwf.slots_len]; exact hlt)]
  · show (t.inuse.set _ true)[_]? = some true
    rw [List.getElem?_set_self (by rw [hwf.inuse_len]; exact hlt)]
  · show (t.slots.set _ K)[q]? = _
    rw [List.getElem?_set_ne (fun h => hq h.symm)]
  · show (t.inuse.set _ true)[q]? = _
    rw [List.getElem?_set_ne (fun h => hq h.symm)]

/-- Witness for C14: table of four cells holding 1 in cell 0; the key 2 has the
same home cell 0 and lands in cell 1. -/
theorem linear_first_free_slot_witness :
    ∃ j t2, j < 4 ∧
      (∀ i, i < j → [true, false, false, false][(h1 2 % 4 + i) % 4]? = some true) ∧
      [true, false, false, false][(h1 2 % 4 + j) % 4]? = some false ∧
      linear_hash_table_insert 100 0
        ⟨[1, 0, 0, 0], [true, false, false, false], 4, 1, 0, 0⟩ 2 = Res.ret (t2, true) ∧
      t2.slots = [1, 0, 0, 0].set ((h1 2 % 4 + j) % 4) 2 ∧
      t2.inuse = [true, false, false, false].set ((h1 2 % 4 + j) % 4) true ∧
      t2.slots[(h1 2 % 4 + j) % 4]? = some 2 ∧
      t2.inuse[(h1 2 % 4 + j) % 4]? = some true ∧
      (∀ q, q ≠ (h1 2 % 4 + j) % 4 →
        t2.slots[q]? = [1, 0, 0, 0][q]? ∧ t2.inuse[q]? = [true, false, false, false][q]?) ∧
      t2.size = 4 ∧ t2.load = 1 + 1 :=
  linear_first_free_slot 100 1 0 4 [1] ⟨[1, 0, 0, 0], [true, false, false, false], 4, 1, 0, 0⟩ 2
    (by decide!) ⟨1, rfl⟩ (by decide!)

/-- C15. Linear doubling on a full table: for every table reached from
`new_linear_hash_table(n)` by insertions whose cells are all in use, every
key `K` that lookup does not find in it (so the table has cells), and
`2 * size < MAX_TABLE_SIZE`, `linear_hash_table_insert(K)` returns true; the
new size is twice the old one, lookup finds exactly the keys found before and
`K`, `load` is the old `load` plus 1, and each re-insertion made by
`double_table` (of the key of cell `m`, into the table built from the cells
before `m`) returns true and leaves the size at twice the old one, so none
triggers a further doubling. -/
theorem linear_doubling_on_full (MAX_TABLE_SIZE fuel0 fuel n : Nat) (keys : List Nat)
    (t : LinearHashTable) (K : Nat)
    (hreach : Linear.run MAX_TABLE_SIZE fuel0 n keys = Res.ret t)
    (hfull : ∀ p, p < t.size → t.inuse[p]? = some true)
    (hK : linear_hash_table_lookup t K = Res.ret false)
    (hmax : 2 * t.size < MAX_TABLE_SIZE) :
    ∃ t0 t2, initialise_table MAX_TABLE_SIZE (t.size * 2) = Res.ret t0 ∧
      linear_hash_table_insert MAX_TABLE_SIZE (fuel + 1) t K = Res.ret (t2, true) ∧
      t2.size = 2 * t.size ∧
      (∀ x, linear_hash_table_lookup t2 x = Res.ret true ↔
        (linear_hash_table_lookup t x = Res.ret true ∨ x = K)) ∧
      t2.load = t.load + 1 ∧
      (∀ m, m < t.size → ∃ tm k r,
        rehash (linear_hash_table_insert MAX_TABLE_SIZE fuel) t.slots t.inuse m 0 t0
          = Res.ret tm ∧
        t.slots[m]? = some k ∧
        linear_hash_table_insert MAX_TABLE_SIZE fuel tm k = Res.ret (r, true) ∧
        r.size = 2 * t.size) := by
  obtain ⟨hinv, hbal⟩ := reach_inv_of_lookup hreach hK
  obtain ⟨t0, t1, r, h0, _, _, hins, _, _, hinv2, _, hsz, hld, hst, htr⟩ :=
    insert_full_spec MAX_TABLE_SIZE fuel hinv hbal K (not_stored_of_lookup hinv hK) hfull
      (by omega)
  refine ⟨t0, r, h0, hins, by omega, fun x => ?_, hld, fun m hm => ?_⟩
  · rw [lookup_true_iff hinv2, lookup_true_iff hinv, hst]
  · obtain ⟨tm, k, r2, h1, h2, h3, h4⟩ := htr m hm
    exact ⟨tm, k, r2, h1, h2, h3, by omega⟩

/-- Witness for C15: the full table of two cells holding 1 and 2, and the key 3. -/
theorem linear_doubling_on_full_witness :
    ∃ t0 t2, initialise_table 100 (2 * 2) = Res.ret t0 ∧
      linear_hash_table_insert 100 (0 + 1) ⟨[1, 2], [true, true], 2, 2, 0, 1⟩ 3
        = Res.ret (t2, true) ∧
      t2.size = 2 * 2 ∧
      (∀ x, linear_hash_table_lookup t2 x = Res.ret true ↔
        (linear_hash_table_lookup ⟨[1, 2], [true, true], 2, 2, 0, 1⟩ x = Res.ret true ∨
          x = 3)) ∧
      t2.load = 2 + 1 ∧
      (∀ m, m < 2 → ∃ tm k r,
        rehash (linear_hash_table_insert 100 0) [1, 2] [true, true] m 0 t0 = Res.ret tm ∧
        [1, 2][m]? = some k ∧
        linear_hash_table_insert 100 0 tm k = Res.ret (r, true) ∧
        r.size = 2 * 2) :=
  linear_doubling_on_full 100 1 0 2 [1, 2] ⟨[1, 2], [true, true], 2, 2, 0, 1⟩ 3
    (by decide!) (by decide!) (by decide!) (by decide)

/-- C20. Linear load never drifts: in every table reached from
`new_linear_hash_table(n)` by insertions, `load` is the number of cells whose
in-use flag is true, `load ≤ size`, and no key is held by two cells in use. -/
theorem linear_load_exact (MAX_TABLE_SIZE fuel n : Nat) (keys : List Nat)
    (t : LinearHashTable)
    (hreach : Linear.run MAX_TABLE_SIZE fuel n keys = Res.ret t) :
    t.load = t.inuse.count true ∧ t.load ≤ t.size ∧
    ∀ p q k : Nat, t.inuse[p]? = some true → t.slots[p]? = some k →
      t.inuse[q]? = some true → t.slots[q]? = some k → p = q := by
  by_cases hn : 1 ≤ n
  · obtain ⟨hinv, hbal⟩ := reach_inv hn hreach
    refine ⟨hbal.1, ?_, fun p q k h1 h2 h3 h4 => hbal.2 p q k ⟨h1, h2⟩ ⟨h3, h4⟩⟩
    rw [hbal.1, ← hinv.1.inuse_len]
    exact List.count_le_length _ _
  · have hn0 : n = 0 := by omega
    subst hn0
    obtain ⟨e1, e2, e3⟩ := run_zero hreach
    refine ⟨by rw [e3, e1]; rfl, by omega, fun p q k h1 _ _ _ => ?_⟩
    rw [e1] at h1
    cases h1

/-- Witness for C20: five keys into a table of two cells (two doublings). -/
theorem linear_load_exact_witness :
    (⟨[2, 3, 4, 0, 1, 0, 5, 0], [true, true, true, false, true, false, true, false],
        8, 5, 0, 0⟩ : LinearHashTable).load
      = [true, true, true, false, true, false, true, false].count true ∧
    (⟨[2, 3, 4, 0, 1, 0, 5, 0], [true, true, true, false, true, false, true, false],
        8, 5, 0, 0⟩ : LinearHashTable).load ≤ 8 ∧
    ∀ p q k : Nat, [true, true, true, false, true, false, true, false][p]? = some true →
      [2, 3, 4, 0, 1, 0, 5, 0][p]? = some k →
      [true, true, true, false, true, false, true, false][q]? = some true →
      [2, 3, 4, 0, 1, 0, 5, 0][q]? = some k → p = q :=
  linear_load_exact 100 2 2 [1, 2, 3, 4, 5]
    ⟨[2, 3, 4, 0, 1, 0, 5, 0], [true, true, true, false, true, false, true, false], 8, 5, 0, 0⟩
    (by decide!)

end

namespace Linear

/-- The probe loop, given any number of iterations `rem` that reaches the end
of the table, enters its body at most `size - steps` more times; its outcome
does not depend on `rem`, and the counting loop computes what the loop
computes. -/
theorem probe_count_spec (t : LinearHashTable) (key h0 : Nat) (hwf : WF t) :
    ∀ d steps iters, steps ≤ t.size → t.size - steps = d →
      ∃ p n, n + steps ≤ iters + t.size ∧ ∀ rem, t.size ≤ rem + steps →
        probe_count t key rem ((h0 + steps) % t.size) steps iters = Res.ret (p, n) ∧
        probe t key rem ((h0 + steps) % t.size) steps = Res.ret p := by
  intro d
  induction d with
  | zero =>
    intro steps iters hle hd
    have hs : steps = t.size := by omega
    have hlt : (h0 + steps) % t.size < t.inuse.length := by
      rw [hwf.inuse_len]; exact Nat.mod_lt _ hwf.pos
    obtain ⟨b, hb⟩ := getElem?_exists t.inuse _ hlt
    refine ⟨Probe.stop ((h0 + steps) % t.size) steps, iters, by omega, fun rem _ => ⟨?_, ?_⟩⟩
    · unfold probe_count
      rw [rd_of_getElem? hb]
      simp [hs]
    · unfold probe
      rw [rd_of_getElem? hb]
      simp [hs]
  | succ d ih =>
    intro steps iters hle hd
    have hs : steps < t.size := by omega
    have hlt : (h0 + steps) % t.size < t.inuse.length := by
      rw [hwf.inuse_len]; exact Nat.mod_lt _ hwf.pos
    have hlt2 : (h0 + steps) % t.size < t.slots.length := by
      rw [hwf.slots_len]; exact Nat.mod_lt _ hwf.pos
    rcases rd_bool_cases t.inuse _ hlt with hb | hb
    · obtain ⟨k, hk⟩ := getElem?_exists t.slots _ hlt2
      by_cases hkey : k = key
      · refine ⟨Probe.hit, iters + 1, by omega, fun rem _ => ⟨?_, ?_⟩⟩
        · unfold probe_count
          rw [rd_of_getElem? hb, rd_of_getElem? hk]
          simp [hs, hkey]
        · unfold probe
          rw [rd_of_getElem? hb, rd_of_getElem? hk]
          simp [hs, hkey]
      · have hstep : ((h0 + steps) % t.size + STEP_SIZE) % t.size
            = (h0 + (steps + 1)) % t.size := by
          simp [STEP_SIZE, Nat.add_assoc]
        obtain ⟨p, n, h2, h3⟩ := ih (steps + 1) (iters + 1) hs (by omega)
        refine ⟨p, n, by omega, fun rem hrem => ?_⟩
        cases rem with
        | zero => omega
        | succ rem =>
          obtain ⟨a1, a2⟩ := h3 rem (by omega)
          constructor
          · unfold probe_count
            rw [rd_of_getElem? hb, rd_of_getElem? hk]
            simp only [Res.bind_ret, hs, decide_True, Bool.and_self, if_true, hkey, if_false,
              hstep]
            exact a1
          · unfold probe
            rw [rd_of_getElem? hb, rd_of_getElem? hk]
            simp only [Res.bind_ret, hs, decide_True, Bool.and_self, if_true, hkey, if_false,
              hstep]
            exact a2
    · refine ⟨Probe.stop ((h0 + steps) % t.size) steps, iters, by omega, fun rem _ => ⟨?_, ?_⟩⟩
      · unfold probe_count
        rw [rd_of_getElem? hb]
        simp
      · unfold probe
        rw [rd_of_getElem? hb]
        simp

end Linear

section

open Linear

/-- C25. Linear probing is bounded: for every linear table with `size ≥ 1`
cells (a full one included) and every key, the probe loop of lookup and
insert, started at `h1(key) mod size`, ends after entering its body
`n ≤ size` times, whatever bound `rem ≥ size` is put on its iterations; with
its outcome `p`, lookup returns true when `p` is a hit and false otherwise,
insert returns false when `p` is a hit and true when the loop stopped on a
free cell before `size` steps; and the lookup of a key that no cell holds, in
a table whose cells are all in use, returns false. -/
theorem linear_probe_bounded (MAX_TABLE_SIZE fuel : Nat) (t : LinearHashTable) (key : Nat)
    (hsize : 1 ≤ t.size) (hslots : t.slots.length = t.size)
    (hinuse : t.inuse.length = t.size) :
    (∃ p n, n ≤ t.size ∧
      (∀ rem, t.size ≤ rem →
        probe_count t key rem (h1 key % t.size) 0 0 = Res.ret (p, n) ∧
        probe t key rem (h1 key % t.size) 0 = Res.ret p) ∧
      linear_hash_table_lookup t key = Res.ret (decide (p = Probe.hit)) ∧
      (p = Probe.hit → ∃ t2, linear_hash_table_insert MAX_TABLE_SIZE fuel t key
        = Res.ret (t2, false)) ∧
      (∀ h s, p = Probe.stop h s → s < t.size →
        ∃ t2, linear_hash_table_insert MAX_TABLE_SIZE fuel t key = Res.ret (t2, true))) ∧
    ((∀ q, q < t.size → t.inuse[q]? = some true ∧ t.slots[q]? ≠ some key) →
      linear_hash_table_lookup t key = Res.ret false) := by
  have hwf : WF t := ⟨hsize, hslots, hinuse⟩
  have hpos : t.size ≠ 0 := by omega
  have e : (h1 key % t.size + 0) % t.size = h1 key % t.size := by
    rw [Nat.add_zero, Nat.mod_mod]
  obtain ⟨p, n, h2, h3⟩ :=
    probe_count_spec t key (h1 key % t.size) hwf t.size 0 0 (Nat.zero_le _) (by omega)
  rw [e] at h3
  have hp := (h3 t.size (by omega)).2
  have hlook : linear_hash_table_lookup t key = Res.ret (decide (p = Probe.hit)) := by
    unfold linear_hash_table_lookup
    rw [if_neg hpos, hp, Res.bind_ret]
    cases p <;> simp
  constructor
  · refine ⟨p, n, by omega, fun rem hrem => h3 rem (by omega), hlook, fun hhit => ?_,
      fun h s hstop hs => ?_⟩
    · rw [hhit] at hp
      exact ⟨_, insert_hit MAX_TABLE_SIZE fuel hpos hp⟩
    · rw [hstop] at hp
      rcases probe_home hwf key with ⟨s2, hs2, _⟩ | ⟨s2, hs2, _, _, _⟩
      · rw [hp] at hs2
        cases hs2
      · rw [hp] at hs2
        simp only [Res.ret.injEq, Probe.stop.injEq] at hs2
        have hlt : h < t.size := by
          rw [hs2.1]
          exact Nat.mod_lt _ hsize
        exact ⟨_, insert_place MAX_TABLE_SIZE fuel hpos hp (by omega)
          (by rw [hslots]; exact hlt) (by rw [hinuse]; exact hlt)⟩
  · intro hfull
    rw [hlook]
    rcases probe_home hwf key with ⟨s2, hs2, hlt, _, hh⟩ | ⟨s2, hs2, _, _, _⟩
    · exact absurd hh.2 (hfull _ (Nat.mod_lt _ hsize)).2
    · rw [hp] at hs2
      simp only [Res.ret.injEq] at hs2
      rw [hs2]
      simp

/-- Witness for C25: the full table of two cells holding 1 and 2, and the
absent key 3. -/
theorem linear_probe_bounded_witness :
    (∃ p n, n ≤ 2 ∧
      (∀ rem, 2 ≤ rem →
        probe_count ⟨[1, 2], [true, true], 2, 2, 0, 1⟩ 3 rem (h1 3 % 2) 0 0 = Res.ret (p, n) ∧
        probe ⟨[1, 2], [true, true], 2, 2, 0, 1⟩ 3 rem (h1 3 % 2) 0 = Res.ret p) ∧
      linear_hash_table_lookup ⟨[1, 2], [true, true], 2, 2, 0, 1⟩ 3
        = Res.ret (decide (p = Probe.hit)) ∧
      (p = Probe.hit → ∃ t2, linear_hash_table_insert 100 0
        ⟨[1, 2], [true, true], 2, 2, 0, 1⟩ 3 = Res.ret (t2, false)) ∧
      (∀ h s, p = Probe.stop h s → s < 2 →
        ∃ t2, linear_hash_table_insert 100 0 ⟨[1, 2], [true, true], 2, 2, 0, 1⟩ 3
          = Res.ret (t2, true))) ∧
    ((∀ q, q < 2 → [true, true][q]? = some true ∧ [1, 2][q]? ≠ some 3) →
      linear_hash_table_lookup ⟨[1, 2], [true, true], 2, 2, 0, 1⟩ 3 = Res.ret false) :=
  linear_probe_bounded 100 0 ⟨[1, 2], [true, true], 2, 2, 0, 1⟩ 3 (by decide) rfl rfl

end

namespace Linear

/-- A table without cells has unbroken probe chains. -/
theorem chain_of_nil {t : LinearHashTable} (h : t.inuse = []) : Chain t := by
  intro p k hp
  have := hp.1
  rw [h] at this
  simp at this

/-- Every table made by `new_linear_hash_table(n)` followed by insertions has
unbroken probe chains, also for `n = 0`. -/
theorem reach_chain {MAX fuel n : Nat} {keys : List Nat} {t : LinearHashTable}
    (h : run MAX fuel n keys = Res.ret t) : Chain t ∧ (1 ≤ t.size → Inv t) := by
  by_cases hn : 1 ≤ n
  · have hinv := (reach_inv hn h).1
    exact ⟨hinv.2, fun _ => hinv⟩
  · have hn0 : n = 0 := by omega
    subst hn0
    obtain ⟨e1, e2, _⟩ := run_zero h
    exact ⟨chain_of_nil e1, fun hs => by omega⟩

/-- The function `double_table` on a table that satisfies the invariant, when
the doubled size is allowed: it returns a table of twice the size that
satisfies the invariant and holds the same keys. -/
theorem double_table_spec (MAX fuel : Nat) {t : LinearHashTable} (hinv : Inv t)
    (hm : t.size * 2 < MAX) :
    ∃ t2, double_table MAX fuel t = Res.ret t2 ∧ t2.size = t.size * 2 ∧ Inv t2 ∧
      ∀ x, stored t2 x ↔ stored t x := by
  have hwf := hinv.1
  have hwf0 : WF { slots := List.replicate (t.size * 2) 0, inuse := List.replicate (t.size * 2) false, size := t.size * 2, load := 0, preexist := 0, collision_count := 0 } :=
    ⟨by have := hwf.pos; show 0 < t.size * 2; omega, by simp, by simp⟩
  have hc0 : cnt { slots := List.replicate (t.size * 2) 0, inuse := List.replicate (t.size * 2) false, size := t.size * 2, load := 0, preexist := 0, collision_count := 0 } = 0 := by
    simp [cnt, List.count_replicate]
  obtain ⟨t2, ht2, _, hsz, _⟩ := rehash_total (insert_free MAX fuel) t.slots t.inuse t.size 0 _
    hwf0 (by rw [hc0]; show 0 + t.size ≤ t.size * 2; omega)
    (by rw [hwf.slots_len]; omega) (by rw [hwf.inuse_len]; omega)
  have hd : double_table_with MAX (linear_hash_table_insert MAX fuel) t = Res.ret t2 := by
    unfold double_table_with initialise_table
    rw [if_pos hm, Res.bind_ret]
    exact ht2
  obtain ⟨hinv2, hst⟩ := double_table_with_ok (insert_ok MAX fuel) hinv hd
  exact ⟨t2, hd, hsz, hinv2, hst⟩

end Linear

section

open Linear

/-- C37. Linear probe-chain invariant: in every table reached from
`new_linear_hash_table(n)` by insertions, for every cell in use `p` holding a
key `k`, every cell on the cyclic path `h1(k) mod size`,
`h1(k) mod size + 1`, ..., `p` (indices mod `size`) is in use; and when the
doubled size is allowed, `double_table` returns a table of twice the size,
holding the same keys, in which this holds again. -/
theorem linear_probe_chain (MAX_TABLE_SIZE fuel0 fuel n : Nat) (keys : List Nat)
    (t : LinearHashTable) (hreach : Linear.run MAX_TABLE_SIZE fuel0 n keys = Res.ret t) :
    (∀ p k, t.inuse[p]? = some true → t.slots[p]? = some k →
      ∀ d, d < t.size → (h1 k % t.size + d) % t.size = p →
        ∀ j, j ≤ d → t.inuse[(h1 k % t.size + j) % t.size]? = some true) ∧
    (1 ≤ t.size → t.size * 2 < MAX_TABLE_SIZE →
      ∃ t2, double_table MAX_TABLE_SIZE fuel t = Res.ret t2 ∧ t2.size = t.size * 2 ∧
        (∀ x, (∃ p : Nat, t2.inuse[p]? = some true ∧ t2.slots[p]? = some x) ↔
          (∃ p : Nat, t.inuse[p]? = some true ∧ t.slots[p]? = some x)) ∧
        ∀ p k, t2.inuse[p]? = some true → t2.slots[p]? = some k →
          ∀ d, d < t2.size → (h1 k % t2.size + d) % t2.size = p →
            ∀ j, j ≤ d → t2.inuse[(h1 k % t2.size + j) % t2.size]? = some true) := by
  obtain ⟨hch, hinv⟩ := reach_chain hreach
  have key : ∀ u : LinearHashTable, Chain u → ∀ p k, u.inuse[p]? = some true →
      u.slots[p]? = some k → ∀ d, d < u.size → (h1 k % u.size + d) % u.size = p →
        ∀ j, j ≤ d → u.inuse[(h1 k % u.size + j) % u.size]? = some true := by
    intro u hu p k h1' h2' d hd hp j hj
    by_cases hjd : j = d
    · rw [hjd, hp]
      exact h1'
    · exact hu p k ⟨h1', h2'⟩ d hd hp j (by omega)
  refine ⟨key t hch, fun hs hm => ?_⟩
  obtain ⟨t2, hd, hsz, hinv2, hst⟩ := double_table_spec MAX_TABLE_SIZE fuel (hinv hs) hm
  exact ⟨t2, hd, hsz, hst, key t2 hinv2.2⟩

/-- Witness for C37: the table of two cells that holds 1 and 2, the key 2 one
step after its home cell, doubled to four cells. -/
theorem linear_probe_chain_witness :
    (∀ p k, [true, true][p]? = some true → [1, 2][p]? = some k →
      ∀ d, d < 2 → (h1 k % 2 + d) % 2 = p →
        ∀ j, j ≤ d → [true, true][(h1 k % 2 + j) % 2]? = some true) ∧
    (1 ≤ 2 → 2 * 2 < 100 →
      ∃ t2, double_table 100 1 ⟨[1, 2], [true, true], 2, 2, 0, 1⟩ = Res.ret t2 ∧
        t2.size = 2 * 2 ∧
        (∀ x, (∃ p : Nat, t2.inuse[p]? = some true ∧ t2.slots[p]? = some x) ↔
          (∃ p : Nat, [true, true][p]? = some true ∧ [1, 2][p]? = some x)) ∧
        ∀ p k, t2.inuse[p]? = some true → t2.slots[p]? = some k →
          ∀ d, d < t2.size → (h1 k % t2.size + d) % t2.size = p →
            ∀ j, j ≤ d → t2.inuse[(h1 k % t2.size + j) % t2.size]? = some true) :=
  linear_probe_chain 100 1 1 2 [1, 2] ⟨[1, 2], [true, true], 2, 2, 0, 1⟩ (by decide!)

end

namespace Cuckoo

theorem ck_index_eq (size : Nat) (first_table : Bool) (key : Nat) (h : size ≠ 0) :
    get_cuckoo_index size first_table key = Res.ret (hashOf first_table key % size) := by
  unfold get_cuckoo_index hashOf
  rw [if_neg h]
  cases first_table <;> simp

theorem ck_realloc_length {α : Type} (a : List α) (n : Nat) (fill : α) (h : a.length ≤ n) :
    (realloc a n fill).length = n := by
  simp [realloc, List.length_take]
  omega

theorem ck_realloc_get {α : Type} (a : List α) (n : Nat) (fill : α) (h : a.length ≤ n)
    (q : Nat) :
    (realloc a n fill)[q]? = if q < a.length then a[q]? else if q < n then some fill else none := by
  unfold realloc
  rw [List.take_of_length_le h]
  by_cases hq : q < a.length
  · rw [if_pos hq, List.getElem?_append_left hq]
  · rw [if_neg hq, List.getElem?_append_right (Nat.le_of_not_lt hq), List.getElem?_replicate]
    by_cases hq2 : q < n
    · rw [if_pos hq2, if_pos (by omega)]
    · rw [if_neg hq2, if_neg (by omega)]

/-- A `clear_loop` on cells that are already free changes nothing. -/
theorem ck_clear_loop_id (m : Nat) :
    ∀ ix (u : List Bool), ix + m ≤ u.length →
      (∀ q, ix ≤ q → q < ix + m → u[q]? = some false) →
      clear_loop m ix u = Res.ret u := by
  induction m with
  | zero =>
    intro ix u _ _
    rfl
  | succ m ih =>
    intro ix u h hfree
    have hset : u.set ix false = u := by
      apply List.ext_getElem?
      intro q
      rw [List.getElem?_set]
      split
      · rename_i e
        subst e
        rw [if_pos (by omega)]
        exact (hfree ix (le_refl _) (by omega)).symm
      · rfl
    rw [clear_loop, wr_of_lt false (by omega), Res.bind_ret, hset]
    exact ih (ix + 1) u (by omega) (fun q h1 h2 => hfree q (by omega) (by omega))

end Cuckoo

namespace Cuckoo

theorem ck_iholds_lt {it : InnerTable} {q k : Nat} (h : iholds it q k) :
    q < it.inuse.length := lt_length_of_getElem? h.1

/-- The cells in use after a key moved from cell `ix` to the free cell `ni`. -/
theorem ck_iholds_moved (it : InnerTable) (ix ni k : Nat) (hne : ix ≠ ni)
    (hni1 : ni < it.slots.length) (hni2 : ni < it.inuse.length) (q x : Nat) :
    iholds { slots := it.slots.set ni k, inuse := (it.inuse.set ix false).set ni true } q x ↔
      (q = ni ∧ x = k) ∨ (q ≠ ni ∧ q ≠ ix ∧ iholds it q x) := by
  unfold iholds
  simp only [List.getElem?_set, List.length_set]
  by_cases h1 : ni = q
  · subst h1
    simp only [if_true, hni1, hni2, List.length_set, true_and, ne_eq, not_true_eq_false,
      false_and, or_false, Option.some.injEq]
    exact eq_comm
  · have h1b : ¬ q = ni := fun e => h1 e.symm
    by_cases h2 : ix = q
    · subst h2
      simp only [h1, if_false, if_true, h1b, false_and, ne_eq, not_true_eq_false, and_false,
        false_or, not_false_eq_true, true_and, iff_false, not_and]
      intro h
      split at h <;> cases h
    · have h2b : ¬ q = ix := fun e => h2 e.symm
      simp [h1, h2, h1b, h2b]

theorem ck_move_step (first_table : Bool) (n N ix : Nat) (it : InnerTable)
    (hdvd : n ∣ N) (hN : 0 < N) (hix : ix < n) (hinv : MoveInv first_table n N ix it) :
    ∃ it2, move_loop N first_table (m + 1) ix it = move_loop N first_table m (ix + 1) it2 ∧
      MoveInv first_table n N (ix + 1) it2 ∧
      ∀ x, (∃ q, iholds it2 q x) ↔ (∃ q, iholds it q x) := by
  obtain ⟨hl1, hl2, hA, hB⟩ := hinv
  have hnN : n ≤ N := Nat.le_of_dvd hN hdvd
  have hixN : ix < N := by omega
  have hixmod : ix % n = ix := Nat.mod_eq_of_lt hix
  rw [move_loop]
  rcases rd_bool_cases it.inuse ix (by omega) with hu | hu
  · obtain ⟨k, hk⟩ := getElem?_exists it.slots ix (by omega)
    have hh : iholds it ix k := ⟨hu, hk⟩
    have hkn : hashOf first_table k % n = ix := (hB ix k hh (by omega)).2
    have hni : hashOf first_table k % N < N := Nat.mod_lt _ hN
    have hnimod : hashOf first_table k % N % n = ix := by
      rw [Nat.mod_mod_of_dvd _ hdvd]; exact hkn
    rw [rd_of_getElem? hu, Res.bind_ret, if_pos rfl, rd_of_getElem? hk, Res.bind_ret,
      ck_index_eq N first_table k (by omega), Res.bind_ret]
    by_cases hne : ix = hashOf first_table k % N
    · rw [if_neg (by simpa using hne)]
      refine ⟨it, rfl, ⟨hl1, hl2, ?_, ?_⟩, fun x => Iff.rfl⟩
      · intro q x hq hlt
        rcases Nat.lt_succ_iff_lt_or_eq.mp hlt with hlt | heq
        · exact hA q x hq hlt
        · have hqn := (hB q x hq (by omega)).1
          rw [Nat.mod_eq_of_lt hqn] at heq
          subst heq
          have : x = k := by
            have := hq.2
            rw [hk] at this
            exact (Option.some.inj this).symm
          rw [this]
          exact hne.symm
      · intro q x hq hle
        exact hB q x hq (by omega)
    · rw [if_pos hne, wr_of_lt k (by omega), Res.bind_ret, wr_of_lt false (by omega),
        Res.bind_ret, wr_of_lt true (by simp; omega), Res.bind_ret]
      have hmv := ck_iholds_moved it ix (hashOf first_table k % N) k hne (by omega) (by omega)
      refine ⟨_, rfl, ⟨by simp [hl1], by simp [hl2], ?_, ?_⟩, fun x => ?_⟩
      · intro q x hq hlt
        rcases (hmv q x).mp hq with ⟨e1, e2⟩ | ⟨e1, e2, hq2⟩
        · rw [e1, e2]
        · rcases Nat.lt_succ_iff_lt_or_eq.mp hlt with hlt | heq
          · exact hA q x hq2 hlt
          · have hqn := (hB q x hq2 (by omega)).1
            rw [Nat.mod_eq_of_lt hqn] at heq
            exact absurd heq e2
      · intro q x hq hle
        rcases (hmv q x).mp hq with ⟨e1, e2⟩ | ⟨e1, e2, hq2⟩
        · rw [e1, hnimod] at hle
          omega
        · exact hB q x hq2 (by omega)
      · constructor
        · rintro ⟨q, hq⟩
          rcases (hmv q x).mp hq with ⟨e1, e2⟩ | ⟨e1, e2, hq2⟩
          · exact ⟨ix, by rw [e2]; exact hh⟩
          · exact ⟨q, hq2⟩
        · rintro ⟨q, hq⟩
          by_cases hqix : q = ix
          · subst hqix
            have : x = k := by
              have := hq.2
              rw [hk] at this
              exact (Option.some.inj this).symm
            exact ⟨_, (hmv _ x).mpr (Or.inl ⟨rfl, this⟩)⟩
          · by_cases hqni : q = hashOf first_table k % N
            · exfalso
              have hqn := (hB q x hq (by rw [hqni, hnimod])).1
              have : q % n = ix := by rw [hqni, hnimod]
              rw [Nat.mod_eq_of_lt hqn] at this
              exact hqix this
            · exact ⟨q, (hmv q x).mpr (Or.inr ⟨hqni, hqix, hq⟩)⟩
  · rw [rd_of_getElem? hu, Res.bind_ret, if_neg (by simp)]
    refine ⟨it, rfl, ⟨hl1, hl2, ?_, ?_⟩, fun x => Iff.rfl⟩
    · intro q x hq hlt
      rcases Nat.lt_succ_iff_lt_or_eq.mp hlt with hlt | heq
      · exact hA q x hq hlt
      · have hqn := (hB q x hq (by omega)).1
        rw [Nat.mod_eq_of_lt hqn] at heq
        subst heq
        have := hq.1
        rw [hu] at this
        cases this
    · intro q x hq hle
      exact hB q x hq (by omega)

theorem ck_move_loop (first_table : Bool) (n N : Nat) (hn : 0 < n) (hdvd : n ∣ N)
    (hN : 0 < N) :
    ∀ m ix it, ix + m = n → MoveInv first_table n N ix it →
      ∃ it2, move_loop N first_table m ix it = Res.ret it2 ∧ MoveInv first_table n N n it2 ∧
        ∀ x, (∃ q, iholds it2 q x) ↔ (∃ q, iholds it q x) := by
  intro m
  induction m with
  | zero =>
    intro ix it h hinv
    have : ix = n := by omega
    subst this
    exact ⟨it, rfl, hinv, fun x => Iff.rfl⟩
  | succ m ih =>
    intro ix it h hinv
    obtain ⟨it1, h1, hinv1, hk1⟩ :=
      ck_move_step (m := m) first_table n N ix it hdvd hN (by omega) hinv
    obtain ⟨it2, h2, hinv2, hk2⟩ := ih (ix + 1) it1 (by omega) hinv1
    refine ⟨it2, by rw [h1, h2], hinv2, fun x => ?_⟩
    rw [hk2, hk1]

/-- A successful growth of an inner table keeps the keys and puts each at its
index for the new size. -/
theorem ck_upsize_inner_ok (MAX : Nat) (first_table : Bool) (n f : Nat) (it : InnerTable)
    (hn : 0 < n) (hf : 0 < f) (hmax : n * f ≤ MAX) (hinv : IInv first_table n it) :
    ∃ it2, upsize_inner_table MAX it first_table n f = Res.ret (it2, true) ∧
      IInv first_table (n * f) it2 ∧ ∀ x, (∃ q, iholds it2 q x) ↔ (∃ q, iholds it q x) := by
  obtain ⟨hl1, hl2, hpos⟩ := hinv
  have hN : 0 < n * f := Nat.mul_pos hn hf
  have hnN : n ≤ n * f := Nat.le_mul_of_pos_right n hf
  unfold upsize_inner_table
  rw [if_neg (by simp)]
  simp only []
  rw [if_neg (by omega)]
  have hclear : clear_loop (n * f - n) n (realloc it.inuse (n * f) false)
      = Res.ret (realloc it.inuse (n * f) false) := by
    apply ck_clear_loop_id
    · rw [ck_realloc_length _ _ _ (by omega)]; omega
    · intro q h1 h2
      rw [ck_realloc_get _ _ _ (by omega), if_neg (by omega), if_pos (by omega)]
  rw [hclear, Res.bind_ret]
  have hiff : ∀ q x, iholds ⟨realloc it.slots (n * f) 0, realloc it.inuse (n * f) false⟩ q x
      ↔ iholds it q x := by
    intro q x
    unfold iholds
    simp only []
    rw [ck_realloc_get _ _ _ (by omega), ck_realloc_get _ _ _ (by omega), hl1, hl2]
    by_cases hq : q < n
    · simp [hq]
    · simp only [hq, if_false]
      constructor
      · intro h
        have := h.1
        split at this <;> cases this
      · intro h
        have := lt_length_of_getElem? h.1
        omega
  have hinit : MoveInv first_table n (n * f) 0
      ⟨realloc it.slots (n * f) 0, realloc it.inuse (n * f) false⟩ := by
    refine ⟨ck_realloc_length _ _ _ (by omega), ck_realloc_length _ _ _ (by omega), ?_, ?_⟩
    · intro q k _ h
      omega
    · intro q k hq _
      have hq2 := (hiff q k).mp hq
      have := lt_length_of_getElem? hq2.1
      exact ⟨by omega, hpos q k hq2⟩
  obtain ⟨it2, h2, ⟨e1, e2, hA, _⟩, hk⟩ :=
    ck_move_loop first_table n (n * f) hn (Dvd.intro f rfl) hN n 0 _ (by omega) hinit
  rw [h2, Res.bind_ret]
  refine ⟨it2, rfl, ⟨e1, e2, fun q k hq => hA q k hq (Nat.mod_lt _ hn)⟩, fun x => ?_⟩
  rw [hk]
  constructor
  · rintro ⟨q, hq⟩; exact ⟨q, (hiff q x).mp hq⟩
  · rintro ⟨q, hq⟩; exact ⟨q, (hiff q x).mpr hq⟩

/-- A refused growth of an inner table changes nothing. -/
theorem ck_upsize_inner_refused (MAX : Nat) (first_table : Bool) (n f : Nat) (it : InnerTable)
    (hmax : MAX < n * f) :
    upsize_inner_table MAX it first_table n f = Res.ret (it, false) := by
  unfold upsize_inner_table
  rw [if_neg (by simp)]
  simp only []
  rw [if_pos (by omega)]

end Cuckoo

namespace Cuckoo

/-- A refused growth returns false, leaves both inner tables as they were and
doubles `size` all the same. -/
theorem ck_upsize_refused (MAX : Nat) (t : CuckooHashTable) (f : Nat) (h : MAX < t.size * f) :
    upsize_hash_table MAX t f = Res.ret ({ t with size := t.size * f }, false) := by
  unfold upsize_hash_table
  rw [ck_upsize_inner_refused MAX true t.size f t.table1 h]
  rfl

/-- What a growth that returns true has done to `size`. -/
theorem ck_upsize_true_size (MAX : Nat) (t t2 : CuckooHashTable) (f : Nat)
    (h : upsize_hash_table MAX t f = Res.ret (t2, true)) :
    t2.size = t.size * f ∧ t.size * f ≤ MAX ∧ t2.nkeys = t.nkeys := by
  by_cases hm : MAX < t.size * f
  · rw [ck_upsize_refused MAX t f hm] at h
    cases h
  · unfold upsize_hash_table at h
    rw [Res.bind_eq_ret] at h
    obtain ⟨r1, _, h⟩ := h
    split at h
    · rw [Res.bind_eq_ret] at h
      obtain ⟨r2, _, h⟩ := h
      simp only [Res.ret.injEq, Prod.mk.injEq] at h
      rw [← h.1]
      exact ⟨rfl, by omega, rfl⟩
    · simp at h

theorem ck_upsize_ok (MAX : Nat) (t : CuckooHashTable) (f : Nat) (hf : 0 < f)
    (hinv : CInv t) (hm : t.size * f ≤ MAX) :
    ∃ t2, upsize_hash_table MAX t f = Res.ret (t2, true) ∧ CInv t2 ∧
      ∀ x, stored t2 x ↔ stored t x := by
  obtain ⟨a, ha, hia, hka⟩ := ck_upsize_inner_ok MAX true t.size f t.table1 hinv.pos hf hm hinv.inv1
  obtain ⟨b, hb, hib, hkb⟩ := ck_upsize_inner_ok MAX false t.size f t.table2 hinv.pos hf hm hinv.inv2
  unfold upsize_hash_table
  rw [ha, Res.bind_ret]
  simp only [if_true]
  rw [hb, Res.bind_ret]
  refine ⟨_, rfl, ⟨Nat.mul_pos hinv.pos hf, hia, hib⟩, fun x => ?_⟩
  unfold stored
  rw [hka, hkb]

theorem ck_stored_iff {t : CuckooHashTable} (hinv : CInv t) (k : Nat) :
    stored t k ↔ iholds t.table1 (h1 k % t.size) k ∨ iholds t.table2 (h2 k % t.size) k := by
  constructor
  · rintro (⟨q, hq⟩ | ⟨q, hq⟩)
    · have := hinv.inv1.2.2 q k hq
      simp only [hashOf, if_true] at this
      rw [this]; exact Or.inl hq
    · have := hinv.inv2.2.2 q k hq
      simp only [hashOf, Bool.false_eq_true, if_false] at this
      rw [this]; exact Or.inr hq
  · rintro (h | h)
    · exact Or.inl ⟨_, h⟩
    · exact Or.inr ⟨_, h⟩

/-- Reading a cell of an inner table the way lookup does. -/
theorem ck_cell_cases (it : InnerTable) (q key : Nat) (h1 : q < it.inuse.length)
    (h2 : q < it.slots.length) :
    slot_matches it q key = Res.ret true ∧ iholds it q key ∨
    slot_matches it q key = Res.ret false ∧ ¬ iholds it q key := by
  obtain ⟨k, hk⟩ := getElem?_exists it.slots q h2
  unfold slot_matches
  rcases rd_bool_cases it.inuse q h1 with hu | hu
  · rw [rd_of_getElem? hu, Res.bind_ret, if_pos rfl, rd_of_getElem? hk, Res.bind_ret]
    by_cases hkk : k = key
    · left
      subst hkk
      exact ⟨by simp, hu, hk⟩
    · right
      refine ⟨by simp [hkk], fun h => ?_⟩
      have := h.2
      rw [hk] at this
      exact hkk (Option.some.inj this)
  · rw [rd_of_getElem? hu, Res.bind_ret]
    right
    refine ⟨by simp, fun h => ?_⟩
    have := h.1
    rw [hu] at this
    cases this

theorem ck_lookup_spec {t : CuckooHashTable} (hinv : CInv t) (key : Nat) :
    (cuckoo_hash_table_lookup t key = Res.ret true ∧ stored t key) ∨
    (cuckoo_hash_table_lookup t key = Res.ret false ∧ ¬ stored t key) := by
  have hpos : t.size ≠ 0 := Nat.pos_iff_ne_zero.mp hinv.pos
  have hl1 : h1 key % t.size < t.size := Nat.mod_lt _ hinv.pos
  have hl2 : h2 key % t.size < t.size := Nat.mod_lt _ hinv.pos
  have c1 := ck_cell_cases t.table1 (h1 key % t.size) key (by rw [hinv.inv1.2.1]; exact hl1)
    (by rw [hinv.inv1.1]; exact hl1)
  have c2 := ck_cell_cases t.table2 (h2 key % t.size) key (by rw [hinv.inv2.2.1]; exact hl2)
    (by rw [hinv.inv2.1]; exact hl2)
  rw [ck_stored_iff hinv]
  unfold cuckoo_hash_table_lookup
  rw [if_neg hpos]
  rcases c1 with ⟨e1, s1⟩ | ⟨e1, s1⟩
  · left
    rw [e1]
    exact ⟨rfl, Or.inl s1⟩
  · rw [e1, Res.bind_ret]
    simp only [Bool.not_false, if_true]
    rcases c2 with ⟨e2, s2⟩ | ⟨e2, s2⟩
    · left
      exact ⟨e2, Or.inr s2⟩
    · right
      refine ⟨e2, ?_⟩
      rintro (h | h)
      · exact s1 h
      · exact s2 h

/-- The cells in use after `key` was written to cell `idx`. -/
theorem ck_iholds_written (it : InnerTable) (idx key : Nat)
    (hl1 : idx < it.slots.length) (hl2 : idx < it.inuse.length) (q x : Nat) :
    iholds ⟨it.slots.set idx key, it.inuse.set idx true⟩ q x ↔
      (q = idx ∧ x = key) ∨ (q ≠ idx ∧ iholds it q x) := by
  unfold iholds
  simp only [List.getElem?_set]
  by_cases h1 : idx = q
  · subst h1
    simp only [if_true, hl1, hl2, true_and, ne_eq, not_true_eq_false, false_and, or_false,
      Option.some.injEq]
    exact eq_comm
  · have h1b : ¬ q = idx := fun e => h1 e.symm
    simp [h1, h1b]

/-- Writing a key at its hashed index keeps the invariant of an inner table. -/
theorem ck_iinv_written (first_table : Bool) (size : Nat) (it : InnerTable) (key : Nat)
    (hpos : 0 < size) (hinv : IInv first_table size it) :
    IInv first_table size ⟨it.slots.set (hashOf first_table key % size) key,
      it.inuse.set (hashOf first_table key % size) true⟩ := by
  obtain ⟨e1, e2, hp⟩ := hinv
  have hlt : hashOf first_table key % size < size := Nat.mod_lt _ hpos
  refine ⟨by simp [e1], by simp [e2], fun q k hq => ?_⟩
  rcases (ck_iholds_written it _ key (by omega) (by omega) q k).mp hq with ⟨a, b⟩ | ⟨_, b⟩
  · rw [a, b]
  · exact hp q k b

end Cuckoo

namespace Cuckoo

theorem ck_get_usage_eq (t : CuckooHashTable) (b : Bool) (idx : Nat) :
    get_usage t b idx = rd (inner t b).inuse idx := by
  cases b <;> rfl

theorem ck_get_key_eq (t : CuckooHashTable) (b : Bool) (idx : Nat) :
    get_key t b idx = rd (inner t b).slots idx := by
  cases b <;> rfl

theorem ck_write_key_eq (t : CuckooHashTable) (b : Bool) (idx key : Nat) :
    write_key t b idx key =
      (wr (inner t b).slots idx key).bind fun s =>
        (wr (inner t b).inuse idx true).bind fun u =>
          Res.ret (with_inner t b ⟨s, u⟩) := by
  cases b <;> rfl

theorem ck_inner_inv {t : CuckooHashTable} (hinv : CInv t) (b : Bool) :
    IInv b t.size (inner t b) := by
  cases b
  · exact hinv.inv2
  · exact hinv.inv1

theorem ck_with_inner_size (t : CuckooHashTable) (b : Bool) (it : InnerTable) :
    (with_inner t b it).size = t.size := by
  cases b <;> rfl

theorem ck_with_inner_nkeys (t : CuckooHashTable) (b : Bool) (it : InnerTable) :
    (with_inner t b it).nkeys = t.nkeys := by
  cases b <;> rfl

theorem ck_with_inner_inv {t : CuckooHashTable} (hinv : CInv t) (b : Bool) (it : InnerTable)
    (hit : IInv b t.size it) : CInv (with_inner t b it) := by
  cases b
  · exact ⟨hinv.pos, hinv.inv1, hit⟩
  · exact ⟨hinv.pos, hit, hinv.inv2⟩

theorem ck_stored_inner (t : CuckooHashTable) (b : Bool) (x : Nat) :
    stored t x ↔ (∃ q, iholds (inner t b) q x) ∨ (∃ q, iholds (inner t (!b)) q x) := by
  cases b
  · exact Or.comm
  · exact Iff.rfl

theorem ck_stored_with_inner (t : CuckooHashTable) (b : Bool) (it : InnerTable) (x : Nat) :
    stored (with_inner t b it) x ↔ (∃ q, iholds it q x) ∨ (∃ q, iholds (inner t (!b)) q x) := by
  cases b
  · exact Or.comm
  · exact Iff.rfl

/-- The part of an iteration after the detection block, on a table that
satisfies the invariant: either the hashed cell is in use, its key `X` is
kicked out and the loop goes on with `X`, or the cell is free and the
insertion is complete. -/
theorem ck_place_key_spec (s : LoopState) (hinv : CInv s.table) :
    (∃ X s2, place_key s = Res.ret (Step.next s2) ∧ stored s.table X ∧
      CInv s2.table ∧ s2.table.size = s.table.size ∧ s2.table.nkeys = s.table.nkeys ∧
      s2.kick_count = s.kick_count + 1 ∧ s2.current_key = X ∧
      s2.use_first_table = (!s.use_first_table) ∧
      s2.expansion_threshold = s.expansion_threshold ∧
      ∀ x, (stored s2.table x ∨ x = X) ↔ (stored s.table x ∨ x = s.current_key)) ∨
    (∃ t2, place_key s = Res.ret (Step.done t2 true) ∧ CInv t2 ∧ t2.size = s.table.size ∧
      t2.nkeys = s.table.nkeys + 1 ∧
      ∀ x, stored t2 x ↔ (stored s.table x ∨ x = s.current_key)) := by
  have hpos : s.table.size ≠ 0 := Nat.pos_iff_ne_zero.mp hinv.pos
  have hi := ck_inner_inv hinv s.use_first_table
  have hlt : hashOf s.use_first_table s.current_key % s.table.size < s.table.size :=
    Nat.mod_lt _ hinv.pos
  have hl1 : hashOf s.use_first_table s.current_key % s.table.size
      < (inner s.table s.use_first_table).slots.length := by rw [hi.1]; exact hlt
  have hl2 : hashOf s.use_first_table s.current_key % s.table.size
      < (inner s.table s.use_first_table).inuse.length := by rw [hi.2.1]; exact hlt
  have hw := ck_iholds_written (inner s.table s.use_first_table) _ s.current_key hl1 hl2
  have hiw := ck_iinv_written s.use_first_table s.table.size _ s.current_key hinv.pos hi
  unfold place_key
  rw [ck_index_eq _ _ _ hpos, Res.bind_ret, ck_get_usage_eq, ck_get_key_eq, ck_write_key_eq,
    wr_of_lt _ hl1, wr_of_lt _ hl2]
  simp only [Res.bind_ret]
  rcases rd_bool_cases _ _ hl2 with hu | hu
  · left
    obtain ⟨X, hX⟩ := getElem?_exists _ _ hl1
    rw [rd_of_getElem? hu, Res.bind_ret, if_pos rfl, rd_of_getElem? hX]
    simp only [Res.bind_ret, Bool.false_eq_true, if_false]
    have hXs : stored s.table X := (ck_stored_inner _ s.use_first_table X).mpr
      (Or.inl ⟨_, hu, hX⟩)
    refine ⟨X, _, rfl, hXs, ck_with_inner_inv hinv _ _ hiw, ck_with_inner_size _ _ _,
      ck_with_inner_nkeys _ _ _, rfl, rfl, rfl, rfl, fun x => ?_⟩
    show (stored (with_inner _ _ _) x ∨ x = X) ↔ _
    rw [ck_stored_with_inner, ck_stored_inner s.table s.use_first_table x]
    constructor
    · rintro ((⟨q, hq⟩ | h) | h)
      · rcases (hw q x).mp hq with ⟨_, e⟩ | ⟨_, h⟩
        · exact Or.inr e
        · exact Or.inl (Or.inl ⟨q, h⟩)
      · exact Or.inl (Or.inr h)
      · rw [h]
        exact Or.inl (Or.inl ⟨_, hu, hX⟩)
    · rintro ((⟨q, hq⟩ | h) | h)
      · by_cases hqi : q = hashOf s.use_first_table s.current_key % s.table.size
        · right
          have := hq.2
          rw [hqi, hX] at this
          exact (Option.some.inj this).symm
        · exact Or.inl (Or.inl ⟨q, (hw q x).mpr (Or.inr ⟨hqi, hq⟩)⟩)
      · exact Or.inl (Or.inr h)
      · exact Or.inl (Or.inl ⟨_, (hw _ x).mpr (Or.inl ⟨rfl, h⟩)⟩)
  · right
    rw [rd_of_getElem? hu, Res.bind_ret]
    simp only [Bool.false_eq_true, if_false, Res.bind_ret, if_true]
    refine ⟨_, rfl, ?_, ck_with_inner_size _ _ _, ?_, fun x => ?_⟩
    · have := ck_with_inner_inv hinv _ _ hiw
      exact ⟨this.pos, this.inv1, this.inv2⟩
    · show (with_inner _ _ _).nkeys + 1 = _
      rw [ck_with_inner_nkeys]
    · show stored (with_inner _ _ _) x ↔ _
      rw [ck_stored_with_inner, ck_stored_inner s.table s.use_first_table x]
      constructor
      · rintro (⟨q, hq⟩ | h)
        · rcases (hw q x).mp hq with ⟨_, e⟩ | ⟨_, h⟩
          · exact Or.inr e
          · exact Or.inl (Or.inl ⟨q, h⟩)
        · exact Or.inl (Or.inr h)
      · rintro ((⟨q, hq⟩ | h) | h)
        · by_cases hqi : q = hashOf s.use_first_table s.current_key % s.table.size
          · exfalso
            have := hq.1
            rw [hqi, hu] at this
            cases this
          · exact Or.inl ⟨q, (hw q x).mpr (Or.inr ⟨hqi, hq⟩)⟩
        · exact Or.inr h
        · exact Or.inl ⟨_, (hw _ x).mpr (Or.inl ⟨rfl, h⟩)⟩

end Cuckoo

theorem Res.bind_ne_diverge {α β : Type} {x : Res α} {f : α → Res β}
    (hx : x ≠ Res.diverge) (hf : ∀ a, f a ≠ Res.diverge) : x.bind f ≠ Res.diverge := by
  cases x with
  | ret a => exact hf a
  | abort => simp [Res.bind]
  | diverge => exact absurd rfl hx

theorem rd_ne_diverge {α : Type} (a : List α) (i : Nat) : rd a i ≠ Res.diverge := by
  unfold rd
  cases a[i]? <;> simp

theorem wr_ne_diverge {α : Type} (a : List α) (i : Nat) (v : α) : wr a i v ≠ Res.diverge := by
  unfold wr
  split <;> simp

namespace Cuckoo

theorem ck_index_ne_diverge (size : Nat) (b : Bool) (key : Nat) :
    get_cuckoo_index size b key ≠ Res.diverge := by
  unfold get_cuckoo_index
  split
  · simp
  · split <;> simp

theorem ck_clear_loop_ne_diverge (m : Nat) :
    ∀ ix u, clear_loop m ix u ≠ Res.diverge := by
  induction m with
  | zero => intro ix u; simp [clear_loop]
  | succ m ih =>
    intro ix u
    rw [clear_loop]
    exact Res.bind_ne_diverge (wr_ne_diverge _ _ _) (fun a => ih _ _)

theorem ck_move_loop_ne_diverge (N : Nat) (b : Bool) (m : Nat) :
    ∀ ix it, move_loop N b m ix it ≠ Res.diverge := by
  induction m with
  | zero => intro ix it; simp [move_loop]
  | succ m ih =>
    intro ix it
    rw [move_loop]
    refine Res.bind_ne_diverge (rd_ne_diverge _ _) (fun used => ?_)
    split
    · refine Res.bind_ne_diverge (rd_ne_diverge _ _) (fun k => ?_)
      refine Res.bind_ne_diverge (ck_index_ne_diverge _ _ _) (fun ni => ?_)
      split
      · refine Res.bind_ne_diverge (wr_ne_diverge _ _ _) (fun _ => ?_)
        refine Res.bind_ne_diverge (wr_ne_diverge _ _ _) (fun _ => ?_)
        exact Res.bind_ne_diverge (wr_ne_diverge _ _ _) (fun _ => ih _ _)
      · exact ih _ _
    · exact ih _ _

theorem ck_upsize_inner_ne_diverge (MAX : Nat) (it : InnerTable) (b : Bool) (n f : Nat) :
    upsize_inner_table MAX it b n f ≠ Res.diverge := by
  unfold upsize_inner_table
  split
  · simp
  · simp only
    split
    · simp
    · refine Res.bind_ne_diverge (ck_clear_loop_ne_diverge _ _ _) (fun u => ?_)
      exact Res.bind_ne_diverge (ck_move_loop_ne_diverge _ _ _ _ _) (fun _ => by simp)

theorem ck_upsize_ne_diverge (MAX : Nat) (t : CuckooHashTable) (f : Nat) :
    upsize_hash_table MAX t f ≠ Res.diverge := by
  unfold upsize_hash_table
  refine Res.bind_ne_diverge (ck_upsize_inner_ne_diverge _ _ _ _ _) (fun r1 => ?_)
  split
  · exact Res.bind_ne_diverge (ck_upsize_inner_ne_diverge _ _ _ _ _) (fun _ => by simp)
  · simp

theorem ck_place_key_ne_diverge (s : LoopState) : place_key s ≠ Res.diverge := by
  unfold place_key
  refine Res.bind_ne_diverge (ck_index_ne_diverge _ _ _) (fun idx => ?_)
  rw [ck_get_usage_eq, ck_get_key_eq, ck_write_key_eq]
  refine Res.bind_ne_diverge (rd_ne_diverge _ _) (fun used => ?_)
  refine Res.bind_ne_diverge ?_ (fun v => ?_)
  · split
    · exact Res.bind_ne_diverge (rd_ne_diverge _ _) (fun _ => by simp)
    · simp
  · refine Res.bind_ne_diverge ?_ (fun t2 => ?_)
    · refine Res.bind_ne_diverge (wr_ne_diverge _ _ _) (fun _ => ?_)
      exact Res.bind_ne_diverge (wr_ne_diverge _ _ _) (fun _ => by simp)
    · split <;> simp

/-- One iteration of the displacement loop always ends. -/
theorem ck_loop_body_ne_diverge (MAX key : Nat) (s : LoopState) :
    loop_body MAX key s ≠ Res.diverge := by
  unfold loop_body
  split
  · refine Res.bind_ne_diverge (ck_upsize_ne_diverge _ _ _) (fun r => ?_)
    split
    · simp
    · exact ck_place_key_ne_diverge _
  · exact ck_place_key_ne_diverge _


theorem ck_index_ret {size : Nat} {b : Bool} {key idx : Nat}
    (h : get_cuckoo_index size b key = Res.ret idx) : 0 < size := by
  unfold get_cuckoo_index at h
  by_cases hs : size = 0
  · rw [if_pos hs] at h; cases h
  · omega

theorem ck_write_key_size {t t2 : CuckooHashTable} {b : Bool} {idx key : Nat}
    (h : write_key t b idx key = Res.ret t2) : t2.size = t.size ∧ t2.nkeys = t.nkeys := by
  rw [ck_write_key_eq] at h
  simp only [Res.bind_eq_ret] at h
  obtain ⟨_, _, _, _, h⟩ := h
  cases h
  exact ⟨ck_with_inner_size _ _ _, ck_with_inner_nkeys _ _ _⟩

/-- What an iteration that goes on has done to the loop variables, whatever the
table. -/
theorem ck_place_key_next {s s2 : LoopState} (h : place_key s = Res.ret (Step.next s2)) :
    0 < s.table.size ∧ s2.table.size = s.table.size ∧ s2.kick_count = s.kick_count + 1 ∧
      s2.expansion_threshold = s.expansion_threshold := by
  unfold place_key at h
  simp only [Res.bind_eq_ret] at h
  obtain ⟨idx, hidx, used, _, v, hv, t2, ht2, h⟩ := h
  have hsz := (ck_write_key_size ht2).1
  cases used with
  | true =>
    simp only [if_true, Res.bind_eq_ret] at hv
    obtain ⟨k, _, hv⟩ := hv
    cases hv
    simp only [Bool.false_eq_true, if_false, Res.ret.injEq, Step.next.injEq] at h
    subst h
    exact ⟨ck_index_ret hidx, hsz, rfl, rfl⟩
  | false =>
    simp only [Bool.false_eq_true, if_false, Res.ret.injEq] at hv
    subst hv
    simp at h

/-- What an iteration that goes on has done to the loop variables: either no
growth was attempted and one more kick is counted, or the table was doubled
within `MAX_TABLE_SIZE` and the kick count restarted. -/
theorem ck_loop_body_next {MAX key : Nat} {s s2 : LoopState}
    (h : loop_body MAX key s = Res.ret (Step.next s2)) :
    0 < s.table.size ∧
    ((s2.table.size = s.table.size ∧ s2.kick_count = s.kick_count + 1 ∧
        s2.expansion_threshold = s.expansion_threshold ∧
        s.kick_count ≤ s.expansion_threshold) ∨
     (s2.table.size = s.table.size * 2 ∧ s2.table.size ≤ MAX ∧ s2.kick_count = 1 ∧
        s2.expansion_threshold = get_kick_threshold s2.table.size)) := by
  unfold loop_body at h
  split at h
  · rw [Res.bind_eq_ret] at h
    obtain ⟨r, hr, h⟩ := h
    cases hr2 : r.2 with
    | false => simp [hr2] at h
    | true =>
      simp only [hr2, Bool.not_true, Bool.false_eq_true, if_false] at h
      have hr3 : upsize_hash_table MAX s.table EXPANSION_FACTOR = Res.ret (r.1, true) := by
        rw [hr, ← hr2]
      obtain ⟨e1, e2, _⟩ := ck_upsize_true_size MAX s.table r.1 EXPANSION_FACTOR hr3
      obtain ⟨p1, p2, p3, p4⟩ := ck_place_key_next h
      simp only [EXPANSION_FACTOR] at e1 e2
      simp only at p1 p2 p3 p4
      refine ⟨by omega, Or.inr ⟨by omega, by omega, by omega, ?_⟩⟩
      rw [p4, p2]
  · rename_i hc
    obtain ⟨p1, p2, p3, p4⟩ := ck_place_key_next h
    refine ⟨p1, Or.inl ⟨p2, p3, p4, ?_⟩⟩
    by_contra hk
    exact hc (Or.inl (by omega))

theorem ck_threshold_le (size : Nat) (h : 0 < size) : get_kick_threshold size ≤ size := by
  unfold get_kick_threshold
  have : Nat.log2 size < size := (Nat.log2_lt (by omega)).mpr (Nat.lt_two_pow size)
  omega

/-- The displacement loop stops within `u * (T + 3) + k + 1` iterations when at
most `u` doublings fit below `MAX_TABLE_SIZE`, thresholds stay below `T` and
`k` kicks are left before the next growth. -/
theorem ck_loop_terminates (MAX key T : Nat) (hT : MAX ≤ T) :
    ∀ fuel (s : LoopState) (u k : Nat), MAX + 1 - s.table.size ≤ u →
      s.expansion_threshold ≤ T → s.expansion_threshold + 2 - s.kick_count ≤ k →
      u * (T + 3) + k + 1 ≤ fuel →
      insert_loop MAX key fuel s ≠ Res.diverge := by
  intro fuel
  induction fuel with
  | zero =>
    intro s u k _ _ _ h
    omega
  | succ fuel ih =>
    intro s u k hu hthr hk hfuel
    rw [insert_loop]
    cases hb : loop_body MAX key s with
    | abort => simp
    | diverge =>
      exact absurd hb (ck_loop_body_ne_diverge MAX key s)
    | ret r =>
      rw [Res.bind_ret]
      cases r with
      | done t b => simp
      | next s2 =>
        simp only
        obtain ⟨hpos, h | h⟩ := ck_loop_body_next hb
        · obtain ⟨e1, e2, e3, e4⟩ := h
          apply ih s2 u (k - 1)
          · rw [e1]; exact hu
          · rw [e3]; exact hthr
          · rw [e2, e3]; omega
          · omega
        · obtain ⟨e1, e2, e3, e4⟩ := h
          have hu1 : 1 ≤ u := by omega
          obtain ⟨u', rfl⟩ : ∃ u', u = u' + 1 := ⟨u - 1, by omega⟩
          have hmul : (u' + 1) * (T + 3) = u' * (T + 3) + (T + 3) := Nat.succ_mul _ _
          have hth : s2.expansion_threshold ≤ T := by
            rw [e4]
            have := ck_threshold_le s2.table.size (by omega)
            omega
          apply ih s2 u' (T + 1)
          · omega
          · exact hth
          · omega
          · omega

end Cuckoo

namespace Cuckoo

theorem ck_loop_body_inv (MAX : Nat) (t0 : CuckooHashTable) (key B : Nat) (hB : MAX ≤ B)
    (s : LoopState) (hinv : LoopInv t0 key B s) :
    (∃ t2, loop_body MAX key s = Res.ret (Step.done t2 false) ∧ MAX < t2.size) ∨
    (∃ t2, loop_body MAX key s = Res.ret (Step.done t2 true) ∧ CInv t2 ∧ t2.size ≤ B ∧
      ∀ x, stored t2 x ↔ (stored t0 x ∨ x = key)) ∨
    (∃ s2, loop_body MAX key s = Res.ret (Step.next s2) ∧ LoopInv t0 key B s2) := by
  obtain ⟨hc, hsz, hk⟩ := hinv
  unfold loop_body
  split
  · by_cases hm : s.table.size * EXPANSION_FACTOR ≤ MAX
    · obtain ⟨t2, h2, hc2, hk2⟩ := ck_upsize_ok MAX s.table EXPANSION_FACTOR (by decide) hc hm
      obtain ⟨e1, _, _⟩ := ck_upsize_true_size MAX _ _ _ h2
      rw [h2, Res.bind_ret]
      simp only [Bool.not_true, Bool.false_eq_true, if_false]
      right
      rcases ck_place_key_spec { s with table := t2, kick_count := 0, expansion_threshold := get_kick_threshold t2.size } hc2 with
        ⟨X, s2, h3, _, hc3, e3, _, _, e4, _, _, hk3⟩ | ⟨t3, h3, hc3, e3, _, hk3⟩
      · right
        refine ⟨s2, h3, hc3, ?_, fun x => ?_⟩
        · rw [e3]; show t2.size ≤ B; omega
        · rw [e4, hk3]
          show (stored t2 x ∨ x = s.current_key) ↔ _
          rw [hk2, hk]
      · left
        refine ⟨t3, h3, hc3, ?_, fun x => ?_⟩
        · rw [e3]; show t2.size ≤ B; omega
        · rw [hk3]
          show (stored t2 x ∨ x = s.current_key) ↔ _
          rw [hk2, hk]
    · left
      rw [ck_upsize_refused MAX s.table EXPANSION_FACTOR (by omega), Res.bind_ret]
      exact ⟨_, rfl, by show MAX < s.table.size * EXPANSION_FACTOR; omega⟩
  · right
    rcases ck_place_key_spec s hc with
      ⟨X, s2, h3, _, hc3, e3, _, _, e4, _, _, hk3⟩ | ⟨t3, h3, hc3, e3, _, hk3⟩
    · right
      refine ⟨s2, h3, hc3, by omega, fun x => ?_⟩
      rw [e4, hk3, hk]
    · left
      refine ⟨t3, h3, hc3, by omega, fun x => ?_⟩
      rw [hk3, hk]

theorem ck_loop_inv (MAX : Nat) (t0 : CuckooHashTable) (key B : Nat) (hB : MAX ≤ B) :
    ∀ fuel (s : LoopState), LoopInv t0 key B s →
      insert_loop MAX key fuel s = Res.diverge ∨
      (∃ t2, insert_loop MAX key fuel s = Res.ret (t2, false) ∧ MAX < t2.size) ∨
      (∃ t2, insert_loop MAX key fuel s = Res.ret (t2, true) ∧ CInv t2 ∧ t2.size ≤ B ∧
        ∀ x, stored t2 x ↔ (stored t0 x ∨ x = key)) := by
  intro fuel
  induction fuel with
  | zero =>
    intro s _
    exact Or.inl rfl
  | succ fuel ih =>
    intro s hinv
    rw [insert_loop]
    rcases ck_loop_body_inv MAX t0 key B hB s hinv with ⟨t2, h, h2⟩ | ⟨t2, h, h2⟩ | ⟨s2, h, h2⟩
    · rw [h]
      exact Or.inr (Or.inl ⟨t2, rfl, h2⟩)
    · rw [h]
      exact Or.inr (Or.inr ⟨t2, rfl, h2⟩)
    · rw [h]
      exact ih s2 h2

theorem ck_slot_matches_ne_diverge (it : InnerTable) (q key : Nat) :
    slot_matches it q key ≠ Res.diverge := by
  unfold slot_matches
  refine Res.bind_ne_diverge (rd_ne_diverge _ _) (fun u => ?_)
  split
  · exact Res.bind_ne_diverge (rd_ne_diverge _ _) (fun _ => by simp)
  · simp

theorem ck_lookup_ne_diverge (t : CuckooHashTable) (key : Nat) :
    cuckoo_hash_table_lookup t key ≠ Res.diverge := by
  unfold cuckoo_hash_table_lookup
  split
  · simp
  · refine Res.bind_ne_diverge (ck_slot_matches_ne_diverge _ _ _) (fun f => ?_)
    split
    · exact ck_slot_matches_ne_diverge _ _ _
    · simp

theorem ck_lookup_ret_pos {t : CuckooHashTable} {key : Nat} {b : Bool}
    (h : cuckoo_hash_table_lookup t key = Res.ret b) : 0 < t.size := by
  unfold cuckoo_hash_table_lookup at h
  by_cases hs : t.size = 0
  · rw [if_pos hs] at h; cases h
  · omega

/-- An insertion never runs forever, whatever the table. -/
theorem ck_insert_terminates (MAX fuel : Nat) (t : CuckooHashTable) (key : Nat)
    (hfuel : insert_fuel MAX t.size ≤ fuel) :
    cuckoo_hash_table_insert MAX fuel t key ≠ Res.diverge := by
  unfold cuckoo_hash_table_insert
  cases hl : cuckoo_hash_table_lookup t key with
  | abort => simp
  | diverge => exact absurd hl (ck_lookup_ne_diverge t key)
  | ret found =>
    rw [Res.bind_ret]
    split
    · simp
    · have hpos := ck_lookup_ret_pos hl
      apply ck_loop_terminates MAX key (MAX + t.size) (by omega) fuel _ (MAX + 1)
        (MAX + t.size + 2)
      · show MAX + 1 - t.size ≤ MAX + 1
        omega
      · show get_kick_threshold t.size ≤ MAX + t.size
        have := ck_threshold_le t.size hpos
        omega
      · show get_kick_threshold t.size + 2 - 0 ≤ MAX + t.size + 2
        have := ck_threshold_le t.size hpos
        omega
      · unfold insert_fuel at hfuel
        have : (MAX + 2) * (MAX + t.size + 3)
            = (MAX + 1) * (MAX + t.size + 3) + (MAX + t.size + 3) := Nat.succ_mul _ _
        omega

/-- An insertion into a table that satisfies the invariant, with enough fuel:
a duplicate is refused without change, an absent key is either stored or
the call returns false for capacity. -/
theorem ck_insert_spec (MAX fuel : Nat) (t : CuckooHashTable) (key B : Nat) (hB : MAX ≤ B)
    (hinv : CInv t) (hsz : t.size ≤ B) (hfuel : insert_fuel MAX t.size ≤ fuel) :
    (stored t key ∧ cuckoo_hash_table_insert MAX fuel t key = Res.ret (t, false)) ∨
    (¬ stored t key ∧ ∃ t2, cuckoo_hash_table_insert MAX fuel t key = Res.ret (t2, false) ∧
      MAX < t2.size) ∨
    (¬ stored t key ∧ ∃ t2, cuckoo_hash_table_insert MAX fuel t key = Res.ret (t2, true) ∧
      CInv t2 ∧ t2.size ≤ B ∧ ∀ x, stored t2 x ↔ (stored t x ∨ x = key)) := by
  have hterm := ck_insert_terminates MAX fuel t key hfuel
  unfold cuckoo_hash_table_insert at hterm ⊢
  rcases ck_lookup_spec hinv key with ⟨hl, hs⟩ | ⟨hl, hs⟩
  · left
    rw [hl]
    exact ⟨hs, rfl⟩
  · right
    rw [hl, Res.bind_ret] at hterm ⊢
    simp only [Bool.false_eq_true, if_false] at hterm ⊢
    have hli : LoopInv t key B { table := t, use_first_table := true, kick_count := 0, current_key := key, next_key := 0, expansion_threshold := get_kick_threshold t.size } :=
      ⟨hinv, hsz, fun x => Iff.rfl⟩
    rcases ck_loop_inv MAX t key B hB fuel _ hli with h | h | h
    · exact absurd h hterm
    · exact Or.inl ⟨hs, h⟩
    · exact Or.inr ⟨hs, h⟩

end Cuckoo

namespace Cuckoo

theorem ck_new_inv (n : Nat) (hn : 1 ≤ n) : CInv (new_cuckoo_hash_table n) := by
  have hno : ∀ q k, ¬ iholds (new_inner_table n) q k := by
    intro q k h
    have := h.1
    simp only [new_inner_table, List.getElem?_replicate] at this
    split at this <;> cases this
  refine ⟨hn, ⟨?_, ?_, ?_⟩, ⟨?_, ?_, ?_⟩⟩
  · simp [new_cuckoo_hash_table, new_inner_table]
  · simp [new_cuckoo_hash_table, new_inner_table]
  · intro q k h; exact absurd h (hno q k)
  · simp [new_cuckoo_hash_table, new_inner_table]
  · simp [new_cuckoo_hash_table, new_inner_table]
  · intro q k h; exact absurd h (hno q k)

theorem ck_new_not_stored (n x : Nat) : ¬ stored (new_cuckoo_hash_table n) x := by
  have hno : ∀ q k, ¬ iholds (new_inner_table n) q k := by
    intro q k h
    have := h.1
    simp only [new_inner_table, List.getElem?_replicate] at this
    split at this <;> cases this
  rintro (⟨q, h⟩ | ⟨q, h⟩) <;> exact hno q x h

end Cuckoo

section

open Cuckoo

/-- C5 (code evaluated at the failing input). With `MAX_TABLE_SIZE = 4`, after
inserting 28 and 77 into `new_cuckoo_hash_table(4)` both keys are found; the
insertion of 117 then returns false because the doubling is refused, and
afterwards `lookup(77)` is false: the key in hand when the loop gave up is
lost (and `size` is 8 over arrays of 4 cells). -/
theorem cuckoo_failed_expansion_loses_key :
    Cuckoo.insert_all 4 66 (new_cuckoo_hash_table 4) [28, 77]
      = Res.ret (some ⟨⟨[77, 0, 0, 0], [true, false, false, false]⟩,
          ⟨[28, 0, 0, 0], [true, false, false, false]⟩, 4, 2⟩) ∧
    cuckoo_hash_table_lookup ⟨⟨[77, 0, 0, 0], [true, false, false, false]⟩,
        ⟨[28, 0, 0, 0], [true, false, false, false]⟩, 4, 2⟩ 77 = Res.ret true ∧
    cuckoo_hash_table_insert 4 66 ⟨⟨[77, 0, 0, 0], [true, false, false, false]⟩,
        ⟨[28, 0, 0, 0], [true, false, false, false]⟩, 4, 2⟩ 117
      = Res.ret (⟨⟨[28, 0, 0, 0], [true, false, false, false]⟩,
          ⟨[117, 0, 0, 0], [true, false, false, false]⟩, 8, 2⟩, false) ∧
    cuckoo_hash_table_lookup ⟨⟨[28, 0, 0, 0], [true, false, false, false]⟩,
        ⟨[117, 0, 0, 0], [true, false, false, false]⟩, 8, 2⟩ 77 = Res.ret false := by
  refine ⟨?_, ?_, ?_, ?_⟩ <;> decide!

/-- C6 (code evaluated at the failing inputs). Whenever doubling would exceed
`MAX_TABLE_SIZE`, `upsize_hash_table` returns false and leaves both inner
tables as they were, but the `size` field is doubled all the same: it no longer
equals the allocated length of the inner arrays. -/
theorem cuckoo_refused_growth_doubles_size (MAX_TABLE_SIZE : Nat) (t : CuckooHashTable)
    (hinv : CInv t) (h : MAX_TABLE_SIZE < t.size * 2) :
    ∃ t2, upsize_hash_table MAX_TABLE_SIZE t EXPANSION_FACTOR = Res.ret (t2, false) ∧
      t2.table1 = t.table1 ∧ t2.table2 = t.table2 ∧ t2.size = 2 * t.size ∧
      t2.size ≠ t.size ∧ t2.table1.slots.length ≠ t2.size ∧
      t2.table2.inuse.length ≠ t2.size := by
  have hpos := hinv.pos
  refine ⟨_, ck_upsize_refused MAX_TABLE_SIZE t EXPANSION_FACTOR h, rfl, rfl, ?_, ?_, ?_, ?_⟩
  · show t.size * 2 = 2 * t.size; omega
  · show t.size * 2 ≠ t.size; omega
  · show t.table1.slots.length ≠ t.size * 2
    rw [hinv.inv1.1]; omega
  · show t.table2.inuse.length ≠ t.size * 2
    rw [hinv.inv2.2.1]; omega

/-- Witness for C6: a new table of 4 cells with `MAX_TABLE_SIZE = 4`. -/
theorem cuckoo_refused_growth_doubles_size_witness :
    ∃ t2, upsize_hash_table 4 (new_cuckoo_hash_table 4) EXPANSION_FACTOR = Res.ret (t2, false) ∧
      t2.table1 = (new_cuckoo_hash_table 4).table1 ∧
      t2.table2 = (new_cuckoo_hash_table 4).table2 ∧
      t2.size = 2 * (new_cuckoo_hash_table 4).size ∧
      t2.size ≠ (new_cuckoo_hash_table 4).size ∧ t2.table1.slots.length ≠ t2.size ∧
      t2.table2.inuse.length ≠ t2.size :=
  cuckoo_refused_growth_doubles_size 4 (new_cuckoo_hash_table 4) (ck_new_inv 4 (by decide))
    (by decide)

/-- C8. Cuckoo insert always terminates: for every table, every key and every
`MAX_TABLE_SIZE`, `insert_fuel` iterations of the displacement loop are
enough, so the call never runs forever, displacement cycles included; on a
table that satisfies the invariant it returns: false with the table unchanged
for a duplicate, false after a refused expansion (`size` has been pushed
beyond `MAX_TABLE_SIZE`), or true with the key stored and found by lookup. -/
theorem cuckoo_insert_terminates (MAX_TABLE_SIZE fuel : Nat) (t : CuckooHashTable) (key : Nat)
    (hfuel : insert_fuel MAX_TABLE_SIZE t.size ≤ fuel) :
    cuckoo_hash_table_insert MAX_TABLE_SIZE fuel t key ≠ Res.diverge ∧
    (CInv t →
      (cuckoo_hash_table_lookup t key = Res.ret true ∧
        cuckoo_hash_table_insert MAX_TABLE_SIZE fuel t key = Res.ret (t, false)) ∨
      (cuckoo_hash_table_lookup t key = Res.ret false ∧
        ∃ t2, cuckoo_hash_table_insert MAX_TABLE_SIZE fuel t key = Res.ret (t2, false) ∧
          MAX_TABLE_SIZE < t2.size) ∨
      (cuckoo_hash_table_lookup t key = Res.ret false ∧
        ∃ t2, cuckoo_hash_table_insert MAX_TABLE_SIZE fuel t key = Res.ret (t2, true) ∧
          CInv t2 ∧ cuckoo_hash_table_lookup t2 key = Res.ret true)) := by
  refine ⟨ck_insert_terminates MAX_TABLE_SIZE fuel t key hfuel, fun hinv => ?_⟩
  rcases ck_insert_spec MAX_TABLE_SIZE fuel t key (MAX_TABLE_SIZE + t.size) (by omega) hinv
    (by omega) hfuel with ⟨hs, h⟩ | ⟨hs, t2, h, hm⟩ | ⟨hs, t2, h, hinv2, _, hst⟩
  · rcases ck_lookup_spec hinv key with ⟨hl, _⟩ | ⟨_, hns⟩
    · exact Or.inl ⟨hl, h⟩
    · exact absurd hs hns
  · rcases ck_lookup_spec hinv key with ⟨_, hs2⟩ | ⟨hl, _⟩
    · exact absurd hs2 hs
    · exact Or.inr (Or.inl ⟨hl, t2, h, hm⟩)
  · rcases ck_lookup_spec hinv key with ⟨_, hs2⟩ | ⟨hl, _⟩
    · exact absurd hs2 hs
    · refine Or.inr (Or.inr ⟨hl, t2, h, hinv2, ?_⟩)
      rcases ck_lookup_spec hinv2 key with ⟨hl2, _⟩ | ⟨_, hns⟩
      · exact hl2
      · exact absurd ((hst key).mpr (Or.inr rfl)) hns

/-- Witness for C8: the insertion of 117 that ends on a refused growth. -/
theorem cuckoo_insert_terminates_witness :
    cuckoo_hash_table_insert 4 66 ⟨⟨[77, 0, 0, 0], [true, false, false, false]⟩,
        ⟨[28, 0, 0, 0], [true, false, false, false]⟩, 4, 2⟩ 117 ≠ Res.diverge ∧
    (CInv ⟨⟨[77, 0, 0, 0], [true, false, false, false]⟩,
        ⟨[28, 0, 0, 0], [true, false, false, false]⟩, 4, 2⟩ →
      (cuckoo_hash_table_lookup ⟨⟨[77, 0, 0, 0], [true, false, false, false]⟩,
        ⟨[28, 0, 0, 0], [true, false, false, false]⟩, 4, 2⟩ 117 = Res.ret true ∧
        cuckoo_hash_table_insert 4 66 ⟨⟨[77, 0, 0, 0], [true, false, false, false]⟩,
        ⟨[28, 0, 0, 0], [true, false, false, false]⟩, 4, 2⟩ 117 = Res.ret (⟨⟨[77, 0, 0, 0], [true, false, false, false]⟩,
        ⟨[28, 0, 0, 0], [true, false, false, false]⟩, 4, 2⟩, false)) ∨
      (cuckoo_hash_table_lookup ⟨⟨[77, 0, 0, 0], [true, false, false, false]⟩,
        ⟨[28, 0, 0, 0], [true, false, false, false]⟩, 4, 2⟩ 117 = Res.ret false ∧
        ∃ t2, cuckoo_hash_table_insert 4 66 ⟨⟨[77, 0, 0, 0], [true, false, false, false]⟩,
        ⟨[28, 0, 0, 0], [true, false, false, false]⟩, 4, 2⟩ 117 = Res.ret (t2, false) ∧
          4 < t2.size) ∨
      (cuckoo_hash_table_lookup ⟨⟨[77, 0, 0, 0], [true, false, false, false]⟩,
        ⟨[28, 0, 0, 0], [true, false, false, false]⟩, 4, 2⟩ 117 = Res.ret false ∧
        ∃ t2, cuckoo_hash_table_insert 4 66 ⟨⟨[77, 0, 0, 0], [true, false, false, false]⟩,
        ⟨[28, 0, 0, 0], [true, false, false, false]⟩, 4, 2⟩ 117 = Res.ret (t2, true) ∧
          CInv t2 ∧ cuckoo_hash_table_lookup t2 117 = Res.ret true)) :=
  cuckoo_insert_terminates 4 66 ⟨⟨[77, 0, 0, 0], [true, false, false, false]⟩,
        ⟨[28, 0, 0, 0], [true, false, false, false]⟩, 4, 2⟩ 117 (by decide!)

end

namespace Cuckoo

/-- One iteration of the displacement loop and the counter `nkeys`: only the
iteration that ends the insertion with true counts one more key. -/
theorem ck_loop_body_nkeys (MAX : Nat) (t0 : CuckooHashTable) (key B : Nat) (hB : MAX ≤ B)
    (s : LoopState) (hinv : LoopInv t0 key B s) :
    (∃ t2, loop_body MAX key s = Res.ret (Step.done t2 false)) ∨
    (∃ t2, loop_body MAX key s = Res.ret (Step.done t2 true) ∧
      t2.nkeys = s.table.nkeys + 1) ∨
    (∃ s2, loop_body MAX key s = Res.ret (Step.next s2) ∧ LoopInv t0 key B s2 ∧
      s2.table.nkeys = s.table.nkeys) := by
  rcases ck_loop_body_inv MAX t0 key B hB s hinv with ⟨t2, h, _⟩ | ⟨t2, h, _⟩ | ⟨s2, h, hl⟩
  · exact Or.inl ⟨t2, h⟩
  · right; left
    refine ⟨t2, h, ?_⟩
    obtain ⟨hc, _, _⟩ := hinv
    unfold loop_body at h
    split at h
    · by_cases hm : s.table.size * EXPANSION_FACTOR ≤ MAX
      · obtain ⟨u, h2, hc2, _⟩ := ck_upsize_ok MAX s.table EXPANSION_FACTOR (by decide) hc hm
        obtain ⟨_, _, e3⟩ := ck_upsize_true_size MAX _ _ _ h2
        rw [h2, Res.bind_ret] at h
        simp only [Bool.not_true, Bool.false_eq_true, if_false] at h
        rcases ck_place_key_spec { s with table := u, kick_count := 0, expansion_threshold := get_kick_threshold u.size } hc2 with
          ⟨X, s2, h3, _⟩ | ⟨t3, h3, _, _, e4, _⟩
        · rw [h3] at h
          cases h
        · rw [h3] at h
          simp only [Res.ret.injEq, Step.done.injEq, and_true] at h
          subst h
          rw [e4]
          show u.nkeys + 1 = _
          rw [e3]
      · rw [ck_upsize_refused MAX s.table EXPANSION_FACTOR (by omega), Res.bind_ret] at h
        simp at h
    · rcases ck_place_key_spec s hc with ⟨X, s2, h3, _⟩ | ⟨t3, h3, _, _, e4, _⟩
      · rw [h3] at h
        cases h
      · rw [h3] at h
        simp only [Res.ret.injEq, Step.done.injEq, and_true] at h
        subst h
        exact e4
  · right; right
    refine ⟨s2, h, hl, ?_⟩
    obtain ⟨hc, _, _⟩ := hinv
    unfold loop_body at h
    split at h
    · by_cases hm : s.table.size * EXPANSION_FACTOR ≤ MAX
      · obtain ⟨u, h2, hc2, _⟩ := ck_upsize_ok MAX s.table EXPANSION_FACTOR (by decide) hc hm
        obtain ⟨_, _, e3⟩ := ck_upsize_true_size MAX _ _ _ h2
        rw [h2, Res.bind_ret] at h
        simp only [Bool.not_true, Bool.false_eq_true, if_false] at h
        rcases ck_place_key_spec { s with table := u, kick_count := 0, expansion_threshold := get_kick_threshold u.size } hc2 with
          ⟨X, s3, h3, _, _, _, e4, _⟩ | ⟨t3, h3, _⟩
        · rw [h3] at h
          simp only [Res.ret.injEq, Step.next.injEq] at h
          subst h
          rw [e4]
          show u.nkeys = _
          rw [e3]
        · rw [h3] at h
          cases h
      · rw [ck_upsize_refused MAX s.table EXPANSION_FACTOR (by omega), Res.bind_ret] at h
        simp at h
    · rcases ck_place_key_spec s hc with ⟨X, s3, h3, _, _, _, e4, _⟩ | ⟨t3, h3, _⟩
      · rw [h3] at h
        simp only [Res.ret.injEq, Step.next.injEq] at h
        subst h
        exact e4
      · rw [h3] at h
        cases h

theorem ck_loop_nkeys (MAX : Nat) (t0 : CuckooHashTable) (key B : Nat) (hB : MAX ≤ B) :
    ∀ fuel (s : LoopState) t2, LoopInv t0 key B s →
      insert_loop MAX key fuel s = Res.ret (t2, true) → t2.nkeys = s.table.nkeys + 1 := by
  intro fuel
  induction fuel with
  | zero =>
    intro s t2 _ h
    rw [insert_loop] at h
    cases h
  | succ fuel ih =>
    intro s t2 hinv h
    rw [insert_loop] at h
    rcases ck_loop_body_nkeys MAX t0 key B hB s hinv with ⟨t3, h3⟩ | ⟨t3, h3, e⟩ | ⟨s2, h3, hl, e⟩
    · rw [h3] at h
      simp at h
    · rw [h3] at h
      simp only [Res.bind_ret, Res.ret.injEq, Prod.mk.injEq, and_true] at h
      subst h
      exact e
    · rw [h3] at h
      rw [← e]
      exact ih s2 t2 hl h

/-- An insertion that returned true: the key was absent, it is stored now, and
one more key is counted. -/
theorem ck_insert_true (MAX fuel : Nat) (t t1 : CuckooHashTable) (key : Nat) (hinv : CInv t)
    (h : cuckoo_hash_table_insert MAX fuel t key = Res.ret (t1, true)) :
    cuckoo_hash_table_lookup t key = Res.ret false ∧ CInv t1 ∧ stored t1 key ∧
      t1.nkeys = t.nkeys + 1 := by
  unfold cuckoo_hash_table_insert at h
  rcases ck_lookup_spec hinv key with ⟨hl, _⟩ | ⟨hl, _⟩
  · rw [hl] at h
    simp at h
  · rw [hl, Res.bind_ret] at h
    simp only [Bool.false_eq_true, if_false] at h
    have hli : LoopInv t key (MAX + t.size) { table := t, use_first_table := true, kick_count := 0, current_key := key, next_key := 0, expansion_threshold := get_kick_threshold t.size } :=
      ⟨hinv, by show t.size ≤ MAX + t.size; omega, fun x => Iff.rfl⟩
    have hn := ck_loop_nkeys MAX t key (MAX + t.size) (by omega) fuel _ t1 hli h
    rcases ck_loop_inv MAX t key (MAX + t.size) (by omega) fuel _ hli with h2 | ⟨t2, h2, _⟩ | ⟨t2, h2, hc2, _, hst⟩
    · rw [h2] at h
      cases h
    · rw [h2] at h
      simp at h
    · rw [h2] at h
      simp only [Res.ret.injEq, Prod.mk.injEq, and_true] at h
      subst h
      exact ⟨hl, hc2, (hst key).mpr (Or.inr rfl), hn⟩

/-- A key that lookup finds is refused by insert, whatever the table. -/
theorem ck_insert_found (MAX fuel : Nat) (t : CuckooHashTable) (key : Nat)
    (h : cuckoo_hash_table_lookup t key = Res.ret true) :
    cuckoo_hash_table_insert MAX fuel t key = Res.ret (t, false) := by
  unfold cuckoo_hash_table_insert
  rw [h, Res.bind_ret]
  rfl

end Cuckoo

section

open Cuckoo

/-- C16 (the claim as stated fails). With `MAX_TABLE_SIZE = 4`, on the table
reached from `new_cuckoo_hash_table(4)` by inserting 28 and 77, the key 117 is
absent; inserting it returns false because the doubling is refused, inserting
it again returns false, and `nkeys` is still 2: two insertions of an absent
key have not raised `nkeys` by one. -/
theorem cuckoo_refused_insert_counts_nothing :
    Cuckoo.insert_all 4 66 (new_cuckoo_hash_table 4) [28, 77]
      = Res.ret (some ⟨⟨[77, 0, 0, 0], [true, false, false, false]⟩,
          ⟨[28, 0, 0, 0], [true, false, false, false]⟩, 4, 2⟩) ∧
    cuckoo_hash_table_lookup ⟨⟨[77, 0, 0, 0], [true, false, false, false]⟩,
        ⟨[28, 0, 0, 0], [true, false, false, false]⟩, 4, 2⟩ 117 = Res.ret false ∧
    ((cuckoo_hash_table_insert 4 66 ⟨⟨[77, 0, 0, 0], [true, false, false, false]⟩,
        ⟨[28, 0, 0, 0], [true, false, false, false]⟩, 4, 2⟩ 117).bind fun r =>
      (cuckoo_hash_table_insert 4 66 r.1 117).bind fun r2 =>
        Res.ret (r.2, r2.2, r2.1.nkeys)) = Res.ret (false, false, 2) := by
  refine ⟨?_, ?_, ?_⟩ <;> decide!

end

namespace Cuckoo

theorem count_set_false_of_true (l : List Bool) (i : Nat) (h : l[i]? = some true) :
    (l.set i false).count true + 1 = l.count true := by
  induction l generalizing i with
  | nil => simp at h
  | cons b l ih =>
    cases i with
    | zero =>
      simp only [List.getElem?_cons_zero, Option.some.injEq] at h
      subst h
      simp
    | succ i =>
      simp only [List.getElem?_cons_succ] at h
      simp only [List.set_cons_succ, List.count_cons, ← ih i h]
      omega

theorem set_same {α : Type} (l : List α) (i : Nat) (v : α) (h : l[i]? = some v) :
    l.set i v = l := by
  apply List.ext_getElem?
  intro q
  rw [List.getElem?_set]
  split
  · rename_i e
    subst e
    rw [if_pos (lt_length_of_getElem? h)]
    exact h.symm
  · rfl

/-- The number of cells in use after a key moved from the cell in use `ix` to
the free cell `ni`. -/
theorem count_moved (u : List Bool) (ix ni : Nat) (hne : ix ≠ ni) (hix : u[ix]? = some true)
    (hni : u[ni]? = some false) :
    ((u.set ix false).set ni true).count true = u.count true := by
  have h1 : (u.set ix false)[ni]? = some false := by
    rw [List.getElem?_set_ne hne]
    exact hni
  rw [Linear.count_set_true_of_false _ _ h1]
  exact count_set_false_of_true u ix hix

theorem ck_realloc_count (u : List Bool) (n : Nat) (h : u.length ≤ n) :
    (realloc u n false).count true = u.count true := by
  unfold realloc
  rw [List.take_of_length_le h, List.count_append, List.count_replicate]
  simp

/-- One iteration of the rehash loop keeps the keys and the number of cells
in use. -/
theorem ck_move_step_count (first_table : Bool) (n N ix : Nat) (it : InnerTable)
    (hdvd : n ∣ N) (hN : 0 < N) (hix : ix < n) (hinv : MoveInv first_table n N ix it) :
    ∃ it2, move_loop N first_table (m + 1) ix it = move_loop N first_table m (ix + 1) it2 ∧
      MoveInv first_table n N (ix + 1) it2 ∧
      (∀ x, (∃ q, iholds it2 q x) ↔ (∃ q, iholds it q x)) ∧
      it2.inuse.count true = it.inuse.count true := by
  obtain ⟨hl1, hl2, hA, hB⟩ := hinv
  have hnN : n ≤ N := Nat.le_of_dvd hN hdvd
  have hixN : ix < N := by omega
  have hixmod : ix % n = ix := Nat.mod_eq_of_lt hix
  rw [move_loop]
  rcases rd_bool_cases it.inuse ix (by omega) with hu | hu
  · obtain ⟨k, hk⟩ := getElem?_exists it.slots ix (by omega)
    have hh : iholds it ix k := ⟨hu, hk⟩
    have hkn : hashOf first_table k % n = ix := (hB ix k hh (by omega)).2
    have hni : hashOf first_table k % N < N := Nat.mod_lt _ hN
    have hnimod : hashOf first_table k % N % n = ix := by
      rw [Nat.mod_mod_of_dvd _ hdvd]; exact hkn
    rw [rd_of_getElem? hu, Res.bind_ret, if_pos rfl, rd_of_getElem? hk, Res.bind_ret,
      ck_index_eq N first_table k (by omega), Res.bind_ret]
    by_cases hne : ix = hashOf first_table k % N
    · rw [if_neg (by simpa using hne)]
      refine ⟨it, rfl, ⟨hl1, hl2, ?_, ?_⟩, fun x => Iff.rfl, rfl⟩
      · intro q x hq hlt
        rcases Nat.lt_succ_iff_lt_or_eq.mp hlt with hlt | heq
        · exact hA q x hq hlt
        · have hqn := (hB q x hq (by omega)).1
          rw [Nat.mod_eq_of_lt hqn] at heq
          subst heq
          have : x = k := by
            have := hq.2
            rw [hk] at this
            exact (Option.some.inj this).symm
          rw [this]
          exact hne.symm
      · intro q x hq hle
        exact hB q x hq (by omega)
    · rw [if_pos hne, wr_of_lt k (by omega), Res.bind_ret, wr_of_lt false (by omega),
        Res.bind_ret, wr_of_lt true (by simp; omega), Res.bind_ret]
      have hmv := ck_iholds_moved it ix (hashOf first_table k % N) k hne (by omega) (by omega)
      have hfree : it.inuse[hashOf first_table k % N]? = some false := by
        rcases rd_bool_cases it.inuse (hashOf first_table k % N) (by omega) with hf | hf
        · exfalso
          obtain ⟨y, hy⟩ := getElem?_exists it.slots (hashOf first_table k % N) (by omega)
          have hq := (hB _ y ⟨hf, hy⟩ (by rw [hnimod])).1
          have := Nat.mod_eq_of_lt hq
          omega
        · exact hf
      refine ⟨_, rfl, ⟨by simp [hl1], by simp [hl2], ?_, ?_⟩, fun x => ?_,
        count_moved _ _ _ hne hu hfree⟩
      · intro q x hq hlt
        rcases (hmv q x).mp hq with ⟨e1, e2⟩ | ⟨e1, e2, hq2⟩
        · rw [e1, e2]
        · rcases Nat.lt_succ_iff_lt_or_eq.mp hlt with hlt | heq
          · exact hA q x hq2 hlt
          · have hqn := (hB q x hq2 (by omega)).1
            rw [Nat.mod_eq_of_lt hqn] at heq
            exact absurd heq e2
      · intro q x hq hle
        rcases (hmv q x).mp hq with ⟨e1, e2⟩ | ⟨e1, e2, hq2⟩
        · rw [e1, hnimod] at hle
          omega
        · exact hB q x hq2 (by omega)
      · constructor
        · rintro ⟨q, hq⟩
          rcases (hmv q x).mp hq with ⟨e1, e2⟩ | ⟨e1, e2, hq2⟩
          · exact ⟨ix, by rw [e2]; exact hh⟩
          · exact ⟨q, hq2⟩
        · rintro ⟨q, hq⟩
          by_cases hqix : q = ix
          · subst hqix
            have : x = k := by
              have := hq.2
              rw [hk] at this
              exact (Option.some.inj this).symm
            exact ⟨_, (hmv _ x).mpr (Or.inl ⟨rfl, this⟩)⟩
          · by_cases hqni : q = hashOf first_table k % N
            · exfalso
              have hqn := (hB q x hq (by rw [hqni, hnimod])).1
              have : q % n = ix := by rw [hqni, hnimod]
              rw [Nat.mod_eq_of_lt hqn] at this
              exact hqix this
            · exact ⟨q, (hmv q x).mpr (Or.inr ⟨hqni, hqix, hq⟩)⟩
  · rw [rd_of_getElem? hu, Res.bind_ret, if_neg (by simp)]
    refine ⟨it, rfl, ⟨hl1, hl2, ?_, ?_⟩, fun x => Iff.rfl, rfl⟩
    · intro q x hq hlt
      rcases Nat.lt_succ_iff_lt_or_eq.mp hlt with hlt | heq
      · exact hA q x hq hlt
      · have hqn := (hB q x hq (by omega)).1
        rw [Nat.mod_eq_of_lt hqn] at heq
        subst heq
        have := hq.1
        rw [hu] at this
        cases this
    · intro q x hq hle
      exact hB q x hq (by omega)

theorem ck_move_loop_count (first_table : Bool) (n N : Nat) (hn : 0 < n) (hdvd : n ∣ N)
    (hN : 0 < N) :
    ∀ m ix it, ix + m = n → MoveInv first_table n N ix it →
      ∃ it2, move_loop N first_table m ix it = Res.ret it2 ∧ MoveInv first_table n N n it2 ∧
        (∀ x, (∃ q, iholds it2 q x) ↔ (∃ q, iholds it q x)) ∧
        it2.inuse.count true = it.inuse.count true := by
  intro m
  induction m with
  | zero =>
    intro ix it h hinv
    have : ix = n := by omega
    subst this
    exact ⟨it, rfl, hinv, fun x => Iff.rfl, rfl⟩
  | succ m ih =>
    intro ix it h hinv
    obtain ⟨it1, h1, hinv1, hk1, hc1⟩ :=
      ck_move_step_count (m := m) first_table n N ix it hdvd hN (by omega) hinv
    obtain ⟨it2, h2, hinv2, hk2, hc2⟩ := ih (ix + 1) it1 (by omega) hinv1
    refine ⟨it2, by rw [h1, h2], hinv2, fun x => ?_, by rw [hc2, hc1]⟩
    rw [hk2, hk1]

/-- A successful growth of an inner table keeps the keys, puts each at its
index for the new size and keeps the number of cells in use. -/
theorem ck_upsize_inner_count (MAX : Nat) (first_table : Bool) (n f : Nat) (it : InnerTable)
    (hn : 0 < n) (hf : 0 < f) (hmax : n * f ≤ MAX) (hinv : IInv first_table n it) :
    ∃ it2, upsize_inner_table MAX it first_table n f = Res.ret (it2, true) ∧
      IInv first_table (n * f) it2 ∧ (∀ x, (∃ q, iholds it2 q x) ↔ (∃ q, iholds it q x)) ∧
      it2.inuse.count true = it.inuse.count true := by
  obtain ⟨hl1, hl2, hpos⟩ := hinv
  have hN : 0 < n * f := Nat.mul_pos hn hf
  have hnN : n ≤ n * f := Nat.le_mul_of_pos_right n hf
  unfold upsize_inner_table
  rw [if_neg (by simp)]
  simp only []
  rw [if_neg (by omega)]
  have hclear : clear_loop (n * f - n) n (realloc it.inuse (n * f) false)
      = Res.ret (realloc it.inuse (n * f) false) := by
    apply ck_clear_loop_id
    · rw [ck_realloc_length _ _ _ (by omega)]; omega
    · intro q h1 h2
      rw [ck_realloc_get _ _ _ (by omega), if_neg (by omega), if_pos (by omega)]
  rw [hclear, Res.bind_ret]
  have hiff : ∀ q x, iholds ⟨realloc it.slots (n * f) 0, realloc it.inuse (n * f) false⟩ q x
      ↔ iholds it q x := by
    intro q x
    unfold iholds
    simp only []
    rw [ck_realloc_get _ _ _ (by omega), ck_realloc_get _ _ _ (by omega), hl1, hl2]
    by_cases hq : q < n
    · simp [hq]
    · simp only [hq, if_false]
      constructor
      · intro h
        have := h.1
        split at this <;> cases this
      · intro h
        have := lt_length_of_getElem? h.1
        omega
  have hinit : MoveInv first_table n (n * f) 0
      ⟨realloc it.slots (n * f) 0, realloc it.inuse (n * f) false⟩ := by
    refine ⟨ck_realloc_length _ _ _ (by omega), ck_realloc_length _ _ _ (by omega), ?_, ?_⟩
    · intro q k _ h
      omega
    · intro q k hq _
      have hq2 := (hiff q k).mp hq
      have := lt_length_of_getElem? hq2.1
      exact ⟨by omega, hpos q k hq2⟩
  obtain ⟨it2, h2, ⟨e1, e2, hA, _⟩, hk, hc⟩ :=
    ck_move_loop_count first_table n (n * f) hn (Dvd.intro f rfl) hN n 0 _ (by omega) hinit
  rw [h2, Res.bind_ret]
  refine ⟨it2, rfl, ⟨e1, e2, fun q k hq => hA q k hq (Nat.mod_lt _ hn)⟩, fun x => ?_, by
    rw [hc]
    exact ck_realloc_count _ _ (by omega)⟩
  rw [hk]
  constructor
  · rintro ⟨q, hq⟩; exact ⟨q, (hiff q x).mp hq⟩
  · rintro ⟨q, hq⟩; exact ⟨q, (hiff q x).mpr hq⟩

end Cuckoo

section

open Cuckoo

end

namespace Cuckoo

theorem ck_used_with_inner (t : CuckooHashTable) (b : Bool) (it : InnerTable) :
    used_slots (with_inner t b it) + (inner t b).inuse.count true
      = used_slots t + it.inuse.count true := by
  cases b
  · show t.table1.inuse.count true + it.inuse.count true + t.table2.inuse.count true = _
    unfold used_slots
    omega
  · show it.inuse.count true + t.table2.inuse.count true + t.table1.inuse.count true = _
    unfold used_slots
    omega

theorem ck_with_inner_len (t : CuckooHashTable) (b : Bool) (it : InnerTable)
    (h1 : it.slots.length = (inner t b).slots.length)
    (h2 : it.inuse.length = (inner t b).inuse.length) :
    (with_inner t b it).table1.slots.length = t.table1.slots.length ∧
    (with_inner t b it).table1.inuse.length = t.table1.inuse.length ∧
    (with_inner t b it).table2.slots.length = t.table2.slots.length ∧
    (with_inner t b it).table2.inuse.length = t.table2.inuse.length := by
  cases b
  · exact ⟨rfl, rfl, h1, h2⟩
  · exact ⟨h1, h2, rfl, rfl⟩

/-- What the second part of an iteration does to the counters, whatever the
table: the lengths and `size` are kept, and `nkeys` rises by one exactly when
one more cell is in use. -/
theorem ck_place_key_struct {s : LoopState} {r : Step} (h : place_key s = Res.ret r) :
    r.table.size = s.table.size ∧
    r.table.table1.slots.length = s.table.table1.slots.length ∧
    r.table.table1.inuse.length = s.table.table1.inuse.length ∧
    r.table.table2.slots.length = s.table.table2.slots.length ∧
    r.table.table2.inuse.length = s.table.table2.inuse.length ∧
    r.table.nkeys + used_slots s.table = s.table.nkeys + used_slots r.table := by
  unfold place_key at h
  simp only [Res.bind_eq_ret] at h
  obtain ⟨idx, _, used, hused, v, hv, t2, ht2, h⟩ := h
  rw [ck_get_usage_eq, rd_eq_ret] at hused
  rw [ck_write_key_eq] at ht2
  simp only [Res.bind_eq_ret, wr_eq_ret] at ht2
  obtain ⟨sl, ⟨hl1, hsl⟩, u, ⟨hl2, hu⟩, ht2⟩ := ht2
  simp only [Res.ret.injEq] at ht2
  subst hsl hu
  have hlen := ck_with_inner_len s.table s.use_first_table
    ⟨(inner s.table s.use_first_table).slots.set idx s.current_key,
      (inner s.table s.use_first_table).inuse.set idx true⟩ (by simp) (by simp)
  have husd := ck_used_with_inner s.table s.use_first_table
    ⟨(inner s.table s.use_first_table).slots.set idx s.current_key,
      (inner s.table s.use_first_table).inuse.set idx true⟩
  rw [ht2] at hlen husd
  have hsz : t2.size = s.table.size := by rw [← ht2]; exact ck_with_inner_size _ _ _
  have hnk : t2.nkeys = s.table.nkeys := by rw [← ht2]; exact ck_with_inner_nkeys _ _ _
  simp only at husd
  cases used with
  | true =>
    simp only [if_true, Res.bind_eq_ret] at hv
    obtain ⟨k, _, hv⟩ := hv
    cases hv
    simp only [Bool.false_eq_true, if_false, Res.ret.injEq] at h
    subst h
    rw [set_same _ _ _ hused] at husd
    refine ⟨hsz, hlen.1, hlen.2.1, hlen.2.2.1, hlen.2.2.2, ?_⟩
    show t2.nkeys + _ = _ + used_slots t2
    omega
  | false =>
    simp only [Bool.false_eq_true, if_false, Res.ret.injEq] at hv
    subst hv
    simp only [if_true, Res.ret.injEq] at h
    subst h
    rw [Linear.count_set_true_of_false _ _ hused] at husd
    refine ⟨hsz, hlen.1, hlen.2.1, hlen.2.2.1, hlen.2.2.2, ?_⟩
    show t2.nkeys + 1 + _ = _ + used_slots t2
    omega

theorem ck_place_key_cinv {s : LoopState} {r : Step} (hinv : CInv s.table)
    (h : place_key s = Res.ret r) : CInv r.table := by
  rcases ck_place_key_spec s hinv with ⟨X, s2, h3, _, hc3, _⟩ | ⟨t3, h3, hc3, _⟩
  · rw [h3] at h
    cases h
    exact hc3
  · rw [h3] at h
    cases h
    exact hc3

/-- A growth within the bound keeps the number of cells in use. -/
theorem ck_upsize_count (MAX : Nat) (t : CuckooHashTable) (f : Nat) (hf : 0 < f)
    (hinv : CInv t) (hm : t.size * f ≤ MAX) :
    ∃ t2, upsize_hash_table MAX t f = Res.ret (t2, true) ∧ CInv t2 ∧
      used_slots t2 = used_slots t ∧ t2.nkeys = t.nkeys := by
  obtain ⟨a, ha, hia, _, hca⟩ :=
    ck_upsize_inner_count MAX true t.size f t.table1 hinv.pos hf hm hinv.inv1
  obtain ⟨b, hb, hib, _, hcb⟩ :=
    ck_upsize_inner_count MAX false t.size f t.table2 hinv.pos hf hm hinv.inv2
  unfold upsize_hash_table
  rw [ha, Res.bind_ret]
  simp only [if_true]
  rw [hb, Res.bind_ret]
  refine ⟨_, rfl, ⟨Nat.mul_pos hinv.pos hf, hia, hib⟩, ?_, rfl⟩
  unfold used_slots
  simp only
  rw [hca, hcb]

theorem ck_counted_place {MAX : Nat} {s : LoopState} {r : Step} (hc : Counted MAX s.table)
    (hpos : 0 < s.table.size) (h : place_key s = Res.ret r) :
    Counted MAX r.table ∧ 0 < r.table.size := by
  obtain ⟨e0, e1, e2, e3, e4, e5⟩ := ck_place_key_struct h
  have hn := hc.nkeys_eq
  refine ⟨⟨by omega, by rw [e1, e2]; exact hc.len1, by rw [e3, e4]; exact hc.len2, ?_⟩,
    by omega⟩
  rcases hc.shape with hi | hm | hz
  · exact Or.inl (ck_place_key_cinv hi h)
  · exact Or.inr (Or.inl (by omega))
  · omega

theorem ck_loop_body_counted {MAX key : Nat} {s : LoopState} {r : Step}
    (hc : Counted MAX s.table) (hpos : 0 < s.table.size)
    (h : loop_body MAX key s = Res.ret r) :
    Counted MAX r.table ∧ 0 < r.table.size := by
  unfold loop_body at h
  split at h
  · by_cases hm : s.table.size * EXPANSION_FACTOR ≤ MAX
    · have hi : CInv s.table := by
        rcases hc.shape with hi | hm2 | hz
        · exact hi
        · simp only [EXPANSION_FACTOR] at hm
          omega
        · omega
      obtain ⟨t2, h2, hc2, hu2, hn2⟩ := ck_upsize_count MAX s.table EXPANSION_FACTOR
        (by decide) hi hm
      rw [h2, Res.bind_ret] at h
      simp only [Bool.not_true, Bool.false_eq_true, if_false] at h
      have hct : Counted MAX t2 :=
        ⟨by rw [hn2, hu2]; exact hc.nkeys_eq,
          by rw [hc2.inv1.1, hc2.inv1.2.1], by rw [hc2.inv2.1, hc2.inv2.2.1], Or.inl hc2⟩
      exact ck_counted_place (s := { s with table := t2, kick_count := 0, expansion_threshold := get_kick_threshold t2.size }) hct hc2.pos h
    · rw [ck_upsize_refused MAX s.table EXPANSION_FACTOR (by omega), Res.bind_ret] at h
      simp only [Bool.not_false, if_true, Res.ret.injEq] at h
      subst h
      refine ⟨⟨hc.nkeys_eq, hc.len1, hc.len2, Or.inr (Or.inl ?_)⟩, ?_⟩
      · show MAX < s.table.size * EXPANSION_FACTOR
        omega
      · show 0 < s.table.size * EXPANSION_FACTOR
        simp only [EXPANSION_FACTOR]
        omega
  · exact ck_counted_place hc hpos h

theorem ck_loop_counted (MAX key : Nat) :
    ∀ fuel (s : LoopState) (t2 : CuckooHashTable) (b : Bool), Counted MAX s.table →
      0 < s.table.size → insert_loop MAX key fuel s = Res.ret (t2, b) → Counted MAX t2 := by
  intro fuel
  induction fuel with
  | zero =>
    intro s t2 b _ _ h
    simp [insert_loop] at h
  | succ fuel ih =>
    intro s t2 b hc hpos h
    rw [insert_loop, Res.bind_eq_ret] at h
    obtain ⟨r, hr, h⟩ := h
    obtain ⟨hc2, hpos2⟩ := ck_loop_body_counted hc hpos hr
    cases r with
    | done t3 b3 =>
      simp only [Res.ret.injEq, Prod.mk.injEq] at h
      rw [← h.1]
      exact hc2
    | next s2 => exact ih s2 t2 b hc2 hpos2 h

theorem ck_insert_counted {MAX fuel : Nat} {t t2 : CuckooHashTable} {key : Nat} {b : Bool}
    (hc : Counted MAX t) (h : cuckoo_hash_table_insert MAX fuel t key = Res.ret (t2, b)) :
    Counted MAX t2 := by
  unfold cuckoo_hash_table_insert at h
  rw [Res.bind_eq_ret] at h
  obtain ⟨found, hl, h⟩ := h
  have hpos := ck_lookup_ret_pos hl
  split at h
  · simp only [Res.ret.injEq, Prod.mk.injEq] at h
    rw [← h.1]
    exact hc
  · exact ck_loop_counted MAX key fuel _ t2 b hc hpos h

theorem ck_new_counted (MAX size : Nat) : Counted MAX (new_cuckoo_hash_table size) := by
  refine ⟨?_, by simp [new_cuckoo_hash_table, new_inner_table],
    by simp [new_cuckoo_hash_table, new_inner_table], ?_⟩
  · simp [new_cuckoo_hash_table, new_inner_table, used_slots, List.count_replicate]
  · rcases Nat.eq_zero_or_pos size with h | h
    · exact Or.inr (Or.inr h)
    · exact Or.inl (ck_new_inv size h)

theorem ck_reach_counted {MAX : Nat} {t : CuckooHashTable} (h : CReach MAX t) :
    Counted MAX t := by
  induction h with
  | init size => exact ck_new_counted MAX size
  | insert t fuel key t2 b _ hins ih => exact ck_insert_counted ih hins

end Cuckoo

section

open Cuckoo

end

namespace Cuckoo

theorem ck_threshold_pos (size : Nat) : 1 ≤ get_kick_threshold size := by
  unfold get_kick_threshold
  omega

/-- An iteration on the first table whose hashed cell holds `X`: `X` is kicked
out and `K` written. -/
theorem ck_place_first_used (t : CuckooHashTable) (K X kc nk thr : Nat) (hpos : 0 < t.size)
    (hX : iholds t.table1 (h1 K % t.size) X) :
    place_key ⟨t, true, kc, K, nk, thr⟩ = Res.ret (Step.next
      ⟨{ t with table1 := ⟨t.table1.slots.set (h1 K % t.size) K, t.table1.inuse⟩ },
        false, kc + 1, X, X, thr⟩) := by
  have hl1 := lt_length_of_getElem? hX.1
  have hl2 := lt_length_of_getElem? hX.2
  unfold place_key
  simp only
  rw [ck_index_eq _ _ _ (by omega)]
  simp only [hashOf, if_true, Res.bind_ret, get_usage, get_key, write_key]
  rw [rd_of_getElem? hX.1, Res.bind_ret]
  simp only [if_true]
  rw [rd_of_getElem? hX.2, Res.bind_ret, Res.bind_ret, wr_of_lt _ hl2, wr_of_lt _ hl1,
    Res.bind_ret, Res.bind_ret, Res.bind_ret, set_same _ _ _ hX.1]
  simp

/-- An iteration on the second table whose hashed cell is free: the key in hand
is written and the insertion is complete. -/
theorem ck_place_second_free (t : CuckooHashTable) (X kc nk thr : Nat) (hpos : 0 < t.size)
    (hfree : t.table2.inuse[h2 X % t.size]? = some false)
    (hlen : t.table2.slots.length = t.table2.inuse.length) :
    place_key ⟨t, false, kc, X, nk, thr⟩ = Res.ret (Step.done
      { t with table2 := ⟨t.table2.slots.set (h2 X % t.size) X, t.table2.inuse.set (h2 X % t.size) true⟩, nkeys := t.nkeys + 1 } true) := by
  have hl1 := lt_length_of_getElem? hfree
  unfold place_key
  simp only
  rw [ck_index_eq _ _ _ (by omega)]
  simp only [hashOf, Bool.false_eq_true, if_false, Res.bind_ret, get_usage, get_key, write_key]
  rw [rd_of_getElem? hfree, Res.bind_ret]
  simp only [Bool.false_eq_true, if_false, Res.bind_ret]
  rw [wr_of_lt _ hl1, wr_of_lt _ (by omega), Res.bind_ret, Res.bind_ret, Res.bind_ret]
  simp

theorem ck_loop_body_quiet (MAX key : Nat) (s : LoopState) (h : ¬ detects key s) :
    loop_body MAX key s = place_key s := by
  unfold loop_body
  exact if_neg h

end Cuckoo

section

open Cuckoo

/-- C27. Cuckoo single displacement: for every reachable cuckoo table and key
`K` that lookup does not find, such that cell `h1(K) mod size` of table 1
holds a key `X` and cell `h2(X) mod size` of table 2 is free,
`cuckoo_hash_table_insert(K)` returns true after two iterations without
resizing, leaves `K` in `table1[h1(K) mod size]` and `X` in
`table2[h2(X) mod size]`, changes no other cell, and raises `nkeys` by 1. -/
theorem cuckoo_single_displacement (MAX_TABLE_SIZE fuel : Nat) (t : CuckooHashTable)
    (K X : Nat) (hreach : CReach MAX_TABLE_SIZE t)
    (habsent : cuckoo_hash_table_lookup t K = Res.ret false)
    (hX : t.table1.inuse[h1 K % t.size]? = some true ∧ t.table1.slots[h1 K % t.size]? = some X)
    (hfree : t.table2.inuse[h2 X % t.size]? = some false) (hfuel : 2 ≤ fuel) :
    ∃ t2, cuckoo_hash_table_insert MAX_TABLE_SIZE fuel t K = Res.ret (t2, true) ∧
      t2.size = t.size ∧ t2.nkeys = t.nkeys + 1 ∧
      t2.table1.slots = t.table1.slots.set (h1 K % t.size) K ∧
      t2.table1.inuse = t.table1.inuse ∧
      t2.table2.slots = t.table2.slots.set (h2 X % t.size) X ∧
      t2.table2.inuse = t.table2.inuse.set (h2 X % t.size) true ∧
      iholds t2.table1 (h1 K % t.size) K ∧ iholds t2.table2 (h2 X % t.size) X := by
  have hpos := ck_lookup_ret_pos habsent
  have hc := ck_reach_counted hreach
  have hl1 := lt_length_of_getElem? hX.1
  have hl2 := lt_length_of_getElem? hX.2
  have hl3 := lt_length_of_getElem? hfree
  have hl4 : h2 X % t.size < t.table2.slots.length := by rw [hc.len2]; exact hl3
  obtain ⟨f, rfl⟩ : ∃ f, fuel = f + 2 := ⟨fuel - 2, by omega⟩
  have hthr := ck_threshold_pos t.size
  refine ⟨{ t with table1 := ⟨t.table1.slots.set (h1 K % t.size) K, t.table1.inuse⟩, table2 := ⟨t.table2.slots.set (h2 X % t.size) X, t.table2.inuse.set (h2 X % t.size) true⟩, nkeys := t.nkeys + 1 },
    ?_, rfl, rfl, rfl, rfl, rfl, rfl, ⟨?_, ?_⟩, ⟨?_, ?_⟩⟩
  · unfold cuckoo_hash_table_insert
    rw [habsent, Res.bind_ret]
    simp only [Bool.false_eq_true, if_false]
    rw [insert_loop, ck_loop_body_quiet _ _ _ (by simp [detects]),
      ck_place_first_used t K X 0 0 _ hpos hX, Res.bind_ret]
    simp only
    rw [insert_loop, ck_loop_body_quiet _ _ _ (by simp [detects]; omega),
      ck_place_second_free
        ⟨⟨t.table1.slots.set (h1 K % t.size) K, t.table1.inuse⟩, t.table2, t.size, t.nkeys⟩
        X _ _ _ hpos hfree hc.len2, Res.bind_ret]
  · exact hX.1
  · show (t.table1.slots.set _ K)[_]? = some K
    rw [List.getElem?_set_self hl2]
  · show (t.table2.inuse.set _ true)[_]? = some true
    rw [List.getElem?_set_self hl3]
  · show (t.table2.slots.set _ X)[_]? = some X
    rw [List.getElem?_set_self hl4]

/-- Witness for C27: the table of size 4 that holds 28 in cell 0 of table 1,
and the key 77, which hashes to that cell. -/
theorem cuckoo_single_displacement_witness :
    ∃ t2, cuckoo_hash_table_insert 4 2 ⟨⟨[28, 0, 0, 0], [true, false, false, false]⟩,
        ⟨[0, 0, 0, 0], [false, false, false, false]⟩, 4, 1⟩ 77 = Res.ret (t2, true) ∧
      t2.size = 4 ∧ t2.nkeys = 1 + 1 ∧
      t2.table1.slots = [28, 0, 0, 0].set (h1 77 % 4) 77 ∧
      t2.table1.inuse = [true, false, false, false] ∧
      t2.table2.slots = [0, 0, 0, 0].set (h2 28 % 4) 28 ∧
      t2.table2.inuse = [false, false, false, false].set (h2 28 % 4) true ∧
      iholds t2.table1 (h1 77 % 4) 77 ∧ iholds t2.table2 (h2 28 % 4) 28 :=
  cuckoo_single_displacement 4 2 ⟨⟨[28, 0, 0, 0], [true, false, false, false]⟩,
        ⟨[0, 0, 0, 0], [false, false, false, false]⟩, 4, 1⟩ 77 28
    (CReach.insert (new_cuckoo_hash_table 4) 66 28 _ true (CReach.init 4) (by decide!))
    (by decide!) (by decide!) (by decide!) (by decide)

end

namespace Cuckoo

/-- Every state of the displacement loop carries the threshold of the current
`size`, and a table that is counted and not empty. -/
theorem ck_loop_reach_inv {MAX : Nat} {t : CuckooHashTable} {key : Nat} {s : LoopState}
    (ht : CReach MAX t) (h : LoopReach MAX t key s) :
    s.expansion_threshold = get_kick_threshold s.table.size ∧ Counted MAX s.table ∧
      0 < s.table.size := by
  induction h with
  | init hl => exact ⟨rfl, ck_reach_counted ht, ck_lookup_ret_pos hl⟩
  | step s s2 _ hb ih =>
    obtain ⟨e, hc, hpos⟩ := ih
    obtain ⟨hc2, hpos2⟩ := ck_loop_body_counted hc hpos hb
    refine ⟨?_, hc2, hpos2⟩
    rcases (ck_loop_body_next hb).2 with ⟨a1, _, a3, _⟩ | ⟨_, _, _, a4⟩
    · rw [a3, e, a1]
    · exact a4

/-- A growth attempted on a counted table returns, and doubles `size`. -/
theorem ck_upsize_returns {MAX : Nat} {t : CuckooHashTable} (hc : Counted MAX t)
    (hpos : 0 < t.size) :
    ∃ t2 ok, upsize_hash_table MAX t EXPANSION_FACTOR = Res.ret (t2, ok) ∧
      t2.size = 2 * t.size ∧ (ok = true ↔ 2 * t.size ≤ MAX) := by
  by_cases hm : t.size * EXPANSION_FACTOR ≤ MAX
  · have hi : CInv t := by
      rcases hc.shape with hi | hm2 | hz
      · exact hi
      · simp only [EXPANSION_FACTOR] at hm
        omega
      · omega
    obtain ⟨t2, h2, _⟩ := ck_upsize_ok MAX t EXPANSION_FACTOR (by decide) hi hm
    obtain ⟨e1, _, _⟩ := ck_upsize_true_size MAX _ _ _ h2
    simp only [EXPANSION_FACTOR] at e1 hm
    exact ⟨t2, true, h2, by omega, by simp; omega⟩
  · refine ⟨_, false, ck_upsize_refused MAX t EXPANSION_FACTOR (by omega), ?_, ?_⟩
    · show t.size * EXPANSION_FACTOR = _
      simp only [EXPANSION_FACTOR]
      omega
    · simp only [EXPANSION_FACTOR] at hm
      simp
      omega

theorem ck_loop_body_detects (MAX key : Nat) (s : LoopState) (h : detects key s) :
    loop_body MAX key s = (upsize_hash_table MAX s.table EXPANSION_FACTOR).bind fun r =>
      if !r.2 then Res.ret (Step.done r.1 false)
      else place_key { s with table := r.1, kick_count := 0, expansion_threshold := get_kick_threshold r.1.size } := by
  unfold loop_body
  exact if_pos h

end Cuckoo

section

open Cuckoo

/-- C28. Cuckoo expansion trigger: `get_kick_threshold(size)` is
`floor(log2(size)) + 1`; at the top of every iteration of the displacement
loop of `cuckoo_hash_table_insert` on a reachable table, the threshold in use
is that of the current `size`, and the iteration attempts a doubling exactly
when the kick count is strictly greater than the threshold, or the kick count
is non-zero and the key in hand equals the originally inserted key with the
first table active: otherwise the iteration is the placement alone and leaves
`size` as it is, and in that case `upsize_hash_table` is called, returns and
doubles `size`; when it returns false the insertion returns false, and when it
returns true the placement goes on with the kick count reset to 0, the
threshold of the doubled size, the same key in hand and the same active
table. -/
theorem cuckoo_expansion_trigger (MAX_TABLE_SIZE : Nat) (t : CuckooHashTable) (key : Nat)
    (s : LoopState) (ht : CReach MAX_TABLE_SIZE t) (hs : LoopReach MAX_TABLE_SIZE t key s) :
    (∀ n, get_kick_threshold n = Nat.log 2 n + 1) ∧
    s.expansion_threshold = get_kick_threshold s.table.size ∧
    (¬ (get_kick_threshold s.table.size < s.kick_count ∨
        (s.kick_count ≠ 0 ∧ s.current_key = key ∧ s.use_first_table = true)) →
      loop_body MAX_TABLE_SIZE key s = place_key s ∧
      ∀ r, loop_body MAX_TABLE_SIZE key s = Res.ret r → r.table.size = s.table.size) ∧
    ((get_kick_threshold s.table.size < s.kick_count ∨
        (s.kick_count ≠ 0 ∧ s.current_key = key ∧ s.use_first_table = true)) →
      ∃ t2 ok, upsize_hash_table MAX_TABLE_SIZE s.table EXPANSION_FACTOR = Res.ret (t2, ok) ∧
        t2.size = 2 * s.table.size ∧ (ok = true ↔ 2 * s.table.size ≤ MAX_TABLE_SIZE) ∧
        (ok = false → loop_body MAX_TABLE_SIZE key s = Res.ret (Step.done t2 false)) ∧
        (ok = true → loop_body MAX_TABLE_SIZE key s
          = place_key ⟨t2, s.use_first_table, 0, s.current_key, s.next_key,
              get_kick_threshold (2 * s.table.size)⟩)) := by
  obtain ⟨e, hc, hpos⟩ := ck_loop_reach_inv ht hs
  refine ⟨fun n => ?_, e, fun hn => ?_, fun hd => ?_⟩
  · unfold get_kick_threshold
    rw [Nat.log2_eq_log_two]
  · have hq : ¬ detects key s := by
      unfold detects
      rw [e]
      exact hn
    have hb := ck_loop_body_quiet MAX_TABLE_SIZE key s hq
    refine ⟨hb, fun r hr => ?_⟩
    rw [hb] at hr
    exact (ck_place_key_struct hr).1
  · have hq : detects key s := by
      unfold detects
      rw [e]
      exact hd
    obtain ⟨t2, ok, h2, hsz, hok⟩ := ck_upsize_returns hc hpos
    refine ⟨t2, ok, h2, hsz, hok, fun hf => ?_, fun hf => ?_⟩
    · subst hf
      rw [ck_loop_body_detects _ _ _ hq, h2, Res.bind_ret]
      rfl
    · subst hf
      rw [ck_loop_body_detects _ _ _ hq, h2, Res.bind_ret, ← hsz]
      rfl

/-- Witness for C28: with `MAX_TABLE_SIZE = 8`, the insertion of 117 into the
table of size 4 that holds 77 and 28, at the top of its fifth iteration: four
keys were kicked out, which is more than the threshold 3. -/
theorem cuckoo_expansion_trigger_witness :
    (∀ n, get_kick_threshold n = Nat.log 2 n + 1) ∧
    3 = get_kick_threshold 4 ∧
    (¬ (get_kick_threshold 4 < 4 ∨ (4 ≠ 0 ∧ 77 = 117 ∧ true = true)) →
      loop_body 8 117 ⟨⟨⟨[28, 0, 0, 0], [true, false, false, false]⟩, ⟨[117, 0, 0, 0], [true, false, false, false]⟩, 4, 2⟩, true, 4, 77, 77, 3⟩
        = place_key ⟨⟨⟨[28, 0, 0, 0], [true, false, false, false]⟩, ⟨[117, 0, 0, 0], [true, false, false, false]⟩, 4, 2⟩, true, 4, 77, 77, 3⟩ ∧
      ∀ r, loop_body 8 117 ⟨⟨⟨[28, 0, 0, 0], [true, false, false, false]⟩, ⟨[117, 0, 0, 0], [true, false, false, false]⟩, 4, 2⟩, true, 4, 77, 77, 3⟩
        = Res.ret r → r.table.size = 4) ∧
    ((get_kick_threshold 4 < 4 ∨ (4 ≠ 0 ∧ 77 = 117 ∧ true = true)) →
      ∃ t2 ok, upsize_hash_table 8 ⟨⟨[28, 0, 0, 0], [true, false, false, false]⟩, ⟨[117, 0, 0, 0], [true, false, false, false]⟩, 4, 2⟩ EXPANSION_FACTOR = Res.ret (t2, ok) ∧
        t2.size = 2 * 4 ∧ (ok = true ↔ 2 * 4 ≤ 8) ∧
        (ok = false → loop_body 8 117 ⟨⟨⟨[28, 0, 0, 0], [true, false, false, false]⟩, ⟨[117, 0, 0, 0], [true, false, false, false]⟩, 4, 2⟩, true, 4, 77, 77, 3⟩
          = Res.ret (Step.done t2 false)) ∧
        (ok = true → loop_body 8 117 ⟨⟨⟨[28, 0, 0, 0], [true, false, false, false]⟩, ⟨[117, 0, 0, 0], [true, false, false, false]⟩, 4, 2⟩, true, 4, 77, 77, 3⟩
          = place_key ⟨t2, true, 0, 77, 77, get_kick_threshold (2 * 4)⟩)) := by
  have hT : CReach 8 ⟨⟨[77, 0, 0, 0], [true, false, false, false]⟩, ⟨[28, 0, 0, 0], [true, false, false, false]⟩, 4, 2⟩ :=
    CReach.insert ⟨⟨[28, 0, 0, 0], [true, false, false, false]⟩,
        ⟨[0, 0, 0, 0], [false, false, false, false]⟩, 4, 1⟩ 66 77 _ true
      (CReach.insert (new_cuckoo_hash_table 4) 66 28 _ true (CReach.init 4) (by decide!))
      (by decide!)
  have h0 : LoopReach 8 ⟨⟨[77, 0, 0, 0], [true, false, false, false]⟩, ⟨[28, 0, 0, 0], [true, false, false, false]⟩, 4, 2⟩ 117 _ := LoopReach.init (by decide!)
  have h1 : LoopReach 8 ⟨⟨[77, 0, 0, 0], [true, false, false, false]⟩, ⟨[28, 0, 0, 0], [true, false, false, false]⟩, 4, 2⟩ 117 ⟨⟨⟨[117, 0, 0, 0], [true, false, false, false]⟩, ⟨[28, 0, 0, 0], [true, false, false, false]⟩, 4, 2⟩, false, 1, 77, 77, 3⟩ := LoopReach.step _ _ h0 (by decide!)
  have h2 : LoopReach 8 ⟨⟨[77, 0, 0, 0], [true, false, false, false]⟩, ⟨[28, 0, 0, 0], [true, false, false, false]⟩, 4, 2⟩ 117 ⟨⟨⟨[117, 0, 0, 0], [true, false, false, false]⟩, ⟨[77, 0, 0, 0], [true, false, false, false]⟩, 4, 2⟩, true, 2, 28, 28, 3⟩ := LoopReach.step _ _ h1 (by decide!)
  have h3 : LoopReach 8 ⟨⟨[77, 0, 0, 0], [true, false, false, false]⟩, ⟨[28, 0, 0, 0], [true, false, false, false]⟩, 4, 2⟩ 117 ⟨⟨⟨[28, 0, 0, 0], [true, false, false, false]⟩, ⟨[77, 0, 0, 0], [true, false, false, false]⟩, 4, 2⟩, false, 3, 117, 117, 3⟩ := LoopReach.step _ _ h2 (by decide!)
  have h4 : LoopReach 8 ⟨⟨[77, 0, 0, 0], [true, false, false, false]⟩, ⟨[28, 0, 0, 0], [true, false, false, false]⟩, 4, 2⟩ 117 ⟨⟨⟨[28, 0, 0, 0], [true, false, false, false]⟩, ⟨[117, 0, 0, 0], [true, false, false, false]⟩, 4, 2⟩, true, 4, 77, 77, 3⟩ := LoopReach.step _ _ h3 (by decide!)
  exact cuckoo_expansion_trigger 8 ⟨⟨[77, 0, 0, 0], [true, false, false, false]⟩, ⟨[28, 0, 0, 0], [true, false, false, false]⟩, 4, 2⟩ 117 ⟨⟨⟨[28, 0, 0, 0], [true, false, false, false]⟩, ⟨[117, 0, 0, 0], [true, false, false, false]⟩, 4, 2⟩, true, 4, 77, 77, 3⟩ hT h4

end

namespace Cuckoo

theorem ck_single_apart {t : CuckooHashTable} (h : Single t) (b : Bool) (k q1 q2 : Nat)
    (h1 : iholds (inner t b) q1 k) (h2 : iholds (inner t (!b)) q2 k) : False := by
  have := (h b (!b) q1 q2 k h1 h2).1
  cases b <;> cases this

/-- With the position invariant, a key sits in one cell as soon as no key sits
in both inner tables. -/
theorem ck_single_of {t : CuckooHashTable} (hinv : CInv t) (b : Bool)
    (h : ∀ k q1 q2, iholds (inner t b) q1 k → iholds (inner t (!b)) q2 k → False) :
    Single t := by
  intro b1 b2 q1 q2 k h1 h2
  by_cases hb : b1 = b2
  · subst hb
    have e1 := (ck_inner_inv hinv b1).2.2 q1 k h1
    have e2 := (ck_inner_inv hinv b1).2.2 q2 k h2
    exact ⟨rfl, by rw [← e1, ← e2]⟩
  · exfalso
    cases b <;> cases b1 <;> cases b2
    all_goals first
      | exact hb rfl
      | exact h k _ _ h1 h2
      | exact h k _ _ h2 h1

theorem ck_inner_with_same (t : CuckooHashTable) (b : Bool) (it : InnerTable) :
    inner (with_inner t b it) b = it := by
  cases b <;> rfl

theorem ck_inner_with_other (t : CuckooHashTable) (b : Bool) (it : InnerTable) :
    inner (with_inner t b it) (!b) = inner t (!b) := by
  cases b <;> rfl

/-- The table after the key in hand is written over its cell: the position
invariant holds, no key sits in two cells. -/
theorem ck_written_single {t : CuckooHashTable} (hinv : CInv t) (hs : Single t) (b : Bool)
    (key : Nat) (hns : ¬ stored t key) :
    CInv (with_inner t b ⟨(inner t b).slots.set (hashOf b key % t.size) key,
      (inner t b).inuse.set (hashOf b key % t.size) true⟩) ∧
    Single (with_inner t b ⟨(inner t b).slots.set (hashOf b key % t.size) key,
      (inner t b).inuse.set (hashOf b key % t.size) true⟩) := by
  have hi := ck_inner_inv hinv b
  have hlt : hashOf b key % t.size < t.size := Nat.mod_lt _ hinv.pos
  have hl1 : hashOf b key % t.size < (inner t b).slots.length := by rw [hi.1]; exact hlt
  have hl2 : hashOf b key % t.size < (inner t b).inuse.length := by rw [hi.2.1]; exact hlt
  have hw := ck_iholds_written (inner t b) _ key hl1 hl2
  have hiw := ck_iinv_written b t.size _ key hinv.pos hi
  have hc := ck_with_inner_inv hinv b _ hiw
  refine ⟨hc, ck_single_of hc b ?_⟩
  intro k q1 q2 h1 h2
  rw [ck_inner_with_same] at h1
  rw [ck_inner_with_other] at h2
  rcases (hw q1 k).mp h1 with ⟨_, e⟩ | ⟨_, h⟩
  · apply hns
    rw [ck_stored_inner t b key, ← e]
    exact Or.inr ⟨q2, h2⟩
  · exact ck_single_apart hs b k q1 q2 h h2

/-- The placement keeps the invariant of the displacement loop: the position
invariant, no key in two cells, and a key in hand that the table does not
hold. -/
theorem ck_place_key_excl (s : LoopState) (hinv : CInv s.table) (hs : Single s.table)
    (hns : ¬ stored s.table s.current_key) :
    (∃ s2, place_key s = Res.ret (Step.next s2) ∧ CInv s2.table ∧ Single s2.table ∧
      ¬ stored s2.table s2.current_key) ∨
    (∃ t2, place_key s = Res.ret (Step.done t2 true) ∧ CInv t2 ∧ Single t2) := by
  have hpos : s.table.size ≠ 0 := Nat.pos_iff_ne_zero.mp hinv.pos
  have hi := ck_inner_inv hinv s.use_first_table
  have hlt : hashOf s.use_first_table s.current_key % s.table.size < s.table.size :=
    Nat.mod_lt _ hinv.pos
  have hl1 : hashOf s.use_first_table s.current_key % s.table.size
      < (inner s.table s.use_first_table).slots.length := by rw [hi.1]; exact hlt
  have hl2 : hashOf s.use_first_table s.current_key % s.table.size
      < (inner s.table s.use_first_table).inuse.length := by rw [hi.2.1]; exact hlt
  have hw := ck_iholds_written (inner s.table s.use_first_table) _ s.current_key hl1 hl2
  obtain ⟨hc, hsg⟩ := ck_written_single hinv hs s.use_first_table s.current_key hns
  unfold place_key
  rw [ck_index_eq _ _ _ hpos, Res.bind_ret, ck_get_usage_eq, ck_get_key_eq, ck_write_key_eq,
    wr_of_lt _ hl1, wr_of_lt _ hl2]
  simp only [Res.bind_ret]
  rcases rd_bool_cases _ _ hl2 with hu | hu
  · left
    obtain ⟨X, hX⟩ := getElem?_exists _ _ hl1
    rw [rd_of_getElem? hu, Res.bind_ret, if_pos rfl, rd_of_getElem? hX]
    simp only [Res.bind_ret, Bool.false_eq_true, if_false]
    refine ⟨_, rfl, hc, hsg, ?_⟩
    show ¬ stored (with_inner _ _ _) X
    rw [ck_stored_with_inner]
    rintro (⟨q, hq⟩ | ⟨q, hq⟩)
    · rcases (hw q X).mp hq with ⟨_, e⟩ | ⟨hne, h⟩
      · apply hns
        rw [ck_stored_inner s.table s.use_first_table, ← e]
        exact Or.inl ⟨_, hu, hX⟩
      · have e1 := hi.2.2 q X h
        have e2 := hi.2.2 _ X ⟨hu, hX⟩
        apply hne
        rw [← e1, e2]
    · exact ck_single_apart hs s.use_first_table X _ q ⟨hu, hX⟩ hq
  · right
    rw [rd_of_getElem? hu, Res.bind_ret]
    simp only [Bool.false_eq_true, if_false, Res.bind_ret, if_true]
    exact ⟨_, rfl, ⟨hc.pos, hc.inv1, hc.inv2⟩, hsg⟩

/-- A growth that returns true keeps the position invariant, the keys of each
inner table, and leaves no key in two cells. -/
theorem ck_upsize_excl (MAX : Nat) (t t2 : CuckooHashTable) (f : Nat) (hf : 0 < f)
    (hinv : CInv t) (hs : Single t) (h : upsize_hash_table MAX t f = Res.ret (t2, true)) :
    CInv t2 ∧ Single t2 ∧ ∀ x, stored t2 x ↔ stored t x := by
  have hm := (ck_upsize_true_size MAX t t2 f h).2.1
  obtain ⟨a, ha, hia, hka⟩ :=
    ck_upsize_inner_ok MAX true t.size f t.table1 hinv.pos hf hm hinv.inv1
  obtain ⟨b, hb, hib, hkb⟩ :=
    ck_upsize_inner_ok MAX false t.size f t.table2 hinv.pos hf hm hinv.inv2
  unfold upsize_hash_table at h
  rw [ha, Res.bind_ret] at h
  simp only [if_true] at h
  rw [hb, Res.bind_ret] at h
  simp only [Res.ret.injEq, Prod.mk.injEq, and_true] at h
  subst h
  have hc : CInv { t with table1 := a, table2 := b, size := t.size * f } :=
    ⟨Nat.mul_pos hinv.pos hf, hia, hib⟩
  refine ⟨hc, ck_single_of hc true ?_, fun x => ?_⟩
  · intro k q1 q2 h1 h2
    have h1b : iholds a q1 k := h1
    have h2b : iholds b q2 k := h2
    obtain ⟨p1, hp1⟩ := (hka k).mp ⟨q1, h1b⟩
    obtain ⟨p2, hp2⟩ := (hkb k).mp ⟨q2, h2b⟩
    exact ck_single_apart hs true k p1 p2 hp1 hp2
  · unfold stored
    rw [hka, hkb]

/-- One iteration keeps the invariant of the displacement loop. -/
theorem ck_loop_body_excl (MAX key : Nat) (s : LoopState) (r : Step) (hinv : CInv s.table)
    (hs : Single s.table) (hns : ¬ stored s.table s.current_key)
    (h : loop_body MAX key s = Res.ret r) :
    (∀ s2, r = Step.next s2 → CInv s2.table ∧ Single s2.table ∧
      ¬ stored s2.table s2.current_key) ∧
    (∀ t2, r = Step.done t2 true → CInv t2 ∧ Single t2) := by
  have hplace : ∀ s1 : LoopState, CInv s1.table → Single s1.table →
      ¬ stored s1.table s1.current_key → place_key s1 = Res.ret r →
      (∀ s2, r = Step.next s2 → CInv s2.table ∧ Single s2.table ∧
        ¬ stored s2.table s2.current_key) ∧
      (∀ t2, r = Step.done t2 true → CInv t2 ∧ Single t2) := by
    intro s1 c1 c2 c3 hp
    rcases ck_place_key_excl s1 c1 c2 c3 with ⟨s2, e, d1, d2, d3⟩ | ⟨t2, e, d1, d2⟩
    · rw [e] at hp
      simp only [Res.ret.injEq] at hp
      subst hp
      refine ⟨fun s3 e3 => ?_, fun t3 e3 => ?_⟩
      · cases e3
        exact ⟨d1, d2, d3⟩
      · cases e3
    · rw [e] at hp
      simp only [Res.ret.injEq] at hp
      subst hp
      refine ⟨fun s3 e3 => ?_, fun t3 e3 => ?_⟩
      · cases e3
      · cases e3
        exact ⟨d1, d2⟩
  by_cases hd : detects key s
  · rw [ck_loop_body_detects MAX key s hd, Res.bind_eq_ret] at h
    obtain ⟨r1, hup, h⟩ := h
    obtain ⟨t1, ok⟩ := r1
    cases ok with
    | false =>
      simp only [Bool.not_false, if_true, Res.ret.injEq] at h
      subst h
      refine ⟨fun s3 e3 => ?_, fun t3 e3 => ?_⟩
      · cases e3
      · cases e3
    | true =>
      simp only [Bool.not_true, Bool.false_eq_true, if_false] at h
      obtain ⟨c1, c2, c3⟩ := ck_upsize_excl MAX s.table t1 EXPANSION_FACTOR (by decide) hinv hs hup
      exact hplace _ c1 c2 (fun hst => hns ((c3 _).mp hst)) h
  · rw [ck_loop_body_quiet MAX key s hd] at h
    exact hplace s hinv hs hns h

/-- The displacement loop, when it returns true, leaves a table that satisfies
the position invariant with no key in two cells. -/
theorem ck_loop_excl (MAX key : Nat) :
    ∀ fuel (s : LoopState) t2, CInv s.table → Single s.table →
      ¬ stored s.table s.current_key →
      insert_loop MAX key fuel s = Res.ret (t2, true) → CInv t2 ∧ Single t2 := by
  intro fuel
  induction fuel with
  | zero =>
    intro s t2 _ _ _ h
    cases h
  | succ fuel ih =>
    intro s t2 hinv hs hns h
    rw [insert_loop, Res.bind_eq_ret] at h
    obtain ⟨r, hr, h⟩ := h
    obtain ⟨p1, p2⟩ := ck_loop_body_excl MAX key s r hinv hs hns hr
    cases r with
    | done t b =>
      simp only [Res.ret.injEq, Prod.mk.injEq] at h
      obtain ⟨e1, e2⟩ := h
      subst e1
      subst e2
      exact p2 _ rfl
    | next s2 =>
      obtain ⟨c1, c2, c3⟩ := p1 s2 rfl
      exact ih s2 t2 c1 c2 c3 h

/-- An insertion that does not fail for capacity keeps the position invariant
and leaves no key in two cells. -/
theorem ck_insert_excl (MAX fuel : Nat) (t t2 : CuckooHashTable) (key : Nat) (b : Bool)
    (hinv : CInv t) (hs : Single t)
    (h : cuckoo_hash_table_insert MAX fuel t key = Res.ret (t2, b))
    (hok : b = true ∨ cuckoo_hash_table_lookup t key = Res.ret true) :
    CInv t2 ∧ Single t2 := by
  rcases ck_lookup_spec hinv key with ⟨hl, _⟩ | ⟨hl, hns⟩
  · rw [ck_insert_found MAX fuel t key hl] at h
    cases h
    exact ⟨hinv, hs⟩
  · have hb : b = true := by
      rcases hok with hb | hl2
      · exact hb
      · rw [hl] at hl2
        cases hl2
    subst hb
    unfold cuckoo_hash_table_insert at h
    rw [hl, Res.bind_ret] at h
    simp only [Bool.false_eq_true, if_false] at h
    exact ck_loop_excl MAX key fuel _ t2 hinv hs hns h

/-- The states of the displacement loop of an insertion into a table that
satisfies the position invariant with no key in two cells. -/
theorem ck_loop_reach_excl {MAX : Nat} {t : CuckooHashTable} {key : Nat} {s : LoopState}
    (hinv : CInv t) (hs : Single t) (h : LoopReach MAX t key s) :
    CInv s.table ∧ Single s.table ∧ ¬ stored s.table s.current_key := by
  induction h with
  | init hl =>
    refine ⟨hinv, hs, ?_⟩
    rcases ck_lookup_spec hinv key with ⟨hl2, _⟩ | ⟨_, hns⟩
    · rw [hl] at hl2
      cases hl2
    · exact hns
  | step s s2 _ hb ih =>
    obtain ⟨c1, c2, c3⟩ := ih
    exact (ck_loop_body_excl MAX key s _ c1 c2 c3 hb).1 s2 rfl

theorem ck_new_single (n : Nat) : Single (new_cuckoo_hash_table n) := by
  intro b1 b2 q1 q2 k h1 _
  exfalso
  apply ck_new_not_stored n k
  rw [ck_stored_inner _ b1]
  exact Or.inl ⟨q1, h1⟩

/-- A run of the client in which no call fails for capacity ends with a table
that satisfies the position invariant with no key in two cells. -/
theorem ck_insert_all_excl (MAX fuel : Nat) (keys : List Nat) :
    ∀ t t2, CInv t → Single t → insert_all MAX fuel t keys = Res.ret (some t2) →
      CInv t2 ∧ Single t2 := by
  induction keys with
  | nil =>
    intro t t2 hinv hs h
    simp only [insert_all, Res.ret.injEq, Option.some.injEq] at h
    subst h
    exact ⟨hinv, hs⟩
  | cons k ks ih =>
    intro t t2 hinv hs h
    rw [insert_all, Res.bind_eq_ret] at h
    obtain ⟨present, hl, h⟩ := h
    rw [Res.bind_eq_ret] at h
    obtain ⟨r, hr, h⟩ := h
    obtain ⟨t1, b⟩ := r
    by_cases hc : (!present && !b) = true
    · rw [if_pos hc] at h
      cases h
    · rw [if_neg hc] at h
      have hok : b = true ∨ cuckoo_hash_table_lookup t k = Res.ret true := by
        cases b
        · cases present
          · simp at hc
          · exact Or.inr hl
        · exact Or.inl rfl
      obtain ⟨c1, c2⟩ := ck_insert_excl MAX fuel t t1 k b hinv hs hr hok
      exact ih t1 t2 c1 c2 h

end Cuckoo

section

open Cuckoo

/-- C34. Cuckoo position invariant, on the runs in which no call failed for
capacity. Let `t` be the table such a run of insertions leaves, started from
`new_cuckoo_hash_table(n)` with `n ≥ 1`. Then `size` is positive, the four
arrays have `size` cells, each cell in use of table 1 holds a key `k` with
`h1(k) mod size` the index of the cell, each cell in use of table 2 a key with
`h2(k) mod size` the index of the cell, and no key is held by two cells. The
same holds of the table at the top of every iteration of the displacement
loop of an insertion into `t`, where the key in hand is held by no cell, of
the table a successful doubling hands to the placement, and of the table left
by every call that returns true or returns false because the key is
present. -/
theorem cuckoo_position_invariant (MAX_TABLE_SIZE fuel0 fuel n : Nat) (keys : List Nat)
    (t : CuckooHashTable) (key : Nat) (hn : 1 ≤ n)
    (hreach : Cuckoo.insert_all MAX_TABLE_SIZE fuel0 (new_cuckoo_hash_table n) keys
      = Res.ret (some t)) :
    (0 < t.size ∧ t.table1.slots.length = t.size ∧ t.table1.inuse.length = t.size ∧
      t.table2.slots.length = t.size ∧ t.table2.inuse.length = t.size ∧
      (∀ q k, iholds t.table1 q k → h1 k % t.size = q) ∧
      (∀ q k, iholds t.table2 q k → h2 k % t.size = q) ∧ Single t) ∧
    (∀ s, LoopReach MAX_TABLE_SIZE t key s →
      CInv s.table ∧ Single s.table ∧ ¬ stored s.table s.current_key) ∧
    (∀ s t2, LoopReach MAX_TABLE_SIZE t key s → detects key s →
      upsize_hash_table MAX_TABLE_SIZE s.table EXPANSION_FACTOR = Res.ret (t2, true) →
      CInv t2 ∧ Single t2 ∧ ¬ stored t2 s.current_key) ∧
    (∀ t2 b, cuckoo_hash_table_insert MAX_TABLE_SIZE fuel t key = Res.ret (t2, b) →
      (b = true ∨ cuckoo_hash_table_lookup t key = Res.ret true) →
      CInv t2 ∧ Single t2) := by
  obtain ⟨hinv, hs⟩ := ck_insert_all_excl MAX_TABLE_SIZE fuel0 keys _ t (ck_new_inv n hn)
    (ck_new_single n) hreach
  have p1 : ∀ q k, iholds t.table1 q k → h1 k % t.size = q := by
    intro q k hq
    have e := hinv.inv1.2.2 q k hq
    unfold hashOf at e
    rw [if_pos rfl] at e
    exact e
  have p2 : ∀ q k, iholds t.table2 q k → h2 k % t.size = q := by
    intro q k hq
    have e := hinv.inv2.2.2 q k hq
    unfold hashOf at e
    rw [if_neg (by decide)] at e
    exact e
  refine ⟨⟨hinv.pos, hinv.inv1.1, hinv.inv1.2.1, hinv.inv2.1, hinv.inv2.2.1, p1, p2, hs⟩,
    ?_, ?_, ?_⟩
  · intro s hr
    exact ck_loop_reach_excl hinv hs hr
  · intro s t2 hr _ hup
    obtain ⟨c1, c2, c3⟩ := ck_loop_reach_excl hinv hs hr
    obtain ⟨d1, d2, d3⟩ := ck_upsize_excl MAX_TABLE_SIZE s.table t2 EXPANSION_FACTOR (by decide)
      c1 c2 hup
    exact ⟨d1, d2, fun hst => c3 ((d3 _).mp hst)⟩
  · intro t2 b hi hok
    exact ck_insert_excl MAX_TABLE_SIZE fuel t t2 key b hinv hs hi hok

/-- Witness for C34: the table that holds 77 and 28, reached without a
capacity failure, and the insertion of 117. -/
theorem cuckoo_position_invariant_witness :
    (0 < (⟨⟨[77, 0, 0, 0], [true, false, false, false]⟩, ⟨[28, 0, 0, 0], [true, false, false, false]⟩, 4, 2⟩ : CuckooHashTable).size ∧
      (⟨⟨[77, 0, 0, 0], [true, false, false, false]⟩, ⟨[28, 0, 0, 0], [true, false, false, false]⟩, 4, 2⟩ : CuckooHashTable).table1.slots.length = (⟨⟨[77, 0, 0, 0], [true, false, false, false]⟩, ⟨[28, 0, 0, 0], [true, false, false, false]⟩, 4, 2⟩ : CuckooHashTable).size ∧
      (⟨⟨[77, 0, 0, 0], [true, false, false, false]⟩, ⟨[28, 0, 0, 0], [true, false, false, false]⟩, 4, 2⟩ : CuckooHashTable).table1.inuse.length = (⟨⟨[77, 0, 0, 0], [true, false, false, false]⟩, ⟨[28, 0, 0, 0], [true, false, false, false]⟩, 4, 2⟩ : CuckooHashTable).size ∧
      (⟨⟨[77, 0, 0, 0], [true, false, false, false]⟩, ⟨[28, 0, 0, 0], [true, false, false, false]⟩, 4, 2⟩ : CuckooHashTable).table2.slots.length = (⟨⟨[77, 0, 0, 0], [true, false, false, false]⟩, ⟨[28, 0, 0, 0], [true, false, false, false]⟩, 4, 2⟩ : CuckooHashTable).size ∧
      (⟨⟨[77, 0, 0, 0], [true, false, false, false]⟩, ⟨[28, 0, 0, 0], [true, false, false, false]⟩, 4, 2⟩ : CuckooHashTable).table2.inuse.length = (⟨⟨[77, 0, 0, 0], [true, false, false, false]⟩, ⟨[28, 0, 0, 0], [true, false, false, false]⟩, 4, 2⟩ : CuckooHashTable).size ∧
      (∀ q k, iholds (⟨⟨[77, 0, 0, 0], [true, false, false, false]⟩, ⟨[28, 0, 0, 0], [true, false, false, false]⟩, 4, 2⟩ : CuckooHashTable).table1 q k → h1 k % (⟨⟨[77, 0, 0, 0], [true, false, false, false]⟩, ⟨[28, 0, 0, 0], [true, false, false, false]⟩, 4, 2⟩ : CuckooHashTable).size = q) ∧
      (∀ q k, iholds (⟨⟨[77, 0, 0, 0], [true, false, false, false]⟩, ⟨[28, 0, 0, 0], [true, false, false, false]⟩, 4, 2⟩ : CuckooHashTable).table2 q k → h2 k % (⟨⟨[77, 0, 0, 0], [true, false, false, false]⟩, ⟨[28, 0, 0, 0], [true, false, false, false]⟩, 4, 2⟩ : CuckooHashTable).size = q) ∧
      Single ⟨⟨[77, 0, 0, 0], [true, false, false, false]⟩, ⟨[28, 0, 0, 0], [true, false, false, false]⟩, 4, 2⟩) ∧
    (∀ s, LoopReach 4 ⟨⟨[77, 0, 0, 0], [true, false, false, false]⟩, ⟨[28, 0, 0, 0], [true, false, false, false]⟩, 4, 2⟩ 117 s →
      CInv s.table ∧ Single s.table ∧ ¬ stored s.table s.current_key) ∧
    (∀ s t2, LoopReach 4 ⟨⟨[77, 0, 0, 0], [true, false, false, false]⟩, ⟨[28, 0, 0, 0], [true, false, false, false]⟩, 4, 2⟩ 117 s → detects 117 s →
      upsize_hash_table 4 s.table EXPANSION_FACTOR = Res.ret (t2, true) →
      CInv t2 ∧ Single t2 ∧ ¬ stored t2 s.current_key) ∧
    (∀ t2 b, cuckoo_hash_table_insert 4 66 ⟨⟨[77, 0, 0, 0], [true, false, false, false]⟩, ⟨[28, 0, 0, 0], [true, false, false, false]⟩, 4, 2⟩ 117 = Res.ret (t2, b) →
      (b = true ∨ cuckoo_hash_table_lookup ⟨⟨[77, 0, 0, 0], [true, false, false, false]⟩, ⟨[28, 0, 0, 0], [true, false, false, false]⟩, 4, 2⟩ 117 = Res.ret true) →
      CInv t2 ∧ Single t2) :=
  cuckoo_position_invariant 4 66 66 4 [28, 77] ⟨⟨[77, 0, 0, 0], [true, false, false, false]⟩, ⟨[28, 0, 0, 0], [true, false, false, false]⟩, 4, 2⟩ 117 (by decide) (by decide!)

/-- C34 (code evaluated at the failing input). With `MAX_TABLE_SIZE = 4`, the
insertion of 117 into the table that holds 28 and 77 fails for capacity and
leaves `size = 8` over arrays of 4 cells. The table is reachable by inserts,
and the next call, the insertion of the absent key 10, does not fail for
capacity: it returns true and leaves `size = 8` over arrays of 4 cells, so the
arrays do not have `size` cells. A lookup of the key 1 on that table reads
cell 4 of an array of 4 cells. -/
theorem cuckoo_position_invariant_broken :
    Cuckoo.insert_all 4 66 (new_cuckoo_hash_table 4) [28, 77] = Res.ret (some ⟨⟨[77, 0, 0, 0], [true, false, false, false]⟩, ⟨[28, 0, 0, 0], [true, false, false, false]⟩, 4, 2⟩) ∧
    cuckoo_hash_table_lookup ⟨⟨[77, 0, 0, 0], [true, false, false, false]⟩, ⟨[28, 0, 0, 0], [true, false, false, false]⟩, 4, 2⟩ 117 = Res.ret false ∧
    cuckoo_hash_table_insert 4 66 ⟨⟨[77, 0, 0, 0], [true, false, false, false]⟩, ⟨[28, 0, 0, 0], [true, false, false, false]⟩, 4, 2⟩ 117 = Res.ret (⟨⟨[28, 0, 0, 0], [true, false, false, false]⟩, ⟨[117, 0, 0, 0], [true, false, false, false]⟩, 8, 2⟩, false) ∧
    cuckoo_hash_table_lookup ⟨⟨[28, 0, 0, 0], [true, false, false, false]⟩, ⟨[117, 0, 0, 0], [true, false, false, false]⟩, 8, 2⟩ 10 = Res.ret false ∧
    cuckoo_hash_table_insert 4 66 ⟨⟨[28, 0, 0, 0], [true, false, false, false]⟩, ⟨[117, 0, 0, 0], [true, false, false, false]⟩, 8, 2⟩ 10 = Res.ret (⟨⟨[28, 10, 0, 0], [true, true, false, false]⟩, ⟨[117, 0, 0, 0], [true, false, false, false]⟩, 8, 3⟩, true) ∧
    CReach 4 ⟨⟨[28, 10, 0, 0], [true, true, false, false]⟩, ⟨[117, 0, 0, 0], [true, false, false, false]⟩, 8, 3⟩ ∧
    (⟨⟨[28, 10, 0, 0], [true, true, false, false]⟩, ⟨[117, 0, 0, 0], [true, false, false, false]⟩, 8, 3⟩ : CuckooHashTable).size = 8 ∧
    (⟨⟨[28, 10, 0, 0], [true, true, false, false]⟩, ⟨[117, 0, 0, 0], [true, false, false, false]⟩, 8, 3⟩ : CuckooHashTable).table1.slots.length = 4 ∧
    (⟨⟨[28, 10, 0, 0], [true, true, false, false]⟩, ⟨[117, 0, 0, 0], [true, false, false, false]⟩, 8, 3⟩ : CuckooHashTable).table2.slots.length = 4 ∧
    ¬ CInv ⟨⟨[28, 10, 0, 0], [true, true, false, false]⟩, ⟨[117, 0, 0, 0], [true, false, false, false]⟩, 8, 3⟩ ∧
    h1 1 % 8 = 4 ∧
    cuckoo_hash_table_lookup ⟨⟨[28, 10, 0, 0], [true, true, false, false]⟩, ⟨[117, 0, 0, 0], [true, false, false, false]⟩, 8, 3⟩ 1 = Res.abort := by
  have e1 : Cuckoo.insert_all 4 66 (new_cuckoo_hash_table 4) [28, 77]
      = Res.ret (some ⟨⟨[77, 0, 0, 0], [true, false, false, false]⟩, ⟨[28, 0, 0, 0], [true, false, false, false]⟩, 4, 2⟩) := by decide!
  have e2 : cuckoo_hash_table_insert 4 66 ⟨⟨[77, 0, 0, 0], [true, false, false, false]⟩, ⟨[28, 0, 0, 0], [true, false, false, false]⟩, 4, 2⟩ 117 = Res.ret (⟨⟨[28, 0, 0, 0], [true, false, false, false]⟩, ⟨[117, 0, 0, 0], [true, false, false, false]⟩, 8, 2⟩, false) := by decide!
  have e3 : cuckoo_hash_table_insert 4 66 ⟨⟨[28, 0, 0, 0], [true, false, false, false]⟩, ⟨[117, 0, 0, 0], [true, false, false, false]⟩, 8, 2⟩ 10 = Res.ret (⟨⟨[28, 10, 0, 0], [true, true, false, false]⟩, ⟨[117, 0, 0, 0], [true, false, false, false]⟩, 8, 3⟩, true) := by decide!
  have r1 : CReach 4 (⟨⟨[28, 0, 0, 0], [true, false, false, false]⟩, ⟨[0, 0, 0, 0], [false, false, false, false]⟩, 4, 1⟩ : CuckooHashTable) :=
    CReach.insert _ 66 28 _ true (CReach.init 4) (by decide!)
  have r2 : CReach 4 (⟨⟨[77, 0, 0, 0], [true, false, false, false]⟩, ⟨[28, 0, 0, 0], [true, false, false, false]⟩, 4, 2⟩ : CuckooHashTable) := CReach.insert _ 66 77 _ true r1 (by decide!)
  have r3 : CReach 4 (⟨⟨[28, 0, 0, 0], [true, false, false, false]⟩, ⟨[117, 0, 0, 0], [true, false, false, false]⟩, 8, 2⟩ : CuckooHashTable) := CReach.insert _ 66 117 _ false r2 e2
  have r4 : CReach 4 (⟨⟨[28, 10, 0, 0], [true, true, false, false]⟩, ⟨[117, 0, 0, 0], [true, false, false, false]⟩, 8, 3⟩ : CuckooHashTable) := CReach.insert _ 66 10 _ true r3 e3
  refine ⟨e1, by decide!, e2, by decide!, e3, r4, rfl, rfl, rfl, ?_, by decide!, by decide!⟩
  intro hc
  have := hc.inv1.1
  exact absurd this (by decide)

end

namespace Cuckoo

theorem ck_hashOf_true (k : Nat) : hashOf true k = h1 k := by
  unfold hashOf
  rw [if_pos rfl]

theorem ck_hashOf_false (k : Nat) : hashOf false k = h2 k := by
  unfold hashOf
  rw [if_neg (by decide)]

/-- What the placement does, whatever the table: the key in hand is written
over the cell of its index, which the arrays have; the other inner table is
left alone; the occupant of the cell, if any, is the key in hand of the next
iteration, and `nkeys` is raised when there is none. -/
theorem ck_place_key_any {s : LoopState} {r : Step} (h : place_key s = Res.ret r) :
    0 < s.table.size ∧
    hashOf s.use_first_table s.current_key % s.table.size
      < (inner s.table s.use_first_table).slots.length ∧
    hashOf s.use_first_table s.current_key % s.table.size
      < (inner s.table s.use_first_table).inuse.length ∧
    r.table.size = s.table.size ∧
    inner r.table s.use_first_table
      = ⟨(inner s.table s.use_first_table).slots.set
          (hashOf s.use_first_table s.current_key % s.table.size) s.current_key,
        (inner s.table s.use_first_table).inuse.set
          (hashOf s.use_first_table s.current_key % s.table.size) true⟩ ∧
    inner r.table (!s.use_first_table) = inner s.table (!s.use_first_table) ∧
    ((∃ s2, r = Step.next s2 ∧ s2.use_first_table = (!s.use_first_table) ∧
        iholds (inner s.table s.use_first_table)
          (hashOf s.use_first_table s.current_key % s.table.size) s2.current_key ∧
        s2.table.nkeys = s.table.nkeys) ∨
      (∃ t2, r = Step.done t2 true ∧
        (inner s.table s.use_first_table).inuse[
          hashOf s.use_first_table s.current_key % s.table.size]? = some false ∧
        t2.nkeys = s.table.nkeys + 1)) := by
  unfold place_key at h
  simp only [Res.bind_eq_ret] at h
  obtain ⟨idx, hidx, used, hused, v, hv, t2, ht2, h⟩ := h
  have hpos := ck_index_ret hidx
  rw [ck_index_eq _ _ _ (Nat.pos_iff_ne_zero.mp hpos)] at hidx
  simp only [Res.ret.injEq] at hidx
  subst hidx
  rw [ck_get_usage_eq, rd_eq_ret] at hused
  rw [ck_write_key_eq] at ht2
  simp only [Res.bind_eq_ret, wr_eq_ret] at ht2
  obtain ⟨sl, ⟨hl1, hsl⟩, u, ⟨hl2, hu⟩, ht2⟩ := ht2
  simp only [Res.ret.injEq] at ht2
  subst hsl hu
  subst ht2
  cases used with
  | true =>
    simp only [if_true, Res.bind_eq_ret] at hv
    obtain ⟨k, hk, hv⟩ := hv
    cases hv
    simp only [Bool.false_eq_true, if_false, Res.ret.injEq] at h
    subst h
    rw [ck_get_key_eq, rd_eq_ret] at hk
    exact ⟨hpos, hl1, hl2, ck_with_inner_size _ _ _, ck_inner_with_same _ _ _,
      ck_inner_with_other _ _ _,
      Or.inl ⟨_, rfl, rfl, ⟨hused, hk⟩, ck_with_inner_nkeys _ _ _⟩⟩
  | false =>
    simp only [Bool.false_eq_true, if_false, Res.ret.injEq] at hv
    subst hv
    simp only [if_true, Res.ret.injEq] at h
    subst h
    refine ⟨hpos, hl1, hl2, ck_with_inner_size _ _ _, ck_inner_with_same _ _ _,
      ck_inner_with_other _ _ _, Or.inr ⟨_, rfl, hused, ?_⟩⟩
    show (with_inner _ _ _).nkeys + 1 = _
    rw [ck_with_inner_nkeys]

/-- One iteration, whatever the table: `nkeys` is raised by one exactly when
the iteration ends the insertion with true. -/
theorem ck_loop_body_nkeys_any {MAX key : Nat} {s : LoopState} {r : Step}
    (h : loop_body MAX key s = Res.ret r) :
    (∀ s2, r = Step.next s2 → s2.table.nkeys = s.table.nkeys) ∧
    (∀ t2, r = Step.done t2 true → t2.nkeys = s.table.nkeys + 1) := by
  have hplace : ∀ s1 : LoopState, s1.table.nkeys = s.table.nkeys →
      place_key s1 = Res.ret r →
      (∀ s2, r = Step.next s2 → s2.table.nkeys = s.table.nkeys) ∧
      (∀ t2, r = Step.done t2 true → t2.nkeys = s.table.nkeys + 1) := by
    intro s1 hn hp
    obtain ⟨_, _, _, _, _, _, hc⟩ := ck_place_key_any hp
    rcases hc with ⟨s2, e, _, _, e2⟩ | ⟨t2, e, _, e2⟩
    · subst e
      refine ⟨fun s3 e3 => ?_, fun t3 e3 => ?_⟩
      · cases e3
        rw [e2, hn]
      · cases e3
    · subst e
      refine ⟨fun s3 e3 => ?_, fun t3 e3 => ?_⟩
      · cases e3
      · cases e3
        rw [e2, hn]
  by_cases hd : detects key s
  · rw [ck_loop_body_detects MAX key s hd, Res.bind_eq_ret] at h
    obtain ⟨r1, hup, h⟩ := h
    obtain ⟨t1, ok⟩ := r1
    cases ok with
    | false =>
      simp only [Bool.not_false, if_true, Res.ret.injEq] at h
      subst h
      refine ⟨fun s3 e3 => ?_, fun t3 e3 => ?_⟩
      · cases e3
      · cases e3
    | true =>
      simp only [Bool.not_true, Bool.false_eq_true, if_false] at h
      exact hplace _ (ck_upsize_true_size MAX s.table t1 EXPANSION_FACTOR hup).2.2 h
  · rw [ck_loop_body_quiet MAX key s hd] at h
    exact hplace s rfl h

/-- The displacement loop, whatever the table: when it returns true, `nkeys`
has been raised by exactly one. -/
theorem ck_loop_nkeys_any (MAX key : Nat) :
    ∀ fuel (s : LoopState) t2, insert_loop MAX key fuel s = Res.ret (t2, true) →
      t2.nkeys = s.table.nkeys + 1 := by
  intro fuel
  induction fuel with
  | zero =>
    intro s t2 h
    cases h
  | succ fuel ih =>
    intro s t2 h
    rw [insert_loop, Res.bind_eq_ret] at h
    obtain ⟨r, hr, h⟩ := h
    obtain ⟨p1, p2⟩ := ck_loop_body_nkeys_any hr
    cases r with
    | done t b =>
      simp only [Res.ret.injEq, Prod.mk.injEq] at h
      obtain ⟨e1, e2⟩ := h
      subst e1
      subst e2
      exact p2 _ rfl
    | next s2 =>
      rw [ih s2 t2 h, p1 s2 rfl]

/-- A table that keeps `K` where lookup searches for it: lookup finds it. -/
theorem ck_lookup_of_kept (t : CuckooHashTable) (K : Nat) (hpos : 0 < t.size)
    (h : Kept K t) : cuckoo_hash_table_lookup t K = Res.ret true := by
  unfold cuckoo_hash_table_lookup
  rw [if_neg (Nat.pos_iff_ne_zero.mp hpos)]
  have hin : ∀ (it : InnerTable) (q : Nat), iholds it q K →
      slot_matches it q K = Res.ret true := by
    intro it q hq
    rcases ck_cell_cases it q K (ck_iholds_lt hq) (lt_length_of_getElem? hq.2) with
      ⟨e, _⟩ | ⟨_, e⟩
    · exact e
    · exact absurd hq e
  rcases h with h | ⟨⟨g1, g2⟩, h⟩
  · rw [hin _ _ h, Res.bind_ret]
    rfl
  · rcases ck_cell_cases t.table1 (h1 K % t.size) K g1 g2 with ⟨e, _⟩ | ⟨e, _⟩
    · rw [e, Res.bind_ret]
      rfl
    · rw [e, Res.bind_ret]
      simp only [Bool.not_false, if_true]
      exact hin _ _ h

theorem ck_inrange_of_holds {K : Nat} {t : CuckooHashTable}
    (h : iholds t.table1 (h1 K % t.size) K) : InRange K t :=
  ⟨ck_iholds_lt h, lt_length_of_getElem? h.2⟩

theorem ck_inrange_of_kept {K : Nat} {t : CuckooHashTable} (h : Kept K t) : InRange K t := by
  rcases h with h | ⟨h, _⟩
  · exact ck_inrange_of_holds h
  · exact h

/-- One placement keeps track of the key `K` being inserted: it is in hand, or
it sits where lookup searches for it. -/
theorem ck_place_key_kept {K : Nat} {s : LoopState} {r : Step} (hj : Tracked K s)
    (h : place_key s = Res.ret r) :
    (∀ s2, r = Step.next s2 → Tracked K s2) ∧
    (∀ t2 b, r = Step.done t2 b → Kept K t2 ∧ 0 < t2.size) := by
  obtain ⟨hpos, hl1, hl2, hsz, hsame, hother, hc⟩ := ck_place_key_any h
  have hw := ck_iholds_written (inner s.table s.use_first_table) _ s.current_key hl1 hl2
  rw [← hsame] at hw
  have hlen : r.table.table1.inuse.length = s.table.table1.inuse.length ∧
      r.table.table1.slots.length = s.table.table1.slots.length := by
    cases hb : s.use_first_table with
    | true =>
      rw [hb] at hsame
      have e : r.table.table1 = _ := hsame
      rw [e]
      exact ⟨by simp [inner], by simp [inner]⟩
    | false =>
      rw [hb] at hother
      have e : r.table.table1 = s.table.table1 := hother
      rw [e]
      exact ⟨rfl, rfl⟩
  have hrange : InRange K s.table → InRange K r.table := by
    intro hg
    unfold InRange
    rw [hsz, hlen.1, hlen.2]
    exact hg
  have hA : s.current_key = K → (s.use_first_table = true ∨ InRange K s.table) →
      Kept K r.table := by
    intro hk hg
    cases hb : s.use_first_table with
    | true =>
      rw [hb] at hw
      have hw1 : ∀ q x, iholds r.table.table1 q x ↔
          (q = hashOf true s.current_key % s.table.size ∧ x = s.current_key) ∨
          (q ≠ hashOf true s.current_key % s.table.size ∧ iholds s.table.table1 q x) := hw
      left
      rw [hw1, hsz, ck_hashOf_true, hk]
      exact Or.inl ⟨rfl, rfl⟩
    | false =>
      rw [hb] at hw hg
      have hw2 : ∀ q x, iholds r.table.table2 q x ↔
          (q = hashOf false s.current_key % s.table.size ∧ x = s.current_key) ∨
          (q ≠ hashOf false s.current_key % s.table.size ∧ iholds s.table.table2 q x) := hw
      have hg2 : InRange K s.table := by
        rcases hg with hg | hg
        · cases hg
        · exact hg
      right
      refine ⟨hrange hg2, ?_⟩
      rw [hw2, hsz, ck_hashOf_false, hk]
      exact Or.inl ⟨rfl, rfl⟩
  have hB : Kept K s.table →
      (∀ X, iholds (inner s.table s.use_first_table)
        (hashOf s.use_first_table s.current_key % s.table.size) X → X ≠ K) →
      Kept K r.table := by
    intro hk hX
    have hg := hrange (ck_inrange_of_kept hk)
    cases hb : s.use_first_table with
    | true =>
      rw [hb] at hw hX hother
      have hw1 : ∀ q x, iholds r.table.table1 q x ↔
          (q = hashOf true s.current_key % s.table.size ∧ x = s.current_key) ∨
          (q ≠ hashOf true s.current_key % s.table.size ∧ iholds s.table.table1 q x) := hw
      have ho : r.table.table2 = s.table.table2 := hother
      rw [ck_hashOf_true] at hw1 hX
      rcases hk with hk | ⟨_, hk⟩
      · left
        rw [hw1, hsz]
        by_cases hq : h1 K % s.table.size = h1 s.current_key % s.table.size
        · exfalso
          rw [hq] at hk
          exact hX K hk rfl
        · exact Or.inr ⟨hq, hk⟩
      · right
        refine ⟨hg, ?_⟩
        rw [ho, hsz]
        exact hk
    | false =>
      rw [hb] at hw hX hother
      have hw2 : ∀ q x, iholds r.table.table2 q x ↔
          (q = hashOf false s.current_key % s.table.size ∧ x = s.current_key) ∨
          (q ≠ hashOf false s.current_key % s.table.size ∧ iholds s.table.table2 q x) := hw
      have ho : r.table.table1 = s.table.table1 := hother
      rw [ck_hashOf_false] at hw2 hX
      rcases hk with hk | ⟨_, hk⟩
      · left
        rw [ho, hsz]
        exact hk
      · right
        refine ⟨hg, ?_⟩
        rw [hw2, hsz]
        by_cases hq : h2 K % s.table.size = h2 s.current_key % s.table.size
        · exfalso
          rw [hq] at hk
          exact hX K hk rfl
        · exact Or.inr ⟨hq, hk⟩
  rcases hc with ⟨s2, e, hb2, hX, _⟩ | ⟨t2, e, hfree, _⟩
  · subst e
    refine ⟨fun s3 e3 => ?_, fun t3 b3 e3 => ?_⟩
    · cases e3
      rcases hj with ⟨hk, hg⟩ | hk
      · exact Or.inr (hA hk hg)
      · by_cases hXK : s2.current_key = K
        · exact Or.inl ⟨hXK, Or.inr (hrange (ck_inrange_of_kept hk))⟩
        · right
          refine hB hk (fun X hX2 hXe => hXK ?_)
          have e1 := hX.2
          rw [hX2.2] at e1
          rw [← Option.some.inj e1]
          exact hXe
    · cases e3
  · subst e
    refine ⟨fun s3 e3 => ?_, fun t3 b3 e3 => ?_⟩
    · cases e3
    · cases e3
      have hsz2 : t2.size = s.table.size := hsz
      refine ⟨?_, by rw [hsz2]; exact hpos⟩
      rcases hj with ⟨hk, hg⟩ | hk
      · exact hA hk hg
      · refine hB hk (fun X hX2 _ => ?_)
        have e1 := hX2.1
        rw [hfree] at e1
        cases e1

/-- The displacement loop on a table that no growth can follow: when it returns
true, the table keeps the key where lookup searches for it. -/
theorem ck_loop_kept (MAX key K : Nat) :
    ∀ fuel (s : LoopState) t2, MAX < s.table.size * EXPANSION_FACTOR → Tracked K s →
      insert_loop MAX key fuel s = Res.ret (t2, true) → Kept K t2 ∧ 0 < t2.size := by
  intro fuel
  induction fuel with
  | zero =>
    intro s t2 _ _ h
    cases h
  | succ fuel ih =>
    intro s t2 hm hj h
    rw [insert_loop, Res.bind_eq_ret] at h
    obtain ⟨r, hr, h⟩ := h
    by_cases hd : detects key s
    · rw [ck_loop_body_detects MAX key s hd, ck_upsize_refused MAX s.table EXPANSION_FACTOR hm,
        Res.bind_ret] at hr
      simp only [Bool.not_false, if_true, Res.ret.injEq] at hr
      subst hr
      simp only [Res.ret.injEq, Prod.mk.injEq] at h
      cases h.2
    · rw [ck_loop_body_quiet MAX key s hd] at hr
      obtain ⟨p1, p2⟩ := ck_place_key_kept hj hr
      have hsz := (ck_place_key_any hr).2.2.2.1
      cases r with
      | done t b =>
        simp only [Res.ret.injEq, Prod.mk.injEq] at h
        obtain ⟨e1, _⟩ := h
        subst e1
        exact p2 _ _ rfl
      | next s2 =>
        have hsz2 : s2.table.size = s.table.size := hsz
        exact ih s2 t2 (by rw [hsz2]; exact hm) (p1 s2 rfl) h

/-- An insertion into a reachable table that returned true: the key was absent,
lookup finds it afterwards, and one more key is counted. -/
theorem ck_insert_true_reach (MAX fuel : Nat) (t t1 : CuckooHashTable) (K : Nat)
    (hreach : CReach MAX t)
    (h : cuckoo_hash_table_insert MAX fuel t K = Res.ret (t1, true)) :
    cuckoo_hash_table_lookup t K = Res.ret false ∧ t1.nkeys = t.nkeys + 1 ∧
      cuckoo_hash_table_lookup t1 K = Res.ret true := by
  have h0 := h
  unfold cuckoo_hash_table_insert at h
  rw [Res.bind_eq_ret] at h
  obtain ⟨found, hl, h⟩ := h
  cases found with
  | true => simp at h
  | false =>
    simp only [Bool.false_eq_true, if_false] at h
    refine ⟨hl, ck_loop_nkeys_any MAX K fuel _ t1 h, ?_⟩
    have hpos := ck_lookup_ret_pos hl
    rcases (ck_reach_counted hreach).shape with hinv | hm | hz
    · obtain ⟨_, hinv1, hs1, _⟩ := ck_insert_true MAX fuel t t1 K hinv h0
      rcases ck_lookup_spec hinv1 K with ⟨hl2, _⟩ | ⟨_, hns⟩
      · exact hl2
      · exact absurd hs1 hns
    · obtain ⟨hk, hp⟩ := ck_loop_kept MAX K K fuel _ t1
        (by show MAX < t.size * EXPANSION_FACTOR; simp only [EXPANSION_FACTOR]; omega)
        (Or.inl ⟨rfl, Or.inl rfl⟩) h
      exact ck_lookup_of_kept t1 K hp hk
    · omega

end Cuckoo

section

open Cuckoo

/-- C16 (amended). Cuckoo no duplicates: for every table and every key `D` that
`cuckoo_hash_table_lookup` finds, `cuckoo_hash_table_insert(D)` returns false
and leaves the whole table (`size`, `nkeys`, both inner tables) unchanged;
hence on every table reachable by insertions (a new table of any size, then
calls of `cuckoo_hash_table_insert` that returned, whatever they returned, a
capacity failure included), when the insertion of a key `K` returns true, `K`
was absent, `nkeys` is raised by exactly one, lookup finds `K`, and a second
and a third `insert(K)` return false and leave `nkeys` there. -/
theorem cuckoo_no_duplicates (MAX_TABLE_SIZE fuel : Nat) (t t1 : CuckooHashTable) (K : Nat)
    (hreach : CReach MAX_TABLE_SIZE t)
    (hfirst : cuckoo_hash_table_insert MAX_TABLE_SIZE fuel t K = Res.ret (t1, true)) :
    (∀ u D, cuckoo_hash_table_lookup u D = Res.ret true →
      cuckoo_hash_table_insert MAX_TABLE_SIZE fuel u D = Res.ret (u, false)) ∧
    cuckoo_hash_table_lookup t K = Res.ret false ∧
    t1.nkeys = t.nkeys + 1 ∧
    cuckoo_hash_table_lookup t1 K = Res.ret true ∧
    cuckoo_hash_table_insert MAX_TABLE_SIZE fuel t1 K = Res.ret (t1, false) ∧
    ((cuckoo_hash_table_insert MAX_TABLE_SIZE fuel t K).bind fun r =>
      (cuckoo_hash_table_insert MAX_TABLE_SIZE fuel r.1 K).bind fun r2 =>
        (cuckoo_hash_table_insert MAX_TABLE_SIZE fuel r2.1 K).bind fun r3 =>
          Res.ret (r2.2, r2.1.nkeys, r3.2, r3.1.nkeys))
      = Res.ret (false, t.nkeys + 1, false, t.nkeys + 1) := by
  refine ⟨fun u D => ck_insert_found MAX_TABLE_SIZE fuel u D, ?_⟩
  obtain ⟨hl, hn1, hl1⟩ := ck_insert_true_reach MAX_TABLE_SIZE fuel t t1 K hreach hfirst
  have h2 := ck_insert_found MAX_TABLE_SIZE fuel t1 K hl1
  refine ⟨hl, hn1, hl1, h2, ?_⟩
  rw [hfirst, Res.bind_ret]
  simp only
  rw [h2, Res.bind_ret]
  simp only
  rw [h2, Res.bind_ret, hn1]

/-- Witness for C16: the key 10 inserted into the table left by the insertion
of 117 that failed for capacity (`size = 8` over arrays of 4 cells). -/
theorem cuckoo_no_duplicates_witness :
    (∀ u D, cuckoo_hash_table_lookup u D = Res.ret true →
      cuckoo_hash_table_insert 4 66 u D = Res.ret (u, false)) ∧
    cuckoo_hash_table_lookup (⟨⟨[28, 0, 0, 0], [true, false, false, false]⟩, ⟨[117, 0, 0, 0], [true, false, false, false]⟩, 8, 2⟩ : CuckooHashTable) 10 = Res.ret false ∧
    (⟨⟨[28, 10, 0, 0], [true, true, false, false]⟩, ⟨[117, 0, 0, 0], [true, false, false, false]⟩, 8, 3⟩ : CuckooHashTable).nkeys = (⟨⟨[28, 0, 0, 0], [true, false, false, false]⟩, ⟨[117, 0, 0, 0], [true, false, false, false]⟩, 8, 2⟩ : CuckooHashTable).nkeys + 1 ∧
    cuckoo_hash_table_lookup (⟨⟨[28, 10, 0, 0], [true, true, false, false]⟩, ⟨[117, 0, 0, 0], [true, false, false, false]⟩, 8, 3⟩ : CuckooHashTable) 10 = Res.ret true ∧
    cuckoo_hash_table_insert 4 66 (⟨⟨[28, 10, 0, 0], [true, true, false, false]⟩, ⟨[117, 0, 0, 0], [true, false, false, false]⟩, 8, 3⟩ : CuckooHashTable) 10 = Res.ret ((⟨⟨[28, 10, 0, 0], [true, true, false, false]⟩, ⟨[117, 0, 0, 0], [true, false, false, false]⟩, 8, 3⟩ : CuckooHashTable), false) ∧
    ((cuckoo_hash_table_insert 4 66 (⟨⟨[28, 0, 0, 0], [true, false, false, false]⟩, ⟨[117, 0, 0, 0], [true, false, false, false]⟩, 8, 2⟩ : CuckooHashTable) 10).bind fun r =>
      (cuckoo_hash_table_insert 4 66 r.1 10).bind fun r2 =>
        (cuckoo_hash_table_insert 4 66 r2.1 10).bind fun r3 =>
          Res.ret (r2.2, r2.1.nkeys, r3.2, r3.1.nkeys))
      = Res.ret (false, (⟨⟨[28, 0, 0, 0], [true, false, false, false]⟩, ⟨[117, 0, 0, 0], [true, false, false, false]⟩, 8, 2⟩ : CuckooHashTable).nkeys + 1, false, (⟨⟨[28, 0, 0, 0], [true, false, false, false]⟩, ⟨[117, 0, 0, 0], [true, false, false, false]⟩, 8, 2⟩ : CuckooHashTable).nkeys + 1) :=
  cuckoo_no_duplicates 4 66 ⟨⟨[28, 0, 0, 0], [true, false, false, false]⟩, ⟨[117, 0, 0, 0], [true, false, false, false]⟩, 8, 2⟩ ⟨⟨[28, 10, 0, 0], [true, true, false, false]⟩, ⟨[117, 0, 0, 0], [true, false, false, false]⟩, 8, 3⟩ 10
    (CReach.insert ⟨⟨[77, 0, 0, 0], [true, false, false, false]⟩, ⟨[28, 0, 0, 0], [true, false, false, false]⟩, 4, 2⟩ 66 117 _ false
      (CReach.insert ⟨⟨[28, 0, 0, 0], [true, false, false, false]⟩, ⟨[0, 0, 0, 0], [false, false, false, false]⟩, 4, 1⟩ 66 77 _ true
        (CReach.insert (new_cuckoo_hash_table 4) 66 28 _ true (CReach.init 4) (by decide!))
        (by decide!))
      (by decide!))
    (by decide!)

/-- C8 (code evaluated at the failing input). With `MAX_TABLE_SIZE = 4`, the
table left by the insertions of 28, 77 and 117 into `new_cuckoo_hash_table(4)`
is reachable; the insertion of 117 failed for capacity and left `size = 8`
over arrays of 4 cells. On that table the insertion of the key 1 ends neither
on a free slot nor on a refused expansion: its lookup reads cell
`h1(1) mod 8 = 4` of an array of 4 cells, whatever the fuel. -/
theorem cuckoo_insert_out_of_bounds :
    CReach 4 ⟨⟨[28, 0, 0, 0], [true, false, false, false]⟩, ⟨[117, 0, 0, 0], [true, false, false, false]⟩, 8, 2⟩ ∧
    (⟨⟨[28, 0, 0, 0], [true, false, false, false]⟩, ⟨[117, 0, 0, 0], [true, false, false, false]⟩, 8, 2⟩ : CuckooHashTable).size = 8 ∧ (⟨⟨[28, 0, 0, 0], [true, false, false, false]⟩, ⟨[117, 0, 0, 0], [true, false, false, false]⟩, 8, 2⟩ : CuckooHashTable).table1.inuse.length = 4 ∧
    h1 1 % 8 = 4 ∧
    cuckoo_hash_table_lookup ⟨⟨[28, 0, 0, 0], [true, false, false, false]⟩, ⟨[117, 0, 0, 0], [true, false, false, false]⟩, 8, 2⟩ 1 = Res.abort ∧
    ∀ fuel, cuckoo_hash_table_insert 4 fuel ⟨⟨[28, 0, 0, 0], [true, false, false, false]⟩, ⟨[117, 0, 0, 0], [true, false, false, false]⟩, 8, 2⟩ 1 = Res.abort := by
  have r3 : CReach 4 (⟨⟨[28, 0, 0, 0], [true, false, false, false]⟩, ⟨[117, 0, 0, 0], [true, false, false, false]⟩, 8, 2⟩ : CuckooHashTable) :=
    CReach.insert ⟨⟨[77, 0, 0, 0], [true, false, false, false]⟩, ⟨[28, 0, 0, 0], [true, false, false, false]⟩, 4, 2⟩ 66 117 _ false
      (CReach.insert ⟨⟨[28, 0, 0, 0], [true, false, false, false]⟩, ⟨[0, 0, 0, 0], [false, false, false, false]⟩, 4, 1⟩ 66 77 _ true
        (CReach.insert (new_cuckoo_hash_table 4) 66 28 _ true (CReach.init 4) (by decide!))
        (by decide!))
      (by decide!)
  have hl : cuckoo_hash_table_lookup ⟨⟨[28, 0, 0, 0], [true, false, false, false]⟩, ⟨[117, 0, 0, 0], [true, false, false, false]⟩, 8, 2⟩ 1 = Res.abort := by decide!
  refine ⟨r3, rfl, rfl, by decide!, hl, fun fuel => ?_⟩
  unfold cuckoo_hash_table_insert
  rw [hl]
  rfl

end

namespace Xtndbln

theorem xt_pow2_eq (x : Nat) : pow2 x = 2 ^ x := by
  unfold pow2
  rw [Nat.shiftLeft_eq, Nat.one_mul]

theorem xt_gbt_lt (x : Int) (n : Nat) : get_bit_trail x n < 2 ^ n := by
  unfold get_bit_trail
  have hpos : (0 : Int) < 2 ^ n := by positivity
  have h1 := Int.emod_nonneg x (ne_of_gt hpos)
  have h2 := Int.emod_lt_of_pos x hpos
  have h3 : ((x % 2 ^ n).toNat : Int) = x % 2 ^ n := Int.toNat_of_nonneg h1
  have h4 : ((x % 2 ^ n).toNat : Int) < ((2 ^ n : Nat) : Int) := by
    rw [h3]; push_cast; exact h2
  exact_mod_cast h4

theorem xt_gbt_mod (x : Int) (d n : Nat) (h : d ≤ n) :
    get_bit_trail x n % 2 ^ d = get_bit_trail x d := by
  unfold get_bit_trail
  have hposn : (0 : Int) < 2 ^ n := by positivity
  have hposd : (0 : Int) < 2 ^ d := by positivity
  have h1 := Int.emod_nonneg x (ne_of_gt hposn)
  have h1d := Int.emod_nonneg x (ne_of_gt hposd)
  have hdvd : (2 ^ d : Int) ∣ 2 ^ n := pow_dvd_pow 2 h
  have e : (x % 2 ^ n) % 2 ^ d = x % 2 ^ d := Int.emod_emod_of_dvd x hdvd
  apply Int.ofNat_inj.mp
  rw [Int.toNat_of_nonneg h1d]
  have : (((x % 2 ^ n).toNat % 2 ^ d : Nat) : Int) = ((x % 2 ^ n).toNat : Int) % 2 ^ d := by
    push_cast; rfl
  rw [this, Int.toNat_of_nonneg h1, e]

/-- The C expression `a | (b << n)` is `a + b * 2 ^ n` when `a` has only its low `n` bits. -/
theorem xt_lor_shift (a b n : Nat) (h : a < 2 ^ n) : a ||| (b <<< n) = a + b * 2 ^ n := by
  rw [Nat.shiftLeft_eq, Nat.lor_comm, Nat.mul_comm b, ← Nat.mul_add_lt_is_or h, Nat.add_comm]

theorem xt_lor_pow2 (a n : Nat) (h : a < 2 ^ n) : a ||| pow2 n = a + pow2 n := by
  have := xt_lor_shift a 1 n h
  rw [Nat.one_mul] at this
  rw [xt_pow2_eq, ← this, Nat.shiftLeft_eq, Nat.one_mul]

/-- A residue modulo `2 ^ d` lifts to one of two residues modulo `2 ^ (d + 1)`. -/
theorem xt_mod_succ (x d id : Nat) (h : x % 2 ^ d = id) :
    x % 2 ^ (d + 1) = id ∨ x % 2 ^ (d + 1) = id + 2 ^ d := by
  have hp : 0 < 2 ^ d := Nat.two_pow_pos d
  have hlt : x % 2 ^ (d + 1) < 2 ^ (d + 1) := Nat.mod_lt _ (Nat.two_pow_pos _)
  have hdvd : 2 ^ d ∣ 2 ^ (d + 1) := pow_dvd_pow 2 (Nat.le_succ d)
  have hmm : x % 2 ^ (d + 1) % 2 ^ d = id := by rw [Nat.mod_mod_of_dvd _ hdvd, h]
  rw [pow_succ] at hlt
  by_cases hr : x % 2 ^ (d + 1) < 2 ^ d
  · left
    rw [Nat.mod_eq_of_lt hr] at hmm
    exact hmm
  · right
    rw [Nat.mod_eq_sub_mod (Nat.le_of_not_lt hr), Nat.mod_eq_of_lt (by omega)] at hmm
    omega

theorem xt_mod_of_succ (x d : Nat) (id : Nat) (h : x % 2 ^ (d + 1) = id ∨ x % 2 ^ (d + 1) = id + 2 ^ d)
    (hid : id < 2 ^ d) : x % 2 ^ d = id := by
  have hdvd : 2 ^ d ∣ 2 ^ (d + 1) := pow_dvd_pow 2 (Nat.le_succ d)
  rw [← Nat.mod_mod_of_dvd x hdvd]
  rcases h with h | h
  · rw [h, Nat.mod_eq_of_lt hid]
  · rw [h, Nat.add_mod_right, Nat.mod_eq_of_lt hid]

/-- The indices `id + m * 2 ^ d` with `m < 2 ^ (g - d)` are the indices below
`2 ^ g` whose residue modulo `2 ^ d` is `id`. -/
theorem xt_class_iff (g d id i : Nat) (hd : d ≤ g) (hid : id < 2 ^ d) :
    (∃ m, m < 2 ^ (g - d) ∧ i = id + m * 2 ^ d) ↔ (i < 2 ^ g ∧ i % 2 ^ d = id) := by
  have hg : 2 ^ g = 2 ^ (g - d) * 2 ^ d := by
    rw [← pow_add, Nat.sub_add_cancel hd]
  have hp : 0 < 2 ^ d := Nat.two_pow_pos d
  constructor
  · rintro ⟨m, hm, rfl⟩
    constructor
    · rw [hg]
      calc id + m * 2 ^ d < 2 ^ d + m * 2 ^ d := by omega
        _ = (m + 1) * 2 ^ d := by ring
        _ ≤ 2 ^ (g - d) * 2 ^ d := Nat.mul_le_mul_right _ hm
    · rw [Nat.add_mul_mod_self_right, Nat.mod_eq_of_lt hid]
  · rintro ⟨hi, hmod⟩
    refine ⟨i / 2 ^ d, ?_, ?_⟩
    · rw [Nat.div_lt_iff_lt_mul hp, ← hg]
      exact hi
    · rw [← hmod, Nat.add_comm, Nat.mul_comm]
      exact (Nat.div_add_mod i (2 ^ d)).symm

end Xtndbln

namespace Xtndbln

theorem xt_points_lt {t : XtndblNHashTable} (hinv : XInv t) {i a : Nat} {b : Bucket}
    (h : points t i a b) : i < t.size := by
  have := lt_length_of_getElem? h.1
  rwa [hinv.len] at this

theorem xt_points_unique {t : XtndblNHashTable} {i a a2 : Nat} {b b2 : Bucket}
    (h : points t i a b) (h2 : points t i a2 b2) : a = a2 ∧ b = b2 := by
  have e := h.1
  rw [h2.1] at e
  have ea : a2 = a := Option.some.inj (Option.some.inj e)
  subst ea
  have e2 := h.2
  rw [h2.2] at e2
  exact ⟨rfl, (Option.some.inj e2).symm⟩

theorem xt_bucket_at_eq {t : XtndblNHashTable} {i a : Nat} {b : Bucket}
    (h : points t i a b) : bucket_at t i = Res.ret (a, b) := by
  unfold bucket_at deref
  rw [rd_of_getElem? h.1, Res.bind_ret]
  simp only
  rw [rd_of_getElem? h.2, Res.bind_ret]

theorem xt_bucket_at_ret {t : XtndblNHashTable} {i : Nat} {r : Nat × Bucket}
    (h : bucket_at t i = Res.ret r) : points t i r.1 r.2 := by
  unfold bucket_at at h
  rw [Res.bind_eq_ret] at h
  obtain ⟨p, hp, h⟩ := h
  rw [rd_eq_ret] at hp
  cases p with
  | none => simp [deref] at h
  | some a =>
    simp only [deref, Res.bind_eq_ret, rd_eq_ret] at h
    obtain ⟨b, hb, h⟩ := h
    cases h
    exact ⟨hp, hb⟩

/-- The bucket addressed by a hash value. -/
theorem xt_home {t : XtndblNHashTable} (hinv : XInv t) (x : Int) :
    ∃ a b, points t (get_bit_trail x t.depth) a b ∧
      GoodBucket t (get_bit_trail x t.depth) b := by
  apply hinv.slot
  rw [hinv.size_eq]
  exact xt_gbt_lt x t.depth

theorem xt_scan_spec (keys : List Nat) (key : Nat) :
    ∀ n ix, ix + n ≤ keys.length →
      (scan keys key n ix = Res.ret true ∧ ∃ j, ix ≤ j ∧ j < ix + n ∧ keys[j]? = some key) ∨
      (scan keys key n ix = Res.ret false ∧ ∀ j, ix ≤ j → j < ix + n → keys[j]? ≠ some key) := by
  intro n
  induction n with
  | zero =>
    intro ix _
    right
    exact ⟨rfl, fun j h1 h2 => by omega⟩
  | succ n ih =>
    intro ix h
    obtain ⟨k, hk⟩ := getElem?_exists keys ix (by omega)
    rw [scan, rd_of_getElem? hk, Res.bind_ret]
    by_cases hkk : k = key
    · left
      rw [if_pos hkk]
      exact ⟨rfl, ix, le_refl _, by omega, by rw [hk, hkk]⟩
    · rw [if_neg hkk]
      rcases ih (ix + 1) (by omega) with ⟨h1, j, h2, h3, h4⟩ | ⟨h1, h2⟩
      · left
        exact ⟨h1, j, by omega, by omega, h4⟩
      · right
        refine ⟨h1, fun j h3 h4 => ?_⟩
        by_cases hj : j = ix
        · subst hj
          rw [hk]
          intro e
          exact hkk (Option.some.inj e)
        · exact h2 j (by omega) (by omega)

/-- A stored key sits in the bucket its hash addresses. -/
theorem xt_stored_home {t : XtndblNHashTable} (hinv : XInv t) {key : Nat} (h : stored t key)
    {a : Nat} {b : Bucket} (hp : points t (get_bit_trail (t.hash key) t.depth) a b) :
    ∃ j, j < b.nkeys ∧ b.keys[j]? = some key := by
  obtain ⟨i, a2, b2, j, hp2, hj, hk⟩ := h
  obtain ⟨a3, b3, hp3, hg3⟩ := hinv.slot i (xt_points_lt hinv hp2)
  obtain ⟨rfl, rfl⟩ := xt_points_unique hp2 hp3
  have hr := hg3.routed j key hj hk
  have hmod : get_bit_trail (t.hash key) t.depth % 2 ^ b2.depth = b2.id := by
    rw [xt_gbt_mod _ _ _ hg3.depth_le, hr]
  have := hinv.share i _ a2 b2 (xt_points_lt hinv hp) hp2 hmod
  have e := hp.1
  rw [this] at e
  have ea : a2 = a := Option.some.inj (Option.some.inj e)
  subst ea
  have e2 := hp.2
  rw [hp2.2] at e2
  have eb : b2 = b := Option.some.inj e2
  subst eb
  exact ⟨j, hj, hk⟩

theorem xt_lookup_spec {t : XtndblNHashTable} (hinv : XInv t) (key : Nat) :
    (xtndbln_hash_table_lookup t key = Res.ret true ∧ stored t key) ∨
    (xtndbln_hash_table_lookup t key = Res.ret false ∧ ¬ stored t key) := by
  obtain ⟨a, b, hp, hg⟩ := xt_home hinv (t.hash key)
  unfold xtndbln_hash_table_lookup
  rw [xt_bucket_at_eq hp, Res.bind_ret]
  simp only
  rcases xt_scan_spec b.keys key b.nkeys 0 (by rw [hg.keys_len]; have := hg.nkeys_le; omega) with
    ⟨h1, j, _, h3, h4⟩ | ⟨h1, h2⟩
  · left
    exact ⟨h1, _, a, b, j, hp, by omega, h4⟩
  · right
    refine ⟨h1, fun hs => ?_⟩
    obtain ⟨j, hj, hk⟩ := xt_stored_home hinv hs hp
    exact h2 j (Nat.zero_le _) (by omega) hk

/-- A refused doubling changes nothing. -/
theorem xt_double_refused (MAX : Nat) (t : XtndblNHashTable) (h : MAX < t.size * 2) :
    double_table MAX t = Res.ret (t, false) := by
  unfold double_table
  rw [if_pos h]

theorem xt_double_ok (MAX : Nat) (t : XtndblNHashTable) (hinv : XInv t)
    (h : t.size * 2 ≤ MAX) :
    ∃ t2, double_table MAX t = Res.ret (t2, true) ∧ XInv t2 ∧ t2.depth = t.depth + 1 ∧
      t2.heap = t.heap ∧ t2.bucketsize = t.bucketsize ∧ t2.hash = t.hash ∧
      t2.nitems = t.nitems ∧ t2.size = t.size * 2 ∧
      (∀ i, i < t.size → t2.buckets[i]? = t.buckets[i]?) ∧
      (∀ x, stored t2 x ↔ stored t x) := by
  have hlen := hinv.len
  have htake : t.buckets.take t.size = t.buckets := List.take_of_length_le (by omega)
  unfold double_table
  rw [if_neg (by omega), if_neg (by omega), htake]
  have hget : ∀ i, i < t.size * 2 →
      (t.buckets ++ t.buckets)[i]? = t.buckets[i % t.size]? := by
    intro i hi
    have hpos : 0 < t.size := by rw [hinv.size_eq]; exact Nat.two_pow_pos _
    by_cases hlt : i < t.size
    · rw [List.getElem?_append_left (by omega), Nat.mod_eq_of_lt hlt]
    · rw [List.getElem?_append_right (by omega), hlen, Nat.mod_eq_sub_mod (by omega),
        Nat.mod_eq_of_lt (by omega)]
  have hmodd : ∀ i d, d ≤ t.depth → i % t.size % 2 ^ d = i % 2 ^ d := by
    intro i d hd
    rw [hinv.size_eq]
    exact Nat.mod_mod_of_dvd i (pow_dvd_pow 2 hd)
  have hpos : 0 < t.size := by rw [hinv.size_eq]; exact Nat.two_pow_pos _
  have hpts : ∀ i a b, i < t.size * 2 →
      (points { t with buckets := t.buckets ++ t.buckets, size := t.size * 2, depth := t.depth + 1 } i a b
        ↔ points t (i % t.size) a b) := by
    intro i a b hi
    unfold points
    simp only
    rw [hget i hi]
  refine ⟨_, rfl, ⟨?_, ?_, ?_, ?_⟩, rfl, rfl, rfl, rfl, rfl, rfl, ?_, ?_⟩
  · show t.size * 2 = 2 ^ (t.depth + 1)
    rw [pow_succ, hinv.size_eq]
  · show (t.buckets ++ t.buckets).length = t.size * 2
    rw [List.length_append, hlen]; omega
  · intro i hi
    obtain ⟨a, b, hp, hg⟩ := hinv.slot (i % t.size) (Nat.mod_lt _ hpos)
    refine ⟨a, b, (hpts i a b hi).mpr hp, ⟨Nat.le_succ_of_le hg.depth_le, ?_, hg.nkeys_le,
      hg.keys_len, hg.routed⟩⟩
    rw [← hmodd i b.depth hg.depth_le]
    exact hg.id_eq
  · intro i j a b hj hp hmod
    have hi : i < t.size * 2 := by
      have := lt_length_of_getElem? hp.1
      simp only [List.length_append] at this
      omega
    have hp2 := (hpts i a b hi).mp hp
    obtain ⟨a3, b3, hp3, hg3⟩ := hinv.slot (i % t.size) (Nat.mod_lt _ hpos)
    obtain ⟨rfl, rfl⟩ := xt_points_unique hp2 hp3
    show (t.buckets ++ t.buckets)[j]? = _
    rw [hget j hj]
    apply hinv.share (i % t.size) (j % t.size) a b (Nat.mod_lt _ hpos) hp2
    rw [hmodd j b.depth hg3.depth_le]
    exact hmod
  · intro i hi
    show (t.buckets ++ t.buckets)[i]? = _
    rw [List.getElem?_append_left (by omega)]
  · intro x
    constructor
    · rintro ⟨i, a, b, j, hp, hj, hk⟩
      have hi : i < t.size * 2 := by
        have := lt_length_of_getElem? hp.1
        simp only [List.length_append] at this
        omega
      exact ⟨i % t.size, a, b, j, (hpts i a b hi).mp hp, hj, hk⟩
    · rintro ⟨i, a, b, j, hp, hj, hk⟩
      have hi := xt_points_lt hinv hp
      refine ⟨i, a, b, j, (hpts i a b (by omega)).mpr ?_, hj, hk⟩
      rw [Nat.mod_eq_of_lt hi]
      exact hp

end Xtndbln

namespace Xtndbln

theorem xt_repoint_spec (id d a2 : Nat) (hid : id < 2 ^ d) :
    ∀ n ix (bks : List (Option Nat)),
      (∀ m, ix ≤ m → m < ix + n → id + m * 2 ^ d < bks.length) →
      ∃ bks2, repoint_loop id d a2 n ix bks = Res.ret bks2 ∧ bks2.length = bks.length ∧
        (∀ m, ix ≤ m → m < ix + n → bks2[id + m * 2 ^ d]? = some (some a2)) ∧
        (∀ i, (∀ m, ix ≤ m → m < ix + n → i ≠ id + m * 2 ^ d) → bks2[i]? = bks[i]?) := by
  intro n
  induction n with
  | zero =>
    intro ix bks _
    exact ⟨bks, rfl, rfl, fun m h1 h2 => by omega, fun i _ => rfl⟩
  | succ n ih =>
    intro ix bks hb
    have hix := hb ix (le_refl _) (by omega)
    rw [repoint_loop, xt_lor_shift id ix d hid, wr_of_lt _ hix, Res.bind_ret]
    obtain ⟨bks2, h1, h2, h3, h4⟩ := ih (ix + 1) (bks.set (id + ix * 2 ^ d) (some a2))
      (fun m hm1 hm2 => by rw [List.length_set]; exact hb m (by omega) (by omega))
    refine ⟨bks2, h1, by rw [h2, List.length_set], fun m hm1 hm2 => ?_, fun i hi => ?_⟩
    · by_cases hm : m = ix
      · subst hm
        rw [h4 _ (fun m2 hm3 _ => ?_), List.getElem?_set, if_pos rfl, if_pos hix]
        have hp : 0 < 2 ^ d := Nat.two_pow_pos d
        have : m * 2 ^ d < m2 * 2 ^ d := Nat.mul_lt_mul_of_pos_right (by omega) hp
        omega
      · exact h3 m (by omega) (by omega)
    · rw [h4 i (fun m hm1 hm2 => hi m (by omega) (by omega)), List.getElem?_set,
        if_neg (fun e => hi ix (le_refl _) (by omega) e.symm)]

/-- The directory after the rerouting loop of `split_bucket`. -/
theorem xt_repoint_dir (t1 : XtndblNHashTable) (hinv : XInv t1) (id d a2 : Nat)
    (hid : id < 2 ^ (d + 1)) (hd : d + 1 ≤ t1.depth) :
    ∃ bks, repoint_loop id (d + 1) a2 (pow2 (t1.depth - (d + 1))) 0 t1.buckets = Res.ret bks ∧
      bks.length = t1.size ∧
      (∀ i, i < t1.size → i % 2 ^ (d + 1) = id → bks[i]? = some (some a2)) ∧
      (∀ i, i % 2 ^ (d + 1) ≠ id → bks[i]? = t1.buckets[i]?) := by
  have hcl := fun i => xt_class_iff t1.depth (d + 1) id i hd hid
  obtain ⟨bks, h1, h2, h3, h4⟩ := xt_repoint_spec id (d + 1) a2 hid
    (pow2 (t1.depth - (d + 1))) 0 t1.buckets (fun m _ hm => by
      rw [xt_pow2_eq, Nat.zero_add] at hm
      rw [hinv.len, hinv.size_eq]
      exact ((hcl _).mp ⟨m, hm, rfl⟩).1)
  refine ⟨bks, h1, by rw [h2, hinv.len], fun i hi hmod => ?_, fun i hmod => ?_⟩
  · rw [hinv.size_eq] at hi
    obtain ⟨m, hm, rfl⟩ := (hcl i).mpr ⟨hi, hmod⟩
    exact h3 m (Nat.zero_le _) (by rw [xt_pow2_eq, Nat.zero_add]; exact hm)
  · apply h4
    intro m _ hm e
    rw [xt_pow2_eq, Nat.zero_add] at hm
    exact hmod ((hcl i).mp ⟨m, hm, e⟩).2

end Xtndbln

namespace Xtndbln

theorem xt_write_to_bucket_eq (C : Bucket) (k : Nat) (h : C.nkeys < C.keys.length) :
    write_to_bucket C k = Res.ret (pushed C k) := by
  unfold write_to_bucket
  rw [wr_of_lt _ h, Res.bind_ret]
  rfl

theorem xt_pushed_get (C : Bucket) (k j : Nat) (h : C.nkeys < C.keys.length) :
    (pushed C k).keys[j]? = if j = C.nkeys then some k else C.keys[j]? := by
  unfold pushed
  simp only [List.getElem?_set]
  by_cases hj : C.nkeys = j
  · subst hj
    simp [h]
  · have : ¬ j = C.nkeys := fun e => hj e.symm
    simp [hj, this]

theorem xt_set_get_ne {α : Type} (l : List α) (i j : Nat) (v : α) (h : i ≠ j) :
    (l.set i v)[j]? = l[j]? := by
  rw [List.getElem?_set, if_neg h]

theorem xt_set_get_eq {α : Type} (l : List α) (i : Nat) (v : α) (h : i < l.length) :
    (l.set i v)[i]? = some v := by
  rw [List.getElem?_set, if_pos rfl, if_pos h]

theorem xt_redist_step {t1 : XtndblNHashTable} {bi a : Nat} {old : Bucket}
    {bks : List (Option Nat)} (hctx : SplitCtx t1 bi a old bks) {ix : Nat}
    {t : XtndblNHashTable} (hr : Redist t1 a old bks ix t) (hix : ix < t1.bucketsize) (n : Nat) :
    ∃ t2, reinsert_loop a (n + 1) ix t = reinsert_loop a n (ix + 1) t2 ∧
      Redist t1 a old bks (ix + 1) t2 := by
  have hinv := hctx.inv
  obtain ⟨a0, old0, hp0, hg⟩ := hinv.slot bi (xt_points_lt hinv hctx.pts)
  obtain ⟨rfl, rfl⟩ := xt_points_unique hctx.pts hp0
  have ha : a < t1.heap.length := lt_length_of_getElem? hctx.pts.2
  obtain ⟨A, B, hA, hB, hh⟩ := hr.halves
  obtain ⟨k, hk⟩ := getElem?_exists old.keys ix (by rw [hg.keys_len]; exact hix)
  have hAk : A.keys[ix]? = some k := by
    rw [hh.rest ix (by have := hh.count; omega), hk]
  have hrout : get_bit_trail (t1.hash k) old.depth = old.id :=
    hg.routed ix k (by rw [hctx.full]; exact hix) hk
  have hidx_lt : get_bit_trail (t1.hash k) t1.depth < t1.size := by
    rw [hinv.size_eq]; exact xt_gbt_lt _ _
  have hmod1 : get_bit_trail (t1.hash k) t1.depth % 2 ^ (old.depth + 1)
      = get_bit_trail (t1.hash k) (old.depth + 1) := xt_gbt_mod _ _ _ hctx.spare
  have hmod0 : get_bit_trail (t1.hash k) t1.depth % 2 ^ old.depth = old.id := by
    rw [xt_gbt_mod _ _ _ (Nat.le_of_lt hctx.spare), hrout]
  have hcases := xt_mod_succ _ _ _ hmod0
  rw [reinsert_loop, rd_of_getElem? hA, Res.bind_ret, rd_of_getElem? hAk, Res.bind_ret]
  unfold reinsert_key
  rw [hr.hash_eq, hr.depth_eq]
  rcases hcases with hc | hc
  · -- the key stays in the old bucket
    have hne : get_bit_trail (t1.hash k) t1.depth % 2 ^ (old.depth + 1)
        ≠ old.id + 2 ^ old.depth := by
      have := Nat.two_pow_pos old.depth
      omega
    have hpt : points t (get_bit_trail (t1.hash k) t1.depth) a A := by
      refine ⟨?_, hA⟩
      rw [hr.buckets_eq, hctx.bks_old _ hne]
      exact hinv.share bi _ a old hidx_lt hctx.pts hmod0
    have hAn : A.nkeys < A.keys.length := by
      rw [hh.a_len]; have := hh.count; omega
    rw [xt_bucket_at_eq hpt, Res.bind_ret]
    simp only
    rw [xt_write_to_bucket_eq A k hAn, Res.bind_ret,
      wr_of_lt _ (by rw [hr.heap_len]; omega), Res.bind_ret]
    refine ⟨_, rfl, ⟨hr.buckets_eq, hr.size_eq, rfl, hr.bs_eq, rfl, hr.nitems_eq,
      ?_, ?_, ?_⟩⟩
    · show (t.heap.set a _).length = _
      rw [List.length_set, hr.heap_len]
    · intro c hca hc2
      show (t.heap.set a _)[c]? = _
      rw [xt_set_get_ne _ _ _ _ (fun e => hca e.symm)]
      exact hr.heap_other c hca hc2
    · refine ⟨pushed A k, B, ?_, ?_, ?_⟩
      · show (t.heap.set a _)[a]? = _
        exact xt_set_get_eq _ _ _ (by rw [hr.heap_len]; omega)
      · show (t.heap.set a _)[t1.heap.length]? = _
        rw [xt_set_get_ne _ _ _ _ (by omega)]
        exact hB
      · refine ⟨hh.a_id, hh.a_depth, hh.b_id, hh.b_depth, ?_, hh.b_len, ?_, ?_, ?_, ?_, ?_⟩
        · show (A.keys.set _ _).length = _
          rw [List.length_set, hh.a_len]
        · show A.nkeys + 1 + B.nkeys = ix + 1
          have := hh.count; omega
        · intro j hj
          have hj2 : A.nkeys + 1 ≤ j := hj
          rw [xt_pushed_get A k j hAn, if_neg (by omega)]
          exact hh.rest j (by omega)
        · intro j x hj hx
          have hj2 : j < A.nkeys + 1 := hj
          rw [xt_pushed_get A k j hAn] at hx
          by_cases hjn : j = A.nkeys
          · rw [if_pos hjn] at hx
            have : k = x := Option.some.inj hx
            subst this
            exact ⟨by rw [← hmod1, hc], ix, by omega, hk⟩
          · rw [if_neg hjn] at hx
            obtain ⟨h1, m, h2, h3⟩ := hh.a_keys j x (by omega) hx
            exact ⟨h1, m, by omega, h3⟩
        · intro j x hj hx
          obtain ⟨h1, m, h2, h3⟩ := hh.b_keys j x hj hx
          exact ⟨h1, m, by omega, h3⟩
        · intro m x hm hx
          by_cases hmi : m = ix
          · subst hmi
            rw [hk] at hx
            have : k = x := Option.some.inj hx
            subst this
            left
            refine ⟨A.nkeys, Nat.lt_succ_self _, ?_⟩
            rw [xt_pushed_get A k _ hAn, if_pos rfl]
          · rcases hh.cover m x (by omega) hx with ⟨j, hj, hjx⟩ | h
            · left
              refine ⟨j, Nat.lt_succ_of_lt hj, ?_⟩
              rw [xt_pushed_get A k _ hAn, if_neg (by omega)]
              exact hjx
            · exact Or.inr h
  · -- the key moves to the sibling
    have hpt : points t (get_bit_trail (t1.hash k) t1.depth) t1.heap.length B := by
      refine ⟨?_, hB⟩
      rw [hr.buckets_eq]
      exact hctx.bks_new _ hidx_lt hc
    have hBn : B.nkeys < B.keys.length := by
      rw [hh.b_len]; have := hh.count; omega
    rw [xt_bucket_at_eq hpt, Res.bind_ret]
    simp only
    rw [xt_write_to_bucket_eq B k hBn, Res.bind_ret,
      wr_of_lt _ (by rw [hr.heap_len]; omega), Res.bind_ret]
    refine ⟨_, rfl, ⟨hr.buckets_eq, hr.size_eq, rfl, hr.bs_eq, rfl, hr.nitems_eq,
      ?_, ?_, ?_⟩⟩
    · show (t.heap.set _ _).length = _
      rw [List.length_set, hr.heap_len]
    · intro c hca hc2
      show (t.heap.set _ _)[c]? = _
      rw [xt_set_get_ne _ _ _ _ (by omega)]
      exact hr.heap_other c hca hc2
    · refine ⟨A, pushed B k, ?_, ?_, ?_⟩
      · show (t.heap.set _ _)[a]? = _
        rw [xt_set_get_ne _ _ _ _ (by omega)]
        exact hA
      · show (t.heap.set _ _)[t1.heap.length]? = _
        exact xt_set_get_eq _ _ _ (by rw [hr.heap_len]; omega)
      · refine ⟨hh.a_id, hh.a_depth, hh.b_id, hh.b_depth, hh.a_len, ?_, ?_, hh.rest, ?_, ?_, ?_⟩
        · show (B.keys.set _ _).length = _
          rw [List.length_set, hh.b_len]
        · show A.nkeys + (B.nkeys + 1) = ix + 1
          have := hh.count; omega
        · intro j x hj hx
          obtain ⟨h1, m, h2, h3⟩ := hh.a_keys j x hj hx
          exact ⟨h1, m, by omega, h3⟩
        · intro j x hj hx
          have hj2 : j < B.nkeys + 1 := hj
          rw [xt_pushed_get B k j hBn] at hx
          by_cases hjn : j = B.nkeys
          · rw [if_pos hjn] at hx
            have : k = x := Option.some.inj hx
            subst this
            exact ⟨by rw [← hmod1, hc], ix, by omega, hk⟩
          · rw [if_neg hjn] at hx
            obtain ⟨h1, m, h2, h3⟩ := hh.b_keys j x (by omega) hx
            exact ⟨h1, m, by omega, h3⟩
        · intro m x hm hx
          by_cases hmi : m = ix
          · subst hmi
            rw [hk] at hx
            have : k = x := Option.some.inj hx
            subst this
            right
            refine ⟨B.nkeys, Nat.lt_succ_self _, ?_⟩
            rw [xt_pushed_get B k _ hBn, if_pos rfl]
          · rcases hh.cover m x (by omega) hx with h | ⟨j, hj, hjx⟩
            · exact Or.inl h
            · right
              refine ⟨j, Nat.lt_succ_of_lt hj, ?_⟩
              rw [xt_pushed_get B k _ hBn, if_neg (by omega)]
              exact hjx

theorem xt_redist_loop {t1 : XtndblNHashTable} {bi a : Nat} {old : Bucket}
    {bks : List (Option Nat)} (hctx : SplitCtx t1 bi a old bks) :
    ∀ n ix t, ix + n = t1.bucketsize → Redist t1 a old bks ix t →
      ∃ t2, reinsert_loop a n ix t = Res.ret t2 ∧ Redist t1 a old bks t1.bucketsize t2 := by
  intro n
  induction n with
  | zero =>
    intro ix t h hr
    have : ix = t1.bucketsize := by omega
    subst this
    exact ⟨t, rfl, hr⟩
  | succ n ih =>
    intro ix t h hr
    obtain ⟨t2, h2, hr2⟩ := xt_redist_step hctx hr (by omega) n
    obtain ⟨t3, h3, hr3⟩ := ih (ix + 1) t2 (by omega) hr2
    exact ⟨t3, by rw [h2, h3], hr3⟩

end Xtndbln

namespace Xtndbln

theorem xt_good_old {t1 : XtndblNHashTable} {bi a : Nat} {old : Bucket}
    {bks : List (Option Nat)} (hctx : SplitCtx t1 bi a old bks) :
    GoodBucket t1 bi old ∧ old.id < 2 ^ old.depth ∧ a < t1.heap.length := by
  obtain ⟨a0, old0, hp0, hg⟩ := hctx.inv.slot bi (xt_points_lt hctx.inv hctx.pts)
  obtain ⟨rfl, rfl⟩ := xt_points_unique hctx.pts hp0
  refine ⟨hg, ?_, lt_length_of_getElem? hctx.pts.2⟩
  rw [← hg.id_eq]
  exact Nat.mod_lt _ (Nat.two_pow_pos _)

/-- In the table before the split, the slots of the old bucket are those that
agree with its id. -/
theorem xt_old_slots {t1 : XtndblNHashTable} {bi a : Nat} {old : Bucket}
    {bks : List (Option Nat)} (hctx : SplitCtx t1 bi a old bks) (i : Nat) (hi : i < t1.size) :
    t1.buckets[i]? = some (some a) ↔ i % 2 ^ old.depth = old.id := by
  constructor
  · intro h
    obtain ⟨c, b, hp, hg⟩ := hctx.inv.slot i hi
    have e := hp.1
    rw [h] at e
    have ec : a = c := Option.some.inj (Option.some.inj e)
    subst ec
    have e2 := hp.2
    rw [hctx.pts.2] at e2
    have eb : old = b := Option.some.inj e2
    subst eb
    exact hg.id_eq
  · intro h
    exact hctx.inv.share bi i a old hi hctx.pts h

/-- Where each slot points after the split. -/
theorem xt_redist_points {t1 : XtndblNHashTable} {bi a : Nat} {old : Bucket}
    {bks : List (Option Nat)} (hctx : SplitCtx t1 bi a old bks) {ix : Nat}
    {t : XtndblNHashTable} (hr : Redist t1 a old bks ix t) {A B : Bucket}
    (hA : t.heap[a]? = some A) (hB : t.heap[t1.heap.length]? = some B)
    (i : Nat) (hi : i < t1.size) :
    (i % 2 ^ (old.depth + 1) = old.id + 2 ^ old.depth ∧ points t i t1.heap.length B) ∨
    (i % 2 ^ (old.depth + 1) = old.id ∧ points t1 i a old ∧ points t i a A) ∨
    (i % 2 ^ old.depth ≠ old.id ∧ ∃ c b, c ≠ a ∧ points t1 i c b ∧ points t i c b) := by
  obtain ⟨hg, hid, ha⟩ := xt_good_old hctx
  have hp2 := Nat.two_pow_pos old.depth
  by_cases h0 : i % 2 ^ old.depth = old.id
  · rcases xt_mod_succ _ _ _ h0 with h1 | h1
    · right; left
      have hb := (xt_old_slots hctx i hi).mpr h0
      refine ⟨h1, ⟨hb, hctx.pts.2⟩, ?_, hA⟩
      rw [hr.buckets_eq, hctx.bks_old i (by omega)]
      exact hb
    · left
      refine ⟨h1, ?_, hB⟩
      rw [hr.buckets_eq]
      exact hctx.bks_new i hi h1
  · right; right
    obtain ⟨c, b, hp, _⟩ := hctx.inv.slot i hi
    have hca : c ≠ a := by
      intro e
      subst e
      exact h0 ((xt_old_slots hctx i hi).mp hp.1)
    have hne : i % 2 ^ (old.depth + 1) ≠ old.id + 2 ^ old.depth := by
      intro e
      exact h0 (xt_mod_of_succ i old.depth old.id (Or.inr e) hid)
    refine ⟨h0, c, b, hca, hp, ?_, ?_⟩
    · rw [hr.buckets_eq, hctx.bks_old i hne]
      exact hp.1
    · rw [hr.heap_other c hca (lt_length_of_getElem? hp.2)]
      exact hp.2

theorem xt_redist_final {t1 : XtndblNHashTable} {bi a : Nat} {old : Bucket}
    {bks : List (Option Nat)} (hctx : SplitCtx t1 bi a old bks)
    {t : XtndblNHashTable} (hr : Redist t1 a old bks t1.bucketsize t) :
    XInv t ∧ ∀ x, stored t x ↔ stored t1 x := by
  obtain ⟨hg, hid, ha⟩ := xt_good_old hctx
  obtain ⟨A, B, hA, hB, hh⟩ := hr.halves
  have hinv := hctx.inv
  have hp2 := Nat.two_pow_pos old.depth
  have hpts := xt_redist_points hctx hr hA hB
  have hAgood : ∀ i, i % 2 ^ (old.depth + 1) = old.id → GoodBucket t i A := by
    intro i hi
    refine ⟨by rw [hh.a_depth, hr.depth_eq]; exact hctx.spare, by rw [hh.a_depth, hh.a_id]; exact hi,
      by rw [hr.bs_eq]; have := hh.count; omega, by rw [hr.bs_eq]; exact hh.a_len, ?_⟩
    intro j k hj hk
    rw [hh.a_depth, hh.a_id, hr.hash_eq]
    exact (hh.a_keys j k hj hk).1
  have hBgood : ∀ i, i % 2 ^ (old.depth + 1) = old.id + 2 ^ old.depth → GoodBucket t i B := by
    intro i hi
    refine ⟨by rw [hh.b_depth, hr.depth_eq]; exact hctx.spare, by rw [hh.b_depth, hh.b_id]; exact hi,
      by rw [hr.bs_eq]; have := hh.count; omega, by rw [hr.bs_eq]; exact hh.b_len, ?_⟩
    intro j k hj hk
    rw [hh.b_depth, hh.b_id, hr.hash_eq]
    exact (hh.b_keys j k hj hk).1
  have hlen : t.buckets.length = t.size := by
    rw [hr.buckets_eq, hctx.bks_len, hr.size_eq]
  constructor
  · refine ⟨by rw [hr.size_eq, hr.depth_eq]; exact hinv.size_eq,
      hlen, ?_, ?_⟩
    · intro i hi
      rw [hr.size_eq] at hi
      rcases hpts i hi with ⟨h1, h2⟩ | ⟨h1, _, h2⟩ | ⟨_, c, b, _, h1, h2⟩
      · exact ⟨_, B, h2, hBgood i h1⟩
      · exact ⟨_, A, h2, hAgood i h1⟩
      · obtain ⟨c2, b2, hp2, hg2⟩ := hinv.slot i hi
        obtain ⟨rfl, rfl⟩ := xt_points_unique h1 hp2
        refine ⟨c, b, h2, ⟨by rw [hr.depth_eq]; exact hg2.depth_le, hg2.id_eq,
          by rw [hr.bs_eq]; exact hg2.nkeys_le, by rw [hr.bs_eq]; exact hg2.keys_len, ?_⟩⟩
        rw [hr.hash_eq]
        exact hg2.routed
    · intro i j c b hj hp hmod
      have hi : i < t1.size := by
        have := lt_length_of_getElem? hp.1
        rw [hlen, hr.size_eq] at this
        exact this
      rw [hr.size_eq] at hj
      rcases hpts i hi with ⟨_, h2⟩ | ⟨_, _, h2⟩ | ⟨_, c2, b2, hc2, h1, h2⟩
      · obtain ⟨rfl, rfl⟩ := xt_points_unique hp h2
        rw [hh.b_depth, hh.b_id] at hmod
        rw [hr.buckets_eq]
        exact hctx.bks_new j hj hmod
      · obtain ⟨rfl, rfl⟩ := xt_points_unique hp h2
        rw [hh.a_depth, hh.a_id] at hmod
        rw [hr.buckets_eq, hctx.bks_old j (by omega)]
        exact (xt_old_slots hctx j hj).mpr (xt_mod_of_succ j old.depth old.id (Or.inl hmod) hid)
      · obtain ⟨rfl, rfl⟩ := xt_points_unique hp h2
        have hb := hinv.share i j c b hj h1 hmod
        rcases hpts j hj with ⟨h3, _⟩ | ⟨_, h3, _⟩ | ⟨_, c3, b3, _, h3, h4⟩
        · exfalso
          have := (xt_old_slots hctx j hj).mpr
            (xt_mod_of_succ j old.depth old.id (Or.inr h3) hid)
          rw [hb] at this
          exact hc2 (Option.some.inj (Option.some.inj this))
        · exfalso
          have := h3.1
          rw [hb] at this
          exact hc2 (Option.some.inj (Option.some.inj this))
        · have := h3.1
          rw [hb] at this
          have e : c = c3 := Option.some.inj (Option.some.inj this)
          subst e
          exact h4.1
  · intro x
    have hidlt : old.id < t1.size := by
      rw [hinv.size_eq]
      calc old.id < 2 ^ old.depth := hid
        _ ≤ 2 ^ t1.depth := Nat.pow_le_pow_right (by decide) (Nat.le_of_lt hctx.spare)
    have hid2lt : old.id + 2 ^ old.depth < t1.size := by
      rw [hinv.size_eq]
      calc old.id + 2 ^ old.depth < 2 ^ old.depth + 2 ^ old.depth := by omega
        _ = 2 ^ (old.depth + 1) := by rw [pow_succ]; omega
        _ ≤ 2 ^ t1.depth := Nat.pow_le_pow_right (by decide) hctx.spare
    have hslotA : points t old.id a A := by
      rcases hpts old.id hidlt with ⟨h1, _⟩ | ⟨_, _, h2⟩ | ⟨h1, _⟩
      · exfalso
        rw [Nat.mod_eq_of_lt (by rw [pow_succ]; omega)] at h1
        omega
      · exact h2
      · exact absurd (Nat.mod_eq_of_lt hid) h1
    have hslotB : points t (old.id + 2 ^ old.depth) t1.heap.length B := by
      rcases hpts _ hid2lt with ⟨_, h2⟩ | ⟨h1, _⟩ | ⟨h1, _⟩
      · exact h2
      · exfalso
        rw [Nat.mod_eq_of_lt (by rw [pow_succ]; omega)] at h1
        omega
      · exfalso
        apply h1
        rw [Nat.add_mod_right, Nat.mod_eq_of_lt hid]
    constructor
    · rintro ⟨i, c, b, j, hp, hj, hk⟩
      have hi : i < t1.size := by
        have := lt_length_of_getElem? hp.1
        rw [hlen, hr.size_eq] at this
        exact this
      rcases hpts i hi with ⟨_, h2⟩ | ⟨_, _, h2⟩ | ⟨_, c2, b2, hc2, h1, h2⟩
      · obtain ⟨rfl, rfl⟩ := xt_points_unique hp h2
        obtain ⟨_, m, hm, hmk⟩ := hh.b_keys j x hj hk
        exact ⟨bi, _, old, m, hctx.pts, by rw [hctx.full]; exact hm, hmk⟩
      · obtain ⟨rfl, rfl⟩ := xt_points_unique hp h2
        obtain ⟨_, m, hm, hmk⟩ := hh.a_keys j x hj hk
        exact ⟨bi, _, old, m, hctx.pts, by rw [hctx.full]; exact hm, hmk⟩
      · obtain ⟨rfl, rfl⟩ := xt_points_unique hp h2
        exact ⟨i, c, b, j, h1, hj, hk⟩
    · rintro ⟨i, c, b, j, hp, hj, hk⟩
      have hi := xt_points_lt hinv hp
      by_cases hca : c = a
      · rw [hca] at hp
        have e := hp.2
        rw [hctx.pts.2] at e
        have eb : old = b := Option.some.inj e
        subst eb
        rcases hh.cover j x (by rw [← hctx.full]; exact hj) hk with ⟨j2, h1, h2⟩ | ⟨j2, h1, h2⟩
        · exact ⟨_, _, A, j2, hslotA, h1, h2⟩
        · exact ⟨_, _, B, j2, hslotB, h1, h2⟩
      · rcases hpts i hi with ⟨h3, _⟩ | ⟨_, h3, _⟩ | ⟨_, c3, b3, _, h3, h4⟩
        · exfalso
          have := (xt_old_slots hctx i hi).mpr
            (xt_mod_of_succ i old.depth old.id (Or.inr h3) hid)
          rw [hp.1] at this
          exact hca (Option.some.inj (Option.some.inj this))
        · exfalso
          have := h3.1
          rw [hp.1] at this
          exact hca (Option.some.inj (Option.some.inj this))
        · obtain ⟨rfl, rfl⟩ := xt_points_unique hp h3
          exact ⟨i, c, b, j, h4, hj, hk⟩

end Xtndbln

namespace Xtndbln

/-- The split of a full bucket that has a spare bit succeeds, keeps the
invariant and keeps the set of stored keys. -/
theorem xt_split_body_spec (t1 : XtndblNHashTable) (hinv : XInv t1) (bi a : Nat) (old : Bucket)
    (hp : points t1 bi a old) (hspare : old.depth < t1.depth)
    (hfull : old.nkeys = t1.bucketsize) :
    ∃ t2, split_bucket_body t1 bi = Res.ret (t2, true) ∧ XInv t2 ∧
      (∀ x, stored t2 x ↔ stored t1 x) ∧ t2.hash = t1.hash ∧
      t2.bucketsize = t1.bucketsize ∧ t2.nitems = t1.nitems ∧ t2.depth = t1.depth ∧
      t2.size = t1.size := by
  obtain ⟨a0, old0, hp0, hg⟩ := hinv.slot bi (xt_points_lt hinv hp)
  obtain ⟨rfl, rfl⟩ := xt_points_unique hp hp0
  have hid : old.id < 2 ^ old.depth := by
    rw [← hg.id_eq]; exact Nat.mod_lt _ (Nat.two_pow_pos _)
  have ha : a < t1.heap.length := lt_length_of_getElem? hp.2
  have hid2 : old.id + 2 ^ old.depth < 2 ^ (old.depth + 1) := by rw [pow_succ]; omega
  obtain ⟨bks, hbks, hbl, hbn, hbo⟩ := xt_repoint_dir t1 hinv (old.id + 2 ^ old.depth)
    old.depth t1.heap.length hid2 hspare
  have hctx : SplitCtx t1 bi a old bks := ⟨hinv, hp, hspare, hfull, hbl, hbn, hbo⟩
  have hhp2 : ((t1.heap.set a { old with depth := old.depth + 1 }) ++
      [get_new_bucket (old.id + 2 ^ old.depth) t1.bucketsize (old.depth + 1)])[a]?
      = some { old with depth := old.depth + 1 } := by
    rw [List.getElem?_append_left (by rw [List.length_set]; exact ha)]
    exact xt_set_get_eq _ _ _ ha
  have hr0 : Redist t1 a old bks 0 { t1 with buckets := bks, heap := ((t1.heap.set a { old with depth := old.depth + 1 }) ++ [get_new_bucket (old.id + 2 ^ old.depth) t1.bucketsize (old.depth + 1)]).set a { old with depth := old.depth + 1, nkeys := 0 } } := by
    refine ⟨rfl, rfl, rfl, rfl, rfl, rfl, ?_, ?_, ?_⟩
    · simp
    · intro c hca hc
      show (List.set _ a _)[c]? = _
      rw [xt_set_get_ne _ _ _ _ (fun e => hca e.symm),
        List.getElem?_append_left (by rw [List.length_set]; exact hc),
        xt_set_get_ne _ _ _ _ (fun e => hca e.symm)]
    · refine ⟨{ old with depth := old.depth + 1, nkeys := 0 },
        get_new_bucket (old.id + 2 ^ old.depth) t1.bucketsize (old.depth + 1), ?_, ?_, ?_⟩
      · show (List.set _ a _)[a]? = _
        exact xt_set_get_eq _ _ _ (by simp; omega)
      · show (List.set _ a _)[t1.heap.length]? = _
        rw [xt_set_get_ne _ _ _ _ (by omega),
          List.getElem?_append_right (by rw [List.length_set])]
        simp
      · refine ⟨rfl, rfl, rfl, rfl, hg.keys_len, by simp [get_new_bucket], rfl,
          fun j _ => rfl, ?_, ?_, ?_⟩
        · intro j k hj
          exact absurd hj (Nat.not_lt_zero _)
        · intro j k hj
          exact absurd hj (Nat.not_lt_zero _)
        · intro m k hm
          exact absurd hm (Nat.not_lt_zero _)
  obtain ⟨t2, ht2, hr2⟩ := xt_redist_loop hctx t1.bucketsize 0 _ (by omega) hr0
  obtain ⟨hinv2, hst2⟩ := xt_redist_final hctx hr2
  refine ⟨t2, ?_, hinv2, hst2, hr2.hash_eq, hr2.bs_eq, hr2.nitems_eq, hr2.depth_eq, hr2.size_eq⟩
  unfold split_bucket_body
  rw [xt_bucket_at_eq hp, Res.bind_ret]
  simp only
  rw [xt_lor_pow2 _ _ hid, if_neg (by simp), wr_of_lt _ ha, Res.bind_ret, if_neg (by omega),
    xt_pow2_eq, List.length_set, hbks, Res.bind_ret, rd_of_getElem? hhp2, Res.bind_ret,
    wr_of_lt _ (by simp; omega), Res.bind_ret, ht2, Res.bind_ret]

end Xtndbln

namespace Xtndbln

theorem xt_updated_points {t t2 : XtndblNHashTable} {a : Nat} {b b2 : Bucket}
    (hu : Updated t a b b2 t2) (i c : Nat) (x : Bucket) :
    points t2 i c x ↔ (c = a ∧ x = b2 ∧ points t i a b) ∨ (c ≠ a ∧ points t i c x) := by
  have ha : a < t.heap.length := lt_length_of_getElem? hu.was
  unfold points
  rw [hu.buckets_eq, hu.heap_eq]
  by_cases hc : c = a
  · subst hc
    rw [xt_set_get_eq _ _ _ ha]
    constructor
    · rintro ⟨h1, h2⟩
      exact Or.inl ⟨rfl, (Option.some.inj h2).symm, h1, hu.was⟩
    · rintro (⟨_, h2, h3, _⟩ | ⟨h1, _⟩)
      · exact ⟨h3, by rw [h2]⟩
      · exact absurd rfl h1
  · rw [xt_set_get_ne _ _ _ _ (fun e => hc e.symm)]
    constructor
    · intro h
      exact Or.inr ⟨hc, h⟩
    · rintro (⟨h1, _⟩ | ⟨_, h⟩)
      · exact absurd h1 hc
      · exact h

theorem xt_updated_inv {t t2 : XtndblNHashTable} {a : Nat} {b b2 : Bucket} (hinv : XInv t)
    (hu : Updated t a b b2 t2) (hn : b2.nkeys ≤ t.bucketsize)
    (hl : b2.keys.length = t.bucketsize)
    (hr : ∀ j k, j < b2.nkeys → b2.keys[j]? = some k →
      get_bit_trail (t.hash k) b.depth = b.id) : XInv t2 := by
  have hpts := xt_updated_points hu
  refine ⟨by rw [hu.size_eq, hu.depth_eq]; exact hinv.size_eq,
    by rw [hu.buckets_eq, hu.size_eq]; exact hinv.len, ?_, ?_⟩
  · intro i hi
    rw [hu.size_eq] at hi
    obtain ⟨c, x, hp, hg⟩ := hinv.slot i hi
    by_cases hc : c = a
    · subst hc
      have e := hp.2
      rw [hu.was] at e
      have ex : b = x := Option.some.inj e
      subst ex
      refine ⟨c, b2, (hpts i c b2).mpr (Or.inl ⟨rfl, rfl, hp⟩), ⟨?_, ?_, ?_, ?_, ?_⟩⟩
      · rw [hu.bdepth_eq, hu.depth_eq]; exact hg.depth_le
      · rw [hu.bdepth_eq, hu.id_eq]; exact hg.id_eq
      · rw [hu.bs_eq]; exact hn
      · rw [hu.bs_eq]; exact hl
      · rw [hu.bdepth_eq, hu.id_eq, hu.hash_eq]; exact hr
    · refine ⟨c, x, (hpts i c x).mpr (Or.inr ⟨hc, hp⟩), ⟨?_, hg.id_eq, ?_, ?_, ?_⟩⟩
      · rw [hu.depth_eq]; exact hg.depth_le
      · rw [hu.bs_eq]; exact hg.nkeys_le
      · rw [hu.bs_eq]; exact hg.keys_len
      · rw [hu.hash_eq]; exact hg.routed
  · intro i j c x hj hp hmod
    rw [hu.size_eq] at hj
    rw [hu.buckets_eq]
    rcases (hpts i c x).mp hp with ⟨h1, h2, h3⟩ | ⟨_, h3⟩
    · rw [h2, hu.bdepth_eq, hu.id_eq] at hmod
      rw [h1]
      exact hinv.share i j a b hj h3 hmod
    · exact hinv.share i j c x hj h3 hmod

/-- The keys of a table after one bucket was replaced. -/
theorem xt_updated_stored {t t2 : XtndblNHashTable} {a : Nat} {b b2 : Bucket}
    (hu : Updated t a b b2 t2) {i0 : Nat} (hp0 : points t i0 a b) (x : Nat) :
    stored t2 x ↔
      (∃ j, j < b2.nkeys ∧ b2.keys[j]? = some x) ∨
      (∃ i c y j, c ≠ a ∧ points t i c y ∧ j < y.nkeys ∧ y.keys[j]? = some x) := by
  have hpts := xt_updated_points hu
  constructor
  · rintro ⟨i, c, y, j, hp, hj, hk⟩
    rcases (hpts i c y).mp hp with ⟨_, h2, _⟩ | ⟨h1, h3⟩
    · subst h2
      exact Or.inl ⟨j, hj, hk⟩
    · exact Or.inr ⟨i, c, y, j, h1, h3, hj, hk⟩
  · rintro (⟨j, hj, hk⟩ | ⟨i, c, y, j, h1, h3, hj, hk⟩)
    · exact ⟨i0, a, b2, j, (hpts i0 a b2).mpr (Or.inl ⟨rfl, rfl, hp0⟩), hj, hk⟩
    · exact ⟨i, c, y, j, (hpts i c y).mpr (Or.inr ⟨h1, h3⟩), hj, hk⟩

theorem xt_stored_split {t : XtndblNHashTable} {a : Nat} {b : Bucket} {i0 : Nat}
    (hp0 : points t i0 a b) (x : Nat) :
    stored t x ↔
      (∃ j, j < b.nkeys ∧ b.keys[j]? = some x) ∨
      (∃ i c y j, c ≠ a ∧ points t i c y ∧ j < y.nkeys ∧ y.keys[j]? = some x) := by
  constructor
  · rintro ⟨i, c, y, j, hp, hj, hk⟩
    by_cases hc : c = a
    · subst hc
      have e := hp.2
      rw [hp0.2] at e
      have : b = y := Option.some.inj e
      subst this
      exact Or.inl ⟨j, hj, hk⟩
    · exact Or.inr ⟨i, c, y, j, hc, hp, hj, hk⟩
  · rintro (⟨j, hj, hk⟩ | ⟨i, c, y, j, _, h3, hj, hk⟩)
    · exact ⟨i0, a, b, j, hp0, hj, hk⟩
    · exact ⟨i, c, y, j, h3, hj, hk⟩

/-- Appending a key to the bucket it addresses, when the bucket has room. -/
theorem xt_push_spec {t t2 : XtndblNHashTable} (hinv : XInv t) (key a : Nat) (b : Bucket)
    (hp : points t (get_bit_trail (t.hash key) t.depth) a b) (hroom : b.nkeys < t.bucketsize)
    (hu : Updated t a b (pushed b key) t2) :
    XInv t2 ∧ ∀ x, stored t2 x ↔ (stored t x ∨ x = key) := by
  obtain ⟨a0, b0, hp0, hg⟩ := xt_home hinv (t.hash key)
  obtain ⟨rfl, rfl⟩ := xt_points_unique hp hp0
  have hlen : b.nkeys < b.keys.length := by rw [hg.keys_len]; exact hroom
  have hkey : get_bit_trail (t.hash key) b.depth = b.id := by
    rw [← xt_gbt_mod _ _ _ hg.depth_le]; exact hg.id_eq
  constructor
  · apply xt_updated_inv hinv hu
    · show b.nkeys + 1 ≤ _
      omega
    · show (b.keys.set _ _).length = _
      rw [List.length_set]; exact hg.keys_len
    · intro j k hj hk
      have hj2 : j < b.nkeys + 1 := hj
      rw [xt_pushed_get b key j hlen] at hk
      by_cases hjn : j = b.nkeys
      · rw [if_pos hjn] at hk
        rw [← Option.some.inj hk]
        exact hkey
      · rw [if_neg hjn] at hk
        exact hg.routed j k (by omega) hk
  · intro x
    rw [xt_updated_stored hu hp x, xt_stored_split hp x]
    constructor
    · rintro (⟨j, hj, hk⟩ | h)
      · have hj2 : j < b.nkeys + 1 := hj
        rw [xt_pushed_get b key j hlen] at hk
        by_cases hjn : j = b.nkeys
        · rw [if_pos hjn] at hk
          exact Or.inr (Option.some.inj hk).symm
        · rw [if_neg hjn] at hk
          exact Or.inl (Or.inl ⟨j, by omega, hk⟩)
      · exact Or.inl (Or.inr h)
    · rintro ((⟨j, hj, hk⟩ | h) | h)
      · left
        refine ⟨j, Nat.lt_succ_of_lt hj, ?_⟩
        rw [xt_pushed_get b key j hlen, if_neg (by omega)]
        exact hk
      · exact Or.inr h
      · left
        refine ⟨b.nkeys, Nat.lt_succ_self _, ?_⟩
        rw [xt_pushed_get b key _ hlen, if_pos rfl, h]

end Xtndbln

namespace Xtndbln

/-- About `split_bucket` on a full bucket: either the doubling it needs is refused
and nothing changes, or the split succeeds, keeping the invariant and the
keys. -/
theorem xt_split_spec (MAX : Nat) (t : XtndblNHashTable) (hinv : XInv t) (bi a : Nat)
    (old : Bucket) (hp : points t bi a old) (hfull : old.nkeys = t.bucketsize) :
    (old.depth = t.depth ∧ MAX < t.size * 2 ∧ split_bucket MAX t bi = Res.ret (t, false)) ∨
    (∃ t2, split_bucket MAX t bi = Res.ret (t2, true) ∧ XInv t2 ∧
      (∀ x, stored t2 x ↔ stored t x) ∧ t2.hash = t.hash ∧
      t2.bucketsize = t.bucketsize ∧ t2.nitems = t.nitems) := by
  obtain ⟨a0, old0, hp0, hg⟩ := hinv.slot bi (xt_points_lt hinv hp)
  obtain ⟨rfl, rfl⟩ := xt_points_unique hp hp0
  unfold split_bucket
  rw [xt_bucket_at_eq hp, Res.bind_ret]
  simp only
  by_cases hd : old.depth = t.depth
  · rw [if_pos hd]
    by_cases hm : MAX < t.size * 2
    · left
      rw [xt_double_refused MAX t hm, Res.bind_ret]
      exact ⟨hd, hm, rfl⟩
    · right
      obtain ⟨t1, h1, hinv1, e1, e2, e3, e4, e5, e6, e7, e8⟩ :=
        xt_double_ok MAX t hinv (by omega)
      rw [h1, Res.bind_ret]
      simp only [Bool.not_true, Bool.false_eq_true, if_false]
      have hp1 : points t1 bi a old := by
        refine ⟨?_, by rw [e2]; exact hp.2⟩
        rw [e7 bi (xt_points_lt hinv hp)]
        exact hp.1
      obtain ⟨t2, h2, hinv2, hst, f1, f2, f3, _, _⟩ :=
        xt_split_body_spec t1 hinv1 bi a old hp1 (by omega) (by rw [e3]; exact hfull)
      refine ⟨t2, h2, hinv2, fun x => ?_, by rw [f1, e4], by rw [f2, e3], by rw [f3, e5]⟩
      rw [hst, e8]
  · right
    rw [if_neg hd, Res.bind_ret]
    simp only [Bool.not_true, Bool.false_eq_true, if_false]
    have hlt : old.depth < t.depth := Nat.lt_of_le_of_ne hg.depth_le hd
    obtain ⟨t2, h2, hinv2, hst, f1, f2, f3, _, _⟩ :=
      xt_split_body_spec t hinv bi a old hp hlt hfull
    exact ⟨t2, h2, hinv2, hst, f1, f2, f3⟩

/-- The splitting loop of insert, when it ends: the invariant and the keys are
kept and the bucket addressed by the hash has room. -/
theorem xt_split_loop_spec (MAX : Nat) (kh : Int) :
    ∀ fuel t, XInv t →
      split_loop MAX kh fuel t = Res.diverge ∨
      ∃ t2 a b, split_loop MAX kh fuel t = Res.ret (t2, a) ∧ XInv t2 ∧
        (∀ x, stored t2 x ↔ stored t x) ∧ t2.hash = t.hash ∧
        t2.bucketsize = t.bucketsize ∧ t2.nitems = t.nitems ∧
        points t2 (get_bit_trail kh t2.depth) a b ∧ b.nkeys < t2.bucketsize := by
  intro fuel
  induction fuel with
  | zero =>
    intro t hinv
    obtain ⟨a, b, hp, hg⟩ := xt_home hinv kh
    rw [split_loop, xt_bucket_at_eq hp, Res.bind_ret]
    simp only
    by_cases hf : b.nkeys = t.bucketsize
    · left
      rw [if_pos hf]
    · right
      rw [if_neg hf]
      exact ⟨t, a, b, rfl, hinv, fun x => Iff.rfl, rfl, rfl, rfl, hp,
        Nat.lt_of_le_of_ne hg.nkeys_le hf⟩
  | succ fuel ih =>
    intro t hinv
    obtain ⟨a, b, hp, hg⟩ := xt_home hinv kh
    rw [split_loop, xt_bucket_at_eq hp, Res.bind_ret]
    simp only
    by_cases hf : b.nkeys = t.bucketsize
    · rw [if_pos hf]
      rcases xt_split_spec MAX t hinv _ a b hp hf with ⟨_, _, h⟩ | ⟨t1, h, hinv1, hst1, f1, f2, f3⟩
      · rw [h, Res.bind_ret]
        exact ih t hinv
      · rw [h, Res.bind_ret]
        rcases ih t1 hinv1 with h2 | ⟨t2, a2, b2, h2, hinv2, hst2, g1, g2, g3, hp2, hroom⟩
        · exact Or.inl h2
        · refine Or.inr ⟨t2, a2, b2, h2, hinv2, fun x => ?_, by rw [g1, f1], by rw [g2, f2],
            by rw [g3, f3], hp2, hroom⟩
          rw [hst2, hst1]
    · right
      rw [if_neg hf]
      exact ⟨t, a, b, rfl, hinv, fun x => Iff.rfl, rfl, rfl, rfl, hp,
        Nat.lt_of_le_of_ne hg.nkeys_le hf⟩

/-- About `xtndbln_hash_table_insert` on a table that satisfies the invariant: it
runs out of fuel, or refuses a key that is stored, or stores an absent key. -/
theorem xt_insert_spec (MAX fuel : Nat) (t : XtndblNHashTable) (hinv : XInv t) (key : Nat) :
    xtndbln_hash_table_insert MAX fuel t key = Res.diverge ∨
    (stored t key ∧ xtndbln_hash_table_insert MAX fuel t key = Res.ret (t, false)) ∨
    (¬ stored t key ∧ ∃ t2, xtndbln_hash_table_insert MAX fuel t key = Res.ret (t2, true) ∧
      XInv t2 ∧ (∀ x, stored t2 x ↔ (stored t x ∨ x = key)) ∧ t2.hash = t.hash ∧
      t2.bucketsize = t.bucketsize ∧ t2.nitems = t.nitems + 1) := by
  unfold xtndbln_hash_table_insert
  rcases xt_lookup_spec hinv key with ⟨hl, hs⟩ | ⟨hl, hs⟩
  · right; left
    rw [hl]
    exact ⟨hs, rfl⟩
  · rw [hl, Res.bind_ret]
    simp only [Bool.false_eq_true, if_false]
    rcases xt_split_loop_spec MAX (t.hash key) fuel t hinv with h |
      ⟨t1, a, b, h, hinv1, hst1, f1, f2, f3, hp, hroom⟩
    · left
      rw [h]
      rfl
    · right; right
      obtain ⟨a0, b0, hp0, hg⟩ := xt_home hinv1 (t.hash key)
      obtain ⟨rfl, rfl⟩ := xt_points_unique hp hp0
      have ha : a < t1.heap.length := lt_length_of_getElem? hp.2
      rw [h, Res.bind_ret]
      simp only
      rw [rd_of_getElem? hp.2, Res.bind_ret,
        xt_write_to_bucket_eq b key (by rw [hg.keys_len]; exact hroom), Res.bind_ret,
        wr_of_lt _ ha, Res.bind_ret]
      have hu : Updated t1 a b (pushed b key) { t1 with heap := t1.heap.set a (pushed b key), nitems := t1.nitems + 1 } :=
        ⟨rfl, rfl, rfl, rfl, rfl, rfl, hp.2, rfl, rfl⟩
      obtain ⟨hinv2, hst2⟩ := xt_push_spec hinv1 key a b (by rw [f1]; exact hp) hroom hu
      refine ⟨hs, _, rfl, hinv2, fun x => ?_, f1, f2, ?_⟩
      · rw [hst2, hst1]
      · show t1.nitems + 1 = _
        rw [f3]

theorem xt_new_inv (bucketsize : Nat) (hash : Nat → Int) :
    XInv (new_xtndbln_specified_hash_table bucketsize hash) := by
  have hpt : points (new_xtndbln_specified_hash_table bucketsize hash) 0 0
      (get_new_bucket 0 bucketsize 0) := ⟨rfl, rfl⟩
  refine ⟨rfl, rfl, ?_, ?_⟩
  · intro i hi
    have hi0 : i = 0 := by
      have : i < 1 := hi
      omega
    subst hi0
    refine ⟨0, _, hpt, ⟨Nat.le_refl _, rfl, Nat.zero_le _, ?_, ?_⟩⟩
    · simp [get_new_bucket, new_xtndbln_specified_hash_table, new_xtndbln_hash_table]
    · intro j k hj
      exact absurd hj (Nat.not_lt_zero _)
  · intro i j a b hj hp _
    have hj0 : j = 0 := by
      have : j < 1 := hj
      omega
    have hi0 : i = 0 := by
      have := lt_length_of_getElem? hp.1
      have : i < 1 := this
      omega
    subst hj0 hi0
    exact hp.1

theorem xt_new_not_stored (bucketsize : Nat) (hash : Nat → Int) (x : Nat) :
    ¬ stored (new_xtndbln_specified_hash_table bucketsize hash) x := by
  rintro ⟨i, a, b, j, hp, hj, _⟩
  have hi0 : i = 0 := by
    have := lt_length_of_getElem? hp.1
    have : i < 1 := this
    omega
  subst hi0
  have hpt : points (new_xtndbln_specified_hash_table bucketsize hash) 0 0
      (get_new_bucket 0 bucketsize 0) := ⟨rfl, rfl⟩
  obtain ⟨_, rfl⟩ := xt_points_unique hp hpt
  exact absurd hj (Nat.not_lt_zero _)

theorem xt_insert_all_spec (MAX fuel : Nat) (keys : List Nat) :
    ∀ t t2, XInv t → insert_all MAX fuel t keys = Res.ret t2 →
      XInv t2 ∧ (∀ x, stored t2 x ↔ (stored t x ∨ x ∈ keys)) ∧ t2.hash = t.hash ∧
        t2.bucketsize = t.bucketsize := by
  induction keys with
  | nil =>
    intro t t2 hinv h
    simp only [insert_all, Res.ret.injEq] at h
    subst h
    exact ⟨hinv, fun x => by simp, rfl, rfl⟩
  | cons k ks ih =>
    intro t t2 hinv h
    rw [insert_all] at h
    rcases xt_insert_spec MAX fuel t hinv k with hi | ⟨hs, hi⟩ | ⟨hs, t1, hi, hinv1, hst1, f1, f2, _⟩
    · rw [hi] at h
      cases h
    · rw [hi, Res.bind_ret] at h
      obtain ⟨hinv2, hst2, g1, g2⟩ := ih t t2 hinv h
      refine ⟨hinv2, fun x => ?_, g1, g2⟩
      rw [hst2, List.mem_cons]
      constructor
      · rintro (h | h)
        · exact Or.inl h
        · exact Or.inr (Or.inr h)
      · rintro (h | h | h)
        · exact Or.inl h
        · rw [h]; exact Or.inl hs
        · exact Or.inr h
    · rw [hi, Res.bind_ret] at h
      obtain ⟨hinv2, hst2, g1, g2⟩ := ih t1 t2 hinv1 h
      refine ⟨hinv2, fun x => ?_, by rw [g1, f1], by rw [g2, f2]⟩
      rw [hst2, hst1, List.mem_cons, or_assoc]

end Xtndbln

namespace Xtndbln

/-- About `xtndbln_hash_table_rand_swap` on a non-empty bucket: the key takes the
place of the evicted key, nothing else changes. -/
theorem xt_rand_swap_spec (t : XtndblNHashTable) (hinv : XInv t) (key rnd a : Nat) (b : Bucket)
    (hp : points t (get_bit_trail (t.hash key) t.depth) a b) (hn : 0 < b.nkeys) :
    ∃ t2 e b2, xtndbln_hash_table_rand_swap t key rnd = Res.ret (t2, e) ∧ XInv t2 ∧
      (∀ x, (stored t2 x ∨ x = e) ↔ (stored t x ∨ x = key)) ∧ stored t e ∧
      Updated t a b b2 t2 ∧ b2.nkeys = b.nkeys ∧ t2.nitems = t.nitems := by
  obtain ⟨a0, b0, hp0, hg⟩ := xt_home hinv (t.hash key)
  obtain ⟨rfl, rfl⟩ := xt_points_unique hp hp0
  have ha : a < t.heap.length := lt_length_of_getElem? hp.2
  have hidx : rnd % b.nkeys < b.nkeys := Nat.mod_lt _ hn
  have hidx2 : rnd % b.nkeys < b.keys.length := by
    rw [hg.keys_len]; have := hg.nkeys_le; omega
  obtain ⟨e, he⟩ := getElem?_exists b.keys _ hidx2
  have hkey : get_bit_trail (t.hash key) b.depth = b.id := by
    rw [← xt_gbt_mod _ _ _ hg.depth_le]; exact hg.id_eq
  have hu : Updated t a b { b with keys := b.keys.set (rnd % b.nkeys) key } { t with heap := t.heap.set a { b with keys := b.keys.set (rnd % b.nkeys) key } } :=
    ⟨rfl, rfl, rfl, rfl, rfl, rfl, hp.2, rfl, rfl⟩
  have hget : ∀ j, (b.keys.set (rnd % b.nkeys) key)[j]?
      = if j = rnd % b.nkeys then some key else b.keys[j]? := by
    intro j
    rw [List.getElem?_set]
    by_cases hj : rnd % b.nkeys = j
    · subst hj
      simp [hidx2]
    · have : ¬ j = rnd % b.nkeys := fun e => hj e.symm
      simp [hj, this]
  refine ⟨_, e, _, ?_, ?_, ?_, ⟨_, a, b, _, hp, hidx, he⟩, hu, rfl, rfl⟩
  · unfold xtndbln_hash_table_rand_swap swap_bucket_key
    rw [xt_bucket_at_eq hp, Res.bind_ret]
    simp only
    rw [if_neg (by simp; omega), rd_of_getElem? he, Res.bind_ret, wr_of_lt _ hidx2,
      Res.bind_ret, Res.bind_ret, wr_of_lt _ ha, Res.bind_ret]
  · apply xt_updated_inv hinv hu hg.nkeys_le
    · show (b.keys.set _ _).length = _
      rw [List.length_set]; exact hg.keys_len
    · intro j k hj hk
      have hk2 : (b.keys.set (rnd % b.nkeys) key)[j]? = some k := hk
      rw [hget j] at hk2
      by_cases hjn : j = rnd % b.nkeys
      · rw [if_pos hjn] at hk2
        rw [← Option.some.inj hk2]
        exact hkey
      · rw [if_neg hjn] at hk2
        exact hg.routed j k hj hk2
  · intro x
    rw [xt_updated_stored hu hp x, xt_stored_split hp x]
    constructor
    · rintro ((⟨j, hj, hk⟩ | h) | h)
      · have hk2 : (b.keys.set (rnd % b.nkeys) key)[j]? = some x := hk
        rw [hget j] at hk2
        by_cases hjn : j = rnd % b.nkeys
        · rw [if_pos hjn] at hk2
          exact Or.inr (Option.some.inj hk2).symm
        · rw [if_neg hjn] at hk2
          exact Or.inl (Or.inl ⟨j, hj, hk2⟩)
      · exact Or.inl (Or.inr h)
      · rw [h]
        exact Or.inl (Or.inl ⟨_, hidx, he⟩)
    · rintro ((⟨j, hj, hk⟩ | h) | h)
      · by_cases hjn : j = rnd % b.nkeys
        · right
          rw [hjn, he] at hk
          exact (Option.some.inj hk).symm
        · left; left
          refine ⟨j, hj, ?_⟩
          show (b.keys.set (rnd % b.nkeys) key)[j]? = some x
          rw [hget j, if_neg hjn]
          exact hk
      · exact Or.inl (Or.inr h)
      · left; left
        refine ⟨rnd % b.nkeys, hidx, ?_⟩
        show (b.keys.set (rnd % b.nkeys) key)[rnd % b.nkeys]? = some x
        rw [hget _, if_pos rfl, h]

theorem xt_rand_swap_inv (t : XtndblNHashTable) (hinv : XInv t) (key rnd : Nat)
    (r : XtndblNHashTable × Nat) (h : xtndbln_hash_table_rand_swap t key rnd = Res.ret r) :
    XInv r.1 := by
  obtain ⟨a, b, hp, hg⟩ := xt_home hinv (t.hash key)
  by_cases hn : 0 < b.nkeys
  · obtain ⟨t2, e, b2, h2, hinv2, _⟩ := xt_rand_swap_spec t hinv key rnd a b hp hn
    rw [h2] at h
    cases h
    exact hinv2
  · unfold xtndbln_hash_table_rand_swap at h
    rw [xt_bucket_at_eq hp, Res.bind_ret] at h
    simp only at h
    rw [if_pos (by omega)] at h
    cases h

theorem xt_insert_inv (MAX fuel : Nat) (t : XtndblNHashTable) (hinv : XInv t) (key : Nat)
    (r : XtndblNHashTable × Bool) (h : xtndbln_hash_table_insert MAX fuel t key = Res.ret r) :
    XInv r.1 := by
  rcases xt_insert_spec MAX fuel t hinv key with hi | ⟨_, hi⟩ | ⟨_, t2, hi, hinv2, _⟩
  · rw [hi] at h; cases h
  · rw [hi] at h; cases h; exact hinv
  · rw [hi] at h; cases h; exact hinv2

theorem xt_reach_inv {MAX bucketsize : Nat} {hash : Nat → Int} {t : XtndblNHashTable}
    (h : Reach MAX bucketsize hash t) : XInv t ∧ t.hash = hash := by
  induction h with
  | init => exact ⟨xt_new_inv bucketsize hash, rfl⟩
  | insert t key fuel r _ hr ih =>
    refine ⟨xt_insert_inv MAX fuel t ih.1 key r hr, ?_⟩
    rcases xt_insert_spec MAX fuel t ih.1 key with hi | ⟨_, hi⟩ | ⟨_, t2, hi, _, _, f1, _⟩
    · rw [hi] at hr; cases hr
    · rw [hi] at hr; cases hr; exact ih.2
    · rw [hi] at hr; cases hr; rw [f1]; exact ih.2
  | swap t key rnd r _ hr ih =>
    refine ⟨xt_rand_swap_inv t ih.1 key rnd r hr, ?_⟩
    obtain ⟨a, b, hp, hg⟩ := xt_home ih.1 (t.hash key)
    by_cases hn : 0 < b.nkeys
    · obtain ⟨t2, e, b2, h2, _, _, _, hu, _⟩ := xt_rand_swap_spec t ih.1 key rnd a b hp hn
      rw [h2] at hr
      cases hr
      rw [hu.hash_eq]; exact ih.2
    · unfold xtndbln_hash_table_rand_swap at hr
      rw [xt_bucket_at_eq hp, Res.bind_ret] at hr
      simp only at hr
      rw [if_pos (by omega)] at hr
      cases hr

/-- The splitting loop never ends on a full bucket that uses every directory
bit when the directory cannot double. -/
theorem xt_split_loop_hangs (MAX : Nat) (t : XtndblNHashTable) (kh : Int) (a : Nat)
    (b : Bucket) (hb : bucket_at t (get_bit_trail kh t.depth) = Res.ret (a, b))
    (hfull : b.nkeys = t.bucketsize) (hdepth : b.depth = t.depth) (hmax : MAX < t.size * 2) :
    ∀ fuel, split_loop MAX kh fuel t = Res.diverge := by
  have hsplit : split_bucket MAX t (get_bit_trail kh t.depth) = Res.ret (t, false) := by
    unfold split_bucket
    rw [hb, Res.bind_ret]
    simp only
    rw [if_pos hdepth, xt_double_refused MAX t hmax, Res.bind_ret]
    rfl
  intro fuel
  induction fuel with
  | zero =>
    rw [split_loop, hb, Res.bind_ret]
    simp only
    rw [if_pos hfull]
  | succ fuel ih =>
    rw [split_loop, hb, Res.bind_ret]
    simp only
    rw [if_pos hfull, hsplit, Res.bind_ret]
    exact ih

end Xtndbln

namespace Xtndbln

/-- An insertion that needs a split the directory cannot grant never returns. -/
theorem xt_insert_hangs (MAX : Nat) (t : XtndblNHashTable) (key a : Nat) (b : Bucket)
    (habsent : xtndbln_hash_table_lookup t key = Res.ret false)
    (hb : bucket_at t (get_bit_trail (t.hash key) t.depth) = Res.ret (a, b))
    (hfull : b.nkeys = t.bucketsize) (hdepth : b.depth = t.depth)
    (hmax : MAX < t.size * 2) :
    ∀ fuel, xtndbln_hash_table_insert MAX fuel t key = Res.diverge := by
  intro fuel
  unfold xtndbln_hash_table_insert
  rw [habsent, Res.bind_ret]
  simp only [Bool.false_eq_true, if_false]
  rw [xt_split_loop_hangs MAX t (t.hash key) a b hb hfull hdepth hmax fuel]
  rfl

/-- The table after an insertion, or the table itself when the call does not
return. -/
theorem xt_reach_after (MAX bucketsize : Nat) (hash : Nat → Int) (t : XtndblNHashTable)
    (h : Reach MAX bucketsize hash t) (fuel key : Nat) :
    Reach MAX bucketsize hash (after_insert MAX fuel t key) := by
  unfold after_insert
  cases hr : xtndbln_hash_table_insert MAX fuel t key with
  | ret r => exact Reach.insert t key fuel r h hr
  | abort => exact h
  | diverge => exact h

end Xtndbln

section

open Xtndbln

/-- C7 (code evaluated at the failing inputs). Inserting an absent key whose
bucket is full, has local depth equal to the global depth, while
`2 * size > MAX_TABLE_SIZE`: `split_bucket` returns false and changes
nothing, the `while` loop of insert does not look at that value, and the call
never returns, whatever the fuel. -/
theorem xtndbln_insert_capacity_hangs (MAX_TABLE_SIZE : Nat) (t : XtndblNHashTable)
    (key a : Nat) (b : Bucket)
    (habsent : xtndbln_hash_table_lookup t key = Res.ret false)
    (hb : bucket_at t (get_bit_trail (t.hash key) t.depth) = Res.ret (a, b))
    (hfull : b.nkeys = t.bucketsize) (hdepth : b.depth = t.depth)
    (hmax : MAX_TABLE_SIZE < t.size * 2) :
    (∀ fuel, xtndbln_hash_table_insert MAX_TABLE_SIZE fuel t key = Res.diverge) ∧
    split_bucket MAX_TABLE_SIZE t (get_bit_trail (t.hash key) t.depth) = Res.ret (t, false) := by
  refine ⟨xt_insert_hangs MAX_TABLE_SIZE t key a b habsent hb hfull hdepth hmax, ?_⟩
  unfold split_bucket
  rw [hb, Res.bind_ret]
  simp only
  rw [if_pos hdepth, xt_double_refused MAX_TABLE_SIZE t hmax, Res.bind_ret]
  rfl

/-- Witness for C7: with `MAX_TABLE_SIZE = 2` and buckets of one key, the table
reached by inserting 0 and 1 into a new table (both insertions return true
and leave a directory of 2 slots), and the absent key 2. -/
theorem xtndbln_insert_capacity_hangs_witness :
    ((xtndbln_hash_table_insert 2 10
        (new_xtndbln_specified_hash_table 1 (fun k => (h1 k : Int))) 0).bind
      fun r => Res.ret r.2) = Res.ret true ∧
    ((xtndbln_hash_table_insert 2 10 (Xtndbln.after_insert 2 10
        (new_xtndbln_specified_hash_table 1 (fun k => (h1 k : Int))) 0) 1).bind
      fun r => Res.ret r.2) = Res.ret true ∧
    (Xtndbln.after_insert 2 10 (Xtndbln.after_insert 2 10
        (new_xtndbln_specified_hash_table 1 (fun k => (h1 k : Int))) 0) 1).size = 2 ∧
    (∀ fuel, xtndbln_hash_table_insert 2 fuel
      (Xtndbln.after_insert 2 10 (Xtndbln.after_insert 2 10
        (new_xtndbln_specified_hash_table 1 (fun k => (h1 k : Int))) 0) 1) 2
        = Res.diverge) ∧
    split_bucket 2
      (Xtndbln.after_insert 2 10 (Xtndbln.after_insert 2 10
        (new_xtndbln_specified_hash_table 1 (fun k => (h1 k : Int))) 0) 1)
      (get_bit_trail ((Xtndbln.after_insert 2 10 (Xtndbln.after_insert 2 10
        (new_xtndbln_specified_hash_table 1 (fun k => (h1 k : Int))) 0) 1).hash 2)
        (Xtndbln.after_insert 2 10 (Xtndbln.after_insert 2 10
        (new_xtndbln_specified_hash_table 1 (fun k => (h1 k : Int))) 0) 1).depth)
        = Res.ret ((Xtndbln.after_insert 2 10 (Xtndbln.after_insert 2 10
        (new_xtndbln_specified_hash_table 1 (fun k => (h1 k : Int))) 0) 1), false) :=
  ⟨by decide!, by decide!, by decide!, xtndbln_insert_capacity_hangs 2
    (Xtndbln.after_insert 2 10 (Xtndbln.after_insert 2 10
        (new_xtndbln_specified_hash_table 1 (fun k => (h1 k : Int))) 0) 1)
    2 0 ⟨0, 1, 1, [1]⟩ (by decide!) (by decide!) (by decide!) (by decide!) (by decide!)⟩

/-- C10. Extendible routing invariant: in every table reachable from a new
table by insertions and random swaps, the directory has `size` slots; every
slot `i` holds a non-null pointer to an allocated bucket `b` with
`b.depth ≤ depth` and `i mod 2 ^ b.depth = b.id`; another slot holds the same
pointer exactly when it agrees with `i` on the low `b.depth` bits; and every
key stored in `b` has `b.id` as the low `b.depth` bits of its hash. -/
theorem xtndbln_routing_invariant (MAX_TABLE_SIZE bucketsize : Nat) (hash : Nat → Int)
    (t : XtndblNHashTable) (hreach : Reach MAX_TABLE_SIZE bucketsize hash t) :
    t.buckets.length = t.size ∧
    ∀ i, i < t.size → ∃ a b, t.buckets[i]? = some (some a) ∧ t.heap[a]? = some b ∧
      b.depth ≤ t.depth ∧ i % 2 ^ b.depth = b.id ∧
      (∀ j, j < t.size → (t.buckets[j]? = t.buckets[i]? ↔ j % 2 ^ b.depth = i % 2 ^ b.depth)) ∧
      (∀ m k, m < b.nkeys → b.keys[m]? = some k → get_bit_trail (hash k) b.depth = b.id) := by
  obtain ⟨hinv, hhash⟩ := xt_reach_inv hreach
  refine ⟨hinv.len, fun i hi => ?_⟩
  obtain ⟨a, b, hp, hg⟩ := hinv.slot i hi
  refine ⟨a, b, hp.1, hp.2, hg.depth_le, hg.id_eq, fun j hj => ?_, ?_⟩
  · constructor
    · intro h
      obtain ⟨a2, b2, hp2, hg2⟩ := hinv.slot j hj
      have e := hp2.1
      rw [h, hp.1] at e
      have ea : a = a2 := Option.some.inj (Option.some.inj e)
      subst ea
      have e2 := hp2.2
      rw [hp.2] at e2
      have eb : b = b2 := Option.some.inj e2
      subst eb
      rw [hg.id_eq, hg2.id_eq]
    · intro h
      rw [hg.id_eq] at h
      rw [hinv.share i j a b hj hp h, hp.1]
  · rw [← hhash]
    exact hg.routed

/-- Witness for C10: the table reached by inserting 0, 1 and 2 with buckets of
one key. -/
theorem xtndbln_routing_invariant_witness :
    (after_insert 64 10 (after_insert 64 10 (after_insert 64 10
      (new_xtndbln_specified_hash_table 1 (fun k => (h1 k : Int))) 0) 1) 2).buckets.length
      = (after_insert 64 10 (after_insert 64 10 (after_insert 64 10
      (new_xtndbln_specified_hash_table 1 (fun k => (h1 k : Int))) 0) 1) 2).size ∧
    ∀ i, i < (after_insert 64 10 (after_insert 64 10 (after_insert 64 10
      (new_xtndbln_specified_hash_table 1 (fun k => (h1 k : Int))) 0) 1) 2).size → ∃ a b,
      (after_insert 64 10 (after_insert 64 10 (after_insert 64 10
        (new_xtndbln_specified_hash_table 1 (fun k => (h1 k : Int))) 0) 1) 2).buckets[i]?
          = some (some a) ∧
      (after_insert 64 10 (after_insert 64 10 (after_insert 64 10
        (new_xtndbln_specified_hash_table 1 (fun k => (h1 k : Int))) 0) 1) 2).heap[a]?
          = some b ∧
      b.depth ≤ (after_insert 64 10 (after_insert 64 10 (after_insert 64 10
        (new_xtndbln_specified_hash_table 1 (fun k => (h1 k : Int))) 0) 1) 2).depth ∧
      i % 2 ^ b.depth = b.id ∧
      (∀ j, j < (after_insert 64 10 (after_insert 64 10 (after_insert 64 10
          (new_xtndbln_specified_hash_table 1 (fun k => (h1 k : Int))) 0) 1) 2).size →
        ((after_insert 64 10 (after_insert 64 10 (after_insert 64 10
            (new_xtndbln_specified_hash_table 1 (fun k => (h1 k : Int))) 0) 1) 2).buckets[j]?
            = (after_insert 64 10 (after_insert 64 10 (after_insert 64 10
            (new_xtndbln_specified_hash_table 1 (fun k => (h1 k : Int))) 0) 1) 2).buckets[i]?
          ↔ j % 2 ^ b.depth = i % 2 ^ b.depth)) ∧
      (∀ m k, m < b.nkeys → b.keys[m]? = some k →
        get_bit_trail ((fun k => (h1 k : Int)) k) b.depth = b.id) :=
  xtndbln_routing_invariant 64 1 (fun k => (h1 k : Int)) _
    (xt_reach_after 64 1 _ _ (xt_reach_after 64 1 _ _ (xt_reach_after 64 1 _ _ Reach.init 10 0)
      10 1) 10 2)

end

namespace Xtndbln

/-- A key held by a bucket of the directory addresses that bucket. -/
theorem xt_home_of_held {t : XtndblNHashTable} (hinv : XInv t) {i a j key : Nat} {b : Bucket}
    (hp : points t i a b) (hj : j < b.nkeys) (hk : b.keys[j]? = some key) :
    points t (get_bit_trail (t.hash key) t.depth) a b := by
  obtain ⟨a3, b3, hp3, hg3⟩ := hinv.slot i (xt_points_lt hinv hp)
  obtain ⟨rfl, rfl⟩ := xt_points_unique hp hp3
  have hr := hg3.routed j key hj hk
  have hmod : get_bit_trail (t.hash key) t.depth % 2 ^ b.depth = b.id := by
    rw [xt_gbt_mod _ _ _ hg3.depth_le, hr]
  have hlt : get_bit_trail (t.hash key) t.depth < t.size := by
    rw [hinv.size_eq]
    exact xt_gbt_lt _ _
  exact ⟨hinv.share i _ a b hlt hp hmod, hp.2⟩

theorem xt_lookup_true {t : XtndblNHashTable} (hinv : XInv t) {key : Nat} (h : stored t key) :
    xtndbln_hash_table_lookup t key = Res.ret true := by
  rcases xt_lookup_spec hinv key with ⟨hl, _⟩ | ⟨_, hns⟩
  · exact hl
  · exact absurd h hns

theorem xt_lookup_false {t : XtndblNHashTable} (hinv : XInv t) {key : Nat}
    (h : ¬ stored t key) : xtndbln_hash_table_lookup t key = Res.ret false := by
  rcases xt_lookup_spec hinv key with ⟨_, hs⟩ | ⟨hl, _⟩
  · exact absurd hs h
  · exact hl

/-- The exact effect of a random swap on a non-empty bucket. -/
theorem xt_rand_swap_exact (t : XtndblNHashTable) (hinv : XInv t) (key rnd a : Nat) (b : Bucket)
    (hp : points t (get_bit_trail (t.hash key) t.depth) a b) (hn : 0 < b.nkeys) :
    ∃ e, b.keys[rnd % b.nkeys]? = some e ∧ rnd % b.nkeys < b.keys.length ∧
      a < t.heap.length ∧
      xtndbln_hash_table_rand_swap t key rnd
        = Res.ret (swapped t a b (rnd % b.nkeys) key, e) ∧
      xtndbln_hash_table_lookup (swapped t a b (rnd % b.nkeys) key) key = Res.ret true ∧
      (e ≠ key → (∀ j, j < b.nkeys → j ≠ rnd % b.nkeys → b.keys[j]? ≠ some e) →
        xtndbln_hash_table_lookup (swapped t a b (rnd % b.nkeys) key) e = Res.ret false) ∧
      (∀ j, j < b.nkeys → j ≠ rnd % b.nkeys → b.keys[j]? = some e →
        xtndbln_hash_table_lookup (swapped t a b (rnd % b.nkeys) key) e = Res.ret true) := by
  obtain ⟨a0, b0, hp0, hg⟩ := xt_home hinv (t.hash key)
  obtain ⟨rfl, rfl⟩ := xt_points_unique hp hp0
  have ha : a < t.heap.length := lt_length_of_getElem? hp.2
  have hidx : rnd % b.nkeys < b.nkeys := Nat.mod_lt _ hn
  have hidx2 : rnd % b.nkeys < b.keys.length := by
    rw [hg.keys_len]; have := hg.nkeys_le; omega
  obtain ⟨e, he⟩ := getElem?_exists b.keys _ hidx2
  have heq : xtndbln_hash_table_rand_swap t key rnd
      = Res.ret (swapped t a b (rnd % b.nkeys) key, e) := by
    unfold xtndbln_hash_table_rand_swap swap_bucket_key
    rw [xt_bucket_at_eq hp, Res.bind_ret]
    simp only
    rw [if_neg (by simp; omega), rd_of_getElem? he, Res.bind_ret, wr_of_lt _ hidx2,
      Res.bind_ret, Res.bind_ret, wr_of_lt _ ha, Res.bind_ret]
    rfl
  have hinv2 := xt_rand_swap_inv t hinv key rnd _ heq
  have hu : Updated t a b { b with keys := b.keys.set (rnd % b.nkeys) key } (swapped t a b (rnd % b.nkeys) key) :=
    ⟨rfl, rfl, rfl, rfl, rfl, rfl, hp.2, rfl, rfl⟩
  have hpts := xt_updated_points hu
  have hget : ∀ j, (b.keys.set (rnd % b.nkeys) key)[j]?
      = if j = rnd % b.nkeys then some key else b.keys[j]? := by
    intro j
    rw [List.getElem?_set]
    by_cases hj : rnd % b.nkeys = j
    · subst hj
      simp [hidx2]
    · have : ¬ j = rnd % b.nkeys := fun e => hj e.symm
      simp [hj, this]
  refine ⟨e, he, hidx2, ha, heq, ?_, fun hne huniq => ?_, fun j hj hjn hk => ?_⟩
  · apply xt_lookup_true hinv2
    refine ⟨_, a, _, rnd % b.nkeys, (hpts _ a _).mpr (Or.inl ⟨rfl, rfl, hp⟩), hidx, ?_⟩
    show (b.keys.set (rnd % b.nkeys) key)[rnd % b.nkeys]? = some key
    rw [hget, if_pos rfl]
  · apply xt_lookup_false hinv2
    intro hs
    have hpe := xt_home_of_held hinv hp hidx he
    have hpe2 : points (swapped t a b (rnd % b.nkeys) key)
        (get_bit_trail (t.hash e) t.depth) a { b with keys := b.keys.set (rnd % b.nkeys) key } :=
      (hpts _ a _).mpr (Or.inl ⟨rfl, rfl, hpe⟩)
    obtain ⟨j, hj, hk⟩ := xt_stored_home hinv2 hs hpe2
    have hk2 : (b.keys.set (rnd % b.nkeys) key)[j]? = some e := hk
    rw [hget j] at hk2
    by_cases hjn : j = rnd % b.nkeys
    · rw [if_pos hjn] at hk2
      exact hne (Option.some.inj hk2).symm
    · rw [if_neg hjn] at hk2
      exact huniq j hj hjn hk2
  · apply xt_lookup_true hinv2
    refine ⟨_, a, _, j, (hpts _ a _).mpr (Or.inl ⟨rfl, rfl, hp⟩), hj, ?_⟩
    show (b.keys.set (rnd % b.nkeys) key)[j]? = some e
    rw [hget, if_neg hjn]
    exact hk

theorem xt_reach_after_swap (MAX bucketsize : Nat) (hash : Nat → Int) (t : XtndblNHashTable)
    (h : Reach MAX bucketsize hash t) (key rnd : Nat) :
    Reach MAX bucketsize hash (after_swap t key rnd) := by
  unfold after_swap
  cases hr : xtndbln_hash_table_rand_swap t key rnd with
  | ret r => exact Reach.swap t key rnd r h hr
  | abort => exact h
  | diverge => exact h

end Xtndbln

section

open Xtndbln

/-- C17 (the claim as stated fails). On a new table with buckets of two keys,
after inserting 1 and 2 and swapping 1 in at position 1 (which evicts 2 and
leaves the bucket holding 1 twice), the swap of `K = 3` at position 0 returns
`E = 1`, different from `K`, and `lookup(1)` is still true afterwards. -/
theorem xtndbln_swapped_out_key_still_found :
    ((xtndbln_hash_table_insert 64 10 (new_xtndbln_hash_table 2) 1).bind fun r1 =>
      (xtndbln_hash_table_insert 64 10 r1.1 2).bind fun r2 =>
        (xtndbln_hash_table_rand_swap r2.1 1 1).bind fun r3 =>
          (xtndbln_hash_table_rand_swap r3.1 3 0).bind fun r4 =>
            (xtndbln_hash_table_lookup r4.1 r4.2).bind fun found =>
              Res.ret (r1.2, r2.2, r3.2, r4.2, found))
      = Res.ret (true, true, 2, 1, true) := by
  decide!

/-- C17 (amended). Exchange by `rand_swap`: for every table reachable from a new
table by insertions and random swaps, every key `K` whose addressed bucket `b`
(directory slot `hash(K) mod 2 ^ depth`, at address `a`) holds `n ≥ 1` keys,
and every random draw `r`, `xtndbln_hash_table_rand_swap(K)` returns the key
`E` at position `r mod n` of `b`; afterwards `b` holds `K` at that position,
every other position of `b`, its id, depth and key count, every other bucket,
the directory, `size`, `depth`, `bucketsize` and `nitems` are unchanged;
`lookup(K)` is true; `lookup(E)` is false when `E ≠ K` and no other position
of `b` held `E`, and true when another position of `b` held `E`. -/
theorem xtndbln_rand_swap_exchange (MAX_TABLE_SIZE bucketsize : Nat) (hash : Nat → Int)
    (t : XtndblNHashTable) (hreach : Reach MAX_TABLE_SIZE bucketsize hash t)
    (K r a : Nat) (b : Bucket)
    (hb : bucket_at t (get_bit_trail (t.hash K) t.depth) = Res.ret (a, b))
    (hn : 1 ≤ b.nkeys) :
    ∃ E t2 b2, b.keys[r % b.nkeys]? = some E ∧
      xtndbln_hash_table_rand_swap t K r = Res.ret (t2, E) ∧
      t2.buckets = t.buckets ∧ t2.size = t.size ∧ t2.depth = t.depth ∧
      t2.bucketsize = t.bucketsize ∧ t2.nitems = t.nitems ∧
      t2.heap.length = t.heap.length ∧ t2.heap[a]? = some b2 ∧
      (∀ c, c ≠ a → t2.heap[c]? = t.heap[c]?) ∧
      b2.id = b.id ∧ b2.depth = b.depth ∧ b2.nkeys = b.nkeys ∧
      b2.keys[r % b.nkeys]? = some K ∧
      (∀ j, j ≠ r % b.nkeys → b2.keys[j]? = b.keys[j]?) ∧
      xtndbln_hash_table_lookup t2 K = Res.ret true ∧
      (E ≠ K → (∀ j, j < b.nkeys → j ≠ r % b.nkeys → b.keys[j]? ≠ some E) →
        xtndbln_hash_table_lookup t2 E = Res.ret false) ∧
      (∀ j, j < b.nkeys → j ≠ r % b.nkeys → b.keys[j]? = some E →
        xtndbln_hash_table_lookup t2 E = Res.ret true) := by
  obtain ⟨hinv, _⟩ := xt_reach_inv hreach
  have hp := xt_bucket_at_ret hb
  obtain ⟨E, hE, hidx, ha, heq, hlK, hlE, hlE2⟩ :=
    xt_rand_swap_exact t hinv K r a b hp (by omega)
  refine ⟨E, swapped t a b (r % b.nkeys) K, { b with keys := b.keys.set (r % b.nkeys) K },
    hE, heq, rfl, rfl, rfl, rfl, rfl, ?_, ?_, fun c hc => ?_, rfl, rfl, rfl, ?_, fun j hj => ?_,
    hlK, hlE, hlE2⟩
  · show (t.heap.set a _).length = _
    rw [List.length_set]
  · show (t.heap.set a _)[a]? = _
    rw [List.getElem?_set_self ha]
  · show (t.heap.set a _)[c]? = _
    rw [List.getElem?_set_ne (fun h => hc h.symm)]
  · show (b.keys.set (r % b.nkeys) K)[r % b.nkeys]? = _
    rw [List.getElem?_set_self hidx]
  · show (b.keys.set (r % b.nkeys) K)[j]? = _
    rw [List.getElem?_set_ne (fun h => hj h.symm)]

/-- Witness for C17: the table holding 1 and 2 in one bucket of two keys, the
key 3 and the draw 0. -/
theorem xtndbln_rand_swap_exchange_witness :
    ∃ E t2 b2, [1, 2][0 % 2]? = some E ∧
      xtndbln_hash_table_rand_swap (after_insert 64 10 (after_insert 64 10
        (new_xtndbln_specified_hash_table 2 (fun k => (h1 k : Int))) 1) 2) 3 0
        = Res.ret (t2, E) ∧
      t2.buckets = (after_insert 64 10 (after_insert 64 10
        (new_xtndbln_specified_hash_table 2 (fun k => (h1 k : Int))) 1) 2).buckets ∧
      t2.size = (after_insert 64 10 (after_insert 64 10
        (new_xtndbln_specified_hash_table 2 (fun k => (h1 k : Int))) 1) 2).size ∧
      t2.depth = (after_insert 64 10 (after_insert 64 10
        (new_xtndbln_specified_hash_table 2 (fun k => (h1 k : Int))) 1) 2).depth ∧
      t2.bucketsize = (after_insert 64 10 (after_insert 64 10
        (new_xtndbln_specified_hash_table 2 (fun k => (h1 k : Int))) 1) 2).bucketsize ∧
      t2.nitems = (after_insert 64 10 (after_insert 64 10
        (new_xtndbln_specified_hash_table 2 (fun k => (h1 k : Int))) 1) 2).nitems ∧
      t2.heap.length = (after_insert 64 10 (after_insert 64 10
        (new_xtndbln_specified_hash_table 2 (fun k => (h1 k : Int))) 1) 2).heap.length ∧
      t2.heap[0]? = some b2 ∧
      (∀ c, c ≠ 0 → t2.heap[c]? = (after_insert 64 10 (after_insert 64 10
        (new_xtndbln_specified_hash_table 2 (fun k => (h1 k : Int))) 1) 2).heap[c]?) ∧
      b2.id = 0 ∧ b2.depth = 0 ∧ b2.nkeys = 2 ∧
      b2.keys[0 % 2]? = some 3 ∧
      (∀ j, j ≠ 0 % 2 → b2.keys[j]? = [1, 2][j]?) ∧
      xtndbln_hash_table_lookup t2 3 = Res.ret true ∧
      (E ≠ 3 → (∀ j, j < 2 → j ≠ 0 % 2 → [1, 2][j]? ≠ some E) →
        xtndbln_hash_table_lookup t2 E = Res.ret false) ∧
      (∀ j, j < 2 → j ≠ 0 % 2 → [1, 2][j]? = some E →
        xtndbln_hash_table_lookup t2 E = Res.ret true) :=
  xtndbln_rand_swap_exchange 64 2 (fun k => (h1 k : Int)) _
    (xt_reach_after 64 2 _ _ (xt_reach_after 64 2 _ _ Reach.init 10 1) 10 2)
    3 0 0 ⟨0, 0, 2, [1, 2]⟩ (by decide!) (by decide)

/-- C18. The function `xtndbln_hash_table_has_space` is a pure query: for every
table reachable from a new table by insertions and random swaps and every key
`K`, the directory slot `hash(K) mod 2 ^ depth` points to a bucket `b`, the
call returns true exactly when `b` holds fewer than `bucketsize` keys, and the
table after the call is the table before it. -/
theorem xtndbln_has_space_pure (MAX_TABLE_SIZE bucketsize : Nat) (hash : Nat → Int)
    (t : XtndblNHashTable) (hreach : Reach MAX_TABLE_SIZE bucketsize hash t) (K : Nat) :
    ∃ a b, bucket_at t (get_bit_trail (t.hash K) t.depth) = Res.ret (a, b) ∧
      get_bit_trail (t.hash K) t.depth = (t.hash K % 2 ^ t.depth).toNat ∧
      xtndbln_hash_table_has_space t K = Res.ret (decide (b.nkeys < t.bucketsize)) ∧
      (xtndbln_hash_table_has_space t K = Res.ret true ↔ b.nkeys < t.bucketsize) ∧
      (xtndbln_hash_table_has_space t K = Res.ret false ↔ ¬ b.nkeys < t.bucketsize) ∧
      has_space_call t K = Res.ret (t, decide (b.nkeys < t.bucketsize)) := by
  obtain ⟨hinv, _⟩ := xt_reach_inv hreach
  obtain ⟨a, b, hp, _⟩ := xt_home hinv (t.hash K)
  have h : xtndbln_hash_table_has_space t K = Res.ret (decide (b.nkeys < t.bucketsize)) := by
    unfold xtndbln_hash_table_has_space
    rw [xt_bucket_at_eq hp, Res.bind_ret]
  refine ⟨a, b, xt_bucket_at_eq hp, rfl, h, ?_, ?_, ?_⟩
  · rw [h]
    simp
  · rw [h]
    simp
  · unfold has_space_call
    rw [h, Res.bind_ret]

/-- Witness for C18: the table holding 0 in its only bucket of one key; the key
1 addresses that full bucket. -/
theorem xtndbln_has_space_pure_witness :
    ∃ a b, bucket_at (after_insert 64 10
          (new_xtndbln_specified_hash_table 1 (fun k => (h1 k : Int))) 0)
        (get_bit_trail ((after_insert 64 10
          (new_xtndbln_specified_hash_table 1 (fun k => (h1 k : Int))) 0).hash 1)
          (after_insert 64 10
          (new_xtndbln_specified_hash_table 1 (fun k => (h1 k : Int))) 0).depth)
        = Res.ret (a, b) ∧
      get_bit_trail ((after_insert 64 10
          (new_xtndbln_specified_hash_table 1 (fun k => (h1 k : Int))) 0).hash 1)
          (after_insert 64 10
          (new_xtndbln_specified_hash_table 1 (fun k => (h1 k : Int))) 0).depth
        = ((after_insert 64 10
          (new_xtndbln_specified_hash_table 1 (fun k => (h1 k : Int))) 0).hash 1
            % 2 ^ (after_insert 64 10
          (new_xtndbln_specified_hash_table 1 (fun k => (h1 k : Int))) 0).depth).toNat ∧
      xtndbln_hash_table_has_space (after_insert 64 10
          (new_xtndbln_specified_hash_table 1 (fun k => (h1 k : Int))) 0) 1
        = Res.ret (decide (b.nkeys < (after_insert 64 10
          (new_xtndbln_specified_hash_table 1 (fun k => (h1 k : Int))) 0).bucketsize)) ∧
      (xtndbln_hash_table_has_space (after_insert 64 10
          (new_xtndbln_specified_hash_table 1 (fun k => (h1 k : Int))) 0) 1 = Res.ret true
        ↔ b.nkeys < (after_insert 64 10
          (new_xtndbln_specified_hash_table 1 (fun k => (h1 k : Int))) 0).bucketsize) ∧
      (xtndbln_hash_table_has_space (after_insert 64 10
          (new_xtndbln_specified_hash_table 1 (fun k => (h1 k : Int))) 0) 1 = Res.ret false
        ↔ ¬ b.nkeys < (after_insert 64 10
          (new_xtndbln_specified_hash_table 1 (fun k => (h1 k : Int))) 0).bucketsize) ∧
      has_space_call (after_insert 64 10
          (new_xtndbln_specified_hash_table 1 (fun k => (h1 k : Int))) 0) 1
        = Res.ret (after_insert 64 10
          (new_xtndbln_specified_hash_table 1 (fun k => (h1 k : Int))) 0,
          decide (b.nkeys < (after_insert 64 10
          (new_xtndbln_specified_hash_table 1 (fun k => (h1 k : Int))) 0).bucketsize)) :=
  xtndbln_has_space_pure 64 1 (fun k => (h1 k : Int)) _
    (xt_reach_after 64 1 _ _ Reach.init 10 0) 1

end

namespace Xtndbln

/-- The split of a full bucket that has a spare bit, with the directory it
builds and the state of the two halves when the redistribution is over. -/
theorem xt_split_body_detail (t1 : XtndblNHashTable) (hinv : XInv t1) (bi a : Nat)
    (old : Bucket) (hp : points t1 bi a old) (hspare : old.depth < t1.depth)
    (hfull : old.nkeys = t1.bucketsize) :
    ∃ t2 bks, split_bucket_body t1 bi = Res.ret (t2, true) ∧ SplitCtx t1 bi a old bks ∧
      Redist t1 a old bks t1.bucketsize t2 := by
  obtain ⟨a0, old0, hp0, hg⟩ := hinv.slot bi (xt_points_lt hinv hp)
  obtain ⟨rfl, rfl⟩ := xt_points_unique hp hp0
  have hid : old.id < 2 ^ old.depth := by
    rw [← hg.id_eq]; exact Nat.mod_lt _ (Nat.two_pow_pos _)
  have ha : a < t1.heap.length := lt_length_of_getElem? hp.2
  have hid2 : old.id + 2 ^ old.depth < 2 ^ (old.depth + 1) := by rw [pow_succ]; omega
  obtain ⟨bks, hbks, hbl, hbn, hbo⟩ := xt_repoint_dir t1 hinv (old.id + 2 ^ old.depth)
    old.depth t1.heap.length hid2 hspare
  have hctx : SplitCtx t1 bi a old bks := ⟨hinv, hp, hspare, hfull, hbl, hbn, hbo⟩
  have hhp2 : ((t1.heap.set a { old with depth := old.depth + 1 }) ++
      [get_new_bucket (old.id + 2 ^ old.depth) t1.bucketsize (old.depth + 1)])[a]?
      = some { old with depth := old.depth + 1 } := by
    rw [List.getElem?_append_left (by rw [List.length_set]; exact ha)]
    exact xt_set_get_eq _ _ _ ha
  have hr0 : Redist t1 a old bks 0 { t1 with buckets := bks, heap := ((t1.heap.set a { old with depth := old.depth + 1 }) ++ [get_new_bucket (old.id + 2 ^ old.depth) t1.bucketsize (old.depth + 1)]).set a { old with depth := old.depth + 1, nkeys := 0 } } := by
    refine ⟨rfl, rfl, rfl, rfl, rfl, rfl, ?_, ?_, ?_⟩
    · simp
    · intro c hca hc
      show (List.set _ a _)[c]? = _
      rw [xt_set_get_ne _ _ _ _ (fun e => hca e.symm),
        List.getElem?_append_left (by rw [List.length_set]; exact hc),
        xt_set_get_ne _ _ _ _ (fun e => hca e.symm)]
    · refine ⟨{ old with depth := old.depth + 1, nkeys := 0 },
        get_new_bucket (old.id + 2 ^ old.depth) t1.bucketsize (old.depth + 1), ?_, ?_, ?_⟩
      · show (List.set _ a _)[a]? = _
        exact xt_set_get_eq _ _ _ (by simp; omega)
      · show (List.set _ a _)[t1.heap.length]? = _
        rw [xt_set_get_ne _ _ _ _ (by omega),
          List.getElem?_append_right (by rw [List.length_set])]
        simp
      · refine ⟨rfl, rfl, rfl, rfl, hg.keys_len, by simp [get_new_bucket], rfl,
          fun j _ => rfl, ?_, ?_, ?_⟩
        · intro j k hj
          exact absurd hj (Nat.not_lt_zero _)
        · intro j k hj
          exact absurd hj (Nat.not_lt_zero _)
        · intro m k hm
          exact absurd hm (Nat.not_lt_zero _)
  obtain ⟨t2, ht2, hr2⟩ := xt_redist_loop hctx t1.bucketsize 0 _ (by omega) hr0
  refine ⟨t2, bks, ?_, hctx, hr2⟩
  unfold split_bucket_body
  rw [xt_bucket_at_eq hp, Res.bind_ret]
  simp only
  rw [xt_lor_pow2 _ _ hid, if_neg (by simp), wr_of_lt _ ha, Res.bind_ret, if_neg (by omega),
    xt_pow2_eq, List.length_set, hbks, Res.bind_ret, rd_of_getElem? hhp2, Res.bind_ret,
    wr_of_lt _ (by simp; omega), Res.bind_ret, ht2, Res.bind_ret]

/-- About `split_bucket` on a full bucket, when it returns true: the optional
doubling, then the split proper. -/
theorem xt_split_detail (MAX : Nat) (t : XtndblNHashTable) (hinv : XInv t) (bi a : Nat)
    (old : Bucket) (hp : points t bi a old) (hfull : old.nkeys = t.bucketsize)
    (t2 : XtndblNHashTable) (h : split_bucket MAX t bi = Res.ret (t2, true)) :
    ∃ t1 bks, Grown MAX t old t1 ∧ SplitCtx t1 bi a old bks ∧
      Redist t1 a old bks t1.bucketsize t2 := by
  obtain ⟨a0, old0, hp0, hg⟩ := hinv.slot bi (xt_points_lt hinv hp)
  obtain ⟨rfl, rfl⟩ := xt_points_unique hp hp0
  have hpos : 0 < t.size := by rw [hinv.size_eq]; exact Nat.two_pow_pos _
  unfold split_bucket at h
  rw [xt_bucket_at_eq hp, Res.bind_ret] at h
  simp only at h
  by_cases hd : old.depth = t.depth
  · rw [if_pos hd] at h
    by_cases hm : MAX < t.size * 2
    · rw [xt_double_refused MAX t hm, Res.bind_ret] at h
      simp at h
    · obtain ⟨t1, h1, hinv1, e1, e2, e3, e4, e5, e6, e7, e8⟩ :=
        xt_double_ok MAX t hinv (by omega)
      rw [h1, Res.bind_ret] at h
      simp only [Bool.not_true, Bool.false_eq_true, if_false] at h
      have hp1 : points t1 bi a old := by
        refine ⟨?_, by rw [e2]; exact hp.2⟩
        rw [e7 bi (xt_points_lt hinv hp)]
        exact hp.1
      obtain ⟨t3, bks, h3, hctx, hr⟩ :=
        xt_split_body_detail t1 hinv1 bi a old hp1 (by omega) (by rw [e3]; exact hfull)
      rw [h3] at h
      simp only [Res.ret.injEq, Prod.mk.injEq, and_true] at h
      subst h
      refine ⟨t1, bks, ⟨hinv1, e2, e3, e4, e5, ?_, e8, Or.inr ⟨e6, e1, hd, by omega⟩⟩, hctx, hr⟩
      intro i hi
      by_cases hlt : i < t.size
      · rw [e7 i hlt, Nat.mod_eq_of_lt hlt]
      · obtain ⟨c, x, hpc, hgc⟩ := hinv1.slot i hi
        have hi2 : i % t.size < t.size := Nat.mod_lt _ hpos
        have hmod : i % t.size % 2 ^ x.depth = x.id := by
          have hxd : x.depth ≤ t.depth := by
            obtain ⟨c0, x0, hp0, hg0⟩ := hinv.slot (x.id % t.size) (Nat.mod_lt _ hpos)
            by_contra hcon
            have hxd1 : x.depth = t1.depth := by have := hgc.depth_le; omega
            have hlt1 : i % t.size < t1.size := by omega
            obtain ⟨c1, x1, hpc1, hgc1⟩ := hinv1.slot (i % t.size) hlt1
            have hx1 : x1.depth ≤ t.depth := by
              obtain ⟨c2, x2, hpc2, hgc2⟩ := hinv.slot (i % t.size) hi2
              have e := hpc1.1
              rw [e7 _ hi2, hpc2.1] at e
              have ec : c2 = c1 := Option.some.inj (Option.some.inj e)
              subst ec
              have e2' := hpc1.2
              rw [e2, hpc2.2] at e2'
              have ex : x2 = x1 := Option.some.inj e2'
              subst ex
              exact hgc2.depth_le
            have hsh := hinv1.share (i % t.size) i c1 x1 hi hpc1 (by
              rw [← hgc1.id_eq, hinv.size_eq]
              exact (Nat.mod_mod_of_dvd i (pow_dvd_pow 2 hx1)).symm)
            rw [hpc.1] at hsh
            have ec : c = c1 := Option.some.inj (Option.some.inj hsh)
            subst ec
            have e2' := hpc.2
            rw [hpc1.2] at e2'
            have ex : x1 = x := Option.some.inj e2'
            subst ex
            omega
          rw [hinv.size_eq, Nat.mod_mod_of_dvd i (pow_dvd_pow 2 hxd)]
          exact hgc.id_eq
        have hsh := hinv1.share i (i % t.size) c x (by omega) hpc hmod
        rw [hpc.1, ← hsh, e7 _ hi2]
  · rw [if_neg hd, Res.bind_ret] at h
    simp only [Bool.not_true, Bool.false_eq_true, if_false] at h
    have hlt : old.depth < t.depth := Nat.lt_of_le_of_ne hg.depth_le hd
    obtain ⟨t3, bks, h3, hctx, hr⟩ := xt_split_body_detail t hinv bi a old hp hlt hfull
    rw [h3] at h
    simp only [Res.ret.injEq, Prod.mk.injEq, and_true] at h
    subst h
    refine ⟨t, bks, ⟨hinv, rfl, rfl, rfl, rfl, ?_, fun x => Iff.rfl, Or.inl ⟨rfl, rfl, hlt⟩⟩,
      hctx, hr⟩
    intro i hi
    rw [Nat.mod_eq_of_lt hi]

end Xtndbln

section

open Xtndbln

/-- C29. Directory doubling: for every extendible table whose directory has
`size` slots, when `2 * size ≤ MAX_TABLE_SIZE` the function `double_table`
returns true, the new size is `2 * size`, the new depth is `depth + 1`, slots
`i` and `i + size` of the new directory both hold what slot `i` held, for
every `i` below the old size, and the buckets and the other fields are
unchanged; when `2 * size > MAX_TABLE_SIZE` it returns false and the table is
unchanged. -/
theorem xtndbln_double_table (MAX_TABLE_SIZE : Nat) (t : XtndblNHashTable)
    (hlen : t.buckets.length = t.size) :
    (2 * t.size ≤ MAX_TABLE_SIZE →
      ∃ t2, double_table MAX_TABLE_SIZE t = Res.ret (t2, true) ∧
        t2.size = 2 * t.size ∧ t2.depth = t.depth + 1 ∧ t2.buckets.length = 2 * t.size ∧
        (∀ i, i < t.size →
          t2.buckets[i + t.size]? = t.buckets[i]? ∧ t2.buckets[i]? = t.buckets[i]?) ∧
        t2.heap = t.heap ∧ t2.bucketsize = t.bucketsize ∧ t2.nitems = t.nitems) ∧
    (MAX_TABLE_SIZE < 2 * t.size → double_table MAX_TABLE_SIZE t = Res.ret (t, false)) := by
  have htake : t.buckets.take t.size = t.buckets := List.take_of_length_le (by omega)
  constructor
  · intro h
    refine ⟨{ t with buckets := t.buckets ++ t.buckets, size := t.size * 2, depth := t.depth + 1 }, ?_, ?_, rfl, ?_, fun i hi => ⟨?_, ?_⟩, rfl, rfl, rfl⟩
    · unfold double_table
      rw [if_neg (by omega), if_neg (by omega), htake]
    · show t.size * 2 = 2 * t.size
      omega
    · show (t.buckets ++ t.buckets).length = 2 * t.size
      rw [List.length_append, hlen]
      omega
    · show (t.buckets ++ t.buckets)[i + t.size]? = _
      rw [List.getElem?_append_right (by omega), hlen, Nat.add_sub_cancel]
    · show (t.buckets ++ t.buckets)[i]? = _
      rw [List.getElem?_append_left (by omega)]
  · intro h
    exact xt_double_refused MAX_TABLE_SIZE t (by omega)

/-- Witness for C29: the table holding 0 and 1 in a directory of two slots,
doubled with `MAX_TABLE_SIZE = 4` and refused with `MAX_TABLE_SIZE = 3`. -/
theorem xtndbln_double_table_witness :
    (∃ t2, double_table 4 (after_insert 64 10 (after_insert 64 10
          (new_xtndbln_hash_table 1) 0) 1) = Res.ret (t2, true) ∧
        t2.size = 2 * 2 ∧ t2.depth = 1 + 1 ∧ t2.buckets = [some 0, some 1, some 0, some 1]) ∧
    double_table 3 (after_insert 64 10 (after_insert 64 10 (new_xtndbln_hash_table 1) 0) 1)
      = Res.ret (after_insert 64 10 (after_insert 64 10 (new_xtndbln_hash_table 1) 0) 1,
          false) := by
  have h := xtndbln_double_table 4 (after_insert 64 10 (after_insert 64 10
    (new_xtndbln_hash_table 1) 0) 1) (by decide!)
  have h3 := xtndbln_double_table 3 (after_insert 64 10 (after_insert 64 10
    (new_xtndbln_hash_table 1) 0) 1) (by decide!)
  obtain ⟨t2, e1, e2, e3, e4, e5, _⟩ := h.1 (by decide!)
  refine ⟨⟨t2, e1, ?_, ?_, ?_⟩, h3.2 (by decide!)⟩
  · rw [e2]
    decide!
  · rw [e3]
    decide!
  · apply List.ext_getElem?
    intro i
    have hs : (after_insert 64 10 (after_insert 64 10 (new_xtndbln_hash_table 1) 0) 1).size
        = 2 := by decide!
    have hb : (after_insert 64 10 (after_insert 64 10 (new_xtndbln_hash_table 1) 0) 1).buckets
        = [some 0, some 1] := by decide!
    rw [hs, hb] at e5
    rw [hs] at e4
    match i with
    | 0 => rw [(e5 0 (by decide)).2]; rfl
    | 1 => rw [(e5 1 (by decide)).2]; rfl
    | 2 => rw [(e5 0 (by decide)).1]; rfl
    | 3 => rw [(e5 1 (by decide)).1]; rfl
    | i + 4 =>
      rw [List.getElem?_eq_none (by rw [e4]; omega)]
      rfl

/-- C30. Bucket split structure: when `split_bucket` returns true on a full
bucket `b`, of id `i` and local depth `d`, stored at address `a` and reached
from slot `bi` of a table that satisfies the routing invariant, one bucket is
allocated, the sibling, with id `i + 2 ^ d` (which is `i` with bit `d` set)
and depth `d + 1`; the bucket at `a` keeps the id `i` and has depth `d + 1`;
every other bucket is unchanged; the directory keeps its size or is doubled;
its slots that point to the sibling are exactly those whose low `d + 1` bits
are `i + 2 ^ d`, and every other slot `j` points where slot `j` (slot
`j mod size` after a doubling) pointed before. -/
theorem xtndbln_split_structure (MAX_TABLE_SIZE : Nat) (t : XtndblNHashTable) (hinv : XInv t)
    (bi a : Nat) (b : Bucket) (hb : bucket_at t bi = Res.ret (a, b))
    (hfull : b.nkeys = t.bucketsize)
    (hsplit : ((split_bucket MAX_TABLE_SIZE t bi).bind fun r => Res.ret r.2) = Res.ret true) :
    ∃ t2 A B, split_bucket MAX_TABLE_SIZE t bi = Res.ret (t2, true) ∧
      b.id ||| pow2 b.depth = b.id + 2 ^ b.depth ∧
      t2.heap.length = t.heap.length + 1 ∧
      t2.heap[a]? = some A ∧ A.id = b.id ∧ A.depth = b.depth + 1 ∧
      t2.heap[t.heap.length]? = some B ∧ B.id = b.id + 2 ^ b.depth ∧ B.depth = b.depth + 1 ∧
      (∀ c, c ≠ a → c < t.heap.length → t2.heap[c]? = t.heap[c]?) ∧
      (t2.size = t.size ∨ t2.size = 2 * t.size) ∧ t2.buckets.length = t2.size ∧
      (∀ j, j < t2.size →
        (t2.buckets[j]? = some (some t.heap.length) ↔
          j % 2 ^ (b.depth + 1) = b.id + 2 ^ b.depth) ∧
        (j % 2 ^ (b.depth + 1) ≠ b.id + 2 ^ b.depth →
          t2.buckets[j]? = t.buckets[j % t.size]?)) := by
  have hp := xt_bucket_at_ret hb
  have hpos : 0 < t.size := by rw [hinv.size_eq]; exact Nat.two_pow_pos _
  cases hs : split_bucket MAX_TABLE_SIZE t bi with
  | abort => rw [hs] at hsplit; cases hsplit
  | diverge => rw [hs] at hsplit; cases hsplit
  | ret r =>
    rw [hs, Res.bind_ret] at hsplit
    have hr2 : r.2 = true := by
      simp only [Res.ret.injEq] at hsplit
      exact hsplit
    have hs2 : split_bucket MAX_TABLE_SIZE t bi = Res.ret (r.1, true) := by
      rw [hs, ← hr2]
    obtain ⟨t1, bks, hgr, hctx, hrd⟩ :=
      xt_split_detail MAX_TABLE_SIZE t hinv bi a b hp hfull r.1 hs2
    obtain ⟨hg, hid, _⟩ := xt_good_old hctx
    obtain ⟨A, B, hA, hB, hh⟩ := hrd.halves
    have hsz : r.1.size = t1.size := hrd.size_eq
    have hheap : t1.heap.length = t.heap.length := by rw [hgr.heap_eq]
    refine ⟨r.1, A, B, ?_, ?_, ?_, hA, hh.a_id, hh.a_depth, ?_, hh.b_id, hh.b_depth, ?_, ?_, ?_,
      fun j hj => ⟨?_, fun hne => ?_⟩⟩
    · rw [← hr2]
    · rw [xt_lor_pow2 _ _ hid, xt_pow2_eq]
    · rw [hrd.heap_len, hheap]
    · rw [← hheap]
      exact hB
    · intro c hc hcl
      rw [hrd.heap_other c hc (by omega), hgr.heap_eq]
    · rcases hgr.cases with ⟨e, _⟩ | ⟨e, _⟩
      · left; omega
      · right; omega
    · rw [hrd.buckets_eq, hctx.bks_len, hsz]
    · rw [hsz] at hj
      rw [hrd.buckets_eq]
      constructor
      · intro h
        by_contra hne
        rw [hctx.bks_old j hne] at h
        obtain ⟨c, x, hpc, _⟩ := hgr.inv.slot j hj
        rw [hpc.1] at h
        have ec : c = t.heap.length := Option.some.inj (Option.some.inj h)
        have hcl := lt_length_of_getElem? hpc.2
        omega
      · intro h
        rw [hctx.bks_new j hj h, hheap]
    · rw [hsz] at hj
      rw [hrd.buckets_eq, hctx.bks_old j hne]
      exact hgr.dir j hj

/-- Witness for C30: the split of the only bucket, holding the key 0, of a
table with buckets of one key; the directory is doubled. -/
theorem xtndbln_split_structure_witness :
    ∃ t2 A B, split_bucket 64 (after_insert 64 10 (new_xtndbln_hash_table 1) 0) 0
        = Res.ret (t2, true) ∧
      0 ||| pow2 0 = 0 + 2 ^ 0 ∧
      t2.heap.length = (after_insert 64 10 (new_xtndbln_hash_table 1) 0).heap.length + 1 ∧
      t2.heap[0]? = some A ∧ A.id = 0 ∧ A.depth = 0 + 1 ∧
      t2.heap[(after_insert 64 10 (new_xtndbln_hash_table 1) 0).heap.length]? = some B ∧
      B.id = 0 + 2 ^ 0 ∧ B.depth = 0 + 1 ∧
      (∀ c, c ≠ 0 → c < (after_insert 64 10 (new_xtndbln_hash_table 1) 0).heap.length →
        t2.heap[c]? = (after_insert 64 10 (new_xtndbln_hash_table 1) 0).heap[c]?) ∧
      (t2.size = (after_insert 64 10 (new_xtndbln_hash_table 1) 0).size ∨
        t2.size = 2 * (after_insert 64 10 (new_xtndbln_hash_table 1) 0).size) ∧
      t2.buckets.length = t2.size ∧
      (∀ j, j < t2.size →
        (t2.buckets[j]?
            = some (some (after_insert 64 10 (new_xtndbln_hash_table 1) 0).heap.length) ↔
          j % 2 ^ (0 + 1) = 0 + 2 ^ 0) ∧
        (j % 2 ^ (0 + 1) ≠ 0 + 2 ^ 0 →
          t2.buckets[j]? = (after_insert 64 10 (new_xtndbln_hash_table 1) 0).buckets[
            j % (after_insert 64 10 (new_xtndbln_hash_table 1) 0).size]?)) :=
  xtndbln_split_structure 64 (after_insert 64 10 (new_xtndbln_hash_table 1) 0)
    (xt_reach_inv (xt_reach_after 64 1 _ _ Reach.init 10 0)).1 0 0 ⟨0, 0, 1, [0]⟩
    (by decide!) (by decide!) (by decide!)

end

namespace Xtndbln

theorem xt_null_spec (id d N : Nat) (hid : id < 2 ^ d) :
    ∀ n jx (st : FreeState), st.buckets.length = N →
      (∀ m, jx ≤ m → m < jx + n → id + m * 2 ^ d < N) →
      (∀ i, i ∈ st.nulled → i < N) →
      ∃ st2, null_loop id d n jx st = Res.ret st2 ∧ st2.buckets.length = N ∧
        st2.freed = st.freed ∧
        (∀ m, jx ≤ m → m < jx + n → st2.buckets[id + m * 2 ^ d]? = some none) ∧
        (∀ i, (∀ m, jx ≤ m → m < jx + n → i ≠ id + m * 2 ^ d) →
          st2.buckets[i]? = st.buckets[i]?) ∧
        (∀ i, i ∈ st2.nulled → i < N) := by
  intro n
  induction n with
  | zero =>
    intro jx st hl _ hn
    exact ⟨st, rfl, hl, rfl, fun m h1 h2 => by omega, fun i _ => rfl, hn⟩
  | succ n ih =>
    intro jx st hl hb hn
    have hix := hb jx (le_refl _) (by omega)
    rw [null_loop, xt_lor_shift id jx d hid, wr_of_lt _ (by rw [hl]; exact hix), Res.bind_ret]
    obtain ⟨st2, h1, h2, h3, h4, h5, h6⟩ := ih (jx + 1)
      { st with buckets := st.buckets.set (id + jx * 2 ^ d) none, nulled := st.nulled ++ [id + jx * 2 ^ d] }
      (by simp [hl]) (fun m hm1 hm2 => hb m (by omega) (by omega))
      (fun i hi => by
        rcases List.mem_append.mp hi with h | h
        · exact hn i h
        · rw [List.mem_singleton.mp h]; exact hix)
    refine ⟨st2, h1, h2, h3, fun m hm1 hm2 => ?_, fun i hi => ?_, h6⟩
    · by_cases hm : m = jx
      · subst hm
        rw [h5 _ (fun m2 hm3 _ => ?_)]
        · show (st.buckets.set _ none)[_]? = _
          rw [List.getElem?_set_self (by rw [hl]; exact hix)]
        · have hp : 0 < 2 ^ d := Nat.two_pow_pos d
          have : m * 2 ^ d < m2 * 2 ^ d := Nat.mul_lt_mul_of_pos_right (by omega) hp
          omega
      · exact h4 m (by omega) (by omega)
    · rw [h5 i (fun m hm1 hm2 => hi m (by omega) (by omega))]
      show (st.buckets.set _ none)[i]? = _
      rw [List.getElem?_set_ne (fun e => hi jx (le_refl _) (by omega) e.symm)]

/-- The directory after the inner loop of the teardown, run from the first
slot `id` of a bucket of depth `d`. -/
theorem xt_null_dir (t : XtndblNHashTable) (hinv : XInv t) (id d : Nat) (hid : id < 2 ^ d)
    (hd : d ≤ t.depth) (st : FreeState) (hl : st.buckets.length = t.size)
    (hn : ∀ i, i ∈ st.nulled → i < t.size) :
    ∃ st2, null_loop id d (pow2 (t.depth - d)) 0 st = Res.ret st2 ∧
      st2.buckets.length = t.size ∧ st2.freed = st.freed ∧
      (∀ i, i < t.size → i % 2 ^ d = id → st2.buckets[i]? = some none) ∧
      (∀ i, i % 2 ^ d ≠ id → st2.buckets[i]? = st.buckets[i]?) ∧
      (∀ i, i ∈ st2.nulled → i < t.size) := by
  have hcl := fun i => xt_class_iff t.depth d id i hd hid
  obtain ⟨st2, h1, h2, h3, h4, h5, h6⟩ := xt_null_spec id d t.size hid
    (pow2 (t.depth - d)) 0 st hl (fun m _ hm => by
      rw [xt_pow2_eq, Nat.zero_add] at hm
      rw [hinv.size_eq]
      exact ((hcl _).mp ⟨m, hm, rfl⟩).1) hn
  refine ⟨st2, h1, h2, h3, fun i hi hmod => ?_, fun i hmod => ?_, h6⟩
  · rw [hinv.size_eq] at hi
    obtain ⟨m, hm, rfl⟩ := (hcl i).mpr ⟨hi, hmod⟩
    exact h4 m (Nat.zero_le _) (by rw [xt_pow2_eq, Nat.zero_add]; exact hm)
  · apply h5
    intro m _ hm e
    rw [xt_pow2_eq, Nat.zero_add] at hm
    exact hmod ((hcl i).mp ⟨m, hm, e⟩).2

/-- One iteration of the outer loop of the teardown. -/
theorem xt_free_step (t : XtndblNHashTable) (hinv : XInv t) (n ix : Nat) (st : FreeState)
    (hix : ix < t.size) (hfi : FreeInv t ix st) :
    ∃ st2, free_loop t (n + 1) ix st = free_loop t n (ix + 1) st2 ∧
      FreeInv t (ix + 1) st2 := by
  obtain ⟨a, b, hp, hg⟩ := hinv.slot ix hix
  have hslot := hfi.slots ix a hix hp.1
  rw [free_loop]
  by_cases hfr : a ∈ st.freed
  · rw [if_pos hfr] at hslot
    rw [rd_of_getElem? hslot, Res.bind_ret]
    refine ⟨st, rfl, hfi.len, fun c => ?_, hfi.nodup, hfi.slots, hfi.nulled_lt⟩
    rw [hfi.freed_iff]
    constructor
    · rintro ⟨i, hi, h⟩
      exact ⟨i, by omega, h⟩
    · rintro ⟨i, hi, h⟩
      by_cases hii : i = ix
      · subst hii
        rw [hp.1] at h
        have : a = c := Option.some.inj (Option.some.inj h)
        subst this
        exact (hfi.freed_iff a).mp hfr
      · exact ⟨i, by omega, h⟩
  · rw [if_neg hfr] at hslot
    rw [rd_of_getElem? hslot, Res.bind_ret]
    simp only
    rw [rd_of_getElem? hp.2, Res.bind_ret, if_neg (by have := hg.depth_le; omega)]
    have hidlt : b.id < 2 ^ b.depth := by
      rw [← hg.id_eq]; exact Nat.mod_lt _ (Nat.two_pow_pos _)
    have hidle : b.id ≤ ix := by
      rw [← hg.id_eq]; exact Nat.mod_le _ _
    have hfirst : ix = b.id := by
      by_contra hne
      have hsh := hinv.share ix b.id a b (by omega) hp (Nat.mod_eq_of_lt hidlt)
      exact hfr ((hfi.freed_iff a).mpr ⟨b.id, by omega, hsh⟩)
    obtain ⟨st2, h1, h2, h3, h4, h5, h6⟩ :=
      xt_null_dir t hinv ix b.depth (by rw [hfirst]; exact hidlt) hg.depth_le st hfi.len
        hfi.nulled_lt
    rw [h1, Res.bind_ret]
    refine ⟨_, rfl, h2, fun c => ?_, ?_, fun j c hj hc => ?_, h6⟩
    · show c ∈ st2.freed ++ [a] ↔ _
      rw [h3, List.mem_append, hfi.freed_iff, List.mem_singleton]
      constructor
      · rintro (⟨i, hi, h⟩ | rfl)
        · exact ⟨i, by omega, h⟩
        · exact ⟨ix, by omega, hp.1⟩
      · rintro ⟨i, hi, h⟩
        by_cases hii : i = ix
        · subst hii
          rw [hp.1] at h
          exact Or.inr (Option.some.inj (Option.some.inj h)).symm
        · exact Or.inl ⟨i, by omega, h⟩
    · show (st2.freed ++ [a]).Nodup
      rw [h3]
      exact List.Nodup.append hfi.nodup (List.nodup_singleton a) (by
        intro x hx hx2
        rw [List.mem_singleton.mp hx2] at hx
        exact hfr hx)
    · show st2.buckets[j]? = some (if c ∈ st2.freed ++ [a] then none else some c)
      rw [h3]
      by_cases hca : c = a
      · subst hca
        obtain ⟨c2, b2, hp2, hg2⟩ := hinv.slot j hj
        have e := hp2.1
        rw [hc] at e
        have ec : c = c2 := Option.some.inj (Option.some.inj e)
        subst ec
        have e2 := hp2.2
        rw [hp.2] at e2
        have eb : b = b2 := Option.some.inj e2
        subst eb
        rw [h4 j hj (by rw [hg2.id_eq, hfirst]), if_pos (by simp)]
      · have hmod : j % 2 ^ b.depth ≠ ix := by
          intro e
          have hsh := hinv.share ix j a b hj hp (by rw [e, hfirst])
          rw [hc] at hsh
          exact hca (Option.some.inj (Option.some.inj hsh))
        rw [h5 j hmod, hfi.slots j c hj hc]
        by_cases hcf : c ∈ st.freed
        · rw [if_pos hcf, if_pos (List.mem_append.mpr (Or.inl hcf))]
        · rw [if_neg hcf, if_neg (by
            intro h
            rcases List.mem_append.mp h with h | h
            · exact hcf h
            · exact hca (List.mem_singleton.mp h))]

theorem xt_free_loop (t : XtndblNHashTable) (hinv : XInv t) :
    ∀ n ix st, ix + n = t.size → FreeInv t ix st →
      ∃ st2, free_loop t n ix st = Res.ret st2 ∧ FreeInv t t.size st2 := by
  intro n
  induction n with
  | zero =>
    intro ix st h hfi
    have : ix = t.size := by omega
    subst this
    exact ⟨st, rfl, hfi⟩
  | succ n ih =>
    intro ix st h hfi
    obtain ⟨st1, h1, hfi1⟩ := xt_free_step t hinv n ix st (by omega) hfi
    obtain ⟨st2, h2, hfi2⟩ := ih (ix + 1) st1 (by omega) hfi1
    exact ⟨st2, by rw [h1, h2], hfi2⟩

theorem xt_free_spec (t : XtndblNHashTable) (hinv : XInv t) :
    ∃ st, free_xtndbln_hash_table t = Res.ret st ∧ FreeInv t t.size st := by
  apply xt_free_loop t hinv t.size 0 _ (by omega)
  refine ⟨hinv.len, fun a => ?_, List.nodup_nil, fun j a _ h => ?_, fun i hi => ?_⟩
  · simp
  · simpa using h
  · simp at hi

end Xtndbln

section

open Xtndbln

/-- C24. Teardown frees each bucket once: for every extendible table reached
from a new one by insertions and random swaps, the loop of
`free_xtndbln_hash_table` runs to its end; the addresses it passes to
`free_bucket` are pairwise different and are exactly the addresses of the
buckets referenced by the directory, so that no bucket referenced from
several slots is freed twice and none is skipped; every index it sets to
`NULL` lies inside the directory, and at the end every slot is `NULL`. -/
theorem xtndbln_free_each_bucket_once (MAX_TABLE_SIZE bucketsize : Nat) (hash : Nat → Int)
    (t : XtndblNHashTable) (hreach : Reach MAX_TABLE_SIZE bucketsize hash t) :
    ∃ st, free_xtndbln_hash_table t = Res.ret st ∧ st.freed.Nodup ∧
      (∀ a, a ∈ st.freed ↔ ∃ i, i < t.size ∧ t.buckets[i]? = some (some a)) ∧
      (∀ i, i ∈ st.nulled → i < t.size) ∧
      (∀ i, i < t.size → st.buckets[i]? = some none) := by
  have hinv := (xt_reach_inv hreach).1
  obtain ⟨st, h, hfi⟩ := xt_free_spec t hinv
  refine ⟨st, h, hfi.nodup, hfi.freed_iff, hfi.nulled_lt, fun i hi => ?_⟩
  obtain ⟨a, b, hp, _⟩ := hinv.slot i hi
  rw [hfi.slots i a hi hp.1, if_pos ((hfi.freed_iff a).mpr ⟨i, hi, hp.1⟩)]

/-- Witness for C24: the table reached by inserting 0, 1 and 2 with buckets of
one key, whose directory of 8 slots references 4 buckets. -/
theorem xtndbln_free_each_bucket_once_witness :
    ∃ st, free_xtndbln_hash_table (after_insert 64 10 (after_insert 64 10 (after_insert 64 10
        (new_xtndbln_specified_hash_table 1 (fun k => (h1 k : Int))) 0) 1) 2) = Res.ret st ∧ st.freed.Nodup ∧
      (∀ a, a ∈ st.freed ↔ ∃ i, i < (after_insert 64 10 (after_insert 64 10 (after_insert 64 10
        (new_xtndbln_specified_hash_table 1 (fun k => (h1 k : Int))) 0) 1) 2).size ∧
        (after_insert 64 10 (after_insert 64 10 (after_insert 64 10
        (new_xtndbln_specified_hash_table 1 (fun k => (h1 k : Int))) 0) 1) 2).buckets[i]? = some (some a)) ∧
      (∀ i, i ∈ st.nulled → i < (after_insert 64 10 (after_insert 64 10 (after_insert 64 10
        (new_xtndbln_specified_hash_table 1 (fun k => (h1 k : Int))) 0) 1) 2).size) ∧
      (∀ i, i < (after_insert 64 10 (after_insert 64 10 (after_insert 64 10
        (new_xtndbln_specified_hash_table 1 (fun k => (h1 k : Int))) 0) 1) 2).size → st.buckets[i]? = some none) :=
  xtndbln_free_each_bucket_once 64 1 (fun k => (h1 k : Int)) _
    (xt_reach_after 64 1 _ _ (xt_reach_after 64 1 _ _ (xt_reach_after 64 1 _ _
      Reach.init 10 0) 10 1) 10 2)

end

namespace Xtndbln

/-- The exact effect of the insertion of an absent key whose bucket has room. -/
theorem xt_insert_room (MAX fuel : Nat) (t : XtndblNHashTable) (hinv : XInv t) (key a : Nat)
    (b : Bucket) (hns : ¬ stored t key)
    (hp : points t (get_bit_trail (t.hash key) t.depth) a b) (hroom : b.nkeys < t.bucketsize) :
    xtndbln_hash_table_insert MAX fuel t key
        = Res.ret ({ t with heap := t.heap.set a (pushed b key), nitems := t.nitems + 1 }, true) ∧
      XInv { t with heap := t.heap.set a (pushed b key), nitems := t.nitems + 1 } ∧
      ∀ x, stored { t with heap := t.heap.set a (pushed b key), nitems := t.nitems + 1 } x
        ↔ (stored t x ∨ x = key) := by
  obtain ⟨a0, b0, hp0, hg⟩ := xt_home hinv (t.hash key)
  obtain ⟨rfl, rfl⟩ := xt_points_unique hp hp0
  have ha : a < t.heap.length := lt_length_of_getElem? hp.2
  have hu : Updated t a b (pushed b key) { t with heap := t.heap.set a (pushed b key), nitems := t.nitems + 1 } :=
    ⟨rfl, rfl, rfl, rfl, rfl, rfl, hp.2, rfl, rfl⟩
  obtain ⟨hinv2, hst2⟩ := xt_push_spec hinv key a b hp hroom hu
  refine ⟨?_, hinv2, hst2⟩
  unfold xtndbln_hash_table_insert
  rw [xt_lookup_false hinv hns, Res.bind_ret]
  simp only [Bool.false_eq_true, if_false]
  have hsl : split_loop MAX (t.hash key) fuel t = Res.ret (t, a) := by
    unfold split_loop
    rw [xt_bucket_at_eq hp, Res.bind_ret]
    simp only
    rw [if_neg (by omega)]
  rw [hsl, Res.bind_ret]
  simp only
  rw [rd_of_getElem? hp.2, Res.bind_ret,
    xt_write_to_bucket_eq b key (by rw [hg.keys_len]; exact hroom), Res.bind_ret,
    wr_of_lt _ ha, Res.bind_ret]

/-- The bucket of the single key is full. -/
theorem xt_lone_full {hash : Nat → Int} {a : Nat} {t : XtndblNHashTable} (h : Lone hash a t)
    {p : Nat} {b : Bucket} (hp : points t (get_bit_trail (hash a) t.depth) p b) :
    b.nkeys = 1 ∧ b.depth = t.depth := by
  obtain ⟨p0, b0, hp0, hd⟩ := h.home
  obtain ⟨rfl, rfl⟩ := xt_points_unique hp hp0
  obtain ⟨_, _, hp1, hg⟩ := xt_home h.inv (hash a)
  obtain ⟨rfl, rfl⟩ := xt_points_unique hp hp1
  have hs : stored t a := (h.only a).mpr rfl
  have hp2 : points t (get_bit_trail (t.hash a) t.depth) p b := by rw [h.hash_eq]; exact hp
  obtain ⟨j, hj, _⟩ := xt_stored_home h.inv hs hp2
  have := hg.nkeys_le
  rw [h.bs_eq] at this
  exact ⟨by omega, hd⟩

/-- A bucket other than the one of the single key is empty. -/
theorem xt_lone_empty {hash : Nat → Int} {a : Nat} {t : XtndblNHashTable} (h : Lone hash a t)
    {i p : Nat} {b : Bucket} (hp : points t i p b)
    (hne : i ≠ get_bit_trail (hash a) t.depth) : b.nkeys = 0 := by
  by_contra hn
  obtain ⟨_, _, hp1, hg⟩ := h.inv.slot i (xt_points_lt h.inv hp)
  obtain ⟨rfl, rfl⟩ := xt_points_unique hp hp1
  have hlen : 0 < b.keys.length := by rw [hg.keys_len, h.bs_eq]; omega
  obtain ⟨k, hk⟩ := getElem?_exists b.keys 0 hlen
  have hst : stored t k := ⟨i, p, b, 0, hp, by omega, hk⟩
  have hka : k = a := (h.only k).mp hst
  subst hka
  have hhome := xt_home_of_held h.inv hp (by omega : 0 < b.nkeys) hk
  rw [h.hash_eq] at hhome
  have hd := (xt_lone_full h hhome).2
  have hid := hg.id_eq
  obtain ⟨_, _, hp2, hg2⟩ := xt_home h.inv (hash k)
  obtain ⟨_, rfl⟩ := xt_points_unique hhome hp2
  have hid2 := hg2.id_eq
  rw [hd] at hid hid2
  have hi : i < 2 ^ t.depth := by
    rw [← h.inv.size_eq]; exact xt_points_lt h.inv hp
  rw [Nat.mod_eq_of_lt hi] at hid
  rw [Nat.mod_eq_of_lt (xt_gbt_lt _ _)] at hid2
  omega

/-- The split of the bucket of the single key, which uses every bit of the
directory index: the directory doubles and the key is again in a bucket that
uses every bit. -/
theorem xt_lone_split (MAX : Nat) {hash : Nat → Int} {a : Nat} {t : XtndblNHashTable}
    (h : Lone hash a t) (hmax : t.size * 2 ≤ MAX) :
    ∃ t2, split_bucket MAX t (get_bit_trail (hash a) t.depth) = Res.ret (t2, true) ∧
      Lone hash a t2 ∧ t2.depth = t.depth + 1 := by
  obtain ⟨p, old, hp, hd⟩ := h.home
  obtain ⟨_, _, hp0, hg⟩ := xt_home h.inv (hash a)
  obtain ⟨rfl, rfl⟩ := xt_points_unique hp hp0
  have hfull : old.nkeys = t.bucketsize := by rw [h.bs_eq]; exact (xt_lone_full h hp).1
  rcases xt_split_spec MAX t h.inv _ p old hp hfull with
    ⟨_, hm, _⟩ | ⟨t2, hs, hinv2, hst, f1, f2, f3⟩
  · omega
  · obtain ⟨t1, bks, hgr, hctx, hred⟩ := xt_split_detail MAX t h.inv _ p old hp hfull t2 hs
    have hdep1 : t1.depth = t.depth + 1 := by
      rcases hgr.cases with ⟨_, _, c⟩ | ⟨_, c, _⟩
      · omega
      · exact c
    have hdep2 : t2.depth = t.depth + 1 := by rw [hred.depth_eq, hdep1]
    refine ⟨t2, hs, ⟨hinv2, by rw [f1, h.hash_eq], by rw [f2, h.bs_eq], by rw [f3, h.nitems_eq],
      fun x => by rw [hst, h.only], ?_⟩, hdep2⟩
    have hbi : get_bit_trail (hash a) t.depth < 2 ^ t.depth := xt_gbt_lt _ _
    have hid : old.id = get_bit_trail (hash a) t.depth := by
      have := hg.id_eq
      rw [hd, Nat.mod_eq_of_lt hbi] at this
      exact this.symm
    have hia : get_bit_trail (hash a) (t.depth + 1) < 2 ^ (t.depth + 1) := xt_gbt_lt _ _
    have hmod : get_bit_trail (hash a) (t.depth + 1) % 2 ^ t.depth = old.id := by
      rw [xt_gbt_mod _ _ _ (Nat.le_succ _), hid]
    have hcase := xt_mod_succ _ _ _ hmod
    rw [Nat.mod_eq_of_lt hia] at hcase
    obtain ⟨A, B, hA, hB, hh⟩ := hred.halves
    rw [hdep2]
    rcases hcase with hc | hc
    · refine ⟨p, A, ⟨?_, hA⟩, by rw [hh.a_depth, hd]⟩
      have hlt1 : get_bit_trail (hash a) (t.depth + 1) < t1.size := by
        rw [hgr.inv.size_eq, hdep1]; exact hia
      have hlt0 : get_bit_trail (hash a) (t.depth + 1) < t.size := by
        rw [h.inv.size_eq, hc, hid]; exact hbi
      rw [hred.buckets_eq, hctx.bks_old _ (by
        rw [hd, Nat.mod_eq_of_lt hia, hc]
        have := Nat.two_pow_pos t.depth
        omega), hgr.dir _ hlt1, Nat.mod_eq_of_lt hlt0, hc, hid]
      exact hp.1
    · refine ⟨t1.heap.length, B, ⟨?_, hB⟩, by rw [hh.b_depth, hd]⟩
      have hlt1 : get_bit_trail (hash a) (t.depth + 1) < t1.size := by
        rw [hgr.inv.size_eq, hdep1]; exact hia
      rw [hred.buckets_eq]
      exact hctx.bks_new _ hlt1 (by rw [hd, Nat.mod_eq_of_lt hia, hc])

/-- The splitting loop of the insertion of a second key `b` whose hash agrees
with that of the single key `a` on the low `j` bits and not on bit `j`: it
splits until the directory has `j + 1` bits and ends on an empty bucket. -/
theorem xt_lone_loop (MAX : Nat) (hash : Nat → Int) (a b j : Nat)
    (hlow : get_bit_trail (hash a) j = get_bit_trail (hash b) j)
    (hdiff : get_bit_trail (hash a) (j + 1) ≠ get_bit_trail (hash b) (j + 1))
    (hmax : 2 ^ (j + 1) ≤ MAX) :
    ∀ n t fuel, Lone hash a t → t.depth + n = j + 1 → n ≤ fuel →
      ∃ t2 pb B, split_loop MAX (hash b) fuel t = Res.ret (t2, pb) ∧ Lone hash a t2 ∧
        t2.depth = j + 1 ∧ points t2 (get_bit_trail (hash b) (j + 1)) pb B ∧ B.nkeys = 0 := by
  intro n
  induction n with
  | zero =>
    intro t fuel h hdep _
    have hdep2 : t.depth = j + 1 := by omega
    obtain ⟨pb, B, hpb, _⟩ := xt_home h.inv (hash b)
    have hB : B.nkeys = 0 := xt_lone_empty h hpb (by
      rw [hdep2]
      exact fun e => hdiff e.symm)
    refine ⟨t, pb, B, ?_, h, hdep2, by rw [← hdep2]; exact hpb, hB⟩
    unfold split_loop
    rw [xt_bucket_at_eq hpb, Res.bind_ret]
    simp only
    rw [if_neg (by rw [hB, h.bs_eq]; omega)]
  | succ n ih =>
    intro t fuel h hdep hfuel
    obtain ⟨f, rfl⟩ : ∃ f, fuel = f + 1 := ⟨fuel - 1, by omega⟩
    have hsame : get_bit_trail (hash b) t.depth = get_bit_trail (hash a) t.depth := by
      rw [← xt_gbt_mod (hash b) t.depth j (by omega), ← xt_gbt_mod (hash a) t.depth j (by omega),
        hlow]
    obtain ⟨p, old, hp, _⟩ := h.home
    have hfull := (xt_lone_full h hp).1
    have hsz : t.size * 2 ≤ MAX := by
      rw [h.inv.size_eq, ← pow_succ]
      exact le_trans (Nat.pow_le_pow_right (by decide) (by omega)) hmax
    obtain ⟨t1, hs, h1, hd1⟩ := xt_lone_split MAX h hsz
    obtain ⟨t2, pb, B, h2, hl2, hd2, hp2, hB⟩ := ih t1 f h1 (by omega) (by omega)
    refine ⟨t2, pb, B, ?_, hl2, hd2, hp2, hB⟩
    rw [split_loop, hsame, xt_bucket_at_eq hp, Res.bind_ret]
    simp only
    rw [if_pos (by rw [hfull, h.bs_eq]), hs, Res.bind_ret]
    exact h2

end Xtndbln

namespace Xtndbln

/-- After the first insertion into a new table with buckets of one key, the
table holds the single key. -/
theorem xt_lone_first (MAX fuel : Nat) (hash : Nat → Int) (a : Nat) :
    ∃ t1, xtndbln_hash_table_insert MAX fuel (new_xtndbln_specified_hash_table 1 hash) a
        = Res.ret (t1, true) ∧ Lone hash a t1 ∧ t1.depth = 0 := by
  have hinv := xt_new_inv 1 hash
  have hpt : points (new_xtndbln_specified_hash_table 1 hash) 0 0 (get_new_bucket 0 1 0) :=
    ⟨rfl, rfl⟩
  have h0 : get_bit_trail (hash a) 0 = 0 := by
    have := xt_gbt_lt (hash a) 0
    omega
  have hp : points (new_xtndbln_specified_hash_table 1 hash)
      (get_bit_trail ((new_xtndbln_specified_hash_table 1 hash).hash a)
        (new_xtndbln_specified_hash_table 1 hash).depth) 0 (get_new_bucket 0 1 0) := by
    show points _ (get_bit_trail (hash a) 0) 0 _
    rw [h0]
    exact hpt
  obtain ⟨hi, hinv1, hst⟩ := xt_insert_room MAX fuel _ hinv a 0 _
    (xt_new_not_stored 1 hash a) hp Nat.zero_lt_one
  refine ⟨_, hi, ⟨hinv1, rfl, rfl, rfl, fun x => ?_, ?_⟩, rfl⟩
  · rw [hst]
    constructor
    · rintro (h | h)
      · exact absurd h (xt_new_not_stored 1 hash x)
      · exact h
    · exact Or.inr
  · refine ⟨0, pushed (get_new_bucket 0 1 0) a, ⟨?_, rfl⟩, rfl⟩
    show [some 0][get_bit_trail (hash a) 0]? = _
    rw [h0]
    rfl

end Xtndbln

section

open Xtndbln

/-- C23. Extendible split scenario, generalised: for a new extendible table
with buckets of one key, whatever its hash function, and any two keys `a`, `b`
whose hash values agree on the bits below `j` and differ on bit `j`, with
`2 ^ (j + 1) ≤ MAX_TABLE_SIZE`, inserting `a` then `b` (with fuel for `j + 1`
splits) returns true twice and leaves global depth exactly `j + 1`, directory
size `2 ^ (j + 1)`, `nitems` 2, and both keys found by lookup, each held by
the bucket its hash addresses, two buckets at different addresses. -/
theorem xtndbln_two_key_split (MAX_TABLE_SIZE fuel : Nat) (hash : Nat → Int) (a b j : Nat)
    (hlow : get_bit_trail (hash a) j = get_bit_trail (hash b) j)
    (hdiff : get_bit_trail (hash a) (j + 1) ≠ get_bit_trail (hash b) (j + 1))
    (hmax : 2 ^ (j + 1) ≤ MAX_TABLE_SIZE) (hfuel : j + 1 ≤ fuel) :
    ∃ t1 t2,
      xtndbln_hash_table_insert MAX_TABLE_SIZE fuel (new_xtndbln_specified_hash_table 1 hash) a
        = Res.ret (t1, true) ∧
      xtndbln_hash_table_insert MAX_TABLE_SIZE fuel t1 b = Res.ret (t2, true) ∧
      t2.depth = j + 1 ∧ t2.size = 2 ^ (j + 1) ∧ t2.nitems = 2 ∧
      xtndbln_hash_table_lookup t2 a = Res.ret true ∧
      xtndbln_hash_table_lookup t2 b = Res.ret true ∧
      ∃ pa pb A B, bucket_at t2 (get_bit_trail (hash a) (j + 1)) = Res.ret (pa, A) ∧
        bucket_at t2 (get_bit_trail (hash b) (j + 1)) = Res.ret (pb, B) ∧ pa ≠ pb ∧
        (∃ i, i < A.nkeys ∧ A.keys[i]? = some a) ∧ (∃ i, i < B.nkeys ∧ B.keys[i]? = some b) := by
  obtain ⟨t1, hi1, hl1, hd1⟩ := xt_lone_first MAX_TABLE_SIZE fuel hash a
  have hab : b ≠ a := by
    rintro rfl
    exact hdiff rfl
  have hns : ¬ stored t1 b := fun h => hab ((hl1.only b).mp h)
  obtain ⟨t', pb, B, hsl, hl', hd', hpb, hB⟩ :=
    xt_lone_loop MAX_TABLE_SIZE hash a b j hlow hdiff hmax (j + 1) t1 fuel hl1 (by omega) hfuel
  have hpb' : points t' (get_bit_trail (t'.hash b) t'.depth) pb B := by
    rw [hl'.hash_eq, hd']; exact hpb
  have hnst : ¬ stored t' b := fun h => hab ((hl'.only b).mp h)
  obtain ⟨_, hinv2, hst2⟩ := xt_insert_room MAX_TABLE_SIZE 0 t' hl'.inv b pb B hnst hpb'
    (by rw [hB, hl'.bs_eq]; exact Nat.zero_lt_one)
  obtain ⟨_, _, _, hgB⟩ := xt_home hl'.inv (t'.hash b)
  have hgB2 := (xt_points_unique hpb' ‹_›).2
  have hlen : B.nkeys < B.keys.length := by
    have := hgB.keys_len
    rw [← hgB2, hl'.bs_eq] at this
    omega
  have hpbl : pb < t'.heap.length := lt_length_of_getElem? hpb.2
  have hins : xtndbln_hash_table_insert MAX_TABLE_SIZE fuel t1 b
      = Res.ret ({ t' with heap := t'.heap.set pb (pushed B b), nitems := t'.nitems + 1 }, true) := by
    unfold xtndbln_hash_table_insert
    rw [xt_lookup_false hl1.inv hns, Res.bind_ret]
    simp only [Bool.false_eq_true, if_false]
    rw [hl1.hash_eq, hsl, Res.bind_ret]
    simp only
    rw [rd_of_getElem? hpb.2, Res.bind_ret, xt_write_to_bucket_eq B b hlen, Res.bind_ret,
      wr_of_lt _ hpbl, Res.bind_ret]
  obtain ⟨pa, A, hpa, _⟩ := hl'.home
  rw [hd'] at hpa
  have hA := (xt_lone_full hl' (by rw [hd']; exact hpa)).1
  have hne : pa ≠ pb := by
    rintro rfl
    have e := hpa.2
    rw [hpb.2] at e
    have : B = A := Option.some.inj e
    subst this
    omega
  have hsa : stored { t' with heap := t'.heap.set pb (pushed B b), nitems := t'.nitems + 1 } a :=
    (hst2 a).mpr (Or.inl ((hl'.only a).mpr rfl))
  have hsb : stored { t' with heap := t'.heap.set pb (pushed B b), nitems := t'.nitems + 1 } b :=
    (hst2 b).mpr (Or.inr rfl)
  have hpa2 : points { t' with heap := t'.heap.set pb (pushed B b), nitems := t'.nitems + 1 }
      (get_bit_trail (hash a) (j + 1)) pa A :=
    ⟨hpa.1, by
      show (t'.heap.set pb _)[pa]? = _
      rw [List.getElem?_set_ne (fun e => hne e.symm)]
      exact hpa.2⟩
  have hpb2 : points { t' with heap := t'.heap.set pb (pushed B b), nitems := t'.nitems + 1 }
      (get_bit_trail (hash b) (j + 1)) pb (pushed B b) :=
    ⟨hpb.1, by
      show (t'.heap.set pb _)[pb]? = _
      rw [List.getElem?_set_self hpbl]⟩
  refine ⟨t1, _, hi1, hins, hd', ?_, ?_, xt_lookup_true hinv2 hsa, xt_lookup_true hinv2 hsb,
    pa, pb, A, pushed B b, xt_bucket_at_eq hpa2, xt_bucket_at_eq hpb2, hne, ?_, ?_⟩
  · rw [hinv2.size_eq]
    show 2 ^ t'.depth = _
    rw [hd']
  · show t'.nitems + 1 = 2
    rw [hl'.nitems_eq]
  · apply xt_stored_home hinv2 hsa
    show points _ (get_bit_trail (t'.hash a) t'.depth) pa A
    rw [hl'.hash_eq, hd']
    exact hpa2
  · apply xt_stored_home hinv2 hsb
    show points _ (get_bit_trail (t'.hash b) t'.depth) pb (pushed B b)
    rw [hl'.hash_eq, hd']
    exact hpb2

/-- Witness for C23: the keys 1 and 4, whose values of `h1` have the same bit 0
and a different bit 1 (`j = 1`): after the two insertions into
`new_xtndbln_hash_table(1)` the global depth is 2. -/
theorem xtndbln_two_key_split_witness :
    ∃ t1 t2,
      xtndbln_hash_table_insert 4 2 (new_xtndbln_hash_table 1) 1 = Res.ret (t1, true) ∧
      xtndbln_hash_table_insert 4 2 t1 4 = Res.ret (t2, true) ∧
      t2.depth = 1 + 1 ∧ t2.size = 2 ^ (1 + 1) ∧ t2.nitems = 2 ∧
      xtndbln_hash_table_lookup t2 1 = Res.ret true ∧
      xtndbln_hash_table_lookup t2 4 = Res.ret true ∧
      ∃ pa pb A B, bucket_at t2 (get_bit_trail (h1 1 : Int) (1 + 1)) = Res.ret (pa, A) ∧
        bucket_at t2 (get_bit_trail (h1 4 : Int) (1 + 1)) = Res.ret (pb, B) ∧ pa ≠ pb ∧
        (∃ i, i < A.nkeys ∧ A.keys[i]? = some 1) ∧ (∃ i, i < B.nkeys ∧ B.keys[i]? = some 4) :=
  xtndbln_two_key_split 4 2 (fun k => (h1 k : Int)) 1 4 1 (by decide!) (by decide!)
    (by decide) (by decide)

end

namespace Xtndbln

/-- Replacing one list of a list of lists: the two flattenings differ by that
list. -/
theorem flatten_set_perm {α β : Type} (f : α → List β) :
    ∀ (H : List α) (a : Nat) (b b2 : α), H[a]? = some b →
      ∃ X, (H.map f).flatten.Perm (f b ++ X) ∧ ((H.set a b2).map f).flatten.Perm (f b2 ++ X) := by
  intro H
  induction H with
  | nil =>
    intro a b b2 h
    simp at h
  | cons c H ih =>
    intro a b b2 h
    cases a with
    | zero =>
      simp only [List.getElem?_cons_zero, Option.some.injEq] at h
      subst h
      exact ⟨(H.map f).flatten, List.Perm.refl _, List.Perm.refl _⟩
    | succ a =>
      simp only [List.getElem?_cons_succ] at h
      obtain ⟨X, h1, h2⟩ := ih a b b2 h
      refine ⟨f c ++ X, ?_, ?_⟩
      · show (f c ++ (H.map f).flatten).Perm _
        exact (List.Perm.append_left (f c) h1).trans (List.perm_append_comm_assoc _ _ _)
      · show (f c ++ ((H.set a b2).map f).flatten).Perm _
        exact (List.Perm.append_left (f c) h2).trans (List.perm_append_comm_assoc _ _ _)

/-- Replacing one element of a list. -/
theorem set_perm {α : Type} :
    ∀ (P : List α) (i : Nat) (e v : α), P[i]? = some e →
      ∃ Y, P.Perm (e :: Y) ∧ (P.set i v).Perm (v :: Y) := by
  intro P
  induction P with
  | nil =>
    intro i e v h
    simp at h
  | cons c P ih =>
    intro i e v h
    cases i with
    | zero =>
      simp only [List.getElem?_cons_zero, Option.some.injEq] at h
      subst h
      exact ⟨P, List.Perm.refl _, List.Perm.refl _⟩
    | succ i =>
      simp only [List.getElem?_cons_succ] at h
      obtain ⟨Y, h1, h2⟩ := ih i e v h
      refine ⟨c :: Y, ?_, ?_⟩
      · exact (List.Perm.cons c h1).trans (List.Perm.swap e c Y)
      · show (c :: P.set i v).Perm _
        exact (List.Perm.cons c h2).trans (List.Perm.swap v c Y)

theorem xt_mem_bucket_keys (b : Bucket) (k : Nat) :
    k ∈ bucket_keys b ↔ ∃ j, j < b.nkeys ∧ b.keys[j]? = some k := by
  unfold bucket_keys
  rw [List.mem_iff_getElem?]
  constructor
  · rintro ⟨j, hj⟩
    rw [List.getElem?_take] at hj
    by_cases hlt : j < b.nkeys
    · rw [if_pos hlt] at hj
      exact ⟨j, hlt, hj⟩
    · rw [if_neg hlt] at hj
      cases hj
  · rintro ⟨j, hlt, hj⟩
    exact ⟨j, by rw [List.getElem?_take, if_pos hlt]; exact hj⟩

/-- The keys listed are the keys stored. -/
theorem xt_mem_all_keys {t : XtndblNHashTable} (hcov : Covered t) (k : Nat) :
    k ∈ all_keys t ↔ stored t k := by
  unfold all_keys
  rw [List.mem_flatten]
  constructor
  · rintro ⟨l, hl, hk⟩
    obtain ⟨b, hb, rfl⟩ := List.mem_map.mp hl
    obtain ⟨a, ha⟩ := List.mem_iff_getElem?.mp hb
    obtain ⟨i, _, hi⟩ := hcov a (lt_length_of_getElem? ha)
    obtain ⟨j, hj, hkj⟩ := (xt_mem_bucket_keys b k).mp hk
    exact ⟨i, a, b, j, ⟨hi, ha⟩, hj, hkj⟩
  · rintro ⟨i, a, b, j, hp, hj, hkj⟩
    exact ⟨bucket_keys b, List.mem_map.mpr ⟨b, List.mem_iff_getElem?.mpr ⟨a, hp.2⟩, rfl⟩,
      (xt_mem_bucket_keys b k).mpr ⟨j, hj, hkj⟩⟩

theorem xt_tally_new (bucketsize : Nat) (hash : Nat → Int) :
    Tally (new_xtndbln_specified_hash_table bucketsize hash) := by
  refine ⟨xt_new_inv bucketsize hash, fun a ha => ?_, ?_, ?_⟩
  · have : a < 1 := ha
    exact ⟨0, Nat.zero_lt_one, by
      have : a = 0 := by omega
      subst this
      rfl⟩
  · simp [all_keys, new_xtndbln_specified_hash_table, new_xtndbln_hash_table, bucket_keys,
      get_new_bucket]
  · simp [all_keys, new_xtndbln_specified_hash_table, new_xtndbln_hash_table, bucket_keys,
      get_new_bucket]

theorem xt_bucket_keys_pushed (b : Bucket) (k : Nat) (h : b.nkeys < b.keys.length) :
    bucket_keys (pushed b k) = bucket_keys b ++ [k] := by
  unfold bucket_keys pushed
  simp only
  apply List.ext_getElem?
  intro j
  rw [List.getElem?_take, List.getElem?_append, List.getElem?_set, List.length_take,
    List.getElem?_take]
  have hmin : min b.nkeys b.keys.length = b.nkeys := by omega
  rw [hmin]
  by_cases h1 : j < b.nkeys
  · rw [if_pos (by omega), if_neg (by omega), if_pos h1, if_pos h1]
  · by_cases h2 : j = b.nkeys
    · subst h2
      rw [if_pos (by omega), if_pos rfl, if_pos h, if_neg (by omega)]
      simp
    · rw [if_neg (by omega), if_neg h1]
      have : j - b.nkeys ≠ 0 := by omega
      cases hj : j - b.nkeys with
      | zero => omega
      | succ m => simp

/-- Appending an absent key to the bucket it addresses keeps the tally. -/
theorem xt_tally_push {t : XtndblNHashTable} (ht : Tally t) (key a : Nat) (b : Bucket)
    (hns : ¬ stored t key) (hp : points t (get_bit_trail (t.hash key) t.depth) a b)
    (hroom : b.nkeys < t.bucketsize) :
    Tally { t with heap := t.heap.set a (pushed b key), nitems := t.nitems + 1 } ∧
      (all_keys { t with heap := t.heap.set a (pushed b key), nitems := t.nitems + 1 }).Perm
        (key :: all_keys t) := by
  obtain ⟨_, hinv2, _⟩ := xt_insert_room 0 0 t ht.inv key a b hns hp hroom
  obtain ⟨a0, b0, hp0, hg⟩ := xt_home ht.inv (t.hash key)
  obtain ⟨rfl, rfl⟩ := xt_points_unique hp hp0
  obtain ⟨X, h1, h2⟩ := flatten_set_perm bucket_keys t.heap a b (pushed b key) hp.2
  rw [xt_bucket_keys_pushed b key (by rw [hg.keys_len]; exact hroom)] at h2
  have hperm : (all_keys { t with heap := t.heap.set a (pushed b key), nitems := t.nitems + 1 }).Perm
      (key :: all_keys t) := by
    show ((t.heap.set a (pushed b key)).map bucket_keys).flatten.Perm _
    refine h2.trans (List.Perm.trans ?_ (List.Perm.cons key h1.symm))
    rw [List.append_assoc]
    exact List.perm_middle
  refine ⟨⟨hinv2, fun c hc => ?_, ?_, ?_⟩, hperm⟩
  · have hc2 : c < t.heap.length := by
      have : c < (t.heap.set a (pushed b key)).length := hc
      rwa [List.length_set] at this
    exact ht.covered c hc2
  · rw [hperm.nodup_iff, List.nodup_cons]
    exact ⟨fun h => hns ((xt_mem_all_keys ht.covered key).mp h), ht.nodup⟩
  · show t.nitems + 1 = _
    rw [hperm.length_eq, List.length_cons, ht.count]

theorem xt_bucket_keys_set (b : Bucket) (idx key : Nat) :
    bucket_keys { b with keys := b.keys.set idx key } = (bucket_keys b).set idx key := by
  unfold bucket_keys
  simp only
  apply List.ext_getElem?
  intro j
  rw [List.getElem?_take, List.getElem?_set, List.getElem?_set, List.getElem?_take,
    List.length_take]
  by_cases h1 : j < b.nkeys
  · by_cases h2 : idx = j
    · subst h2
      by_cases h3 : idx < b.keys.length
      · rw [if_pos h1, if_pos rfl, if_pos h3, if_pos rfl, if_pos (by omega)]
      · rw [if_pos h1, if_pos rfl, if_neg h3, if_pos rfl, if_neg (by omega)]
    · rw [if_pos h1, if_neg h2, if_neg h2, if_pos h1]
  · rw [if_neg h1]
    by_cases h2 : idx = j
    · subst h2
      rw [if_pos rfl, if_neg (by omega)]
    · rw [if_neg h2, if_neg h1]

/-- A random swap that puts an absent key into the table keeps the tally: the
key takes the place of the evicted key in the list of keys. -/
theorem xt_tally_swap {t t2 : XtndblNHashTable} (ht : Tally t) (key rnd e : Nat)
    (hns : ¬ stored t key) (h : xtndbln_hash_table_rand_swap t key rnd = Res.ret (t2, e)) :
    Tally t2 ∧ t2.nitems = t.nitems ∧
      ∃ Y, (all_keys t).Perm (e :: Y) ∧ (all_keys t2).Perm (key :: Y) := by
  obtain ⟨a, b, hp, hg⟩ := xt_home ht.inv (t.hash key)
  by_cases hn : 0 < b.nkeys
  · obtain ⟨e0, he, hidx2, ha, heq, _⟩ := xt_rand_swap_exact t ht.inv key rnd a b hp hn
    have hinv2 := xt_rand_swap_inv t ht.inv key rnd _ heq
    rw [heq] at h
    simp only [Res.ret.injEq, Prod.mk.injEq] at h
    obtain ⟨rfl, rfl⟩ := h
    have hidx : rnd % b.nkeys < b.nkeys := Nat.mod_lt _ hn
    have hbk : (bucket_keys b)[rnd % b.nkeys]? = some e0 := by
      unfold bucket_keys
      rw [List.getElem?_take, if_pos hidx]
      exact he
    obtain ⟨Y0, y1, y2⟩ := set_perm (bucket_keys b) (rnd % b.nkeys) e0 key hbk
    obtain ⟨X, h1, h2⟩ := flatten_set_perm bucket_keys t.heap a b
      { b with keys := b.keys.set (rnd % b.nkeys) key } hp.2
    rw [xt_bucket_keys_set] at h2
    have p1 : (all_keys t).Perm (e0 :: (Y0 ++ X)) :=
      h1.trans (List.Perm.append_right X y1)
    have p2 : (all_keys (swapped t a b (rnd % b.nkeys) key)).Perm (key :: (Y0 ++ X)) :=
      h2.trans (List.Perm.append_right X y2)
    have hnd : (e0 :: (Y0 ++ X)).Nodup := p1.nodup_iff.mp ht.nodup
    have hkey : key ∉ all_keys t := fun hm => hns ((xt_mem_all_keys ht.covered key).mp hm)
    refine ⟨⟨hinv2, fun c hc => ?_, ?_, ?_⟩, rfl, Y0 ++ X, p1, p2⟩
    · have hc2 : c < t.heap.length := by
        have : c < (t.heap.set a { b with keys := b.keys.set (rnd % b.nkeys) key }).length := hc
        rwa [List.length_set] at this
      exact ht.covered c hc2
    · rw [p2.nodup_iff, List.nodup_cons]
      exact ⟨fun hm => hkey (p1.mem_iff.mpr (List.mem_cons_of_mem _ hm)),
        (List.nodup_cons.mp hnd).2⟩
    · show t.nitems = _
      rw [p2.length_eq, ht.count, p1.length_eq]
      rfl
  · unfold xtndbln_hash_table_rand_swap at h
    rw [xt_bucket_at_eq hp, Res.bind_ret] at h
    simp only at h
    rw [if_pos (by omega)] at h
    cases h

end Xtndbln

namespace Xtndbln

theorem xt_all_keys_heap {t t1 : XtndblNHashTable} (h : t1.heap = t.heap) :
    all_keys t1 = all_keys t := by
  unfold all_keys
  rw [h]

/-- The two halves of a split bucket hold the keys of the bucket, each once. -/
theorem xt_halves_perm {t1 : XtndblNHashTable} {old A B : Bucket}
    (hh : Halves t1 old t1.bucketsize A B) (hfull : old.nkeys = t1.bucketsize)
    (hlen : old.keys.length = t1.bucketsize) (hnd : (bucket_keys old).Nodup) :
    (bucket_keys A ++ bucket_keys B).Perm (bucket_keys old) := by
  have hsub : bucket_keys old ⊆ bucket_keys A ++ bucket_keys B := by
    intro k hk
    obtain ⟨m, hm, hmk⟩ := (xt_mem_bucket_keys old k).mp hk
    rw [List.mem_append, xt_mem_bucket_keys, xt_mem_bucket_keys]
    exact hh.cover m k (by omega) hmk
  have hl : (bucket_keys A ++ bucket_keys B).length ≤ (bucket_keys old).length := by
    unfold bucket_keys
    rw [List.length_append, List.length_take, List.length_take, List.length_take]
    have h1 := hh.a_len
    have h2 := hh.b_len
    have h3 := hh.count
    omega
  exact ((hnd.subperm hsub).perm_of_length_le hl).symm

/-- A split that succeeds keeps the tally and the keys. -/
theorem xt_tally_split (MAX : Nat) {t t2 : XtndblNHashTable} (ht : Tally t) (bi a : Nat)
    (old : Bucket) (hp : points t bi a old) (hfull : old.nkeys = t.bucketsize)
    (h : split_bucket MAX t bi = Res.ret (t2, true)) :
    Tally t2 ∧ (all_keys t2).Perm (all_keys t) ∧ t2.nitems = t.nitems := by
  have hinv2 : XInv t2 := by
    rcases xt_split_spec MAX t ht.inv bi a old hp hfull with ⟨_, _, h0⟩ | ⟨t3, h3, hinv3, _⟩
    · rw [h0] at h
      simp at h
    · rw [h3] at h
      simp only [Res.ret.injEq, Prod.mk.injEq, and_true] at h
      rw [← h]
      exact hinv3
  obtain ⟨t1, bks, hgr, hctx, hred⟩ := xt_split_detail MAX t ht.inv bi a old hp hfull t2 h
  obtain ⟨A, B, hA, hB, hh⟩ := hred.halves
  obtain ⟨_, _, hp1, hg1⟩ := hctx.inv.slot bi (xt_points_lt hctx.inv hctx.pts)
  obtain ⟨rfl, rfl⟩ := xt_points_unique hctx.pts hp1
  have ha : a < t1.heap.length := lt_length_of_getElem? hctx.pts.2
  have hheap : t2.heap = t1.heap.set a A ++ [B] := by
    apply List.ext_getElem?
    intro c
    by_cases hc : c < t1.heap.length
    · rw [List.getElem?_append_left (by rw [List.length_set]; exact hc)]
      by_cases hca : c = a
      · subst hca
        rw [hA, List.getElem?_set_self hc]
      · rw [hred.heap_other c hca hc, List.getElem?_set_ne (fun e => hca e.symm)]
    · by_cases hc2 : c = t1.heap.length
      · subst hc2
        rw [hB, List.getElem?_append_right (by rw [List.length_set]), List.length_set]
        simp
      · rw [List.getElem?_eq_none (by rw [hred.heap_len]; omega),
          List.getElem?_eq_none (by simp; omega)]
  obtain ⟨X, x1, x2⟩ := flatten_set_perm bucket_keys t1.heap a old A hctx.pts.2
  have hall1 : all_keys t1 = all_keys t := xt_all_keys_heap hgr.heap_eq
  have hnd1 : (all_keys t1).Nodup := by rw [hall1]; exact ht.nodup
  have hndo : (bucket_keys old).Nodup :=
    List.Nodup.of_append_left ((x1.nodup_iff).mp hnd1)
  have hhp := xt_halves_perm hh hctx.full hg1.keys_len hndo
  have hperm : (all_keys t2).Perm (all_keys t) := by
    rw [← hall1]
    unfold all_keys
    rw [hheap, List.map_append, List.flatten_append]
    simp only [List.map_cons, List.map_nil, List.flatten_cons, List.flatten_nil,
      List.append_nil]
    refine List.Perm.trans ?_ x1.symm
    refine (List.Perm.append_right _ x2).trans ?_
    rw [List.append_assoc]
    refine (List.Perm.append_left _ (List.perm_append_comm)).trans ?_
    rw [← List.append_assoc]
    exact List.Perm.append_right X hhp
  have hnit : t2.nitems = t.nitems := by rw [hred.nitems_eq, hgr.nitems_eq]
  have hidlt : old.id < 2 ^ old.depth := by
    rw [← hg1.id_eq]; exact Nat.mod_lt _ (Nat.two_pow_pos _)
  have hpow : 2 ^ (old.depth + 1) ≤ 2 ^ t1.depth :=
    Nat.pow_le_pow_right (by decide) hctx.spare
  have hpow2 : 2 ^ (old.depth + 1) = 2 ^ old.depth * 2 := pow_succ 2 old.depth
  have hsize1 := hctx.inv.size_eq
  refine ⟨⟨hinv2, fun c hc => ?_, ?_, ?_⟩, hperm, hnit⟩
  · rw [hred.heap_len] at hc
    rw [hred.size_eq, hred.buckets_eq]
    by_cases hc2 : c = t1.heap.length
    · subst hc2
      exact ⟨old.id + 2 ^ old.depth, by omega,
        hctx.bks_new _ (by omega) (Nat.mod_eq_of_lt (by omega))⟩
    · by_cases hca : c = a
      · subst hca
        refine ⟨old.id, by omega, ?_⟩
        rw [hctx.bks_old _ (by rw [Nat.mod_eq_of_lt (by omega)]; have := Nat.two_pow_pos old.depth; omega)]
        exact hctx.inv.share bi old.id c old (by omega) hctx.pts (Nat.mod_eq_of_lt hidlt)
      · have hc3 : c < t.heap.length := by rw [← hgr.heap_eq]; omega
        obtain ⟨i0, hi0, hb0⟩ := ht.covered c hc3
        have hi1 : i0 < t1.size := by
          rcases hgr.cases with ⟨e, _, _⟩ | ⟨e, _, _, _⟩ <;> omega
        have hb1 : t1.buckets[i0]? = some (some c) := by
          rw [hgr.dir i0 hi1, Nat.mod_eq_of_lt hi0]
          exact hb0
        refine ⟨i0, hi1, ?_⟩
        rw [hctx.bks_old _ (fun hmod => ?_)]
        · exact hb1
        · have hm := xt_mod_of_succ i0 old.depth old.id (Or.inr hmod) hidlt
          have hsh := hctx.inv.share bi i0 a old hi1 hctx.pts hm
          rw [hb1] at hsh
          exact hca (Option.some.inj (Option.some.inj hsh))
  · exact hperm.nodup_iff.mpr ht.nodup
  · rw [hnit, hperm.length_eq]
    exact ht.count

/-- The splitting loop of insert keeps the tally and the keys. -/
theorem xt_tally_split_loop (MAX : Nat) (kh : Int) :
    ∀ fuel (t t2 : XtndblNHashTable) (a : Nat), Tally t →
      split_loop MAX kh fuel t = Res.ret (t2, a) →
      Tally t2 ∧ (all_keys t2).Perm (all_keys t) ∧ t2.nitems = t.nitems ∧ t2.hash = t.hash ∧
        ∃ b, points t2 (get_bit_trail kh t2.depth) a b ∧ b.nkeys < t2.bucketsize := by
  intro fuel
  induction fuel with
  | zero =>
    intro t t2 a ht h
    obtain ⟨a0, b0, hp, hg⟩ := xt_home ht.inv kh
    rw [split_loop, xt_bucket_at_eq hp, Res.bind_ret] at h
    simp only at h
    by_cases hf : b0.nkeys = t.bucketsize
    · rw [if_pos hf] at h
      cases h
    · rw [if_neg hf] at h
      simp only [Res.ret.injEq, Prod.mk.injEq] at h
      obtain ⟨rfl, rfl⟩ := h
      exact ⟨ht, List.Perm.refl _, rfl, rfl, b0, hp, Nat.lt_of_le_of_ne hg.nkeys_le hf⟩
  | succ fuel ih =>
    intro t t2 a ht h
    obtain ⟨a0, b0, hp, hg⟩ := xt_home ht.inv kh
    rw [split_loop, xt_bucket_at_eq hp, Res.bind_ret] at h
    simp only at h
    by_cases hf : b0.nkeys = t.bucketsize
    · rw [if_pos hf] at h
      rcases xt_split_spec MAX t ht.inv _ a0 b0 hp hf with
        ⟨_, _, h0⟩ | ⟨t1, h1, _, _, f1, _, _⟩
      · rw [h0, Res.bind_ret] at h
        exact ih t t2 a ht h
      · rw [h1, Res.bind_ret] at h
        obtain ⟨ht1, p1, n1⟩ := xt_tally_split MAX ht _ a0 b0 hp hf h1
        obtain ⟨ht2, p2, n2, g2, hb⟩ := ih t1 t2 a ht1 h
        exact ⟨ht2, p2.trans p1, by rw [n2, n1], by rw [g2, f1], hb⟩
    · rw [if_neg hf] at h
      simp only [Res.ret.injEq, Prod.mk.injEq] at h
      obtain ⟨rfl, rfl⟩ := h
      exact ⟨ht, List.Perm.refl _, rfl, rfl, b0, hp, Nat.lt_of_le_of_ne hg.nkeys_le hf⟩

/-- An insertion that returns keeps the tally: it refuses a key that is held,
or adds an absent key to the list of keys and to `nitems`. -/
theorem xt_tally_insert (MAX fuel : Nat) {t t2 : XtndblNHashTable} {b : Bool} (ht : Tally t)
    (key : Nat) (h : xtndbln_hash_table_insert MAX fuel t key = Res.ret (t2, b)) :
    Tally t2 ∧
      (b = false → t2 = t ∧ stored t key) ∧
      (b = true → ¬ stored t key ∧ t2.nitems = t.nitems + 1 ∧
        (all_keys t2).Perm (key :: all_keys t)) := by
  unfold xtndbln_hash_table_insert at h
  rcases xt_lookup_spec ht.inv key with ⟨hl, hs⟩ | ⟨hl, hs⟩
  · rw [hl, Res.bind_ret] at h
    simp only [if_true, Res.ret.injEq, Prod.mk.injEq] at h
    obtain ⟨rfl, rfl⟩ := h
    exact ⟨ht, fun _ => ⟨rfl, hs⟩, fun hb => by cases hb⟩
  · rw [hl, Res.bind_ret] at h
    simp only [Bool.false_eq_true, if_false] at h
    rw [Res.bind_eq_ret] at h
    obtain ⟨r, hr, h⟩ := h
    obtain ⟨ht1, p1, n1, g1, b1, hp1, hroom⟩ :=
      xt_tally_split_loop MAX (t.hash key) fuel t r.1 r.2 ht hr
    obtain ⟨_, _, hp0, hg⟩ := xt_home ht1.inv (t.hash key)
    obtain ⟨rfl, rfl⟩ := xt_points_unique hp1 hp0
    have ha : r.2 < r.1.heap.length := lt_length_of_getElem? hp1.2
    have hns1 : ¬ stored r.1 key := by
      intro hst
      exact hs ((xt_mem_all_keys ht.covered key).mp
        (p1.mem_iff.mp ((xt_mem_all_keys ht1.covered key).mpr hst)))
    rw [rd_of_getElem? hp1.2, Res.bind_ret,
      xt_write_to_bucket_eq b1 key (by rw [hg.keys_len]; exact hroom), Res.bind_ret,
      wr_of_lt _ ha, Res.bind_ret] at h
    simp only [Res.ret.injEq, Prod.mk.injEq] at h
    obtain ⟨rfl, rfl⟩ := h
    obtain ⟨ht2, p2⟩ := xt_tally_push ht1 key r.2 b1 hns1 (by rw [g1]; exact hp1) hroom
    refine ⟨ht2, fun hb => (by cases hb), fun _ => ⟨hs, ?_, ?_⟩⟩
    · show r.1.nitems + 1 = _
      rw [n1]
    · exact p2.trans (List.Perm.cons key p1)

end Xtndbln

namespace Xtndbln

theorem xt_reinsert_key_frame {t t2 : XtndblNHashTable} {k : Nat}
    (h : reinsert_key t k = Res.ret t2) : t2.size = t.size ∧ t2.depth = t.depth := by
  unfold reinsert_key at h
  simp only [Res.bind_eq_ret] at h
  obtain ⟨r, _, b, _, hp, _, h⟩ := h
  cases h
  exact ⟨rfl, rfl⟩

theorem xt_reinsert_loop_frame (a : Nat) :
    ∀ n ix (t t2 : XtndblNHashTable), reinsert_loop a n ix t = Res.ret t2 →
      t2.size = t.size ∧ t2.depth = t.depth := by
  intro n
  induction n with
  | zero =>
    intro ix t t2 h
    simp only [reinsert_loop, Res.ret.injEq] at h
    subst h
    exact ⟨rfl, rfl⟩
  | succ n ih =>
    intro ix t t2 h
    rw [reinsert_loop] at h
    simp only [Res.bind_eq_ret] at h
    obtain ⟨ob, _, k, _, t1, h1, h⟩ := h
    obtain ⟨e1, e2⟩ := xt_reinsert_key_frame h1
    obtain ⟨e3, e4⟩ := ih (ix + 1) t1 t2 h
    exact ⟨by rw [e3, e1], by rw [e4, e2]⟩

/-- The split proper leaves the size and the depth of the directory. -/
theorem xt_split_body_frame {t : XtndblNHashTable} {bi : Nat} {r : XtndblNHashTable × Bool}
    (h : split_bucket_body t bi = Res.ret r) : r.1.size = t.size ∧ r.1.depth = t.depth := by
  unfold split_bucket_body at h
  rw [Res.bind_eq_ret] at h
  obtain ⟨r0, _, h⟩ := h
  simp only at h
  split at h
  · cases h
  · rw [Res.bind_eq_ret] at h
    obtain ⟨hp1, _, h⟩ := h
    split at h
    · cases h
    · simp only [Res.bind_eq_ret] at h
      obtain ⟨bks, _, ob, _, hp3, _, t2, h2, h⟩ := h
      cases h
      have hf := xt_reinsert_loop_frame _ _ _ _ _ h2
      exact hf

/-- The doubling leaves the table as it is or doubles the size and raises the
depth by one. -/
theorem xt_double_frame {MAX : Nat} {t : XtndblNHashTable} {r : XtndblNHashTable × Bool}
    (h : double_table MAX t = Res.ret r) :
    (r.1.size = t.size ∧ r.1.depth = t.depth) ∨
      (r.1.size = t.size * 2 ∧ r.1.depth = t.depth + 1) := by
  unfold double_table at h
  split at h
  · cases h
    exact Or.inl ⟨rfl, rfl⟩
  · split at h
    · cases h
    · cases h
      exact Or.inr ⟨rfl, rfl⟩

theorem xt_split_frame {MAX : Nat} {t : XtndblNHashTable} {bi : Nat}
    {r : XtndblNHashTable × Bool} (h : split_bucket MAX t bi = Res.ret r) :
    t.size ≤ r.1.size ∧ t.depth ≤ r.1.depth := by
  unfold split_bucket at h
  simp only [Res.bind_eq_ret] at h
  obtain ⟨r0, _, d, hd, h⟩ := h
  have hd2 : t.size ≤ d.1.size ∧ t.depth ≤ d.1.depth := by
    split at hd
    · rcases xt_double_frame hd with ⟨e1, e2⟩ | ⟨e1, e2⟩ <;> omega
    · cases hd
      exact ⟨Nat.le_refl _, Nat.le_refl _⟩
  split at h
  · cases h
    exact hd2
  · obtain ⟨e1, e2⟩ := xt_split_body_frame h
    omega

theorem xt_split_loop_frame (MAX : Nat) (kh : Int) :
    ∀ fuel (t : XtndblNHashTable) (r : XtndblNHashTable × Nat),
      split_loop MAX kh fuel t = Res.ret r → t.size ≤ r.1.size ∧ t.depth ≤ r.1.depth := by
  intro fuel
  induction fuel with
  | zero =>
    intro t r h
    rw [split_loop, Res.bind_eq_ret] at h
    obtain ⟨r0, _, h⟩ := h
    split at h
    · cases h
    · cases h
      exact ⟨Nat.le_refl _, Nat.le_refl _⟩
  | succ fuel ih =>
    intro t r h
    rw [split_loop, Res.bind_eq_ret] at h
    obtain ⟨r0, _, h⟩ := h
    split at h
    · rw [Res.bind_eq_ret] at h
      obtain ⟨s, hs, h⟩ := h
      obtain ⟨e1, e2⟩ := xt_split_frame hs
      obtain ⟨e3, e4⟩ := ih s.1 r h
      omega
    · cases h
      exact ⟨Nat.le_refl _, Nat.le_refl _⟩

/-- An insertion never lowers the size or the depth of the directory. -/
theorem xt_insert_frame {MAX fuel : Nat} {t : XtndblNHashTable} {key : Nat}
    {r : XtndblNHashTable × Bool} (h : xtndbln_hash_table_insert MAX fuel t key = Res.ret r) :
    t.size ≤ r.1.size ∧ t.depth ≤ r.1.depth := by
  unfold xtndbln_hash_table_insert at h
  rw [Res.bind_eq_ret] at h
  obtain ⟨found, _, h⟩ := h
  split at h
  · cases h
    exact ⟨Nat.le_refl _, Nat.le_refl _⟩
  · simp only [Res.bind_eq_ret] at h
    obtain ⟨r1, h1, bucket, _, b, _, hp, _, h⟩ := h
    cases h
    exact xt_split_loop_frame MAX _ fuel t r1 h1

/-- A random swap leaves the directory as it is. -/
theorem xt_rand_swap_frame {t : XtndblNHashTable} {key rnd : Nat}
    {r : XtndblNHashTable × Nat} (h : xtndbln_hash_table_rand_swap t key rnd = Res.ret r) :
    r.1.size = t.size ∧ r.1.depth = t.depth ∧ r.1.buckets = t.buckets := by
  unfold xtndbln_hash_table_rand_swap at h
  rw [Res.bind_eq_ret] at h
  obtain ⟨r0, _, h⟩ := h
  split at h
  · cases h
  · simp only [Res.bind_eq_ret] at h
    obtain ⟨s, _, hp, _, h⟩ := h
    cases h
    exact ⟨rfl, rfl, rfl⟩

end Xtndbln

section

open Xtndbln

/-- C35. Directory size is a power of two and only grows:
`new_xtndbln_hash_table` makes a table of depth 0 and size 1 whose only slot
points to an empty bucket of id 0 and depth 0; in every table reached from a
new one by insertions and random swaps, `size = 2 ^ depth`; an insertion that
returns leaves a depth and a size that are not lower, a random swap leaves
them as they are, and neither `double_table` nor `split_bucket` lowers
them. -/
theorem xtndbln_size_power_of_two (MAX_TABLE_SIZE bucketsize : Nat) (hash : Nat → Int)
    (t : XtndblNHashTable) (hreach : Reach MAX_TABLE_SIZE bucketsize hash t) :
    ((new_xtndbln_hash_table bucketsize).depth = 0 ∧
      (new_xtndbln_hash_table bucketsize).size = 1 ∧
      bucket_at (new_xtndbln_hash_table bucketsize) 0
        = Res.ret (0, ⟨0, 0, 0, List.replicate bucketsize 0⟩)) ∧
    t.size = 2 ^ t.depth ∧
    (∀ fuel key r, xtndbln_hash_table_insert MAX_TABLE_SIZE fuel t key = Res.ret r →
      t.depth ≤ r.1.depth ∧ t.size ≤ r.1.size ∧ r.1.size = 2 ^ r.1.depth) ∧
    (∀ key rnd r, xtndbln_hash_table_rand_swap t key rnd = Res.ret r →
      r.1.depth = t.depth ∧ r.1.size = t.size) ∧
    (∀ r, double_table MAX_TABLE_SIZE t = Res.ret r →
      t.depth ≤ r.1.depth ∧ t.size ≤ r.1.size) ∧
    (∀ bi r, split_bucket MAX_TABLE_SIZE t bi = Res.ret r →
      t.depth ≤ r.1.depth ∧ t.size ≤ r.1.size) := by
  have hinv := (xt_reach_inv hreach).1
  refine ⟨⟨rfl, rfl, rfl⟩, hinv.size_eq, fun fuel key r h => ?_, fun key rnd r h => ?_,
    fun r h => ?_, fun bi r h => ?_⟩
  · obtain ⟨e1, e2⟩ := xt_insert_frame h
    exact ⟨e2, e1, (xt_insert_inv MAX_TABLE_SIZE fuel t hinv key r h).size_eq⟩
  · obtain ⟨e1, e2, _⟩ := xt_rand_swap_frame h
    exact ⟨e2, e1⟩
  · rcases xt_double_frame h with ⟨e1, e2⟩ | ⟨e1, e2⟩ <;> omega
  · obtain ⟨e1, e2⟩ := xt_split_frame h
    exact ⟨e2, e1⟩

/-- Witness for C35: the table reached by inserting 0 and 1 with buckets of one
key. -/
theorem xtndbln_size_power_of_two_witness :
    ((new_xtndbln_hash_table 1).depth = 0 ∧
      (new_xtndbln_hash_table 1).size = 1 ∧
      bucket_at (new_xtndbln_hash_table 1) 0
        = Res.ret (0, ⟨0, 0, 0, List.replicate 1 0⟩)) ∧
    (after_insert 64 10 (after_insert 64 10
        (new_xtndbln_specified_hash_table 1 (fun k => (h1 k : Int))) 0) 1).size = 2 ^ (after_insert 64 10 (after_insert 64 10
        (new_xtndbln_specified_hash_table 1 (fun k => (h1 k : Int))) 0) 1).depth ∧
    (∀ fuel key r, xtndbln_hash_table_insert 64 fuel (after_insert 64 10 (after_insert 64 10
        (new_xtndbln_specified_hash_table 1 (fun k => (h1 k : Int))) 0) 1) key = Res.ret r →
      (after_insert 64 10 (after_insert 64 10
        (new_xtndbln_specified_hash_table 1 (fun k => (h1 k : Int))) 0) 1).depth ≤ r.1.depth ∧ (after_insert 64 10 (after_insert 64 10
        (new_xtndbln_specified_hash_table 1 (fun k => (h1 k : Int))) 0) 1).size ≤ r.1.size ∧ r.1.size = 2 ^ r.1.depth) ∧
    (∀ key rnd r, xtndbln_hash_table_rand_swap (after_insert 64 10 (after_insert 64 10
        (new_xtndbln_specified_hash_table 1 (fun k => (h1 k : Int))) 0) 1) key rnd = Res.ret r →
      r.1.depth = (after_insert 64 10 (after_insert 64 10
        (new_xtndbln_specified_hash_table 1 (fun k => (h1 k : Int))) 0) 1).depth ∧ r.1.size = (after_insert 64 10 (after_insert 64 10
        (new_xtndbln_specified_hash_table 1 (fun k => (h1 k : Int))) 0) 1).size) ∧
    (∀ r, double_table 64 (after_insert 64 10 (after_insert 64 10
        (new_xtndbln_specified_hash_table 1 (fun k => (h1 k : Int))) 0) 1) = Res.ret r →
      (after_insert 64 10 (after_insert 64 10
        (new_xtndbln_specified_hash_table 1 (fun k => (h1 k : Int))) 0) 1).depth ≤ r.1.depth ∧ (after_insert 64 10 (after_insert 64 10
        (new_xtndbln_specified_hash_table 1 (fun k => (h1 k : Int))) 0) 1).size ≤ r.1.size) ∧
    (∀ bi r, split_bucket 64 (after_insert 64 10 (after_insert 64 10
        (new_xtndbln_specified_hash_table 1 (fun k => (h1 k : Int))) 0) 1) bi = Res.ret r →
      (after_insert 64 10 (after_insert 64 10
        (new_xtndbln_specified_hash_table 1 (fun k => (h1 k : Int))) 0) 1).depth ≤ r.1.depth ∧ (after_insert 64 10 (after_insert 64 10
        (new_xtndbln_specified_hash_table 1 (fun k => (h1 k : Int))) 0) 1).size ≤ r.1.size) :=
  xtndbln_size_power_of_two 64 1 (fun k => (h1 k : Int)) _
    (xt_reach_after 64 1 _ _ (xt_reach_after 64 1 _ _ Reach.init 10 0) 10 1)

/-- C39. Bucket ids fit their depth: in every table reached from a new one by
insertions and random swaps, every bucket `b` of the directory satisfies
`id < 2 ^ depth` (ids are natural numbers), so bit `depth` of its id is clear
and the sibling id `id | pow2(depth)` computed by `split_bucket` equals
`id + pow2(depth)`: the assertion holds, and `split_bucket` on a full bucket
returns. -/
theorem xtndbln_bucket_ids_fit (MAX_TABLE_SIZE bucketsize : Nat) (hash : Nat → Int)
    (t : XtndblNHashTable) (hreach : Reach MAX_TABLE_SIZE bucketsize hash t) (i a : Nat)
    (b : Bucket) (hb : bucket_at t i = Res.ret (a, b)) :
    b.id < 2 ^ b.depth ∧ b.id.testBit b.depth = false ∧
    b.id ||| pow2 b.depth = b.id + pow2 b.depth ∧
    (b.nkeys = t.bucketsize → ∃ r, split_bucket MAX_TABLE_SIZE t i = Res.ret r) := by
  have hinv := (xt_reach_inv hreach).1
  have hp : points t i a b := xt_bucket_at_ret hb
  obtain ⟨_, _, hp0, hg⟩ := hinv.slot i (xt_points_lt hinv hp)
  obtain ⟨rfl, rfl⟩ := xt_points_unique hp hp0
  have hid : b.id < 2 ^ b.depth := by
    rw [← hg.id_eq]; exact Nat.mod_lt _ (Nat.two_pow_pos _)
  refine ⟨hid, Nat.testBit_lt_two_pow hid, xt_lor_pow2 _ _ hid, fun hfull => ?_⟩
  rcases xt_split_spec MAX_TABLE_SIZE t hinv i a b hp hfull with ⟨_, _, h⟩ | ⟨t2, h, _⟩
  · exact ⟨_, h⟩
  · exact ⟨_, h⟩

/-- Witness for C39: the bucket of slot 1 of the table reached by inserting 0
and 1 with buckets of one key. -/
theorem xtndbln_bucket_ids_fit_witness :
    (1 : Nat) < 2 ^ 1 ∧ (1 : Nat).testBit 1 = false ∧
    1 ||| pow2 1 = 1 + pow2 1 ∧
    ((1 : Nat) = (after_insert 64 10 (after_insert 64 10
        (new_xtndbln_specified_hash_table 1 (fun k => (h1 k : Int))) 0) 1).bucketsize → ∃ r, split_bucket 64 (after_insert 64 10 (after_insert 64 10
        (new_xtndbln_specified_hash_table 1 (fun k => (h1 k : Int))) 0) 1) 1 = Res.ret r) :=
  xtndbln_bucket_ids_fit 64 1 (fun k => (h1 k : Int)) _
    (xt_reach_after 64 1 _ _ (xt_reach_after 64 1 _ _ Reach.init 10 0) 10 1) 1 1
    ⟨1, 1, 1, [0]⟩ (by decide!)

end

namespace Xtndbln

theorem xt_bind_assoc {α β γ : Type} (x : Res α) (f : α → Res β) (g : β → Res γ) :
    (x.bind f).bind g = x.bind fun a => (f a).bind g := by
  cases x <;> rfl

/-- Function `reinsert_key_traced` computes the table of `reinsert_key`. -/
theorem xt_reinsert_key_traced_eq (t : XtndblNHashTable) (k : Nat) :
    ((reinsert_key_traced t k).bind fun r => Res.ret r.1) = reinsert_key t k := by
  unfold reinsert_key_traced reinsert_key
  simp only [xt_bind_assoc, Res.bind_ret]

/-- The traced reinsertion loop computes the table of `reinsert_loop`. -/
theorem xt_reinsert_loop_traced_eq (a : Nat) :
    ∀ n ix t ev,
      ((reinsert_loop_traced a n ix t ev).bind fun r => Res.ret r.1) = reinsert_loop a n ix t := by
  intro n
  induction n with
  | zero => intro ix t ev; rfl
  | succ n ih =>
    intro ix t ev
    rw [reinsert_loop_traced, reinsert_loop]
    simp only [xt_bind_assoc]
    congr 1; funext ob
    congr 1; funext k
    rw [← xt_reinsert_key_traced_eq, xt_bind_assoc]
    congr 1; funext r
    rw [Res.bind_ret]
    exact ih _ _ _

/-- The traced split computes the result of `split_bucket_body`. -/
theorem xt_split_body_traced_eq (t : XtndblNHashTable) (bi : Nat) :
    ((split_bucket_body_traced t bi).bind fun r => Res.ret (r.1, r.2.1))
      = split_bucket_body t bi := by
  unfold split_bucket_body_traced split_bucket_body
  rw [xt_bind_assoc]
  congr 1; funext r
  simp only
  split
  · rfl
  · rw [xt_bind_assoc]
    congr 1; funext hp1
    split
    · rfl
    · rw [xt_bind_assoc]
      congr 1; funext bks
      rw [xt_bind_assoc]
      congr 1; funext ob
      rw [xt_bind_assoc]
      congr 1; funext hp3
      rw [xt_bind_assoc, ← xt_reinsert_loop_traced_eq _ _ _ _ [], xt_bind_assoc]
      congr 1

/-- The traced `split_bucket` computes the result of `split_bucket`. -/
theorem xt_split_traced_eq (MAX : Nat) (t : XtndblNHashTable) (bi : Nat) :
    ((split_bucket_traced MAX t bi).bind fun r => Res.ret (r.1, r.2.1))
      = split_bucket MAX t bi := by
  unfold split_bucket_traced split_bucket
  rw [xt_bind_assoc]
  congr 1; funext r0
  rw [xt_bind_assoc]
  congr 1; funext d
  split
  · rfl
  · exact xt_split_body_traced_eq _ _

/-- One iteration of the redistribution, with what it reads and writes: the
key read at position `ix` of the bucket being split is the key the bucket held
there before the split, and it is written in a free cell of the half its hash
addresses. -/
theorem xt_redist_traced_step {t1 : XtndblNHashTable} {bi a : Nat} {old : Bucket}
    {bks : List (Option Nat)} (hctx : SplitCtx t1 bi a old bks) {ix : Nat}
    {t : XtndblNHashTable} (hr : Redist t1 a old bks ix t) (hix : ix < t1.bucketsize) :
    ∃ A k c pos t2, t.heap[a]? = some A ∧ A.keys[ix]? = some k ∧ old.keys[ix]? = some k ∧
      reinsert_key_traced t k = Res.ret (t2, c, pos) ∧ Redist t1 a old bks (ix + 1) t2 ∧
      pos < t1.bucketsize ∧
      ((c = a ∧ get_bit_trail (t1.hash k) (old.depth + 1) = old.id) ∨
        (c = t1.heap.length ∧
          get_bit_trail (t1.hash k) (old.depth + 1) = old.id + 2 ^ old.depth)) := by
  have hinv := hctx.inv
  obtain ⟨a0, old0, hp0, hg⟩ := hinv.slot bi (xt_points_lt hinv hctx.pts)
  obtain ⟨rfl, rfl⟩ := xt_points_unique hctx.pts hp0
  have ha : a < t1.heap.length := lt_length_of_getElem? hctx.pts.2
  obtain ⟨A, B, hA, hB, hh⟩ := hr.halves
  obtain ⟨k, hk⟩ := getElem?_exists old.keys ix (by rw [hg.keys_len]; exact hix)
  have hAk : A.keys[ix]? = some k := by
    rw [hh.rest ix (by have := hh.count; omega), hk]
  have hrout : get_bit_trail (t1.hash k) old.depth = old.id :=
    hg.routed ix k (by rw [hctx.full]; exact hix) hk
  have hidx_lt : get_bit_trail (t1.hash k) t1.depth < t1.size := by
    rw [hinv.size_eq]; exact xt_gbt_lt _ _
  have hmod1 : get_bit_trail (t1.hash k) t1.depth % 2 ^ (old.depth + 1)
      = get_bit_trail (t1.hash k) (old.depth + 1) := xt_gbt_mod _ _ _ hctx.spare
  have hmod0 : get_bit_trail (t1.hash k) t1.depth % 2 ^ old.depth = old.id := by
    rw [xt_gbt_mod _ _ _ (Nat.le_of_lt hctx.spare), hrout]
  have hcases := xt_mod_succ _ _ _ hmod0
  have hnext : ∀ r, reinsert_key_traced t k = Res.ret r → Redist t1 a old bks (ix + 1) r.1 := by
    intro r hrk
    obtain ⟨t2, h2, hr2⟩ := xt_redist_step hctx hr hix 0
    have e1 : reinsert_loop a 1 ix t = Res.ret r.1 := by
      rw [reinsert_loop, rd_of_getElem? hA, Res.bind_ret, rd_of_getElem? hAk, Res.bind_ret,
        ← xt_reinsert_key_traced_eq, hrk, Res.bind_ret, Res.bind_ret]
      rfl
    have e0 : reinsert_loop a 0 (ix + 1) t2 = Res.ret t2 := rfl
    rw [e1, e0] at h2
    have e2 : r.1 = t2 := by injection h2
    rw [e2]
    exact hr2
  rcases hcases with hc | hc
  · have hne : get_bit_trail (t1.hash k) t1.depth % 2 ^ (old.depth + 1)
        ≠ old.id + 2 ^ old.depth := by
      have := Nat.two_pow_pos old.depth
      omega
    have hpt : points t (get_bit_trail (t1.hash k) t1.depth) a A := by
      refine ⟨?_, hA⟩
      rw [hr.buckets_eq, hctx.bks_old _ hne]
      exact hinv.share bi _ a old hidx_lt hctx.pts hmod0
    have hAn : A.nkeys < A.keys.length := by
      rw [hh.a_len]; have := hh.count; omega
    have htr : reinsert_key_traced t k
        = Res.ret ({ t with heap := t.heap.set a (pushed A k) }, a, A.nkeys) := by
      unfold reinsert_key_traced
      rw [hr.hash_eq, hr.depth_eq, xt_bucket_at_eq hpt, Res.bind_ret]
      simp only
      rw [xt_write_to_bucket_eq A k hAn, Res.bind_ret,
        wr_of_lt _ (by rw [hr.heap_len]; omega), Res.bind_ret]
    refine ⟨A, k, a, A.nkeys, _, hA, hAk, hk, htr, hnext _ htr, ?_, Or.inl ⟨rfl, ?_⟩⟩
    · rw [← hh.a_len]; exact hAn
    · rw [← hmod1, hc]
  · have hpt : points t (get_bit_trail (t1.hash k) t1.depth) t1.heap.length B := by
      refine ⟨?_, hB⟩
      rw [hr.buckets_eq]
      exact hctx.bks_new _ hidx_lt hc
    have hBn : B.nkeys < B.keys.length := by
      rw [hh.b_len]; have := hh.count; omega
    have htr : reinsert_key_traced t k
        = Res.ret ({ t with heap := t.heap.set t1.heap.length (pushed B k) },
            t1.heap.length, B.nkeys) := by
      unfold reinsert_key_traced
      rw [hr.hash_eq, hr.depth_eq, xt_bucket_at_eq hpt, Res.bind_ret]
      simp only
      rw [xt_write_to_bucket_eq B k hBn, Res.bind_ret,
        wr_of_lt _ (by rw [hr.heap_len]; omega), Res.bind_ret]
    refine ⟨A, k, t1.heap.length, B.nkeys, _, hA, hAk, hk, htr, hnext _ htr, ?_,
      Or.inr ⟨rfl, ?_⟩⟩
    · rw [← hh.b_len]; exact hBn
    · rw [← hmod1, hc]

/-- The whole redistribution, with the record of its iterations. -/
theorem xt_redist_traced_loop {t1 : XtndblNHashTable} {bi a : Nat} {old : Bucket}
    {bks : List (Option Nat)} (hctx : SplitCtx t1 bi a old bks) :
    ∀ n ix t ev, ix + n = t1.bucketsize → Redist t1 a old bks ix t →
      ∃ t2 ev2, reinsert_loop_traced a n ix t ev = Res.ret (t2, ev ++ ev2) ∧
        Redist t1 a old bks t1.bucketsize t2 ∧ ev2.length = n ∧
        ∀ m, m < n → ∃ k c pos, ev2[m]? = some (k, c, pos) ∧ old.keys[ix + m]? = some k ∧
          pos < t1.bucketsize ∧
          ((c = a ∧ get_bit_trail (t1.hash k) (old.depth + 1) = old.id) ∨
            (c = t1.heap.length ∧
              get_bit_trail (t1.hash k) (old.depth + 1) = old.id + 2 ^ old.depth)) := by
  intro n
  induction n with
  | zero =>
    intro ix t ev h hr
    have : ix = t1.bucketsize := by omega
    subst this
    refine ⟨t, [], ?_, hr, rfl, ?_⟩
    · rw [List.append_nil]; rfl
    · intro m hm
      exact absurd hm (Nat.not_lt_zero _)
  | succ n ih =>
    intro ix t ev h hr
    obtain ⟨A, k, c, pos, t2, hA, hAk, hk, htr, hr2, hpos, hroute⟩ :=
      xt_redist_traced_step hctx hr (by omega)
    obtain ⟨t3, ev3, h3, hr3, hlen3, hev3⟩ := ih (ix + 1) t2 (ev ++ [(k, c, pos)]) (by omega) hr2
    refine ⟨t3, (k, c, pos) :: ev3, ?_, hr3, by rw [List.length_cons, hlen3], ?_⟩
    · rw [reinsert_loop_traced, rd_of_getElem? hA, Res.bind_ret, rd_of_getElem? hAk,
        Res.bind_ret, htr, Res.bind_ret, h3, List.append_assoc]
      rfl
    · intro m hm
      cases m with
      | zero => exact ⟨k, c, pos, List.getElem?_cons_zero, hk, hpos, hroute⟩
      | succ m =>
        obtain ⟨k2, c2, pos2, e1, e2, e3, e4⟩ := hev3 m (by omega)
        refine ⟨k2, c2, pos2, ?_, ?_, e3, e4⟩
        · rw [List.getElem?_cons_succ]; exact e1
        · rw [show ix + (m + 1) = ix + 1 + m by omega]; exact e2

/-- The split of a full bucket that has a spare bit, with the record of its
redistribution. -/
theorem xt_split_body_traced_detail (t1 : XtndblNHashTable) (hinv : XInv t1) (bi a : Nat)
    (old : Bucket) (hp : points t1 bi a old) (hspare : old.depth < t1.depth)
    (hfull : old.nkeys = t1.bucketsize) :
    ∃ t2 bks ev, split_bucket_body_traced t1 bi = Res.ret (t2, true, ev) ∧
      SplitCtx t1 bi a old bks ∧ Redist t1 a old bks t1.bucketsize t2 ∧
      ev.length = t1.bucketsize ∧
      ∀ m, m < t1.bucketsize → ∃ k c pos, ev[m]? = some (k, c, pos) ∧
        old.keys[m]? = some k ∧ pos < t1.bucketsize ∧
        ((c = a ∧ get_bit_trail (t1.hash k) (old.depth + 1) = old.id) ∨
          (c = t1.heap.length ∧
            get_bit_trail (t1.hash k) (old.depth + 1) = old.id + 2 ^ old.depth)) := by
  obtain ⟨a0, old0, hp0, hg⟩ := hinv.slot bi (xt_points_lt hinv hp)
  obtain ⟨rfl, rfl⟩ := xt_points_unique hp hp0
  have hid : old.id < 2 ^ old.depth := by
    rw [← hg.id_eq]; exact Nat.mod_lt _ (Nat.two_pow_pos _)
  have ha : a < t1.heap.length := lt_length_of_getElem? hp.2
  have hid2 : old.id + 2 ^ old.depth < 2 ^ (old.depth + 1) := by rw [pow_succ]; omega
  obtain ⟨bks, hbks, hbl, hbn, hbo⟩ := xt_repoint_dir t1 hinv (old.id + 2 ^ old.depth)
    old.depth t1.heap.length hid2 hspare
  have hctx : SplitCtx t1 bi a old bks := ⟨hinv, hp, hspare, hfull, hbl, hbn, hbo⟩
  have hhp2 : ((t1.heap.set a { old with depth := old.depth + 1 }) ++
      [get_new_bucket (old.id + 2 ^ old.depth) t1.bucketsize (old.depth + 1)])[a]?
      = some { old with depth := old.depth + 1 } := by
    rw [List.getElem?_append_left (by rw [List.length_set]; exact ha)]
    exact xt_set_get_eq _ _ _ ha
  have hr0 : Redist t1 a old bks 0 { t1 with buckets := bks, heap := ((t1.heap.set a { old with depth := old.depth + 1 }) ++ [get_new_bucket (old.id + 2 ^ old.depth) t1.bucketsize (old.depth + 1)]).set a { old with depth := old.depth + 1, nkeys := 0 } } := by
    refine ⟨rfl, rfl, rfl, rfl, rfl, rfl, ?_, ?_, ?_⟩
    · simp
    · intro c hca hc
      show (List.set _ a _)[c]? = _
      rw [xt_set_get_ne _ _ _ _ (fun e => hca e.symm),
        List.getElem?_append_left (by rw [List.length_set]; exact hc),
        xt_set_get_ne _ _ _ _ (fun e => hca e.symm)]
    · refine ⟨{ old with depth := old.depth + 1, nkeys := 0 },
        get_new_bucket (old.id + 2 ^ old.depth) t1.bucketsize (old.depth + 1), ?_, ?_, ?_⟩
      · show (List.set _ a _)[a]? = _
        exact xt_set_get_eq _ _ _ (by simp; omega)
      · show (List.set _ a _)[t1.heap.length]? = _
        rw [xt_set_get_ne _ _ _ _ (by omega),
          List.getElem?_append_right (by rw [List.length_set])]
        simp
      · refine ⟨rfl, rfl, rfl, rfl, hg.keys_len, by simp [get_new_bucket], rfl,
          fun j _ => rfl, ?_, ?_, ?_⟩
        · intro j k hj
          exact absurd hj (Nat.not_lt_zero _)
        · intro j k hj
          exact absurd hj (Nat.not_lt_zero _)
        · intro m k hm
          exact absurd hm (Nat.not_lt_zero _)
  obtain ⟨t2, ev, ht2, hr2, hlen, hev⟩ :=
    xt_redist_traced_loop hctx t1.bucketsize 0 _ [] (by omega) hr0
  rw [List.nil_append] at ht2
  refine ⟨t2, bks, ev, ?_, hctx, hr2, hlen, ?_⟩
  · unfold split_bucket_body_traced
    rw [xt_bucket_at_eq hp, Res.bind_ret]
    simp only
    rw [xt_lor_pow2 _ _ hid, if_neg (by simp), wr_of_lt _ ha, Res.bind_ret, if_neg (by omega),
      xt_pow2_eq, List.length_set, hbks, Res.bind_ret, rd_of_getElem? hhp2, Res.bind_ret,
      wr_of_lt _ (by simp; omega), Res.bind_ret, ht2, Res.bind_ret]
  · intro m hm
    obtain ⟨k, c, pos, e1, e2, e3, e4⟩ := hev m hm
    rw [Nat.zero_add] at e2
    exact ⟨k, c, pos, e1, e2, e3, e4⟩

end Xtndbln

namespace Xtndbln

/-- Function `split_bucket` on a full bucket, when the directory may grow:
the table `t1` on which the split proper runs. -/
theorem xt_split_traced_start (MAX : Nat) (t : XtndblNHashTable) (hinv : XInv t) (bi a : Nat)
    (old : Bucket) (hp : points t bi a old)
    (hroom : old.depth = t.depth → t.size * 2 ≤ MAX) :
    ∃ t1, XInv t1 ∧ points t1 bi a old ∧ old.depth < t1.depth ∧ t1.heap = t.heap ∧
      t1.bucketsize = t.bucketsize ∧ t1.hash = t.hash ∧
      split_bucket_traced MAX t bi = split_bucket_body_traced t1 bi := by
  obtain ⟨a0, old0, hp0, hg⟩ := hinv.slot bi (xt_points_lt hinv hp)
  obtain ⟨rfl, rfl⟩ := xt_points_unique hp hp0
  by_cases hd : old.depth = t.depth
  · obtain ⟨t1, h1, hinv1, e1, e2, e3, e4, e5, e6, e7, e8⟩ :=
      xt_double_ok MAX t hinv (hroom hd)
    have hp1 : points t1 bi a old := by
      refine ⟨?_, by rw [e2]; exact hp.2⟩
      rw [e7 bi (xt_points_lt hinv hp)]
      exact hp.1
    refine ⟨t1, hinv1, hp1, by omega, e2, e3, e4, ?_⟩
    unfold split_bucket_traced
    rw [xt_bucket_at_eq hp, Res.bind_ret]
    simp only
    rw [if_pos hd, h1, Res.bind_ret]
    rfl
  · refine ⟨t, hinv, hp, ?_, rfl, rfl, rfl, ?_⟩
    · have := hg.depth_le
      omega
    · unfold split_bucket_traced
      rw [xt_bucket_at_eq hp, Res.bind_ret]
      simp only
      rw [if_neg hd, Res.bind_ret]
      rfl

end Xtndbln

section
open Xtndbln

/-- C31. Split redistribution never overflows. Let `split_bucket` be applied
to a slot whose bucket `b`, at address `a`, holds exactly `bucketsize` keys,
in a table that satisfies the invariant of the extendible table. When the
directory has to double and may not, nothing is reinserted. Otherwise the call
returns true, and the record of its reinsertion loop has `bucketsize` entries:
the key read at iteration `m` is the key `b` held at position `m` before the
split, it is written at a position below `bucketsize` of the old bucket when
bit `b.depth` of its hash is 0 and of the sibling (the one new bucket, at the
end of the heap) when that bit is 1; exactly one bucket is allocated, so no
further split happens. Afterwards the two buckets keep arrays of `bucketsize`
cells, their counts add up to `bucketsize`, and a key is in one of them
exactly when it was in `b`. -/
theorem xtndbln_split_never_overflows (MAX_TABLE_SIZE : Nat) (t : XtndblNHashTable)
    (hinv : XInv t) (bi a : Nat) (b : Bucket) (hb : bucket_at t bi = Res.ret (a, b))
    (hfull : b.nkeys = t.bucketsize) :
    (b.depth = t.depth → MAX_TABLE_SIZE < t.size * 2 →
      split_bucket_traced MAX_TABLE_SIZE t bi = Res.ret (t, false, [])) ∧
    ((b.depth = t.depth → t.size * 2 ≤ MAX_TABLE_SIZE) →
      ∃ t2 events A B,
        split_bucket_traced MAX_TABLE_SIZE t bi = Res.ret (t2, true, events) ∧
        split_bucket MAX_TABLE_SIZE t bi = Res.ret (t2, true) ∧
        events.length = t.bucketsize ∧
        (∀ m, m < t.bucketsize → ∃ k c pos, events[m]? = some (k, c, pos) ∧
          b.keys[m]? = some k ∧ pos < t.bucketsize ∧
          ((c = a ∧ get_bit_trail (t.hash k) (b.depth + 1) = b.id ∧
              (get_bit_trail (t.hash k) (b.depth + 1)).testBit b.depth = false) ∨
            (c = t.heap.length ∧
              get_bit_trail (t.hash k) (b.depth + 1) = b.id + 2 ^ b.depth ∧
              (get_bit_trail (t.hash k) (b.depth + 1)).testBit b.depth = true))) ∧
        t2.heap.length = t.heap.length + 1 ∧
        t2.heap[a]? = some A ∧ t2.heap[t.heap.length]? = some B ∧
        A.keys.length = t.bucketsize ∧ B.keys.length = t.bucketsize ∧
        A.nkeys + B.nkeys = t.bucketsize ∧
        (∀ k, (k ∈ bucket_keys A ∨ k ∈ bucket_keys B) ↔ k ∈ bucket_keys b)) := by
  have hp : points t bi a b := xt_bucket_at_ret hb
  obtain ⟨a0, b0, hp0, hg⟩ := hinv.slot bi (xt_points_lt hinv hp)
  obtain ⟨rfl, rfl⟩ := xt_points_unique hp hp0
  have hid : b.id < 2 ^ b.depth := by
    rw [← hg.id_eq]; exact Nat.mod_lt _ (Nat.two_pow_pos _)
  constructor
  · intro hd hm
    unfold split_bucket_traced
    rw [hb, Res.bind_ret]
    simp only
    rw [if_pos hd, xt_double_refused MAX_TABLE_SIZE t hm, Res.bind_ret]
    rfl
  · intro hroom
    obtain ⟨t1, hinv1, hp1, hspare, e2, e3, e4, hstart⟩ :=
      xt_split_traced_start MAX_TABLE_SIZE t hinv bi a b hp hroom
    obtain ⟨t2, bks, ev, h3, hctx, hr, hlen, hev⟩ :=
      xt_split_body_traced_detail t1 hinv1 bi a b hp1 hspare (by rw [e3]; exact hfull)
    obtain ⟨A, B, hA, hB, hh⟩ := hr.halves
    have htr : split_bucket_traced MAX_TABLE_SIZE t bi = Res.ret (t2, true, ev) := by
      rw [hstart, h3]
    refine ⟨t2, ev, A, B, htr, ?_, by rw [hlen, e3], ?_, by rw [hr.heap_len, e2], hA,
      by rw [← e2]; exact hB, by rw [hh.a_len, e3], by rw [hh.b_len, e3],
      by rw [hh.count, e3], ?_⟩
    · rw [← xt_split_traced_eq, htr, Res.bind_ret]
    · intro m hm
      obtain ⟨k, c, pos, e5, e6, e7, e8⟩ := hev m (by rw [e3]; exact hm)
      refine ⟨k, c, pos, e5, e6, by rw [← e3]; exact e7, ?_⟩
      rw [e4, e2] at e8
      rcases e8 with ⟨h5, h6⟩ | ⟨h5, h6⟩
      · refine Or.inl ⟨h5, h6, ?_⟩
        rw [h6]
        exact Nat.testBit_lt_two_pow hid
      · refine Or.inr ⟨h5, h6, ?_⟩
        rw [h6, Nat.add_comm, Nat.testBit_two_pow_add_eq, Nat.testBit_lt_two_pow hid]
        rfl
    · intro k
      rw [xt_mem_bucket_keys, xt_mem_bucket_keys, xt_mem_bucket_keys]
      constructor
      · rintro (⟨j, hj, hk⟩ | ⟨j, hj, hk⟩)
        · obtain ⟨_, m, hm, hmk⟩ := hh.a_keys j k hj hk
          exact ⟨m, by rw [hfull, ← e3]; exact hm, hmk⟩
        · obtain ⟨_, m, hm, hmk⟩ := hh.b_keys j k hj hk
          exact ⟨m, by rw [hfull, ← e3]; exact hm, hmk⟩
      · rintro ⟨m, hm, hmk⟩
        exact hh.cover m k (by rw [e3, ← hfull]; exact hm) hmk

/-- Witness for C31: the split of the only bucket, full with the key 0, of a
table with buckets of one key. -/
theorem xtndbln_split_never_overflows_witness :
    (0 = (after_insert 64 10 (new_xtndbln_hash_table 1) 0).depth → 64 < (after_insert 64 10 (new_xtndbln_hash_table 1) 0).size * 2 →
      split_bucket_traced 64 (after_insert 64 10 (new_xtndbln_hash_table 1) 0) 0 = Res.ret ((after_insert 64 10 (new_xtndbln_hash_table 1) 0), false, [])) ∧
    ((0 = (after_insert 64 10 (new_xtndbln_hash_table 1) 0).depth → (after_insert 64 10 (new_xtndbln_hash_table 1) 0).size * 2 ≤ 64) →
      ∃ t2 events A B,
        split_bucket_traced 64 (after_insert 64 10 (new_xtndbln_hash_table 1) 0) 0 = Res.ret (t2, true, events) ∧
        split_bucket 64 (after_insert 64 10 (new_xtndbln_hash_table 1) 0) 0 = Res.ret (t2, true) ∧
        events.length = (after_insert 64 10 (new_xtndbln_hash_table 1) 0).bucketsize ∧
        (∀ m, m < (after_insert 64 10 (new_xtndbln_hash_table 1) 0).bucketsize → ∃ k c pos, events[m]? = some (k, c, pos) ∧
          [0][m]? = some k ∧ pos < (after_insert 64 10 (new_xtndbln_hash_table 1) 0).bucketsize ∧
          ((c = 0 ∧ get_bit_trail ((after_insert 64 10 (new_xtndbln_hash_table 1) 0).hash k) (0 + 1) = 0 ∧
              (get_bit_trail ((after_insert 64 10 (new_xtndbln_hash_table 1) 0).hash k) (0 + 1)).testBit 0 = false) ∨
            (c = (after_insert 64 10 (new_xtndbln_hash_table 1) 0).heap.length ∧
              get_bit_trail ((after_insert 64 10 (new_xtndbln_hash_table 1) 0).hash k) (0 + 1) = 0 + 2 ^ 0 ∧
              (get_bit_trail ((after_insert 64 10 (new_xtndbln_hash_table 1) 0).hash k) (0 + 1)).testBit 0 = true))) ∧
        t2.heap.length = (after_insert 64 10 (new_xtndbln_hash_table 1) 0).heap.length + 1 ∧
        t2.heap[0]? = some A ∧ t2.heap[(after_insert 64 10 (new_xtndbln_hash_table 1) 0).heap.length]? = some B ∧
        A.keys.length = (after_insert 64 10 (new_xtndbln_hash_table 1) 0).bucketsize ∧ B.keys.length = (after_insert 64 10 (new_xtndbln_hash_table 1) 0).bucketsize ∧
        A.nkeys + B.nkeys = (after_insert 64 10 (new_xtndbln_hash_table 1) 0).bucketsize ∧
        (∀ k, (k ∈ bucket_keys A ∨ k ∈ bucket_keys B) ↔ k ∈ bucket_keys ⟨0, 0, 1, [0]⟩)) :=
  xtndbln_split_never_overflows 64 (after_insert 64 10 (new_xtndbln_hash_table 1) 0)
    (xt_reach_inv (xt_reach_after 64 1 _ _ Reach.init 10 0)).1 0 0 ⟨0, 0, 1, [0]⟩
    (by decide!) (by decide!)

end

namespace Xtndbln

/-- The split proper returns true when it returns. -/
theorem xt_split_body_true {t : XtndblNHashTable} {bi : Nat} {r : XtndblNHashTable × Bool}
    (h : split_bucket_body t bi = Res.ret r) : r.2 = true := by
  unfold split_bucket_body at h
  rw [Res.bind_eq_ret] at h
  obtain ⟨r0, _, h⟩ := h
  simp only at h
  split at h
  · cases h
  · rw [Res.bind_eq_ret] at h
    obtain ⟨hp1, _, h⟩ := h
    split at h
    · cases h
    · simp only [Res.bind_eq_ret] at h
      obtain ⟨bks, _, ob, _, hp3, _, t2, h2, h⟩ := h
      cases h
      rfl

/-- A call of `split_bucket` that returns false has left the table as it
was. -/
theorem xt_split_false_same {MAX : Nat} {t : XtndblNHashTable} {bi : Nat}
    {s : XtndblNHashTable × Bool} (h : split_bucket MAX t bi = Res.ret s)
    (hs : s.2 = false) : s.1 = t := by
  unfold split_bucket at h
  simp only [Res.bind_eq_ret] at h
  obtain ⟨r0, _, d, hd, h⟩ := h
  split at h
  · cases h
    split at hd
    · unfold double_table at hd
      split at hd
      · cases hd
        rfl
      · split at hd
        · cases hd
        · cases hd
          rename_i hc
          simp at hc
    · cases hd
      rename_i hc
      simp at hc
  · have := xt_split_body_true h
    rw [hs] at this
    cases this

/-- The splitting loop never ends on a full bucket when `split_bucket` leaves
the table as it is. -/
theorem xt_split_loop_stuck (MAX : Nat) (t : XtndblNHashTable) (kh : Int) (r : Nat × Bucket)
    (b : Bool) (hb : bucket_at t (get_bit_trail kh t.depth) = Res.ret r)
    (hfull : r.2.nkeys = t.bucketsize)
    (hsplit : split_bucket MAX t (get_bit_trail kh t.depth) = Res.ret (t, b)) :
    ∀ fuel, split_loop MAX kh fuel t = Res.diverge := by
  intro fuel
  induction fuel with
  | zero =>
    rw [split_loop, hb, Res.bind_ret]
    rw [if_pos hfull]
  | succ fuel ih =>
    rw [split_loop, hb, Res.bind_ret]
    rw [if_pos hfull, hsplit, Res.bind_ret]
    exact ih

theorem xt_split_reach_trans {MAX : Nat} {kh : Int} {t0 t1 t2 : XtndblNHashTable}
    (h1 : SplitReach MAX kh t0 t1) (h2 : SplitReach MAX kh t1 t2) :
    SplitReach MAX kh t0 t2 := by
  induction h2 with
  | start => exact h1
  | step t r s _ hb hfull hs ih => exact SplitReach.step t r s ih hb hfull hs

/-- A splitting loop that returns goes through every table of `SplitReach`. -/
theorem xt_split_reach_returns {MAX : Nat} {kh : Int} {t0 t : XtndblNHashTable}
    {r0 : XtndblNHashTable × Nat} (h : SplitReach MAX kh t0 t) :
    (∃ fuel, split_loop MAX kh fuel t0 = Res.ret r0) →
      ∃ fuel, split_loop MAX kh fuel t = Res.ret r0 := by
  induction h with
  | start => exact fun h0 => h0
  | step t r s _ hb hfull hs ih =>
    intro h0
    obtain ⟨fuel, hf⟩ := ih h0
    cases fuel with
    | zero =>
      rw [split_loop, hb, Res.bind_ret] at hf
      rw [if_pos hfull] at hf
      cases hf
    | succ n =>
      rw [split_loop, hb, Res.bind_ret] at hf
      rw [if_pos hfull, hs, Res.bind_ret] at hf
      exact ⟨n, hf⟩

/-- When the splitting loop returns, every split it asked for stayed within
`MAX_TABLE_SIZE`. -/
theorem xt_fits_of_returns {MAX : Nat} {kh : Int} {fuel : Nat} {t0 : XtndblNHashTable}
    {r0 : XtndblNHashTable × Nat} (h : split_loop MAX kh fuel t0 = Res.ret r0) :
    SplitsFit MAX kh t0 := by
  intro t r s hre hb hfull hs
  obtain ⟨st, sb⟩ := s
  cases sb with
  | true => rfl
  | false =>
    exfalso
    have e : st = t := xt_split_false_same hs rfl
    subst e
    obtain ⟨f2, hf2⟩ := xt_split_reach_returns hre ⟨fuel, h⟩
    rw [xt_split_loop_stuck MAX st kh r false hb hfull hs f2] at hf2
    cases hf2

theorem xt_fits_step {MAX : Nat} {kh : Int} {t : XtndblNHashTable} {r : Nat × Bucket}
    {s : XtndblNHashTable × Bool} (hfit : SplitsFit MAX kh t)
    (hb : bucket_at t (get_bit_trail kh t.depth) = Res.ret r)
    (hfull : r.2.nkeys = t.bucketsize)
    (hs : split_bucket MAX t (get_bit_trail kh t.depth) = Res.ret s) :
    SplitsFit MAX kh s.1 := by
  intro t2 r2 s2 hre hb2 hfull2 hs2
  exact hfit t2 r2 s2
    (xt_split_reach_trans (SplitReach.step t r s SplitReach.start hb hfull hs) hre)
    hb2 hfull2 hs2

/-- A split of the full bucket of a key that returns true: the directory keeps
its size or doubles within `MAX_TABLE_SIZE`, and the bucket of the key is one
bit deeper. -/
theorem xt_split_step_depth (MAX : Nat) (t : XtndblNHashTable) (hinv : XInv t) (kh : Int)
    (a : Nat) (b : Bucket) (hp : points t (get_bit_trail kh t.depth) a b)
    (hfull : b.nkeys = t.bucketsize) (t2 : XtndblNHashTable)
    (h : split_bucket MAX t (get_bit_trail kh t.depth) = Res.ret (t2, true)) :
    XInv t2 ∧ (t2.size = t.size ∨ (t2.size = t.size * 2 ∧ t.size * 2 ≤ MAX)) ∧
      ∃ a2 b2, points t2 (get_bit_trail kh t2.depth) a2 b2 ∧ b2.depth = b.depth + 1 := by
  obtain ⟨t1, bks, hgr, hctx, hr⟩ := xt_split_detail MAX t hinv _ a b hp hfull t2 h
  obtain ⟨hinv2, _⟩ := xt_redist_final hctx hr
  obtain ⟨A, B, hA, hB, hh⟩ := hr.halves
  obtain ⟨a0, b0, hp0, hg⟩ := hinv.slot _ (xt_points_lt hinv hp)
  obtain ⟨rfl, rfl⟩ := xt_points_unique hp hp0
  have hkey : get_bit_trail kh b.depth = b.id := by
    rw [← xt_gbt_mod kh b.depth t.depth hg.depth_le]
    exact hg.id_eq
  have hsz : t2.size = t.size ∨ (t2.size = t.size * 2 ∧ t.size * 2 ≤ MAX) := by
    rw [hr.size_eq]
    rcases hgr.cases with ⟨e, _, _⟩ | ⟨e, _, _, e2⟩
    · exact Or.inl e
    · exact Or.inr ⟨e, e2⟩
  refine ⟨hinv2, hsz, ?_⟩
  have hi : get_bit_trail kh t1.depth < t1.size := by
    rw [hctx.inv.size_eq]; exact xt_gbt_lt _ _
  rw [hr.depth_eq]
  rcases xt_redist_points hctx hr hA hB _ hi with ⟨_, hpt⟩ | ⟨_, _, hpt⟩ | ⟨hne, _⟩
  · exact ⟨_, B, hpt, hh.b_depth⟩
  · exact ⟨_, A, hpt, hh.a_depth⟩
  · exfalso
    apply hne
    rw [xt_gbt_mod kh b.depth t1.depth (Nat.le_of_lt hctx.spare)]
    exact hkey

/-- The splitting loop returns when every split it asks for stays within
`MAX_TABLE_SIZE` and the fuel covers the depths left below the bound `M` of
the directory size. -/
theorem xt_split_loop_returns (MAX M : Nat) (hM : MAX ≤ M) (kh : Int) :
    ∀ fuel (t : XtndblNHashTable), XInv t → SplitsFit MAX kh t → t.size ≤ M →
      (∀ a b, points t (get_bit_trail kh t.depth) a b → M ≤ fuel + b.depth) →
      ∃ r, split_loop MAX kh fuel t = Res.ret r ∧ r.1.size ≤ M := by
  intro fuel
  induction fuel with
  | zero =>
    intro t hinv hfit hsz hbound
    obtain ⟨a, b, hp, hg⟩ := xt_home hinv kh
    rw [split_loop, xt_bucket_at_eq hp, Res.bind_ret]
    simp only
    by_cases hfull : b.nkeys = t.bucketsize
    · exfalso
      have h1 := hbound a b hp
      have h2 := hg.depth_le
      have h3 : t.depth < 2 ^ t.depth := Nat.lt_two_pow t.depth
      have h4 := hinv.size_eq
      omega
    · rw [if_neg hfull]
      exact ⟨_, rfl, hsz⟩
  | succ n ih =>
    intro t hinv hfit hsz hbound
    obtain ⟨a, b, hp, hg⟩ := xt_home hinv kh
    rw [split_loop, xt_bucket_at_eq hp, Res.bind_ret]
    simp only
    by_cases hfull : b.nkeys = t.bucketsize
    · rw [if_pos hfull]
      rcases xt_split_spec MAX t hinv _ a b hp hfull with ⟨_, _, hs⟩ | ⟨t2, hs, _⟩
      · have := hfit t (a, b) (t, false) SplitReach.start (xt_bucket_at_eq hp) hfull hs
        cases this
      · obtain ⟨hinv2, hsz2, a2, b2, hp2, hd2⟩ :=
          xt_split_step_depth MAX t hinv kh a b hp hfull t2 hs
        rw [hs, Res.bind_ret]
        apply ih t2 hinv2 (xt_fits_step hfit (xt_bucket_at_eq hp) hfull hs)
        · rcases hsz2 with e | ⟨e, e2⟩ <;> omega
        · intro a3 b3 hp3
          obtain ⟨_, e⟩ := xt_points_unique hp3 hp2
          rw [e, hd2]
          have := hbound a b hp
          omega
    · rw [if_neg hfull]
      exact ⟨_, rfl, hsz⟩

/-- An insertion returns when every split it asks for stays within
`MAX_TABLE_SIZE` and the fuel reaches the bound `M` of the directory size. -/
theorem xt_insert_total (MAX M fuel : Nat) (hM : MAX ≤ M) (hfuel : M ≤ fuel)
    (t : XtndblNHashTable) (hinv : XInv t) (hsz : t.size ≤ M) (key : Nat)
    (hfit : xtndbln_hash_table_lookup t key = Res.ret false → SplitsFit MAX (t.hash key) t) :
    ∃ r, xtndbln_hash_table_insert MAX fuel t key = Res.ret r ∧ XInv r.1 ∧
      (∀ x, stored r.1 x ↔ (stored t x ∨ x = key)) ∧ r.1.size ≤ M := by
  rcases xt_insert_spec MAX fuel t hinv key with hi | ⟨hs, hi⟩ | ⟨hns, t2, hi, hinv2, hst, _⟩
  · exfalso
    have hl : xtndbln_hash_table_lookup t key = Res.ret false := by
      rcases xt_lookup_spec hinv key with ⟨hl, _⟩ | ⟨hl, _⟩
      · unfold xtndbln_hash_table_insert at hi
        rw [hl, Res.bind_ret] at hi
        simp at hi
      · exact hl
    obtain ⟨r, hr, _⟩ := xt_split_loop_returns MAX M hM (t.hash key) fuel t hinv (hfit hl) hsz
      (fun a b _ => by omega)
    rcases xt_split_loop_spec MAX (t.hash key) fuel t hinv with hd |
      ⟨t1, a, b, h, hinv1, _, _, _, _, hp, hroom⟩
    · rw [hd] at hr
      cases hr
    · obtain ⟨a0, b0, hp0, hg⟩ := xt_home hinv1 (t.hash key)
      obtain ⟨rfl, rfl⟩ := xt_points_unique hp hp0
      unfold xtndbln_hash_table_insert at hi
      rw [hl, Res.bind_ret] at hi
      simp only [Bool.false_eq_true, if_false] at hi
      rw [h, Res.bind_ret] at hi
      simp only at hi
      rw [rd_of_getElem? hp.2, Res.bind_ret,
        xt_write_to_bucket_eq b key (by rw [hg.keys_len]; exact hroom), Res.bind_ret,
        wr_of_lt _ (lt_length_of_getElem? hp.2), Res.bind_ret] at hi
      cases hi
  · refine ⟨_, hi, hinv, fun x => ⟨Or.inl, ?_⟩, hsz⟩
    rintro (h | h)
    · exact h
    · rw [h]; exact hs
  · refine ⟨_, hi, hinv2, hst, ?_⟩
    have hl : xtndbln_hash_table_lookup t key = Res.ret false := xt_lookup_false hinv hns
    have hi2 := hi
    unfold xtndbln_hash_table_insert at hi2
    rw [hl, Res.bind_ret] at hi2
    simp only [Bool.false_eq_true, if_false, Res.bind_eq_ret] at hi2
    obtain ⟨r, hr, bk, _, b2, _, hp2, _, e⟩ := hi2
    obtain ⟨r2, hr2, hsz2⟩ := xt_split_loop_returns MAX M hM (t.hash key) fuel t hinv (hfit hl)
      hsz (fun a b _ => by omega)
    rw [hr] at hr2
    cases hr2
    simp only [Res.ret.injEq, Prod.mk.injEq, and_true] at e
    rw [← e]
    exact hsz2

theorem xt_insert_all_append_eq (MAX fuel : Nat) (ks : List Nat) :
    ∀ (ks1 : List Nat) (t : XtndblNHashTable),
      insert_all MAX fuel t (ks1 ++ ks)
        = (insert_all MAX fuel t ks1).bind fun u => insert_all MAX fuel u ks := by
  intro ks1
  induction ks1 with
  | nil =>
    intro t
    rfl
  | cons k ks1 ih =>
    intro t
    rw [List.cons_append, insert_all, insert_all, xt_bind_assoc]
    congr 1
    funext r
    exact ih r.1

/-- A run of insertions returns when every split it asks for stays within
`MAX_TABLE_SIZE`. -/
theorem xt_insert_all_total (MAX M fuel : Nat) (hM : MAX ≤ M) (hfuel : M ≤ fuel)
    (keys : List Nat) :
    ∀ t, XInv t → t.size ≤ M →
      (∀ ks1 k ks2 u, keys = ks1 ++ k :: ks2 → insert_all MAX fuel t ks1 = Res.ret u →
        xtndbln_hash_table_lookup u k = Res.ret false → SplitsFit MAX (u.hash k) u) →
      ∃ u, insert_all MAX fuel t keys = Res.ret u := by
  induction keys with
  | nil =>
    intro t _ _ _
    exact ⟨t, rfl⟩
  | cons k ks ih =>
    intro t hinv hsz hroom
    obtain ⟨r, hr, hinv2, _, hsz2⟩ := xt_insert_total MAX M fuel hM hfuel t hinv hsz k
      (hroom [] k ks t rfl rfl)
    rw [insert_all, hr, Res.bind_ret]
    apply ih r.1 hinv2 hsz2
    intro ks1 k2 ks2 u e hu
    apply hroom (k :: ks1) k2 ks2 u (by rw [e]; rfl)
    rw [insert_all, hr, Res.bind_ret]
    exact hu

/-- In a run of insertions that returns, every split asked for stayed within
`MAX_TABLE_SIZE`. -/
theorem xt_room_of_run (MAX fuel : Nat) (t : XtndblNHashTable) (keys : List Nat)
    (hrun : (insert_all MAX fuel t keys).returns = true) :
    ∀ ks1 k ks2 u, keys = ks1 ++ k :: ks2 → insert_all MAX fuel t ks1 = Res.ret u →
      xtndbln_hash_table_lookup u k = Res.ret false → SplitsFit MAX (u.hash k) u := by
  intro ks1 k ks2 u e hu hl
  subst e
  rw [xt_insert_all_append_eq, hu, Res.bind_ret, insert_all] at hrun
  cases hi : xtndbln_hash_table_insert MAX fuel u k with
  | abort => rw [hi] at hrun; simp [Res.returns, Res.bind] at hrun
  | diverge => rw [hi] at hrun; simp [Res.returns, Res.bind] at hrun
  | ret r =>
    unfold xtndbln_hash_table_insert at hi
    rw [hl, Res.bind_ret] at hi
    simp only [Bool.false_eq_true, if_false, Res.bind_eq_ret] at hi
    obtain ⟨r1, hr1, _⟩ := hi
    exact xt_fits_of_returns hr1

end Xtndbln


section

open Xtndbln

/-- C3. Extendible table membership: for every bucket size, every hash
function and every list of keys inserted one after the other into a new
table, when the splits all stay within `MAX_TABLE_SIZE` (no call of
`split_bucket` made by the loop of an insertion of an absent key returns
false), every call returns, with `MAX_TABLE_SIZE + 1` splits allowed to each,
and `xtndbln_hash_table_lookup(K)` on the final table is true if `K` is among
the inserted keys and false otherwise, whatever splits and doublings came
after the insertion of `K`. -/
theorem xtndbln_membership (MAX_TABLE_SIZE bucketsize fuel : Nat) (hash : Nat → Int)
    (keys : List Nat) (K : Nat) (hfuel : MAX_TABLE_SIZE + 1 ≤ fuel)
    (hroom : ∀ ks1 k ks2 u, keys = ks1 ++ k :: ks2 →
      Xtndbln.insert_all MAX_TABLE_SIZE fuel
        (new_xtndbln_specified_hash_table bucketsize hash) ks1 = Res.ret u →
      xtndbln_hash_table_lookup u k = Res.ret false →
      SplitsFit MAX_TABLE_SIZE (u.hash k) u) :
    ∃ t, Xtndbln.insert_all MAX_TABLE_SIZE fuel
        (new_xtndbln_specified_hash_table bucketsize hash) keys = Res.ret t ∧
      (xtndbln_hash_table_lookup t K = Res.ret true ↔ K ∈ keys) ∧
      (xtndbln_hash_table_lookup t K = Res.ret false ↔ K ∉ keys) := by
  obtain ⟨t, hr⟩ := xt_insert_all_total MAX_TABLE_SIZE (MAX_TABLE_SIZE + 1) fuel (by omega)
    hfuel keys _ (xt_new_inv bucketsize hash)
    (by show 1 ≤ MAX_TABLE_SIZE + 1; omega) hroom
  obtain ⟨hinv, hst, _, _⟩ := xt_insert_all_spec MAX_TABLE_SIZE fuel keys _ t
    (xt_new_inv bucketsize hash) hr
  have hK : Xtndbln.stored t K ↔ K ∈ keys := by
    rw [hst]
    constructor
    · rintro (h | h)
      · exact absurd h (xt_new_not_stored bucketsize hash K)
      · exact h
    · exact Or.inr
  refine ⟨t, hr, ?_, ?_⟩
  · rcases xt_lookup_spec hinv K with ⟨hl, hs⟩ | ⟨hl, hs⟩
    · rw [hl]; simp [hK.mp hs]
    · have hK2 : K ∉ keys := fun h => hs (hK.mpr h)
      rw [hl]; simp [hK2]
  · rcases xt_lookup_spec hinv K with ⟨hl, hs⟩ | ⟨hl, hs⟩
    · rw [hl]; simp [hK.mp hs]
    · have hK2 : K ∉ keys := fun h => hs (hK.mpr h)
      rw [hl]; simp [hK2]

/-- Witness for C3: twelve keys, buckets of two keys, hash `h1`: three
doublings and several splits, all within 64 slots. -/
theorem xtndbln_membership_witness :
    ∃ t, Xtndbln.insert_all 64 65
        (new_xtndbln_specified_hash_table 2 (fun k => (h1 k : Int))) (List.range 12)
          = Res.ret t ∧
      (xtndbln_hash_table_lookup t 7 = Res.ret true ↔ 7 ∈ List.range 12) ∧
      (xtndbln_hash_table_lookup t 7 = Res.ret false ↔ 7 ∉ List.range 12) :=
  xtndbln_membership 64 2 65 (fun k => (h1 k : Int)) (List.range 12) 7 (by decide)
    (xt_room_of_run 64 65 _ (List.range 12) (by decide!))

end

namespace Xtndbln

/-- What a random swap that returns has done. -/
theorem xt_rand_swap_ret (t : XtndblNHashTable) (hinv : XInv t) (key rnd : Nat)
    (r : XtndblNHashTable × Nat) (h : xtndbln_hash_table_rand_swap t key rnd = Res.ret r) :
    XInv r.1 ∧ (∀ x, (stored r.1 x ∨ x = r.2) ↔ (stored t x ∨ x = key)) ∧ stored t r.2 := by
  obtain ⟨a, b, hp, hg⟩ := xt_home hinv (t.hash key)
  by_cases hn : 0 < b.nkeys
  · obtain ⟨t2, e, b2, h2, hinv2, hst, hse, _⟩ := xt_rand_swap_spec t hinv key rnd a b hp hn
    rw [h2] at h
    cases h
    exact ⟨hinv2, hst, hse⟩
  · unfold xtndbln_hash_table_rand_swap at h
    rw [xt_bucket_at_eq hp, Res.bind_ret] at h
    simp only at h
    rw [if_pos (by omega)] at h
    cases h

/-- What an insertion that returns has done, whatever it returned. -/
theorem xt_insert_ret (MAX fuel : Nat) (t : XtndblNHashTable) (hinv : XInv t) (key : Nat)
    (r : XtndblNHashTable × Bool) (h : xtndbln_hash_table_insert MAX fuel t key = Res.ret r) :
    XInv r.1 ∧ ∀ x, stored r.1 x ↔ (stored t x ∨ x = key) := by
  rcases xt_insert_spec MAX fuel t hinv key with hi | ⟨hs, hi⟩ | ⟨_, t2, hi, hinv2, hst, _⟩
  · rw [hi] at h; cases h
  · rw [hi] at h
    cases h
    refine ⟨hinv, fun x => ⟨Or.inl, ?_⟩⟩
    rintro (h | h)
    · exact h
    · rw [h]; exact hs
  · rw [hi] at h
    cases h
    exact ⟨hinv2, hst⟩

end Xtndbln

namespace Xuckoo

open Xtndbln

theorem xk_inner_inv {t : XuckooHashTable} (hinv : KInv t) (b : Bool) :
    XInv (get_inner_table t b).xtable := by
  cases b
  · exact hinv.2
  · exact hinv.1

theorem xk_set_inner_inv {t : XuckooHashTable} (hinv : KInv t) (b : Bool) (it : InnerTable)
    (h : XInv it.xtable) : KInv (set_inner_table t b it) := by
  cases b
  · exact ⟨hinv.1, h⟩
  · exact ⟨h, hinv.2⟩

theorem xk_stored_inner (t : XuckooHashTable) (b : Bool) (x : Nat) :
    storedK t x ↔
      (stored (get_inner_table t b).xtable x ∨ stored (get_inner_table t (!b)).xtable x) := by
  cases b
  · exact Or.comm
  · exact Iff.rfl

theorem xk_stored_set_inner (t : XuckooHashTable) (b : Bool) (it : InnerTable) (x : Nat) :
    storedK (set_inner_table t b it) x ↔
      (stored it.xtable x ∨ stored (get_inner_table t (!b)).xtable x) := by
  cases b
  · exact Or.comm
  · exact Iff.rfl

theorem xk_lookup_spec {t : XuckooHashTable} (hinv : KInv t) (key : Nat) :
    (xuckoo_hash_table_lookup t key = Res.ret true ∧ storedK t key) ∨
    (xuckoo_hash_table_lookup t key = Res.ret false ∧ ¬ storedK t key) := by
  unfold xuckoo_hash_table_lookup
  rcases xt_lookup_spec hinv.1 key with ⟨h1, s1⟩ | ⟨h1, s1⟩
  · left
    rw [h1]
    exact ⟨rfl, Or.inl s1⟩
  · rw [h1, Res.bind_ret]
    simp only [Bool.false_eq_true, if_false]
    rcases xt_lookup_spec hinv.2 key with ⟨h2, s2⟩ | ⟨h2, s2⟩
    · left
      exact ⟨h2, Or.inr s2⟩
    · right
      refine ⟨h2, ?_⟩
      rintro (h | h)
      · exact s1 h
      · exact s2 h

/-- The kick loop, when it ends: both inner tables keep their invariant, the
keys of the table together with the key in hand are the same as at the
start, and every key evicted was stored or in hand at the start. -/
theorem xk_kick_loop_spec (rnd : Nat → Nat) (thr : Nat) :
    ∀ n s s2, KInv s.table → kick_loop rnd thr n s = Res.ret s2 →
      KInv s2.table ∧
      (∀ x, (storedK s2.table x ∨ x = s2.key) ↔ (storedK s.table x ∨ x = s.key)) ∧
      (∀ e, e ∈ s2.evicted → e ∈ s.evicted ∨ storedK s.table e.1 ∨ e.1 = s.key) := by
  intro n
  induction n with
  | zero =>
    intro s s2 hinv h
    rw [kick_loop] at h
    split at h
    · rw [Res.bind_eq_ret] at h
      obtain ⟨sp, _, h⟩ := h
      cases sp with
      | true =>
        simp only [Bool.not_true, Bool.false_eq_true, if_false, Res.ret.injEq] at h
        subst h
        exact ⟨hinv, fun x => Iff.rfl, fun e he => Or.inl he⟩
      | false => simp at h
    · simp only [Res.ret.injEq] at h
      subst h
      exact ⟨hinv, fun x => Iff.rfl, fun e he => Or.inl he⟩
  | succ n ih =>
    intro s s2 hinv h
    rw [kick_loop] at h
    split at h
    · rw [Res.bind_eq_ret] at h
      obtain ⟨sp, _, h⟩ := h
      cases sp with
      | true =>
        simp only [Bool.not_true, Bool.false_eq_true, if_false, Res.ret.injEq] at h
        subst h
        exact ⟨hinv, fun x => Iff.rfl, fun e he => Or.inl he⟩
      | false =>
        simp only [Bool.not_false, if_true, Res.bind_eq_ret] at h
        obtain ⟨r, hr, h⟩ := h
        obtain ⟨hinv1, hst1, hse⟩ :=
          xt_rand_swap_ret _ (xk_inner_inv hinv s.first_slim) s.key _ r hr
        have hinv2 := xk_set_inner_inv hinv s.first_slim { get_inner_table s.table s.first_slim with xtable := r.1 } hinv1
        obtain ⟨hinv3, hst3, htr3⟩ := ih _ s2 hinv2 h
        have hrel : ∀ x, (storedK (set_inner_table s.table s.first_slim { get_inner_table s.table s.first_slim with xtable := r.1 }) x ∨ x = r.2) ↔ (storedK s.table x ∨ x = s.key) := by
          intro x
          rw [xk_stored_set_inner, xk_stored_inner s.table s.first_slim x]
          have := hst1 x
          constructor
          · rintro ((h | h) | h)
            · rcases this.mp (Or.inl h) with h | h
              · exact Or.inl (Or.inl h)
              · exact Or.inr h
            · exact Or.inl (Or.inr h)
            · rcases this.mp (Or.inr h) with h | h
              · exact Or.inl (Or.inl h)
              · exact Or.inr h
          · rintro ((h | h) | h)
            · rcases this.mpr (Or.inl h) with h | h
              · exact Or.inl (Or.inl h)
              · exact Or.inr h
            · exact Or.inl (Or.inr h)
            · rcases this.mpr (Or.inr h) with h | h
              · exact Or.inl (Or.inl h)
              · exact Or.inr h
        refine ⟨hinv3, fun x => ?_, fun e he => ?_⟩
        · rw [hst3]
          exact hrel x
        · rcases htr3 e he with h1 | h1 | h1
          · have h1b : e ∈ s.evicted ++ [(r.2, s.first_slim)] := h1
            rw [List.mem_append, List.mem_singleton] at h1b
            rcases h1b with h1b | h1b
            · exact Or.inl h1b
            · right
              rw [h1b]
              exact (hrel r.2).mp (Or.inr rfl)
          · right
            exact (hrel e.1).mp (Or.inl h1)
          · right
            exact (hrel e.1).mp (Or.inr h1)
    · simp only [Res.ret.injEq] at h
      subst h
      exact ⟨hinv, fun x => Iff.rfl, fun e he => Or.inl he⟩

/-- What a hybrid insertion that returns has done. -/
theorem xk_insert_ret (MAX fuel : Nat) (rnd : Nat → Nat) (t : XuckooHashTable) (hinv : KInv t)
    (key : Nat) (r : XuckooHashTable × Bool)
    (h : xuckoo_hash_table_insert MAX fuel rnd t key = Res.ret r) :
    KInv r.1 ∧ (∀ x, storedK r.1 x ↔ (storedK t x ∨ x = key)) ∧
      (∀ s, kicks rnd t key = Res.ret s → ∀ e, e ∈ s.evicted → storedK r.1 e.1) := by
  unfold xuckoo_hash_table_insert at h
  rcases xk_lookup_spec hinv key with ⟨hl, hs⟩ | ⟨hl, hs⟩
  · rw [hl, Res.bind_ret] at h
    simp only [if_true, Res.ret.injEq] at h
    subst h
    have hrel : ∀ x, storedK t x ↔ (storedK t x ∨ x = key) := by
      intro x
      constructor
      · exact Or.inl
      · rintro (h | h)
        · exact h
        · rw [h]; exact hs
    refine ⟨hinv, hrel, fun s hk e he => ?_⟩
    unfold kicks at hk
    obtain ⟨_, _, htr⟩ := xk_kick_loop_spec rnd _ _ _ s hinv hk
    rcases htr e he with h1 | h1 | h1
    · exact absurd h1 (List.not_mem_nil e)
    · exact h1
    · exact (hrel e.1).mpr (Or.inr h1)
  · rw [hl, Res.bind_ret] at h
    simp only [Bool.false_eq_true, if_false, Res.bind_eq_ret] at h
    obtain ⟨s, hk, r2, hi, h⟩ := h
    simp only [Res.ret.injEq] at h
    subst h
    have hk2 := hk
    unfold kicks at hk2
    obtain ⟨hinv1, hst1, htr⟩ := xk_kick_loop_spec rnd _ _ _ s hinv hk2
    obtain ⟨hinv2, hst2⟩ := xt_insert_ret MAX fuel _ (xk_inner_inv hinv1 s.first_slim) s.key r2 hi
    have hrel : ∀ x, storedK (set_inner_table s.table s.first_slim { xtable := r2.1, keycount := (get_inner_table s.table s.first_slim).keycount + 1 }) x ↔ (storedK t x ∨ x = key) := by
      intro x
      rw [xk_stored_set_inner]
      have h1 := hst1 x
      have h2 := hst2 x
      rw [xk_stored_inner s.table s.first_slim x] at h1
      simp only at h1 h2
      constructor
      · rintro (h | h)
        · rcases h2.mp h with h | h
          · exact h1.mp (Or.inl (Or.inl h))
          · exact h1.mp (Or.inr h)
        · exact h1.mp (Or.inl (Or.inr h))
      · intro h
        rcases h1.mpr h with (h | h) | h
        · exact Or.inl (h2.mpr (Or.inl h))
        · exact Or.inr h
        · exact Or.inl (h2.mpr (Or.inr h))
    refine ⟨xk_set_inner_inv hinv1 _ _ hinv2, hrel, fun s3 hk3 e he => ?_⟩
    rw [hk] at hk3
    simp only [Res.ret.injEq] at hk3
    subst hk3
    rcases htr e he with h1 | h1 | h1
    · exact absurd h1 (List.not_mem_nil e)
    · exact (hrel e.1).mpr (Or.inl h1)
    · exact (hrel e.1).mpr (Or.inr h1)

theorem xk_new_inv (bucketsize : Nat) : KInv (new_xuckoo_hash_table_with_bucketsize bucketsize) :=
  ⟨xt_new_inv bucketsize _, xt_new_inv bucketsize _⟩

theorem xk_new_not_stored (bucketsize x : Nat) :
    ¬ storedK (new_xuckoo_hash_table_with_bucketsize bucketsize) x := by
  rintro (h | h)
  · exact xt_new_not_stored bucketsize _ x h
  · exact xt_new_not_stored bucketsize _ x h

theorem xk_insert_all_spec (MAX fuel : Nat) (ops : List (Nat × (Nat → Nat))) :
    ∀ t t2, KInv t → insert_all MAX fuel t ops = Res.ret t2 →
      KInv t2 ∧ ∀ x, storedK t2 x ↔ (storedK t x ∨ x ∈ ops.map Prod.fst) := by
  induction ops with
  | nil =>
    intro t t2 hinv h
    simp only [insert_all, Res.ret.injEq] at h
    subst h
    exact ⟨hinv, fun x => by simp⟩
  | cons op ops ih =>
    intro t t2 hinv h
    rw [insert_all, Res.bind_eq_ret] at h
    obtain ⟨r, hr, h⟩ := h
    obtain ⟨hinv1, hst1, _⟩ := xk_insert_ret MAX fuel op.2 t hinv op.1 r hr
    obtain ⟨hinv2, hst2⟩ := ih r.1 t2 hinv1 h
    refine ⟨hinv2, fun x => ?_⟩
    rw [hst2, hst1, List.map_cons, List.mem_cons, or_assoc]

theorem xk_insert_all_append (MAX fuel : Nat) (ops : List (Nat × (Nat → Nat)))
    (op : Nat × (Nat → Nat)) :
    ∀ t t2, insert_all MAX fuel t (ops ++ [op]) = Res.ret t2 →
      ∃ t1 b, insert_all MAX fuel t ops = Res.ret t1 ∧
        xuckoo_hash_table_insert MAX fuel op.2 t1 op.1 = Res.ret (t2, b) := by
  induction ops with
  | nil =>
    intro t t2 h
    simp only [List.nil_append, insert_all, Res.bind_eq_ret] at h
    obtain ⟨r, hr, h⟩ := h
    simp only [Res.ret.injEq] at h
    refine ⟨t, r.2, rfl, ?_⟩
    rw [hr, ← h]
  | cons o ops ih =>
    intro t t2 h
    rw [List.cons_append, insert_all, Res.bind_eq_ret] at h
    obtain ⟨r, hr, h⟩ := h
    obtain ⟨t1, b, h1, h2⟩ := ih r.1 t2 h
    refine ⟨t1, b, ?_, h2⟩
    rw [insert_all, hr, Res.bind_ret]
    exact h1

theorem xk_last_from_append (tr : List (Nat × Bool)) (e2 : Nat) (f2 : Bool) (e : Nat) :
    last_from (tr ++ [(e2, f2)]) e = if e2 = e then some f2 else last_from tr e := by
  induction tr with
  | nil =>
    simp only [List.nil_append, last_from]
  | cons p tr ih =>
    rw [List.cons_append, last_from, ih]
    by_cases h : e2 = e
    · simp only [h, if_true]
    · simp only [h, if_false]
      rw [last_from]

theorem xk_last_from_mem (tr : List (Nat × Bool)) (e : Nat × Bool) (h : e ∈ tr) :
    ∃ f, last_from tr e.1 = some f := by
  induction tr with
  | nil => exact absurd h (List.not_mem_nil e)
  | cons p tr ih =>
    rw [last_from]
    cases hl : last_from tr e.1 with
    | some f => exact ⟨f, rfl⟩
    | none =>
      rcases List.mem_cons.mp h with h1 | h1
      · subst h1
        exact ⟨e.2, by simp⟩
      · obtain ⟨f, hf⟩ := ih h1
        rw [hf] at hl
        cases hl

theorem xk_get_set_same (t : XuckooHashTable) (b : Bool) (it : InnerTable) :
    get_inner_table (set_inner_table t b it) b = it := by
  cases b <;> rfl

theorem xk_get_set_other (t : XuckooHashTable) (b : Bool) (it : InnerTable) :
    get_inner_table (set_inner_table t b it) (!b) = get_inner_table t (!b) := by
  cases b <;> rfl

/-- The kick loop keeps track of where the evicted keys are. -/
theorem xk_kick_loop_trail (rnd : Nat → Nat) (thr : Nat) :
    ∀ n s s2, KInv s.table → TrailInv s → kick_loop rnd thr n s = Res.ret s2 →
      TrailInv s2 := by
  intro n
  induction n with
  | zero =>
    intro s s2 hinv htr h
    rw [kick_loop] at h
    split at h
    · rw [Res.bind_eq_ret] at h
      obtain ⟨sp, _, h⟩ := h
      cases sp with
      | true =>
        simp only [Bool.not_true, Bool.false_eq_true, if_false, Res.ret.injEq] at h
        subst h
        exact htr
      | false => simp at h
    · simp only [Res.ret.injEq] at h
      subst h
      exact htr
  | succ n ih =>
    intro s s2 hinv htr h
    rw [kick_loop] at h
    split at h
    · rw [Res.bind_eq_ret] at h
      obtain ⟨sp, _, h⟩ := h
      cases sp with
      | true =>
        simp only [Bool.not_true, Bool.false_eq_true, if_false, Res.ret.injEq] at h
        subst h
        exact htr
      | false =>
        simp only [Bool.not_false, if_true, Res.bind_eq_ret] at h
        obtain ⟨r, hr, h⟩ := h
        obtain ⟨hinv1, hst1, _⟩ :=
          xt_rand_swap_ret _ (xk_inner_inv hinv s.first_slim) s.key _ r hr
        have hinv2 := xk_set_inner_inv hinv s.first_slim { get_inner_table s.table s.first_slim with xtable := r.1 } hinv1
        refine ih _ s2 hinv2 ?_ h
        intro e f hl
        have hl2 : last_from (s.evicted ++ [(r.2, s.first_slim)]) e = some f := hl
        rw [xk_last_from_append] at hl2
        by_cases he : r.2 = e
        · left
          rw [if_pos he] at hl2
          have hf : s.first_slim = f := Option.some.inj hl2
          refine ⟨he.symm, ?_⟩
          show f = !(!s.first_slim)
          rw [Bool.not_not, hf]
        · right
          rw [if_neg he] at hl2
          have hne : e ≠ r.2 := fun h => he h.symm
          show stored (get_inner_table (set_inner_table s.table s.first_slim _) (!f)).xtable e
          rcases htr e f hl2 with ⟨h1, h2⟩ | h1
          · rw [h2, Bool.not_not, xk_get_set_same]
            rcases (hst1 e).mpr (Or.inr h1) with h3 | h3
            · exact h3
            · exact absurd h3 hne
          · by_cases hf : (!f) = s.first_slim
            · rw [hf, xk_get_set_same]
              rw [hf] at h1
              rcases (hst1 e).mpr (Or.inl h1) with h3 | h3
              · exact h3
              · exact absurd h3 hne
            · have hf2 : (!f) = !s.first_slim := by
                cases f <;> cases hs : s.first_slim <;> simp_all
              rw [hf2, xk_get_set_other]
              rw [hf2] at h1
              exact h1
    · simp only [Res.ret.injEq] at h
      subst h
      exact htr

/-- When a hybrid insertion has returned true, every key evicted by its kick
loop is stored in the inner table other than the one it was last evicted
from. -/
theorem xk_insert_trail (MAX fuel : Nat) (rnd : Nat → Nat) (t : XuckooHashTable) (hinv : KInv t)
    (key : Nat) (t2 : XuckooHashTable)
    (h : xuckoo_hash_table_insert MAX fuel rnd t key = Res.ret (t2, true)) :
    ∀ s, kicks rnd t key = Res.ret s → ∀ e f, last_from s.evicted e = some f →
      stored (get_inner_table t2 (!f)).xtable e := by
  unfold xuckoo_hash_table_insert at h
  rcases xk_lookup_spec hinv key with ⟨hl, hs⟩ | ⟨hl, hs⟩
  · rw [hl, Res.bind_ret] at h
    simp at h
  · rw [hl, Res.bind_ret] at h
    simp only [Bool.false_eq_true, if_false, Res.bind_eq_ret] at h
    obtain ⟨s, hk, r2, hi, h⟩ := h
    simp only [Res.ret.injEq, Prod.mk.injEq, and_true] at h
    subst h
    intro s3 hk3 e f hl3
    rw [hk] at hk3
    simp only [Res.ret.injEq] at hk3
    subst hk3
    have hk2 := hk
    unfold kicks at hk2
    obtain ⟨hinv1, _, _⟩ := xk_kick_loop_spec rnd _ _ _ s hinv hk2
    have htr := xk_kick_loop_trail rnd _ _ _ s hinv
      (fun e f hl => by simp [last_from] at hl) hk2
    obtain ⟨_, hst2⟩ := xt_insert_ret MAX fuel _ (xk_inner_inv hinv1 s.first_slim) s.key r2 hi
    rcases htr e f hl3 with ⟨h1, h2⟩ | h1
    · rw [h2, Bool.not_not, xk_get_set_same]
      exact (hst2 e).mpr (Or.inr h1)
    · by_cases hf : (!f) = s.first_slim
      · rw [hf, xk_get_set_same]
        rw [hf] at h1
        exact (hst2 e).mpr (Or.inl h1)
      · have hf2 : (!f) = !s.first_slim := by
          cases f <;> cases hs : s.first_slim <;> simp_all
        rw [hf2, xk_get_set_other]
        rw [hf2] at h1
        exact h1

end Xuckoo

section

open Xtndbln Xuckoo

/-- C9 (code evaluated at the failing inputs). When, after the kick loop, the
key in hand is absent from the target inner table, its bucket there is full
and uses every directory bit, and twice the directory size exceeds
`MAX_TABLE_SIZE`, the final `xtndbln_hash_table_insert` never returns: the
hybrid insertion runs forever, whatever the fuel, instead of returning false. -/
theorem xuckoo_insert_capacity_hangs (MAX_TABLE_SIZE : Nat) (rnd : Nat → Nat)
    (t : XuckooHashTable) (key : Nat)
    (habsent : xuckoo_hash_table_lookup t key = Res.ret false)
    (hstuck : ((kicks rnd t key).bind fun s =>
      stuck MAX_TABLE_SIZE (get_inner_table s.table s.first_slim).xtable s.key) = Res.ret true) :
    ∀ fuel, xuckoo_hash_table_insert MAX_TABLE_SIZE fuel rnd t key = Res.diverge := by
  intro fuel
  rw [Res.bind_eq_ret] at hstuck
  obtain ⟨s, hk, hs⟩ := hstuck
  unfold stuck at hs
  simp only [Res.bind_eq_ret] at hs
  obtain ⟨found, hl, r, hb, hs⟩ := hs
  simp only [Res.ret.injEq, Bool.and_eq_true, Bool.not_eq_true', decide_eq_true_eq] at hs
  obtain ⟨⟨⟨hf, h1⟩, h2⟩, h3⟩ := hs
  subst hf
  unfold xuckoo_hash_table_insert
  rw [habsent, Res.bind_ret]
  simp only [Bool.false_eq_true, if_false]
  rw [hk, Res.bind_ret,
    xt_insert_hangs MAX_TABLE_SIZE _ s.key r.1 r.2 hl hb h1 h2 h3 fuel]
  rfl

/-- Witness for C9: with `MAX_TABLE_SIZE = 1`, the hybrid table reached by
inserting 0 and 1 into a new table (both insertions return true and leave one
key in each inner table), and the new key 2. -/
theorem xuckoo_insert_capacity_hangs_witness :
    ((xuckoo_hash_table_insert 1 10 (fun _ => 0) new_xuckoo_hash_table 0).bind
      fun r => Res.ret r.2) = Res.ret true ∧
    ((xuckoo_hash_table_insert 1 10 (fun _ => 0)
        (Xuckoo.after_insert 1 10 (fun _ => 0) new_xuckoo_hash_table 0) 1).bind
      fun r => Res.ret r.2) = Res.ret true ∧
    ∀ fuel, xuckoo_hash_table_insert 1 fuel (fun _ => 0)
      (Xuckoo.after_insert 1 10 (fun _ => 0)
        (Xuckoo.after_insert 1 10 (fun _ => 0) new_xuckoo_hash_table 0) 1) 2
        = Res.diverge :=
  ⟨by decide!, by decide!, xuckoo_insert_capacity_hangs 1 (fun _ => 0)
    (Xuckoo.after_insert 1 10 (fun _ => 0)
        (Xuckoo.after_insert 1 10 (fun _ => 0) new_xuckoo_hash_table 0) 1) 2
    (by decide!) (by decide!)⟩

end

namespace Xuckoo

open Xtndbln

theorem xk_reach_set_swap {MAX bs : Nat} {t : XuckooHashTable} (h : KReach MAX bs t) (f : Bool)
    (key rnd : Nat) (r : XtndblNHashTable × Nat)
    (hr : xtndbln_hash_table_rand_swap (get_inner_table t f).xtable key rnd = Res.ret r) :
    KReach MAX bs (set_inner_table t f { get_inner_table t f with xtable := r.1 }) := by
  cases f
  · exact ⟨h.1, Reach.swap _ key rnd r h.2 hr⟩
  · exact ⟨Reach.swap _ key rnd r h.1 hr, h.2⟩

theorem xk_reach_set_insert {MAX bs : Nat} {t : XuckooHashTable} (h : KReach MAX bs t)
    (f : Bool) (key fuel c : Nat) (r : XtndblNHashTable × Bool)
    (hr : xtndbln_hash_table_insert MAX fuel (get_inner_table t f).xtable key = Res.ret r) :
    KReach MAX bs (set_inner_table t f { xtable := r.1, keycount := c }) := by
  cases f
  · exact ⟨h.1, Reach.insert _ key fuel r h.2 hr⟩
  · exact ⟨Reach.insert _ key fuel r h.1 hr, h.2⟩

theorem xk_kick_loop_reach (MAX bs : Nat) (rnd : Nat → Nat) (thr : Nat) :
    ∀ n s s2, KReach MAX bs s.table → kick_loop rnd thr n s = Res.ret s2 →
      KReach MAX bs s2.table := by
  intro n
  induction n with
  | zero =>
    intro s s2 hre h
    rw [kick_loop] at h
    split at h
    · rw [Res.bind_eq_ret] at h
      obtain ⟨sp, _, h⟩ := h
      cases sp with
      | true =>
        simp only [Bool.not_true, Bool.false_eq_true, if_false, Res.ret.injEq] at h
        subst h
        exact hre
      | false => simp at h
    · simp only [Res.ret.injEq] at h
      subst h
      exact hre
  | succ n ih =>
    intro s s2 hre h
    rw [kick_loop] at h
    split at h
    · rw [Res.bind_eq_ret] at h
      obtain ⟨sp, _, h⟩ := h
      cases sp with
      | true =>
        simp only [Bool.not_true, Bool.false_eq_true, if_false, Res.ret.injEq] at h
        subst h
        exact hre
      | false =>
        simp only [Bool.not_false, if_true, Res.bind_eq_ret] at h
        obtain ⟨r, hr, h⟩ := h
        exact ih _ s2 (xk_reach_set_swap hre s.first_slim s.key _ r hr) h
    · simp only [Res.ret.injEq] at h
      subst h
      exact hre

theorem xk_insert_reach (MAX fuel bs : Nat) (rnd : Nat → Nat) (t : XuckooHashTable)
    (hre : KReach MAX bs t) (key : Nat) (r : XuckooHashTable × Bool)
    (h : xuckoo_hash_table_insert MAX fuel rnd t key = Res.ret r) : KReach MAX bs r.1 := by
  unfold xuckoo_hash_table_insert at h
  rw [Res.bind_eq_ret] at h
  obtain ⟨found, _, h⟩ := h
  cases found with
  | true =>
    simp only [if_true, Res.ret.injEq] at h
    subst h
    exact hre
  | false =>
    simp only [Bool.false_eq_true, if_false, Res.bind_eq_ret] at h
    obtain ⟨s, hk, r2, hi, h⟩ := h
    simp only [Res.ret.injEq] at h
    subst h
    unfold kicks at hk
    have hre2 := xk_kick_loop_reach MAX bs rnd _ _ _ s hre hk
    exact xk_reach_set_insert hre2 s.first_slim s.key fuel _ r2 hi

theorem xk_insert_all_reach (MAX fuel bs : Nat) (ops : List (Nat × (Nat → Nat))) :
    ∀ t t2, KReach MAX bs t → insert_all MAX fuel t ops = Res.ret t2 → KReach MAX bs t2 := by
  induction ops with
  | nil =>
    intro t t2 hre h
    simp only [insert_all, Res.ret.injEq] at h
    subst h
    exact hre
  | cons op ops ih =>
    intro t t2 hre h
    rw [insert_all, Res.bind_eq_ret] at h
    obtain ⟨r, hr, h⟩ := h
    exact ih r.1 t2 (xk_insert_reach MAX fuel bs op.2 t hre op.1 r hr) h

theorem xk_new_reach (MAX bs : Nat) :
    KReach MAX bs (new_xuckoo_hash_table_with_bucketsize bs) :=
  ⟨Reach.init, Reach.init⟩

theorem xk_hreach_reach {MAX bs : Nat} {t : XuckooHashTable} (h : HReach MAX bs t) :
    KReach MAX bs t := by
  induction h with
  | init => exact xk_new_reach MAX bs
  | insert t key fuel rnd r _ hr ih => exact xk_insert_reach MAX fuel bs rnd t ih key r hr

theorem xk_hreach_after (MAX bs : Nat) (t : XuckooHashTable) (h : HReach MAX bs t)
    (fuel : Nat) (rnd : Nat → Nat) (key : Nat) :
    HReach MAX bs (Xuckoo.after_insert MAX fuel rnd t key) := by
  unfold Xuckoo.after_insert
  cases hr : xuckoo_hash_table_insert MAX fuel rnd t key with
  | ret r => exact HReach.insert t key fuel rnd r h hr
  | abort => exact h
  | diverge => exact h

theorem xk_hreach_insert_all (MAX fuel bs : Nat) (ops : List (Nat × (Nat → Nat))) :
    ∀ t t2, HReach MAX bs t → insert_all MAX fuel t ops = Res.ret t2 → HReach MAX bs t2 := by
  induction ops with
  | nil =>
    intro t t2 hre h
    simp only [insert_all, Res.ret.injEq] at h
    subst h
    exact hre
  | cons op ops ih =>
    intro t t2 hre h
    rw [insert_all, Res.bind_eq_ret] at h
    obtain ⟨r, hr, h⟩ := h
    exact ih r.1 t2 (HReach.insert t op.1 fuel op.2 r hre hr) h

end Xuckoo

section

open Xtndbln Xuckoo

/-- C19. Hybrid lookup is the disjunction of the inner lookups: on every hybrid
table reached from a new one by insertions, the first inner table hashes with
`h1` and the second with `h2`, both inner lookups of a key `K` return, and
`xuckoo_hash_table_lookup(K)` returns their disjunction, so it is true if and
only if one of them is true; the table after the call is the table before
it.  On any hybrid table at all, it returns true exactly when the first inner
lookup returns true, or returns false and the second returns true. -/
theorem xuckoo_lookup_is_disjunction (MAX_TABLE_SIZE bucketsize : Nat)
    (t : XuckooHashTable) (K : Nat) (hreach : HReach MAX_TABLE_SIZE bucketsize t) :
    (∃ l1 l2, xtndbln_hash_table_lookup t.table1.xtable K = Res.ret l1 ∧
      xtndbln_hash_table_lookup t.table2.xtable K = Res.ret l2 ∧
      xuckoo_hash_table_lookup t K = Res.ret (l1 || l2) ∧
      lookup_call t K = Res.ret (t, l1 || l2)) ∧
    t.table1.xtable.hash = (fun k => (h1 k : Int)) ∧
    t.table2.xtable.hash = (fun k => (h2 k : Int)) ∧
    (xuckoo_hash_table_lookup t K = Res.ret true ↔
      (xtndbln_hash_table_lookup t.table1.xtable K = Res.ret true ∨
        xtndbln_hash_table_lookup t.table2.xtable K = Res.ret true)) ∧
    (∀ u : XuckooHashTable, xuckoo_hash_table_lookup u K = Res.ret true ↔
      (xtndbln_hash_table_lookup u.table1.xtable K = Res.ret true ∨
        (xtndbln_hash_table_lookup u.table1.xtable K = Res.ret false ∧
          xtndbln_hash_table_lookup u.table2.xtable K = Res.ret true))) := by
  have hre := xk_hreach_reach hreach
  obtain ⟨hinv1, hh1⟩ := xt_reach_inv hre.1
  obtain ⟨hinv2, hh2⟩ := xt_reach_inv hre.2
  have hgen : ∀ u : XuckooHashTable, xuckoo_hash_table_lookup u K = Res.ret true ↔
      (xtndbln_hash_table_lookup u.table1.xtable K = Res.ret true ∨
        (xtndbln_hash_table_lookup u.table1.xtable K = Res.ret false ∧
          xtndbln_hash_table_lookup u.table2.xtable K = Res.ret true)) := by
    intro u
    unfold xuckoo_hash_table_lookup
    cases h1 : xtndbln_hash_table_lookup u.table1.xtable K with
    | ret l =>
      cases l <;> simp
    | abort => simp
    | diverge => simp
  have hl1 : ∃ l1, xtndbln_hash_table_lookup t.table1.xtable K = Res.ret l1 := by
    rcases xt_lookup_spec hinv1 K with ⟨h, _⟩ | ⟨h, _⟩
    · exact ⟨_, h⟩
    · exact ⟨_, h⟩
  have hl2 : ∃ l2, xtndbln_hash_table_lookup t.table2.xtable K = Res.ret l2 := by
    rcases xt_lookup_spec hinv2 K with ⟨h, _⟩ | ⟨h, _⟩
    · exact ⟨_, h⟩
    · exact ⟨_, h⟩
  obtain ⟨l1, e1⟩ := hl1
  obtain ⟨l2, e2⟩ := hl2
  have hx : xuckoo_hash_table_lookup t K = Res.ret (l1 || l2) := by
    unfold xuckoo_hash_table_lookup
    rw [e1, Res.bind_ret, e2]
    cases l1 <;> simp
  refine ⟨⟨l1, l2, e1, e2, hx, ?_⟩, hh1, hh2, ?_, hgen⟩
  · unfold lookup_call
    rw [hx, Res.bind_ret]
  · rw [hx, e1, e2]
    cases l1 <;> cases l2 <;> simp

/-- Witness for C19: the hybrid table reached by inserting 0 and 1, and the
key 1. -/
theorem xuckoo_lookup_is_disjunction_witness :
    (∃ l1 l2, xtndbln_hash_table_lookup (Xuckoo.after_insert 128 20 (fun _ => 0)
          (Xuckoo.after_insert 128 20 (fun _ => 0) new_xuckoo_hash_table 0) 1).table1.xtable 1
        = Res.ret l1 ∧
      xtndbln_hash_table_lookup (Xuckoo.after_insert 128 20 (fun _ => 0)
          (Xuckoo.after_insert 128 20 (fun _ => 0) new_xuckoo_hash_table 0) 1).table2.xtable 1
        = Res.ret l2 ∧
      xuckoo_hash_table_lookup (Xuckoo.after_insert 128 20 (fun _ => 0)
          (Xuckoo.after_insert 128 20 (fun _ => 0) new_xuckoo_hash_table 0) 1) 1
        = Res.ret (l1 || l2) ∧
      lookup_call (Xuckoo.after_insert 128 20 (fun _ => 0)
          (Xuckoo.after_insert 128 20 (fun _ => 0) new_xuckoo_hash_table 0) 1) 1
        = Res.ret (Xuckoo.after_insert 128 20 (fun _ => 0)
          (Xuckoo.after_insert 128 20 (fun _ => 0) new_xuckoo_hash_table 0) 1, l1 || l2)) ∧
    (Xuckoo.after_insert 128 20 (fun _ => 0)
        (Xuckoo.after_insert 128 20 (fun _ => 0) new_xuckoo_hash_table 0) 1).table1.xtable.hash
      = (fun k => (h1 k : Int)) ∧
    (Xuckoo.after_insert 128 20 (fun _ => 0)
        (Xuckoo.after_insert 128 20 (fun _ => 0) new_xuckoo_hash_table 0) 1).table2.xtable.hash
      = (fun k => (h2 k : Int)) ∧
    (xuckoo_hash_table_lookup (Xuckoo.after_insert 128 20 (fun _ => 0)
          (Xuckoo.after_insert 128 20 (fun _ => 0) new_xuckoo_hash_table 0) 1) 1
        = Res.ret true ↔
      (xtndbln_hash_table_lookup (Xuckoo.after_insert 128 20 (fun _ => 0)
          (Xuckoo.after_insert 128 20 (fun _ => 0) new_xuckoo_hash_table 0) 1).table1.xtable 1
          = Res.ret true ∨
        xtndbln_hash_table_lookup (Xuckoo.after_insert 128 20 (fun _ => 0)
          (Xuckoo.after_insert 128 20 (fun _ => 0) new_xuckoo_hash_table 0) 1).table2.xtable 1
          = Res.ret true)) ∧
    (∀ u : XuckooHashTable, xuckoo_hash_table_lookup u 1 = Res.ret true ↔
      (xtndbln_hash_table_lookup u.table1.xtable 1 = Res.ret true ∨
        (xtndbln_hash_table_lookup u.table1.xtable 1 = Res.ret false ∧
          xtndbln_hash_table_lookup u.table2.xtable 1 = Res.ret true))) :=
  xuckoo_lookup_is_disjunction 128 1 _ 1
    (xk_hreach_after 128 1 _ (xk_hreach_after 128 1 _ HReach.init 20 (fun _ => 0) 0)
      20 (fun _ => 0) 1)

end

namespace Xuckoo

open Xtndbln

theorem xk_tally_inner {t : XuckooHashTable} (h : KTally t) (b : Bool) :
    Tally (get_inner_table t b).xtable ∧ Tally (get_inner_table t (!b)).xtable ∧
      (get_inner_table t b).keycount = (get_inner_table t b).xtable.nitems ∧
      (get_inner_table t (!b)).keycount = (get_inner_table t (!b)).xtable.nitems ∧
      ∀ k, k ∈ all_keys (get_inner_table t b).xtable →
        k ∈ all_keys (get_inner_table t (!b)).xtable → False := by
  cases b
  · exact ⟨h.tally2, h.tally1, h.kc2, h.kc1, fun k h2 h1 => h.disjoint k h1 h2⟩
  · exact ⟨h.tally1, h.tally2, h.kc1, h.kc2, h.disjoint⟩

theorem xk_tally_set (t : XuckooHashTable) (b : Bool) (it : InnerTable)
    (h1 : Tally it.xtable) (h2 : Tally (get_inner_table t (!b)).xtable)
    (k1 : it.keycount = it.xtable.nitems)
    (k2 : (get_inner_table t (!b)).keycount = (get_inner_table t (!b)).xtable.nitems)
    (hd : ∀ k, k ∈ all_keys it.xtable → k ∈ all_keys (get_inner_table t (!b)).xtable → False) :
    KTally (set_inner_table t b it) := by
  cases b
  · exact ⟨h2, h1, k2, k1, fun k a1 a2 => hd k a2 a1⟩
  · exact ⟨h1, h2, k1, k2, hd⟩

theorem xk_keycount_set (t : XuckooHashTable) (b : Bool) (it : InnerTable) :
    (set_inner_table t b it).table1.keycount + (set_inner_table t b it).table2.keycount
      = it.keycount + (get_inner_table t (!b)).keycount := by
  cases b
  · show t.table1.keycount + it.keycount = it.keycount + t.table1.keycount
    omega
  · rfl

theorem xk_keycount_get (t : XuckooHashTable) (b : Bool) :
    t.table1.keycount + t.table2.keycount
      = (get_inner_table t b).keycount + (get_inner_table t (!b)).keycount := by
  cases b
  · show _ = t.table2.keycount + t.table1.keycount
    omega
  · rfl

theorem xk_absent_inner {t : XuckooHashTable} {key : Nat} (b : Bool)
    (h : key ∉ all_keys (get_inner_table t b).xtable ∧
      key ∉ all_keys (get_inner_table t (!b)).xtable) :
    key ∉ all_keys t.table1.xtable ∧ key ∉ all_keys t.table2.xtable := by
  cases b
  · exact ⟨h.2, h.1⟩
  · exact h

/-- The kick loop keeps the tally, the key counts, and a key in hand that no
inner table holds. -/
theorem xk_kick_loop_tally (rnd : Nat → Nat) (thr : Nat) :
    ∀ n s s2, KTally s.table →
      (s.key ∉ all_keys s.table.table1.xtable ∧ s.key ∉ all_keys s.table.table2.xtable) →
      kick_loop rnd thr n s = Res.ret s2 →
      KTally s2.table ∧
      (s2.key ∉ all_keys s2.table.table1.xtable ∧ s2.key ∉ all_keys s2.table.table2.xtable) ∧
      s2.table.table1.keycount + s2.table.table2.keycount
        = s.table.table1.keycount + s.table.table2.keycount := by
  intro n
  induction n with
  | zero =>
    intro s s2 ht hk h
    rw [kick_loop] at h
    split at h
    · rw [Res.bind_eq_ret] at h
      obtain ⟨sp, _, h⟩ := h
      cases sp with
      | true =>
        simp only [Bool.not_true, Bool.false_eq_true, if_false, Res.ret.injEq] at h
        subst h
        exact ⟨ht, hk, rfl⟩
      | false => simp at h
    · simp only [Res.ret.injEq] at h
      subst h
      exact ⟨ht, hk, rfl⟩
  | succ n ih =>
    intro s s2 ht hk h
    rw [kick_loop] at h
    split at h
    · rw [Res.bind_eq_ret] at h
      obtain ⟨sp, _, h⟩ := h
      cases sp with
      | true =>
        simp only [Bool.not_true, Bool.false_eq_true, if_false, Res.ret.injEq] at h
        subst h
        exact ⟨ht, hk, rfl⟩
      | false =>
        simp only [Bool.not_false, if_true, Res.bind_eq_ret] at h
        obtain ⟨r, hr, h⟩ := h
        obtain ⟨ta, tb, ka, kb, hd⟩ := xk_tally_inner ht s.first_slim
        have hka : s.key ∉ all_keys (get_inner_table s.table s.first_slim).xtable := by
          cases s.first_slim
          · exact hk.2
          · exact hk.1
        have hkb : s.key ∉ all_keys (get_inner_table s.table (!s.first_slim)).xtable := by
          cases s.first_slim
          · exact hk.1
          · exact hk.2
        have hns : ¬ stored (get_inner_table s.table s.first_slim).xtable s.key :=
          fun hst => hka ((xt_mem_all_keys ta.covered s.key).mpr hst)
        obtain ⟨tr, hnit, Y, p1, p2⟩ := xt_tally_swap ta s.key (rnd s.kick_count) r.2 hns hr
        have hnd : (r.2 :: Y).Nodup := p1.nodup_iff.mp ta.nodup
        have he : r.2 ∈ all_keys (get_inner_table s.table s.first_slim).xtable :=
          p1.mem_iff.mpr (List.mem_cons_self _ _)
        have hmem : ∀ k, k ∈ all_keys r.1 → k = s.key ∨
            k ∈ all_keys (get_inner_table s.table s.first_slim).xtable := by
          intro k hkm
          rcases List.mem_cons.mp (p2.mem_iff.mp hkm) with h1 | h1
          · exact Or.inl h1
          · exact Or.inr (p1.mem_iff.mpr (List.mem_cons_of_mem _ h1))
        have ht2 : KTally (set_inner_table s.table s.first_slim { get_inner_table s.table s.first_slim with xtable := r.1 }) := by
          apply xk_tally_set _ _ _ tr tb (by rw [hnit]; exact ka) kb
          intro k h1 h2
          rcases hmem k h1 with h3 | h3
          · rw [h3] at h2
            exact hkb h2
          · exact hd k h3 h2
        have hk2 : r.2 ∉ all_keys (set_inner_table s.table s.first_slim { get_inner_table s.table s.first_slim with xtable := r.1 }).table1.xtable ∧
            r.2 ∉ all_keys (set_inner_table s.table s.first_slim { get_inner_table s.table s.first_slim with xtable := r.1 }).table2.xtable := by
          apply xk_absent_inner s.first_slim
          rw [xk_get_set_same, xk_get_set_other]
          refine ⟨fun hm => ?_, fun hm => hd r.2 he hm⟩
          rcases List.mem_cons.mp (p2.mem_iff.mp hm) with h1 | h1
          · rw [h1] at he
            exact hka he
          · exact (List.nodup_cons.mp hnd).1 h1
        obtain ⟨ht3, hk3, hc3⟩ := ih _ s2 ht2 hk2 h
        refine ⟨ht3, hk3, ?_⟩
        rw [hc3]
        show (set_inner_table s.table s.first_slim _).table1.keycount
          + (set_inner_table s.table s.first_slim _).table2.keycount = _
        rw [xk_keycount_set, xk_keycount_get s.table s.first_slim]
    · simp only [Res.ret.injEq] at h
      subst h
      exact ⟨ht, hk, rfl⟩

/-- A hybrid insertion that returns keeps the tally and raises the total of
the key counts by one exactly when it returns true. -/
theorem xk_insert_tally (MAX fuel : Nat) (rnd : Nat → Nat) (t : XuckooHashTable)
    (ht : KTally t) (key : Nat) (r : XuckooHashTable × Bool)
    (h : xuckoo_hash_table_insert MAX fuel rnd t key = Res.ret r) :
    KTally r.1 ∧ r.1.table1.keycount + r.1.table2.keycount
      = t.table1.keycount + t.table2.keycount + (if r.2 then 1 else 0) := by
  have hinv : KInv t := ⟨ht.tally1.inv, ht.tally2.inv⟩
  unfold xuckoo_hash_table_insert at h
  rcases xk_lookup_spec hinv key with ⟨hl, hs⟩ | ⟨hl, hs⟩
  · rw [hl, Res.bind_ret] at h
    simp only [if_true, Res.ret.injEq] at h
    subst h
    exact ⟨ht, rfl⟩
  · rw [hl, Res.bind_ret] at h
    simp only [Bool.false_eq_true, if_false, Res.bind_eq_ret] at h
    obtain ⟨s, hk, r2, hi, h⟩ := h
    simp only [Res.ret.injEq] at h
    subst h
    have habs : key ∉ all_keys t.table1.xtable ∧ key ∉ all_keys t.table2.xtable :=
      ⟨fun hm => hs (Or.inl ((xt_mem_all_keys ht.tally1.covered key).mp hm)),
        fun hm => hs (Or.inr ((xt_mem_all_keys ht.tally2.covered key).mp hm))⟩
    obtain ⟨hts, hks, hcs⟩ := xk_kick_loop_tally rnd _ _ _ s ht habs hk
    obtain ⟨ta, tb, ka, kb, hd⟩ := xk_tally_inner hts s.first_slim
    have hka : s.key ∉ all_keys (get_inner_table s.table s.first_slim).xtable := by
      cases s.first_slim
      · exact hks.2
      · exact hks.1
    have hkb : s.key ∉ all_keys (get_inner_table s.table (!s.first_slim)).xtable := by
      cases s.first_slim
      · exact hks.1
      · exact hks.2
    have hns : ¬ stored (get_inner_table s.table s.first_slim).xtable s.key :=
      fun hst => hka ((xt_mem_all_keys ta.covered s.key).mpr hst)
    obtain ⟨t2, b2⟩ := r2
    obtain ⟨tr, hf, htr⟩ := xt_tally_insert MAX fuel ta s.key hi
    have hb2 : b2 = true := by
      cases b2
      · exact absurd (hf rfl).2 hns
      · rfl
    obtain ⟨_, hnit, hperm⟩ := htr hb2
    refine ⟨?_, ?_⟩
    · apply xk_tally_set _ _ _ tr tb
      · show (get_inner_table s.table s.first_slim).keycount + 1 = t2.nitems
        rw [hnit, ka]
      · exact kb
      · intro k h1 h2
        rcases List.mem_cons.mp (hperm.mem_iff.mp h1) with h3 | h3
        · rw [h3] at h2
          exact hkb h2
        · exact hd k h3 h2
    · show (set_inner_table s.table s.first_slim _).table1.keycount
        + (set_inner_table s.table s.first_slim _).table2.keycount = _
      rw [xk_keycount_set]
      simp only [if_true]
      rw [← hcs, xk_keycount_get s.table s.first_slim]
      omega

theorem xk_new_tally (bucketsize : Nat) :
    KTally (new_xuckoo_hash_table_with_bucketsize bucketsize) := by
  have e : ∀ hash, all_keys (new_xtndbln_specified_hash_table bucketsize hash) = [] := by
    intro hash
    simp [all_keys, new_xtndbln_specified_hash_table, new_xtndbln_hash_table, bucket_keys,
      get_new_bucket]
  refine ⟨xt_tally_new bucketsize _, xt_tally_new bucketsize _, rfl, rfl, fun k hm _ => ?_⟩
  have hm2 : k ∈ all_keys (new_xtndbln_specified_hash_table bucketsize
    (fun k => (h1 k : Int))) := hm
  rw [e] at hm2
  cases hm2

theorem xk_hcount_tally {MAX bucketsize : Nat} {t : XuckooHashTable} {n : Nat}
    (h : HCount MAX bucketsize t n) :
    KTally t ∧ t.table1.keycount + t.table2.keycount = n := by
  induction h with
  | init => exact ⟨xk_new_tally bucketsize, rfl⟩
  | insert t n key fuel rnd r _ hr ih =>
    obtain ⟨ht, hc⟩ := xk_insert_tally MAX fuel rnd t ih.1 key r hr
    refine ⟨ht, ?_⟩
    rw [hc, ih.2]
    cases r.2 <;> simp

/-- The table after an insertion that returns `b`, with the count of the
insertions that returned true. -/
theorem xk_hcount_after (MAX bucketsize fuel : Nat) (rnd : Nat → Nat) (t : XuckooHashTable)
    (key n : Nat) (b : Bool) (h : HCount MAX bucketsize t n)
    (hb : ((xuckoo_hash_table_insert MAX fuel rnd t key).bind fun r => Res.ret r.2)
      = Res.ret b) :
    HCount MAX bucketsize (after_insert MAX fuel rnd t key) (if b then n + 1 else n) := by
  unfold after_insert
  cases hr : xuckoo_hash_table_insert MAX fuel rnd t key with
  | ret r =>
    rw [hr, Res.bind_ret] at hb
    simp only [Res.ret.injEq] at hb
    subst hb
    exact HCount.insert t n key fuel rnd r h hr
  | abort => rw [hr] at hb; simp [Res.bind] at hb
  | diverge => rw [hr] at hb; simp [Res.bind] at hb

end Xuckoo

section

open Xtndbln Xuckoo

/-- C22. Hybrid key counts never drift: in every hybrid table reached from a
new one by calls of `xuckoo_hash_table_insert` that returned, whatever the
outcomes of the random evictions, each inner table's `keycount` equals the
`nitems` of its extendible table and equals the number of keys held by its
buckets (the list of the keys of all its buckets has no key twice, and its
members are the keys stored in the buckets of the directory), and
`keycount1 + keycount2` equals the number `n` of calls that returned true. -/
theorem xuckoo_key_counts_exact (MAX_TABLE_SIZE bucketsize : Nat) (t : XuckooHashTable)
    (n : Nat) (hreach : HCount MAX_TABLE_SIZE bucketsize t n) :
    t.table1.keycount = t.table1.xtable.nitems ∧
    t.table1.xtable.nitems = (all_keys t.table1.xtable).length ∧
    t.table2.keycount = t.table2.xtable.nitems ∧
    t.table2.xtable.nitems = (all_keys t.table2.xtable).length ∧
    (all_keys t.table1.xtable).Nodup ∧ (all_keys t.table2.xtable).Nodup ∧
    (∀ k, k ∈ all_keys t.table1.xtable ↔ stored t.table1.xtable k) ∧
    (∀ k, k ∈ all_keys t.table2.xtable ↔ stored t.table2.xtable k) ∧
    t.table1.keycount + t.table2.keycount = n := by
  obtain ⟨ht, hn⟩ := xk_hcount_tally hreach
  exact ⟨ht.kc1, ht.tally1.count, ht.kc2, ht.tally2.count, ht.tally1.nodup, ht.tally2.nodup,
    xt_mem_all_keys ht.tally1.covered, xt_mem_all_keys ht.tally2.covered, hn⟩

/-- Witness for C22: the keys 0, 1 and 2 inserted into a new table with buckets
of one key; the third insertion evicts the key 0 from the first inner table. -/
theorem xuckoo_key_counts_exact_witness :
    (Xuckoo.after_insert 128 20 (fun _ => 0) (Xuckoo.after_insert 128 20 (fun _ => 0)
      (Xuckoo.after_insert 128 20 (fun _ => 0) (new_xuckoo_hash_table_with_bucketsize 1) 0) 1) 2).table1.keycount = (Xuckoo.after_insert 128 20 (fun _ => 0) (Xuckoo.after_insert 128 20 (fun _ => 0)
      (Xuckoo.after_insert 128 20 (fun _ => 0) (new_xuckoo_hash_table_with_bucketsize 1) 0) 1) 2).table1.xtable.nitems ∧
    (Xuckoo.after_insert 128 20 (fun _ => 0) (Xuckoo.after_insert 128 20 (fun _ => 0)
      (Xuckoo.after_insert 128 20 (fun _ => 0) (new_xuckoo_hash_table_with_bucketsize 1) 0) 1) 2).table1.xtable.nitems = (all_keys (Xuckoo.after_insert 128 20 (fun _ => 0) (Xuckoo.after_insert 128 20 (fun _ => 0)
      (Xuckoo.after_insert 128 20 (fun _ => 0) (new_xuckoo_hash_table_with_bucketsize 1) 0) 1) 2).table1.xtable).length ∧
    (Xuckoo.after_insert 128 20 (fun _ => 0) (Xuckoo.after_insert 128 20 (fun _ => 0)
      (Xuckoo.after_insert 128 20 (fun _ => 0) (new_xuckoo_hash_table_with_bucketsize 1) 0) 1) 2).table2.keycount = (Xuckoo.after_insert 128 20 (fun _ => 0) (Xuckoo.after_insert 128 20 (fun _ => 0)
      (Xuckoo.after_insert 128 20 (fun _ => 0) (new_xuckoo_hash_table_with_bucketsize 1) 0) 1) 2).table2.xtable.nitems ∧
    (Xuckoo.after_insert 128 20 (fun _ => 0) (Xuckoo.after_insert 128 20 (fun _ => 0)
      (Xuckoo.after_insert 128 20 (fun _ => 0) (new_xuckoo_hash_table_with_bucketsize 1) 0) 1) 2).table2.xtable.nitems = (all_keys (Xuckoo.after_insert 128 20 (fun _ => 0) (Xuckoo.after_insert 128 20 (fun _ => 0)
      (Xuckoo.after_insert 128 20 (fun _ => 0) (new_xuckoo_hash_table_with_bucketsize 1) 0) 1) 2).table2.xtable).length ∧
    (all_keys (Xuckoo.after_insert 128 20 (fun _ => 0) (Xuckoo.after_insert 128 20 (fun _ => 0)
      (Xuckoo.after_insert 128 20 (fun _ => 0) (new_xuckoo_hash_table_with_bucketsize 1) 0) 1) 2).table1.xtable).Nodup ∧ (all_keys (Xuckoo.after_insert 128 20 (fun _ => 0) (Xuckoo.after_insert 128 20 (fun _ => 0)
      (Xuckoo.after_insert 128 20 (fun _ => 0) (new_xuckoo_hash_table_with_bucketsize 1) 0) 1) 2).table2.xtable).Nodup ∧
    (∀ k, k ∈ all_keys (Xuckoo.after_insert 128 20 (fun _ => 0) (Xuckoo.after_insert 128 20 (fun _ => 0)
      (Xuckoo.after_insert 128 20 (fun _ => 0) (new_xuckoo_hash_table_with_bucketsize 1) 0) 1) 2).table1.xtable ↔ stored (Xuckoo.after_insert 128 20 (fun _ => 0) (Xuckoo.after_insert 128 20 (fun _ => 0)
      (Xuckoo.after_insert 128 20 (fun _ => 0) (new_xuckoo_hash_table_with_bucketsize 1) 0) 1) 2).table1.xtable k) ∧
    (∀ k, k ∈ all_keys (Xuckoo.after_insert 128 20 (fun _ => 0) (Xuckoo.after_insert 128 20 (fun _ => 0)
      (Xuckoo.after_insert 128 20 (fun _ => 0) (new_xuckoo_hash_table_with_bucketsize 1) 0) 1) 2).table2.xtable ↔ stored (Xuckoo.after_insert 128 20 (fun _ => 0) (Xuckoo.after_insert 128 20 (fun _ => 0)
      (Xuckoo.after_insert 128 20 (fun _ => 0) (new_xuckoo_hash_table_with_bucketsize 1) 0) 1) 2).table2.xtable k) ∧
    (Xuckoo.after_insert 128 20 (fun _ => 0) (Xuckoo.after_insert 128 20 (fun _ => 0)
      (Xuckoo.after_insert 128 20 (fun _ => 0) (new_xuckoo_hash_table_with_bucketsize 1) 0) 1) 2).table1.keycount + (Xuckoo.after_insert 128 20 (fun _ => 0) (Xuckoo.after_insert 128 20 (fun _ => 0)
      (Xuckoo.after_insert 128 20 (fun _ => 0) (new_xuckoo_hash_table_with_bucketsize 1) 0) 1) 2).table2.keycount = 3 :=
  xuckoo_key_counts_exact 128 1 _ 3
    (xk_hcount_after 128 1 20 (fun _ => 0) _ 2 2 true
      (xk_hcount_after 128 1 20 (fun _ => 0) _ 1 1 true
        (xk_hcount_after 128 1 20 (fun _ => 0) _ 0 0 true HCount.init (by decide!))
        (by decide!))
      (by decide!))

end

namespace Xtndbln

/-- Every reachable table keeps the bucket size it was created with. -/
theorem xt_reach_bucketsize {MAX bucketsize : Nat} {hash : Nat → Int} {t : XtndblNHashTable}
    (h : Reach MAX bucketsize hash t) : t.bucketsize = bucketsize := by
  induction h with
  | init => rfl
  | insert t key fuel r hre hr ih =>
    have hinv := (xt_reach_inv hre).1
    rcases xt_insert_spec MAX fuel t hinv key with hi | ⟨_, hi⟩ | ⟨_, t2, hi, _, _, _, f2, _⟩
    · rw [hi] at hr; cases hr
    · rw [hi] at hr; cases hr; exact ih
    · rw [hi] at hr; cases hr; rw [f2]; exact ih
  | swap t key rnd r hre hr ih =>
    have hinv := (xt_reach_inv hre).1
    obtain ⟨a, b, hp, hg⟩ := xt_home hinv (t.hash key)
    by_cases hn : 0 < b.nkeys
    · obtain ⟨t2, e, b2, h2, _, _, _, hu, _⟩ := xt_rand_swap_spec t hinv key rnd a b hp hn
      rw [h2] at hr
      cases hr
      rw [hu.bs_eq]; exact ih
    · unfold xtndbln_hash_table_rand_swap at hr
      rw [xt_bucket_at_eq hp, Res.bind_ret] at hr
      simp only at hr
      rw [if_pos (by omega)] at hr
      cases hr

/-- Function `xtndbln_hash_table_has_space` returns, and tells whether the
bucket of the key has a free cell. -/
theorem xt_has_space_ret {t : XtndblNHashTable} (hinv : XInv t) (key : Nat) :
    ∃ a b, points t (get_bit_trail (t.hash key) t.depth) a b ∧
      GoodBucket t (get_bit_trail (t.hash key) t.depth) b ∧
      xtndbln_hash_table_has_space t key = Res.ret (decide (b.nkeys < t.bucketsize)) := by
  obtain ⟨a, b, hp, hg⟩ := xt_home hinv (t.hash key)
  refine ⟨a, b, hp, hg, ?_⟩
  unfold xtndbln_hash_table_has_space
  rw [xt_bucket_at_eq hp, Res.bind_ret]

end Xtndbln

namespace Xuckoo

open Xtndbln

theorem xk_kreach_inner {MAX bs : Nat} {t : XuckooHashTable} (h : KReach MAX bs t) (f : Bool) :
    XInv (get_inner_table t f).xtable ∧ (get_inner_table t f).xtable.bucketsize = bs := by
  cases f
  · exact ⟨(xt_reach_inv h.2).1, xt_reach_bucketsize h.2⟩
  · exact ⟨(xt_reach_inv h.1).1, xt_reach_bucketsize h.1⟩

/-- The states of the kick loop hold reachable inner tables. -/
theorem xk_kick_reach_kreach {MAX bs : Nat} {rnd : Nat → Nat} {thr : Nat} {s0 s : KickState}
    (h0 : KReach MAX bs s0.table) (h : KickReach rnd thr s0 s) : KReach MAX bs s.table := by
  induction h with
  | start => exact h0
  | step s r _ _ _ hr ih => exact xk_reach_set_swap ih s.first_slim s.key _ r hr

/-- The shape of the states of the kick loop: one eviction per iteration, the
targets alternate, and the kick count stays below the threshold. -/
theorem xk_kick_reach_shape {rnd : Nat → Nat} {thr : Nat} {s0 s : KickState}
    (h : KickReach rnd thr s0 s) :
    ∃ ev, s.evicted = s0.evicted ++ ev ∧ s.kick_count = s0.kick_count + ev.length ∧
      s.first_slim = (if ev.length % 2 = 0 then s0.first_slim else !s0.first_slim) ∧
      (∀ i e, ev[i]? = some e →
        e.2 = (if i % 2 = 0 then s0.first_slim else !s0.first_slim)) ∧
      (s0.kick_count ≤ thr → s.kick_count ≤ thr) := by
  induction h with
  | start =>
    refine ⟨[], by rw [List.append_nil], rfl, rfl, ?_, fun h => h⟩
    intro i e he
    cases he
  | step s r _ hc _ _ ih =>
    obtain ⟨ev, e1, e2, e3, e4, e5⟩ := ih
    refine ⟨ev ++ [(r.2, s.first_slim)], ?_, ?_, ?_, ?_, ?_⟩
    · show s.evicted ++ _ = _
      rw [e1, List.append_assoc]
    · show s.kick_count + 1 = _
      rw [e2, List.length_append, List.length_singleton, Nat.add_assoc]
    · show (!s.first_slim) = _
      rw [e3, List.length_append, List.length_singleton]
      rcases Nat.mod_two_eq_zero_or_one ev.length with hm | hm
      · rw [if_pos hm, if_neg (by omega)]
      · rw [if_neg (by omega), if_pos (by omega), Bool.not_not]
    · intro i e he
      by_cases hi : i < ev.length
      · rw [List.getElem?_append_left hi] at he
        exact e4 i e he
      · rw [List.getElem?_append_right (by omega)] at he
        have hi0 : i - ev.length = 0 := by
          by_contra hne
          rw [List.getElem?_eq_none (by simp; omega)] at he
          cases he
        rw [hi0] at he
        simp only [List.getElem?_cons_zero, Option.some.injEq] at he
        subst he
        have hie : i = ev.length := by omega
        rw [hie]
        exact e3
    · intro h0
      have := e5 h0
      show s.kick_count + 1 ≤ thr
      omega

/-- The kick loop, when it returns, went through the states of `KickReach` and
stopped because the kick count is the threshold or the target bucket has
space. -/
theorem xk_kick_loop_trace (rnd : Nat → Nat) (thr : Nat) :
    ∀ n s s2, kick_loop rnd thr n s = Res.ret s2 →
      KickReach rnd thr s s2 ∧
      (s2.kick_count = thr ∨
        xtndbln_hash_table_has_space (get_inner_table s2.table s2.first_slim).xtable s2.key
          = Res.ret true) := by
  intro n
  induction n with
  | zero =>
    intro s s2 h
    rw [kick_loop] at h
    split at h
    · rw [Res.bind_eq_ret] at h
      obtain ⟨sp, hsp, h⟩ := h
      cases sp with
      | true =>
        simp only [Bool.not_true, Bool.false_eq_true, if_false, Res.ret.injEq] at h
        subst h
        exact ⟨KickReach.start, Or.inr hsp⟩
      | false => simp at h
    · rename_i hc
      simp only [Res.ret.injEq] at h
      subst h
      exact ⟨KickReach.start, Or.inl (not_not.mp hc)⟩
  | succ n ih =>
    intro s s2 h
    rw [kick_loop] at h
    split at h
    · rename_i hc
      rw [Res.bind_eq_ret] at h
      obtain ⟨sp, hsp, h⟩ := h
      cases sp with
      | true =>
        simp only [Bool.not_true, Bool.false_eq_true, if_false, Res.ret.injEq] at h
        subst h
        exact ⟨KickReach.start, Or.inr hsp⟩
      | false =>
        simp only [Bool.not_false, if_true, Res.bind_eq_ret] at h
        obtain ⟨r, hr, h⟩ := h
        obtain ⟨hre, hex⟩ := ih (kick_step s r) s2 h
        refine ⟨?_, hex⟩
        have hstep : KickReach rnd thr s (kick_step s r) :=
          KickReach.step s r KickReach.start hc hsp hr
        clear h hex ih
        induction hre with
        | start => exact hstep
        | step s3 r3 _ hc3 hsp3 hr3 ih3 => exact KickReach.step s3 r3 ih3 hc3 hsp3 hr3
    · rename_i hc
      simp only [Res.ret.injEq] at h
      subst h
      exact ⟨KickReach.start, Or.inl (not_not.mp hc)⟩

/-- A full target bucket of a reachable table with buckets of at least one key
is not empty, and the random swap returns. -/
theorem xk_swap_ready {MAX bs : Nat} {t : XuckooHashTable} (hre : KReach MAX bs t)
    (hbs : 1 ≤ bs) (f : Bool) (key rnd : Nat)
    (hsp : xtndbln_hash_table_has_space (get_inner_table t f).xtable key = Res.ret false) :
    ∃ a b r, bucket_at (get_inner_table t f).xtable
        (get_bit_trail ((get_inner_table t f).xtable.hash key)
          (get_inner_table t f).xtable.depth) = Res.ret (a, b) ∧
      b.nkeys = (get_inner_table t f).xtable.bucketsize ∧
      (get_inner_table t f).xtable.bucketsize = bs ∧ 0 < b.nkeys ∧
      rnd % b.nkeys < b.nkeys ∧
      xtndbln_hash_table_rand_swap (get_inner_table t f).xtable key rnd = Res.ret r := by
  obtain ⟨hinv, hbe⟩ := xk_kreach_inner hre f
  obtain ⟨a, b, hp, hg, hs⟩ := xt_has_space_ret hinv key
  rw [hs] at hsp
  have hfull : ¬ b.nkeys < (get_inner_table t f).xtable.bucketsize := by
    intro hlt
    rw [decide_eq_true hlt] at hsp
    cases hsp
  have hle := hg.nkeys_le
  have hn : 0 < b.nkeys := by omega
  obtain ⟨t2, e, b2, h2, _⟩ := xt_rand_swap_spec _ hinv key rnd a b hp hn
  exact ⟨a, b, (t2, e), xt_bucket_at_eq hp, by omega, hbe, hn, Nat.mod_lt _ hn, h2⟩

/-- The kick loop returns when it has at least as many iterations left as the
kick count is below the threshold. -/
theorem xk_kick_loop_total (MAX bs : Nat) (hbs : 1 ≤ bs) (rnd : Nat → Nat) (thr : Nat) :
    ∀ n s, KReach MAX bs s.table → s.kick_count ≤ thr → thr - s.kick_count ≤ n →
      ∃ s2, kick_loop rnd thr n s = Res.ret s2 := by
  intro n
  induction n with
  | zero =>
    intro s hre hle hn
    have hc : s.kick_count = thr := by omega
    rw [kick_loop, if_neg (not_not.mpr hc)]
    exact ⟨s, rfl⟩
  | succ n ih =>
    intro s hre hle hn
    rw [kick_loop]
    by_cases hc : s.kick_count = thr
    · rw [if_neg (not_not.mpr hc)]
      exact ⟨s, rfl⟩
    · rw [if_pos hc]
      obtain ⟨hinv, hbe⟩ := xk_kreach_inner hre s.first_slim
      obtain ⟨a, b, hp, hg, hs⟩ := xt_has_space_ret hinv s.key
      cases hd : decide (b.nkeys < (get_inner_table s.table s.first_slim).xtable.bucketsize) with
      | true =>
        rw [hd] at hs
        rw [hs, Res.bind_ret]
        exact ⟨s, rfl⟩
      | false =>
        rw [hd] at hs
        obtain ⟨_, _, r, _, _, _, _, _, hr⟩ :=
          xk_swap_ready hre hbs s.first_slim s.key (rnd s.kick_count) hs
        rw [hs, Res.bind_ret]
        simp only [Bool.not_false, if_true]
        rw [hr, Res.bind_ret]
        exact ih (kick_step s r) (xk_reach_set_swap hre s.first_slim s.key _ r hr)
          (by show s.kick_count + 1 ≤ thr; omega)
          (by show thr - (s.kick_count + 1) ≤ n; omega)

end Xuckoo

section

open Xtndbln Xuckoo

/-- C36. The precondition of `rand_swap` is always met inside the hybrid
insert. Take a hybrid table reached from a new one, with buckets of at least
one key, by calls of `xuckoo_hash_table_insert` that returned, and any key and
outcomes `rnd` of `rand()`. In every state in which the kick loop evaluates
its condition, `xtndbln_hash_table_has_space` returns; when the loop goes on
(the kick count is not the threshold and there is no space), the bucket that
`xtndbln_hash_table_rand_swap` addresses holds `nkeys = bucketsize > 0` keys,
so the assertion holds, `rand() % nkeys` is a position below `nkeys`, and the
call returns. The kick loop itself returns. -/
theorem xuckoo_rand_swap_precondition (MAX_TABLE_SIZE bucketsize : Nat) (t : XuckooHashTable)
    (hreach : HReach MAX_TABLE_SIZE bucketsize t) (hbs : 1 ≤ bucketsize)
    (rnd : Nat → Nat) (key : Nat) :
    (∀ s, KickReach rnd (get_kick_threshold t) (kick_start t key) s →
      (∃ space, xtndbln_hash_table_has_space (get_inner_table s.table s.first_slim).xtable s.key
        = Res.ret space) ∧
      (s.kick_count ≠ get_kick_threshold t →
        xtndbln_hash_table_has_space (get_inner_table s.table s.first_slim).xtable s.key
          = Res.ret false →
        ∃ a b r, bucket_at (get_inner_table s.table s.first_slim).xtable
            (get_bit_trail ((get_inner_table s.table s.first_slim).xtable.hash s.key)
              (get_inner_table s.table s.first_slim).xtable.depth) = Res.ret (a, b) ∧
          b.nkeys = (get_inner_table s.table s.first_slim).xtable.bucketsize ∧
          (get_inner_table s.table s.first_slim).xtable.bucketsize = bucketsize ∧
          0 < b.nkeys ∧ rnd s.kick_count % b.nkeys < b.nkeys ∧
          xtndbln_hash_table_rand_swap (get_inner_table s.table s.first_slim).xtable s.key
            (rnd s.kick_count) = Res.ret r)) ∧
    ∃ s, kicks rnd t key = Res.ret s ∧
      KickReach rnd (get_kick_threshold t) (kick_start t key) s := by
  have hre : KReach MAX_TABLE_SIZE bucketsize t := xk_hreach_reach hreach
  constructor
  · intro s hs
    have hres : KReach MAX_TABLE_SIZE bucketsize s.table := xk_kick_reach_kreach hre hs
    obtain ⟨hinv, _⟩ := xk_kreach_inner hres s.first_slim
    obtain ⟨a, b, hp, hg, hsp⟩ := xt_has_space_ret hinv s.key
    refine ⟨⟨_, hsp⟩, fun _ hfull => ?_⟩
    exact xk_swap_ready hres hbs s.first_slim s.key (rnd s.kick_count) hfull
  · obtain ⟨s, hs⟩ := xk_kick_loop_total MAX_TABLE_SIZE bucketsize hbs rnd (get_kick_threshold t)
      (get_kick_threshold t) (kick_start t key) hre (Nat.zero_le _) (Nat.sub_le _ _)
    exact ⟨s, hs, (xk_kick_loop_trace rnd _ _ _ s hs).1⟩

/-- Witness for C36: the hybrid table reached by inserting 0 and 1, with
buckets of one key, and the key 2, whose insertion evicts the key 0. -/
theorem xuckoo_rand_swap_precondition_witness :
    (∀ s, KickReach (fun _ => 0) (get_kick_threshold (Xuckoo.after_insert 128 20 (fun _ => 0) (Xuckoo.after_insert 128 20 (fun _ => 0) (new_xuckoo_hash_table_with_bucketsize 1) 0) 1)) (kick_start (Xuckoo.after_insert 128 20 (fun _ => 0) (Xuckoo.after_insert 128 20 (fun _ => 0) (new_xuckoo_hash_table_with_bucketsize 1) 0) 1) 2) s →
      (∃ space, xtndbln_hash_table_has_space (get_inner_table s.table s.first_slim).xtable s.key
        = Res.ret space) ∧
      (s.kick_count ≠ get_kick_threshold (Xuckoo.after_insert 128 20 (fun _ => 0) (Xuckoo.after_insert 128 20 (fun _ => 0) (new_xuckoo_hash_table_with_bucketsize 1) 0) 1) →
        xtndbln_hash_table_has_space (get_inner_table s.table s.first_slim).xtable s.key
          = Res.ret false →
        ∃ a b r, bucket_at (get_inner_table s.table s.first_slim).xtable
            (get_bit_trail ((get_inner_table s.table s.first_slim).xtable.hash s.key)
              (get_inner_table s.table s.first_slim).xtable.depth) = Res.ret (a, b) ∧
          b.nkeys = (get_inner_table s.table s.first_slim).xtable.bucketsize ∧
          (get_inner_table s.table s.first_slim).xtable.bucketsize = 1 ∧
          0 < b.nkeys ∧ (fun _ => 0) s.kick_count % b.nkeys < b.nkeys ∧
          xtndbln_hash_table_rand_swap (get_inner_table s.table s.first_slim).xtable s.key
            ((fun _ => 0) s.kick_count) = Res.ret r)) ∧
    ∃ s, kicks (fun _ => 0) (Xuckoo.after_insert 128 20 (fun _ => 0) (Xuckoo.after_insert 128 20 (fun _ => 0) (new_xuckoo_hash_table_with_bucketsize 1) 0) 1) 2 = Res.ret s ∧
      KickReach (fun _ => 0) (get_kick_threshold (Xuckoo.after_insert 128 20 (fun _ => 0) (Xuckoo.after_insert 128 20 (fun _ => 0) (new_xuckoo_hash_table_with_bucketsize 1) 0) 1)) (kick_start (Xuckoo.after_insert 128 20 (fun _ => 0) (Xuckoo.after_insert 128 20 (fun _ => 0) (new_xuckoo_hash_table_with_bucketsize 1) 0) 1) 2) s :=
  xuckoo_rand_swap_precondition 128 1 _
    (xk_hreach_after 128 1 _ (xk_hreach_after 128 1 _ HReach.init 20 (fun _ => 0) 0)
      20 (fun _ => 0) 1)
    (Nat.le_refl 1) (fun _ => 0) 2

end

namespace Xuckoo

open Xtndbln

/-- The bucket of a new table has space when buckets hold at least one key. -/
theorem xk_new_has_space (bs : Nat) (hash : Nat → Int) (key : Nat) (hbs : 1 ≤ bs) :
    ∃ b, points (new_xtndbln_specified_hash_table bs hash)
        (get_bit_trail ((new_xtndbln_specified_hash_table bs hash).hash key)
          (new_xtndbln_specified_hash_table bs hash).depth) 0 b ∧
      b.nkeys < (new_xtndbln_specified_hash_table bs hash).bucketsize ∧
      xtndbln_hash_table_has_space (new_xtndbln_specified_hash_table bs hash) key
        = Res.ret true := by
  have h0 : get_bit_trail ((new_xtndbln_specified_hash_table bs hash).hash key)
      (new_xtndbln_specified_hash_table bs hash).depth = 0 := by
    have := xt_gbt_lt ((new_xtndbln_specified_hash_table bs hash).hash key) 0
    have hd : (new_xtndbln_specified_hash_table bs hash).depth = 0 := rfl
    rw [hd]
    omega
  have hpt : points (new_xtndbln_specified_hash_table bs hash) 0 0
      (get_new_bucket 0 bs 0) := ⟨rfl, rfl⟩
  rw [h0]
  refine ⟨_, hpt, hbs, ?_⟩
  unfold xtndbln_hash_table_has_space
  rw [h0, xt_bucket_at_eq hpt, Res.bind_ret]
  have hlt : (get_new_bucket 0 bs 0).nkeys
      < (new_xtndbln_specified_hash_table bs hash).bucketsize := hbs
  simp only [decide_eq_true hlt]

/-- The kick loop makes no iteration when the target bucket has space. -/
theorem xk_kick_loop_space (rnd : Nat → Nat) (thr n : Nat) (s : KickState)
    (h : xtndbln_hash_table_has_space (get_inner_table s.table s.first_slim).xtable s.key
      = Res.ret true) :
    kick_loop rnd thr n s = Res.ret s := by
  rw [kick_loop.eq_def]
  simp only
  by_cases hc : s.kick_count ≠ thr
  · rw [if_pos hc, h, Res.bind_ret]
    rfl
  · rw [if_neg hc]

/-- The insertion of an absent key: the kick loop from its initial state, then
one insertion into the target. -/
theorem xk_insert_absent (MAX fuel : Nat) (rnd : Nat → Nat) (t : XuckooHashTable) (key : Nat)
    (h : xuckoo_hash_table_lookup t key = Res.ret false) :
    xuckoo_hash_table_insert MAX fuel rnd t key
      = (kick_loop rnd (get_kick_threshold t) (get_kick_threshold t) (kick_start t key)).bind
        fun s =>
          (xtndbln_hash_table_insert MAX fuel
              (get_inner_table s.table s.first_slim).xtable s.key).bind fun r =>
            Res.ret (set_inner_table s.table s.first_slim
              { xtable := r.1,
                keycount := (get_inner_table s.table s.first_slim).keycount + 1 }, true) := by
  unfold xuckoo_hash_table_insert
  rw [h, Res.bind_ret]
  rfl

/-- The insertion of an absent key whose bucket in the initial target has
space: one insertion into that inner table. -/
theorem xk_insert_space (MAX fuel : Nat) (rnd : Nat → Nat) (t : XuckooHashTable) (key : Nat)
    (h : xuckoo_hash_table_lookup t key = Res.ret false)
    (hsp : xtndbln_hash_table_has_space
      (get_inner_table t (kick_start t key).first_slim).xtable key = Res.ret true) :
    xuckoo_hash_table_insert MAX fuel rnd t key
      = (xtndbln_hash_table_insert MAX fuel
          (get_inner_table t (kick_start t key).first_slim).xtable key).bind fun r =>
        Res.ret (set_inner_table t (kick_start t key).first_slim
          { xtable := r.1,
            keycount := (get_inner_table t (kick_start t key).first_slim).keycount + 1 },
          true) := by
  rw [xk_insert_absent MAX fuel rnd t key h, xk_kick_loop_space rnd _ _ (kick_start t key) hsp,
    Res.bind_ret]
  rfl

/-- The insertion of an absent key whose bucket in the initial target has
space, in a table that satisfies the invariant: what it does. -/
theorem xk_insert_room (MAX fuel : Nat) (rnd : Nat → Nat) (t : XuckooHashTable) (key : Nat)
    (hinv : KInv t) (hns : ¬ storedK t key)
    (hsp : xtndbln_hash_table_has_space
      (get_inner_table t (kick_start t key).first_slim).xtable key = Res.ret true) :
    ∃ x, XInv x ∧
      (∀ k, stored x k ↔
        (stored (get_inner_table t (kick_start t key).first_slim).xtable k ∨ k = key)) ∧
      xuckoo_hash_table_insert MAX fuel rnd t key
        = Res.ret (set_inner_table t (kick_start t key).first_slim
          { xtable := x,
            keycount := (get_inner_table t (kick_start t key).first_slim).keycount + 1 },
          true) := by
  have hl : xuckoo_hash_table_lookup t key = Res.ret false := by
    rcases xk_lookup_spec hinv key with ⟨_, hs⟩ | ⟨hl, _⟩
    · exact absurd hs hns
    · exact hl
  have hxi := xk_inner_inv hinv (kick_start t key).first_slim
  obtain ⟨a, b, hp, hg, hs⟩ := xt_has_space_ret hxi key
  rw [hs] at hsp
  have hroom : b.nkeys < (get_inner_table t (kick_start t key).first_slim).xtable.bucketsize := by
    by_contra hc
    rw [decide_eq_false hc] at hsp
    cases hsp
  have hnsi : ¬ stored (get_inner_table t (kick_start t key).first_slim).xtable key := by
    intro h
    apply hns
    rw [xk_stored_inner t (kick_start t key).first_slim]
    exact Or.inl h
  obtain ⟨hi, hinv2, hst⟩ := xt_insert_room MAX fuel _ hxi key a b hnsi hp hroom
  refine ⟨_, hinv2, hst, ?_⟩
  have hsp2 : xtndbln_hash_table_has_space
      (get_inner_table t (kick_start t key).first_slim).xtable key = Res.ret true := by
    rw [hs, decide_eq_true hroom]
  rw [xk_insert_space MAX fuel rnd t key hl hsp2, hi, Res.bind_ret]

/-- The first two insertions into a new table: the first key goes to the
first inner table, the second to the second. -/
theorem xk_first_two (MAX bs : Nat) (hbs : 1 ≤ bs) (a b fuel1 fuel2 : Nat)
    (rnd1 rnd2 : Nat → Nat) (hab : a ≠ b) :
    ∃ t1 t2,
      xuckoo_hash_table_insert MAX fuel1 rnd1 (new_xuckoo_hash_table_with_bucketsize bs) a
        = Res.ret (t1, true) ∧
      stored t1.table1.xtable a ∧ ¬ stored t1.table2.xtable a ∧
      xuckoo_hash_table_insert MAX fuel2 rnd2 t1 b = Res.ret (t2, true) ∧
      stored t2.table2.xtable b ∧ ¬ stored t2.table1.xtable b ∧
      stored t2.table1.xtable a ∧ ¬ stored t2.table2.xtable a := by
  obtain ⟨_, _, _, hsp1⟩ := xk_new_has_space bs (fun k => (h1 k : Int)) a hbs
  obtain ⟨_, _, _, hsp2⟩ := xk_new_has_space bs (fun k => (h2 k : Int)) b hbs
  obtain ⟨x1, hx1, hst1, e1⟩ := xk_insert_room MAX fuel1 rnd1
    (new_xuckoo_hash_table_with_bucketsize bs) a (xk_new_inv bs) (xk_new_not_stored bs a) hsp1
  have hf1 : (kick_start (new_xuckoo_hash_table_with_bucketsize bs) a).first_slim = true := rfl
  rw [hf1] at e1 hst1
  have hst1b : ∀ k, stored x1 k ↔ k = a := by
    intro k
    rw [hst1 k]
    constructor
    · rintro (h | h)
      · exact absurd h (xt_new_not_stored bs _ k)
      · exact h
    · exact Or.inr
  have hinvT : KInv (set_inner_table (new_xuckoo_hash_table_with_bucketsize bs) true
      { xtable := x1, keycount := (get_inner_table (new_xuckoo_hash_table_with_bucketsize bs) true).keycount + 1 }) :=
    ⟨hx1, xt_new_inv bs _⟩
  have hnsT : ¬ storedK (set_inner_table (new_xuckoo_hash_table_with_bucketsize bs) true
      { xtable := x1, keycount := (get_inner_table (new_xuckoo_hash_table_with_bucketsize bs) true).keycount + 1 }) b := by
    rintro (h | h)
    · exact hab ((hst1b b).mp h).symm
    · exact xt_new_not_stored bs _ b h
  obtain ⟨x2, hx2, hst2, e2⟩ := xk_insert_room MAX fuel2 rnd2 _ b hinvT hnsT hsp2
  have hf2 : (kick_start (set_inner_table (new_xuckoo_hash_table_with_bucketsize bs) true
      { xtable := x1, keycount := (get_inner_table (new_xuckoo_hash_table_with_bucketsize bs) true).keycount + 1 }) b).first_slim = false := rfl
  rw [hf2] at e2 hst2
  have hst2b : ∀ k, stored x2 k ↔ k = b := by
    intro k
    rw [hst2 k]
    constructor
    · rintro (h | h)
      · exact absurd h (xt_new_not_stored bs _ k)
      · exact h
    · exact Or.inr
  refine ⟨_, _, e1, (hst1b a).mpr rfl, xt_new_not_stored bs _ a, e2, (hst2b b).mpr rfl, ?_,
    (hst1b a).mpr rfl, ?_⟩
  · intro h
    exact hab ((hst1b b).mp h).symm
  · intro h
    exact hab ((hst2b a).mp h)

end Xuckoo

section

open Xtndbln Xuckoo

/-- C32. Hybrid initial target. For a key that `xuckoo_hash_table_lookup`
does not find, `xuckoo_hash_table_insert` runs the kick loop from the state
`kick_start`, whose target is the second inner table exactly when
`keycount2 < keycount1` and the first otherwise (a tie included); when the
bucket of the key in that inner table has space the key is inserted there, and
otherwise the first eviction is made there. On a new table with buckets of at
least one key the first key is stored in the first inner table only and a
second, distinct key in the second inner table only. -/
theorem xuckoo_initial_target (MAX_TABLE_SIZE : Nat) (rnd : Nat → Nat) (t : XuckooHashTable)
    (key : Nat) (habsent : xuckoo_hash_table_lookup t key = Res.ret false) :
    ((kick_start t key).first_slim = false ↔ t.table2.keycount < t.table1.keycount) ∧
    ((kick_start t key).first_slim = true ↔ t.table1.keycount ≤ t.table2.keycount) ∧
    get_inner_table t (kick_start t key).first_slim
      = (if t.table2.keycount < t.table1.keycount then t.table2 else t.table1) ∧
    (∀ fuel, xuckoo_hash_table_insert MAX_TABLE_SIZE fuel rnd t key
      = (kick_loop rnd (get_kick_threshold t) (get_kick_threshold t) (kick_start t key)).bind
        fun s =>
          (xtndbln_hash_table_insert MAX_TABLE_SIZE fuel
              (get_inner_table s.table s.first_slim).xtable s.key).bind fun r =>
            Res.ret (set_inner_table s.table s.first_slim
              { xtable := r.1,
                keycount := (get_inner_table s.table s.first_slim).keycount + 1 }, true)) ∧
    (xtndbln_hash_table_has_space (get_inner_table t (kick_start t key).first_slim).xtable key
        = Res.ret true →
      ∀ fuel, xuckoo_hash_table_insert MAX_TABLE_SIZE fuel rnd t key
        = (xtndbln_hash_table_insert MAX_TABLE_SIZE fuel
            (get_inner_table t (kick_start t key).first_slim).xtable key).bind fun r =>
          Res.ret (set_inner_table t (kick_start t key).first_slim
            { xtable := r.1,
              keycount := (get_inner_table t (kick_start t key).first_slim).keycount + 1 },
            true)) ∧
    (∀ s e, kicks rnd t key = Res.ret s → s.evicted[0]? = some e →
      e.2 = (kick_start t key).first_slim) ∧
    (∀ bs a b fuel1 fuel2 rnd1 rnd2, 1 ≤ bs → a ≠ b →
      ∃ t1 t2,
        xuckoo_hash_table_insert MAX_TABLE_SIZE fuel1 rnd1 (new_xuckoo_hash_table_with_bucketsize bs) a
          = Res.ret (t1, true) ∧
        stored t1.table1.xtable a ∧ ¬ stored t1.table2.xtable a ∧
        xuckoo_hash_table_insert MAX_TABLE_SIZE fuel2 rnd2 t1 b = Res.ret (t2, true) ∧
        stored t2.table2.xtable b ∧ ¬ stored t2.table1.xtable b ∧
        stored t2.table1.xtable a ∧ ¬ stored t2.table2.xtable a) := by
  have hdec : (kick_start t key).first_slim
      = decide (t.table1.keycount ≤ t.table2.keycount) := rfl
  refine ⟨?_, ?_, ?_, ?_, ?_, ?_, ?_⟩
  · rw [hdec, decide_eq_false_iff_not]
    omega
  · rw [hdec, decide_eq_true_iff]
  · rw [hdec]
    unfold get_inner_table
    by_cases hc : t.table2.keycount < t.table1.keycount
    · rw [if_pos hc, if_neg]
      rw [decide_eq_true_iff]
      omega
    · rw [if_neg hc, if_pos]
      rw [decide_eq_true_iff]
      omega
  · intro fuel
    exact xk_insert_absent MAX_TABLE_SIZE fuel rnd t key habsent
  · intro hsp fuel
    exact xk_insert_space MAX_TABLE_SIZE fuel rnd t key habsent hsp
  · intro s e hs he
    obtain ⟨ev, e1, _, _, e4, _⟩ := xk_kick_reach_shape (xk_kick_loop_trace rnd _ _ _ s hs).1
    have e1b : s.evicted = [] ++ ev := e1
    rw [List.nil_append] at e1b
    rw [e1b] at he
    exact e4 0 e he
  · intro bs a b fuel1 fuel2 rnd1 rnd2 hbs hab
    exact xk_first_two MAX_TABLE_SIZE bs hbs a b fuel1 fuel2 rnd1 rnd2 hab

/-- Witness for C32: the hybrid table reached by inserting 0 and 1, with
buckets of one key, and the absent key 2. -/
theorem xuckoo_initial_target_witness :
    ((kick_start (Xuckoo.after_insert 128 20 (fun _ => 0) (Xuckoo.after_insert 128 20 (fun _ => 0) (new_xuckoo_hash_table_with_bucketsize 1) 0) 1) 2).first_slim = false ↔ (Xuckoo.after_insert 128 20 (fun _ => 0) (Xuckoo.after_insert 128 20 (fun _ => 0) (new_xuckoo_hash_table_with_bucketsize 1) 0) 1).table2.keycount < (Xuckoo.after_insert 128 20 (fun _ => 0) (Xuckoo.after_insert 128 20 (fun _ => 0) (new_xuckoo_hash_table_with_bucketsize 1) 0) 1).table1.keycount) ∧
    ((kick_start (Xuckoo.after_insert 128 20 (fun _ => 0) (Xuckoo.after_insert 128 20 (fun _ => 0) (new_xuckoo_hash_table_with_bucketsize 1) 0) 1) 2).first_slim = true ↔ (Xuckoo.after_insert 128 20 (fun _ => 0) (Xuckoo.after_insert 128 20 (fun _ => 0) (new_xuckoo_hash_table_with_bucketsize 1) 0) 1).table1.keycount ≤ (Xuckoo.after_insert 128 20 (fun _ => 0) (Xuckoo.after_insert 128 20 (fun _ => 0) (new_xuckoo_hash_table_with_bucketsize 1) 0) 1).table2.keycount) ∧
    get_inner_table (Xuckoo.after_insert 128 20 (fun _ => 0) (Xuckoo.after_insert 128 20 (fun _ => 0) (new_xuckoo_hash_table_with_bucketsize 1) 0) 1) (kick_start (Xuckoo.after_insert 128 20 (fun _ => 0) (Xuckoo.after_insert 128 20 (fun _ => 0) (new_xuckoo_hash_table_with_bucketsize 1) 0) 1) 2).first_slim
      = (if (Xuckoo.after_insert 128 20 (fun _ => 0) (Xuckoo.after_insert 128 20 (fun _ => 0) (new_xuckoo_hash_table_with_bucketsize 1) 0) 1).table2.keycount < (Xuckoo.after_insert 128 20 (fun _ => 0) (Xuckoo.after_insert 128 20 (fun _ => 0) (new_xuckoo_hash_table_with_bucketsize 1) 0) 1).table1.keycount then (Xuckoo.after_insert 128 20 (fun _ => 0) (Xuckoo.after_insert 128 20 (fun _ => 0) (new_xuckoo_hash_table_with_bucketsize 1) 0) 1).table2 else (Xuckoo.after_insert 128 20 (fun _ => 0) (Xuckoo.after_insert 128 20 (fun _ => 0) (new_xuckoo_hash_table_with_bucketsize 1) 0) 1).table1) ∧
    (∀ fuel, xuckoo_hash_table_insert 128 fuel (fun _ => 0) (Xuckoo.after_insert 128 20 (fun _ => 0) (Xuckoo.after_insert 128 20 (fun _ => 0) (new_xuckoo_hash_table_with_bucketsize 1) 0) 1) 2
      = (kick_loop (fun _ => 0) (get_kick_threshold (Xuckoo.after_insert 128 20 (fun _ => 0) (Xuckoo.after_insert 128 20 (fun _ => 0) (new_xuckoo_hash_table_with_bucketsize 1) 0) 1)) (get_kick_threshold (Xuckoo.after_insert 128 20 (fun _ => 0) (Xuckoo.after_insert 128 20 (fun _ => 0) (new_xuckoo_hash_table_with_bucketsize 1) 0) 1)) (kick_start (Xuckoo.after_insert 128 20 (fun _ => 0) (Xuckoo.after_insert 128 20 (fun _ => 0) (new_xuckoo_hash_table_with_bucketsize 1) 0) 1) 2)).bind
        fun s =>
          (xtndbln_hash_table_insert 128 fuel
              (get_inner_table s.table s.first_slim).xtable s.key).bind fun r =>
            Res.ret (set_inner_table s.table s.first_slim
              { xtable := r.1,
                keycount := (get_inner_table s.table s.first_slim).keycount + 1 }, true)) ∧
    (xtndbln_hash_table_has_space (get_inner_table (Xuckoo.after_insert 128 20 (fun _ => 0) (Xuckoo.after_insert 128 20 (fun _ => 0) (new_xuckoo_hash_table_with_bucketsize 1) 0) 1) (kick_start (Xuckoo.after_insert 128 20 (fun _ => 0) (Xuckoo.after_insert 128 20 (fun _ => 0) (new_xuckoo_hash_table_with_bucketsize 1) 0) 1) 2).first_slim).xtable 2
        = Res.ret true →
      ∀ fuel, xuckoo_hash_table_insert 128 fuel (fun _ => 0) (Xuckoo.after_insert 128 20 (fun _ => 0) (Xuckoo.after_insert 128 20 (fun _ => 0) (new_xuckoo_hash_table_with_bucketsize 1) 0) 1) 2
        = (xtndbln_hash_table_insert 128 fuel
            (get_inner_table (Xuckoo.after_insert 128 20 (fun _ => 0) (Xuckoo.after_insert 128 20 (fun _ => 0) (new_xuckoo_hash_table_with_bucketsize 1) 0) 1) (kick_start (Xuckoo.after_insert 128 20 (fun _ => 0) (Xuckoo.after_insert 128 20 (fun _ => 0) (new_xuckoo_hash_table_with_bucketsize 1) 0) 1) 2).first_slim).xtable 2).bind fun r =>
          Res.ret (set_inner_table (Xuckoo.after_insert 128 20 (fun _ => 0) (Xuckoo.after_insert 128 20 (fun _ => 0) (new_xuckoo_hash_table_with_bucketsize 1) 0) 1) (kick_start (Xuckoo.after_insert 128 20 (fun _ => 0) (Xuckoo.after_insert 128 20 (fun _ => 0) (new_xuckoo_hash_table_with_bucketsize 1) 0) 1) 2).first_slim
            { xtable := r.1,
              keycount := (get_inner_table (Xuckoo.after_insert 128 20 (fun _ => 0) (Xuckoo.after_insert 128 20 (fun _ => 0) (new_xuckoo_hash_table_with_bucketsize 1) 0) 1) (kick_start (Xuckoo.after_insert 128 20 (fun _ => 0) (Xuckoo.after_insert 128 20 (fun _ => 0) (new_xuckoo_hash_table_with_bucketsize 1) 0) 1) 2).first_slim).keycount + 1 },
            true)) ∧
    (∀ s e, kicks (fun _ => 0) (Xuckoo.after_insert 128 20 (fun _ => 0) (Xuckoo.after_insert 128 20 (fun _ => 0) (new_xuckoo_hash_table_with_bucketsize 1) 0) 1) 2 = Res.ret s → s.evicted[0]? = some e →
      e.2 = (kick_start (Xuckoo.after_insert 128 20 (fun _ => 0) (Xuckoo.after_insert 128 20 (fun _ => 0) (new_xuckoo_hash_table_with_bucketsize 1) 0) 1) 2).first_slim) ∧
    (∀ bs a b fuel1 fuel2 rnd1 rnd2, 1 ≤ bs → a ≠ b →
      ∃ t1 t2,
        xuckoo_hash_table_insert 128 fuel1 rnd1 (new_xuckoo_hash_table_with_bucketsize bs) a
          = Res.ret (t1, true) ∧
        stored t1.table1.xtable a ∧ ¬ stored t1.table2.xtable a ∧
        xuckoo_hash_table_insert 128 fuel2 rnd2 t1 b = Res.ret (t2, true) ∧
        stored t2.table2.xtable b ∧ ¬ stored t2.table1.xtable b ∧
        stored t2.table1.xtable a ∧ ¬ stored t2.table2.xtable a) :=
  xuckoo_initial_target 128 (fun _ => 0) _ 2 (by decide!)

end

section

open Xtndbln Xuckoo

/-- C33. Hybrid kick bound. In a hybrid table reached from a new one by calls
of `xuckoo_hash_table_insert` that returned, the kick threshold is the floor
of the base 2 logarithm of the sum of the two directory sizes (1 on a new
table), and it is computed once: the kick loop runs with the threshold of the
table given to the insertion. In every state in which the loop evaluates its
condition the kick count is the number of swaps made so far, it is at most the
threshold, and the target is the initial one after an even number of swaps and
the other inner table after an odd number; a swap is made only when the kick
count is below the threshold and the target bucket lacks space, and it raises
the kick count by one, switches the target and takes the evicted key in hand.
When the loop ends, the kick count is the threshold or the target bucket has
space, and the insertion of an absent key is this loop followed by exactly one
`xtndbln_hash_table_insert` of the key in hand into the target. With buckets
of at least one key the loop always ends. -/
theorem xuckoo_kick_bound (MAX_TABLE_SIZE bucketsize : Nat) (t : XuckooHashTable)
    (hreach : HReach MAX_TABLE_SIZE bucketsize t) (rnd : Nat → Nat) (key : Nat) :
    get_kick_threshold t = Nat.log 2 (t.table1.xtable.size + t.table2.xtable.size) ∧
    2 ^ get_kick_threshold t ≤ t.table1.xtable.size + t.table2.xtable.size ∧
    t.table1.xtable.size + t.table2.xtable.size < 2 ^ (get_kick_threshold t + 1) ∧
    get_kick_threshold (new_xuckoo_hash_table_with_bucketsize bucketsize) = 1 ∧
    kicks rnd t key
      = kick_loop rnd (get_kick_threshold t) (get_kick_threshold t) (kick_start t key) ∧
    (1 ≤ bucketsize → ∃ s, kicks rnd t key = Res.ret s) ∧
    (∀ s, KickReach rnd (get_kick_threshold t) (kick_start t key) s →
      s.kick_count = s.evicted.length ∧ s.kick_count ≤ get_kick_threshold t ∧
      s.first_slim = (if s.kick_count % 2 = 0 then (kick_start t key).first_slim
        else !(kick_start t key).first_slim) ∧
      ∀ r, s.kick_count ≠ get_kick_threshold t →
        xtndbln_hash_table_has_space (get_inner_table s.table s.first_slim).xtable s.key
          = Res.ret false →
        xtndbln_hash_table_rand_swap (get_inner_table s.table s.first_slim).xtable s.key
          (rnd s.kick_count) = Res.ret r →
        s.kick_count < get_kick_threshold t ∧
        KickReach rnd (get_kick_threshold t) (kick_start t key) (kick_step s r) ∧
        (kick_step s r).kick_count = s.kick_count + 1 ∧
        (kick_step s r).first_slim = (!s.first_slim) ∧ (kick_step s r).key = r.2) ∧
    (∀ s, kicks rnd t key = Res.ret s →
      KickReach rnd (get_kick_threshold t) (kick_start t key) s ∧
      s.kick_count = s.evicted.length ∧ s.kick_count ≤ get_kick_threshold t ∧
      (s.kick_count = get_kick_threshold t ∨
        xtndbln_hash_table_has_space (get_inner_table s.table s.first_slim).xtable s.key
          = Res.ret true) ∧
      (∀ i e, s.evicted[i]? = some e →
        e.2 = (if i % 2 = 0 then (kick_start t key).first_slim
          else !(kick_start t key).first_slim))) ∧
    (xuckoo_hash_table_lookup t key = Res.ret false →
      ∀ fuel, xuckoo_hash_table_insert MAX_TABLE_SIZE fuel rnd t key
        = (kicks rnd t key).bind fun s =>
          (xtndbln_hash_table_insert MAX_TABLE_SIZE fuel
              (get_inner_table s.table s.first_slim).xtable s.key).bind fun r =>
            Res.ret (set_inner_table s.table s.first_slim
              { xtable := r.1,
                keycount := (get_inner_table s.table s.first_slim).keycount + 1 }, true)) := by
  have hre : KReach MAX_TABLE_SIZE bucketsize t := xk_hreach_reach hreach
  have hs1 : 0 < t.table1.xtable.size := by
    rw [(xt_reach_inv hre.1).1.size_eq]; exact Nat.two_pow_pos _
  have hthr : get_kick_threshold t
      = Nat.log 2 (t.table1.xtable.size + t.table2.xtable.size) := by
    unfold get_kick_threshold get_xtndbln_table_size
    exact Nat.log2_eq_log_two
  have hshape : ∀ s, KickReach rnd (get_kick_threshold t) (kick_start t key) s →
      s.kick_count = s.evicted.length ∧ s.kick_count ≤ get_kick_threshold t ∧
      s.first_slim = (if s.kick_count % 2 = 0 then (kick_start t key).first_slim
        else !(kick_start t key).first_slim) ∧
      (∀ i e, s.evicted[i]? = some e →
        e.2 = (if i % 2 = 0 then (kick_start t key).first_slim
          else !(kick_start t key).first_slim)) := by
    intro s hs
    obtain ⟨ev, e1, e2, e3, e4, e5⟩ := xk_kick_reach_shape hs
    have e1b : s.evicted = [] ++ ev := e1
    rw [List.nil_append] at e1b
    have e2b : s.kick_count = 0 + ev.length := e2
    rw [Nat.zero_add] at e2b
    refine ⟨by rw [e1b, e2b], e5 (Nat.zero_le _), by rw [e2b]; exact e3, ?_⟩
    intro i e he
    rw [e1b] at he
    exact e4 i e he
  refine ⟨hthr, ?_, ?_, ?_, rfl, ?_, ?_, ?_, ?_⟩
  · rw [hthr]
    exact Nat.pow_log_le_self 2 (by omega)
  · rw [hthr]
    exact Nat.lt_pow_succ_log_self (by omega) _
  · have h2 : get_kick_threshold (new_xuckoo_hash_table_with_bucketsize bucketsize)
        = Nat.log2 2 := rfl
    rw [h2, Nat.log2_eq_log_two]
    exact Nat.log_pow (by omega : 1 < 2) 1
  · intro hbs
    exact xk_kick_loop_total MAX_TABLE_SIZE bucketsize hbs rnd (get_kick_threshold t)
      (get_kick_threshold t) (kick_start t key) hre (Nat.zero_le _) (Nat.sub_le _ _)
  · intro s hs
    obtain ⟨c1, c2, c3, _⟩ := hshape s hs
    refine ⟨c1, c2, c3, ?_⟩
    intro r hc hsp hr
    exact ⟨by omega, KickReach.step s r hs hc hsp hr, rfl, rfl, rfl⟩
  · intro s hs
    obtain ⟨hkr, hex⟩ := xk_kick_loop_trace rnd _ _ _ s hs
    obtain ⟨c1, c2, _, c4⟩ := hshape s hkr
    exact ⟨hkr, c1, c2, hex, c4⟩
  · intro habsent fuel
    exact xk_insert_absent MAX_TABLE_SIZE fuel rnd t key habsent

/-- Witness for C33: the hybrid table reached by inserting 0 and 1, with
buckets of one key, and the key 2, whose insertion makes one swap. -/
theorem xuckoo_kick_bound_witness :
    get_kick_threshold (Xuckoo.after_insert 128 20 (fun _ => 0) (Xuckoo.after_insert 128 20 (fun _ => 0) (new_xuckoo_hash_table_with_bucketsize 1) 0) 1) = Nat.log 2 ((Xuckoo.after_insert 128 20 (fun _ => 0) (Xuckoo.after_insert 128 20 (fun _ => 0) (new_xuckoo_hash_table_with_bucketsize 1) 0) 1).table1.xtable.size + (Xuckoo.after_insert 128 20 (fun _ => 0) (Xuckoo.after_insert 128 20 (fun _ => 0) (new_xuckoo_hash_table_with_bucketsize 1) 0) 1).table2.xtable.size) ∧
    2 ^ get_kick_threshold (Xuckoo.after_insert 128 20 (fun _ => 0) (Xuckoo.after_insert 128 20 (fun _ => 0) (new_xuckoo_hash_table_with_bucketsize 1) 0) 1) ≤ (Xuckoo.after_insert 128 20 (fun _ => 0) (Xuckoo.after_insert 128 20 (fun _ => 0) (new_xuckoo_hash_table_with_bucketsize 1) 0) 1).table1.xtable.size + (Xuckoo.after_insert 128 20 (fun _ => 0) (Xuckoo.after_insert 128 20 (fun _ => 0) (new_xuckoo_hash_table_with_bucketsize 1) 0) 1).table2.xtable.size ∧
    (Xuckoo.after_insert 128 20 (fun _ => 0) (Xuckoo.after_insert 128 20 (fun _ => 0) (new_xuckoo_hash_table_with_bucketsize 1) 0) 1).table1.xtable.size + (Xuckoo.after_insert 128 20 (fun _ => 0) (Xuckoo.after_insert 128 20 (fun _ => 0) (new_xuckoo_hash_table_with_bucketsize 1) 0) 1).table2.xtable.size < 2 ^ (get_kick_threshold (Xuckoo.after_insert 128 20 (fun _ => 0) (Xuckoo.after_insert 128 20 (fun _ => 0) (new_xuckoo_hash_table_with_bucketsize 1) 0) 1) + 1) ∧
    get_kick_threshold (new_xuckoo_hash_table_with_bucketsize 1) = 1 ∧
    kicks (fun _ => 0) (Xuckoo.after_insert 128 20 (fun _ => 0) (Xuckoo.after_insert 128 20 (fun _ => 0) (new_xuckoo_hash_table_with_bucketsize 1) 0) 1) 2
      = kick_loop (fun _ => 0) (get_kick_threshold (Xuckoo.after_insert 128 20 (fun _ => 0) (Xuckoo.after_insert 128 20 (fun _ => 0) (new_xuckoo_hash_table_with_bucketsize 1) 0) 1)) (get_kick_threshold (Xuckoo.after_insert 128 20 (fun _ => 0) (Xuckoo.after_insert 128 20 (fun _ => 0) (new_xuckoo_hash_table_with_bucketsize 1) 0) 1)) (kick_start (Xuckoo.after_insert 128 20 (fun _ => 0) (Xuckoo.after_insert 128 20 (fun _ => 0) (new_xuckoo_hash_table_with_bucketsize 1) 0) 1) 2) ∧
    (1 ≤ 1 → ∃ s, kicks (fun _ => 0) (Xuckoo.after_insert 128 20 (fun _ => 0) (Xuckoo.after_insert 128 20 (fun _ => 0) (new_xuckoo_hash_table_with_bucketsize 1) 0) 1) 2 = Res.ret s) ∧
    (∀ s, KickReach (fun _ => 0) (get_kick_threshold (Xuckoo.after_insert 128 20 (fun _ => 0) (Xuckoo.after_insert 128 20 (fun _ => 0) (new_xuckoo_hash_table_with_bucketsize 1) 0) 1)) (kick_start (Xuckoo.after_insert 128 20 (fun _ => 0) (Xuckoo.after_insert 128 20 (fun _ => 0) (new_xuckoo_hash_table_with_bucketsize 1) 0) 1) 2) s →
      s.kick_count = s.evicted.length ∧ s.kick_count ≤ get_kick_threshold (Xuckoo.after_insert 128 20 (fun _ => 0) (Xuckoo.after_insert 128 20 (fun _ => 0) (new_xuckoo_hash_table_with_bucketsize 1) 0) 1) ∧
      s.first_slim = (if s.kick_count % 2 = 0 then (kick_start (Xuckoo.after_insert 128 20 (fun _ => 0) (Xuckoo.after_insert 128 20 (fun _ => 0) (new_xuckoo_hash_table_with_bucketsize 1) 0) 1) 2).first_slim
        else !(kick_start (Xuckoo.after_insert 128 20 (fun _ => 0) (Xuckoo.after_insert 128 20 (fun _ => 0) (new_xuckoo_hash_table_with_bucketsize 1) 0) 1) 2).first_slim) ∧
      ∀ r, s.kick_count ≠ get_kick_threshold (Xuckoo.after_insert 128 20 (fun _ => 0) (Xuckoo.after_insert 128 20 (fun _ => 0) (new_xuckoo_hash_table_with_bucketsize 1) 0) 1) →
        xtndbln_hash_table_has_space (get_inner_table s.table s.first_slim).xtable s.key
          = Res.ret false →
        xtndbln_hash_table_rand_swap (get_inner_table s.table s.first_slim).xtable s.key
          ((fun _ => 0) s.kick_count) = Res.ret r →
        s.kick_count < get_kick_threshold (Xuckoo.after_insert 128 20 (fun _ => 0) (Xuckoo.after_insert 128 20 (fun _ => 0) (new_xuckoo_hash_table_with_bucketsize 1) 0) 1) ∧
        KickReach (fun _ => 0) (get_kick_threshold (Xuckoo.after_insert 128 20 (fun _ => 0) (Xuckoo.after_insert 128 20 (fun _ => 0) (new_xuckoo_hash_table_with_bucketsize 1) 0) 1)) (kick_start (Xuckoo.after_insert 128 20 (fun _ => 0) (Xuckoo.after_insert 128 20 (fun _ => 0) (new_xuckoo_hash_table_with_bucketsize 1) 0) 1) 2) (kick_step s r) ∧
        (kick_step s r).kick_count = s.kick_count + 1 ∧
        (kick_step s r).first_slim = (!s.first_slim) ∧ (kick_step s r).key = r.2) ∧
    (∀ s, kicks (fun _ => 0) (Xuckoo.after_insert 128 20 (fun _ => 0) (Xuckoo.after_insert 128 20 (fun _ => 0) (new_xuckoo_hash_table_with_bucketsize 1) 0) 1) 2 = Res.ret s →
      KickReach (fun _ => 0) (get_kick_threshold (Xuckoo.after_insert 128 20 (fun _ => 0) (Xuckoo.after_insert 128 20 (fun _ => 0) (new_xuckoo_hash_table_with_bucketsize 1) 0) 1)) (kick_start (Xuckoo.after_insert 128 20 (fun _ => 0) (Xuckoo.after_insert 128 20 (fun _ => 0) (new_xuckoo_hash_table_with_bucketsize 1) 0) 1) 2) s ∧
      s.kick_count = s.evicted.length ∧ s.kick_count ≤ get_kick_threshold (Xuckoo.after_insert 128 20 (fun _ => 0) (Xuckoo.after_insert 128 20 (fun _ => 0) (new_xuckoo_hash_table_with_bucketsize 1) 0) 1) ∧
      (s.kick_count = get_kick_threshold (Xuckoo.after_insert 128 20 (fun _ => 0) (Xuckoo.after_insert 128 20 (fun _ => 0) (new_xuckoo_hash_table_with_bucketsize 1) 0) 1) ∨
        xtndbln_hash_table_has_space (get_inner_table s.table s.first_slim).xtable s.key
          = Res.ret true) ∧
      (∀ i e, s.evicted[i]? = some e →
        e.2 = (if i % 2 = 0 then (kick_start (Xuckoo.after_insert 128 20 (fun _ => 0) (Xuckoo.after_insert 128 20 (fun _ => 0) (new_xuckoo_hash_table_with_bucketsize 1) 0) 1) 2).first_slim
          else !(kick_start (Xuckoo.after_insert 128 20 (fun _ => 0) (Xuckoo.after_insert 128 20 (fun _ => 0) (new_xuckoo_hash_table_with_bucketsize 1) 0) 1) 2).first_slim))) ∧
    (xuckoo_hash_table_lookup (Xuckoo.after_insert 128 20 (fun _ => 0) (Xuckoo.after_insert 128 20 (fun _ => 0) (new_xuckoo_hash_table_with_bucketsize 1) 0) 1) 2 = Res.ret false →
      ∀ fuel, xuckoo_hash_table_insert 128 fuel (fun _ => 0) (Xuckoo.after_insert 128 20 (fun _ => 0) (Xuckoo.after_insert 128 20 (fun _ => 0) (new_xuckoo_hash_table_with_bucketsize 1) 0) 1) 2
        = (kicks (fun _ => 0) (Xuckoo.after_insert 128 20 (fun _ => 0) (Xuckoo.after_insert 128 20 (fun _ => 0) (new_xuckoo_hash_table_with_bucketsize 1) 0) 1) 2).bind fun s =>
          (xtndbln_hash_table_insert 128 fuel
              (get_inner_table s.table s.first_slim).xtable s.key).bind fun r =>
            Res.ret (set_inner_table s.table s.first_slim
              { xtable := r.1,
                keycount := (get_inner_table s.table s.first_slim).keycount + 1 }, true)) :=
  xuckoo_kick_bound 128 1 _
    (xk_hreach_after 128 1 _ (xk_hreach_after 128 1 _ HReach.init 20 (fun _ => 0) 0)
      20 (fun _ => 0) 1)
    (fun _ => 0) 2

end

namespace Xuckoo

open Xtndbln

/-- Every reachable hybrid table is tallied. -/
theorem xk_hreach_tally {MAX bucketsize : Nat} {t : XuckooHashTable}
    (h : HReach MAX bucketsize t) : KTally t := by
  induction h with
  | init => exact xk_new_tally bucketsize
  | insert t key fuel rnd r _ hr ih => exact (xk_insert_tally MAX fuel rnd t ih key r hr).1

/-- In a tallied table no key is stored in both inner tables. -/
theorem xk_tally_apart {t : XuckooHashTable} (ht : KTally t) (k : Nat) :
    ¬ (stored t.table1.xtable k ∧ stored t.table2.xtable k) := by
  rintro ⟨h1, h2⟩
  exact ht.disjoint k ((xt_mem_all_keys ht.tally1.covered k).mpr h1)
    ((xt_mem_all_keys ht.tally2.covered k).mpr h2)

end Xuckoo

section

open Xtndbln Xuckoo

/-- C38. Hybrid inner tables stay disjoint. In every hybrid table reached from
a new one by calls of `xuckoo_hash_table_insert` that returned, whatever the
outcomes of the random evictions, no key is stored in both inner tables and
the list of the keys held by the buckets of an inner table has no key twice.
The same holds of the table the kick loop hands over, for a key that
`xuckoo_hash_table_lookup` did not find, and the key then in hand is stored in
neither inner table: the lookup that opens the final
`xtndbln_hash_table_insert` returns false, so that insertion never takes its
already-present branch and returns true whenever it returns. -/
theorem xuckoo_inner_tables_disjoint (MAX_TABLE_SIZE bucketsize : Nat) (t : XuckooHashTable)
    (hreach : HReach MAX_TABLE_SIZE bucketsize t) :
    (∀ k, ¬ (stored t.table1.xtable k ∧ stored t.table2.xtable k)) ∧
    (∀ k, ¬ (k ∈ all_keys t.table1.xtable ∧ k ∈ all_keys t.table2.xtable)) ∧
    (all_keys t.table1.xtable).Nodup ∧ (all_keys t.table2.xtable).Nodup ∧
    (∀ k, k ∈ all_keys t.table1.xtable ↔ stored t.table1.xtable k) ∧
    (∀ k, k ∈ all_keys t.table2.xtable ↔ stored t.table2.xtable k) ∧
    (∀ key rnd s, xuckoo_hash_table_lookup t key = Res.ret false →
      kicks rnd t key = Res.ret s →
      (∀ k, ¬ (stored s.table.table1.xtable k ∧ stored s.table.table2.xtable k)) ∧
      (all_keys s.table.table1.xtable).Nodup ∧ (all_keys s.table.table2.xtable).Nodup ∧
      ¬ storedK s.table s.key ∧
      xtndbln_hash_table_lookup (get_inner_table s.table s.first_slim).xtable s.key
        = Res.ret false ∧
      ∀ fuel r, xtndbln_hash_table_insert MAX_TABLE_SIZE fuel
          (get_inner_table s.table s.first_slim).xtable s.key = Res.ret r → r.2 = true) := by
  have ht : KTally t := xk_hreach_tally hreach
  refine ⟨xk_tally_apart ht, fun k hk => ht.disjoint k hk.1 hk.2, ht.tally1.nodup,
    ht.tally2.nodup, xt_mem_all_keys ht.tally1.covered, xt_mem_all_keys ht.tally2.covered, ?_⟩
  intro key rnd s habsent hs
  have hinv : KInv t := ⟨ht.tally1.inv, ht.tally2.inv⟩
  have hns : ¬ storedK t key := by
    rcases xk_lookup_spec hinv key with ⟨hl, _⟩ | ⟨_, hns⟩
    · rw [hl] at habsent
      cases habsent
    · exact hns
  have habs : key ∉ all_keys t.table1.xtable ∧ key ∉ all_keys t.table2.xtable :=
    ⟨fun hm => hns (Or.inl ((xt_mem_all_keys ht.tally1.covered key).mp hm)),
      fun hm => hns (Or.inr ((xt_mem_all_keys ht.tally2.covered key).mp hm))⟩
  obtain ⟨hts, hks, _⟩ := xk_kick_loop_tally rnd _ _ _ s ht habs hs
  have hnss : ¬ storedK s.table s.key := by
    rintro (h | h)
    · exact hks.1 ((xt_mem_all_keys hts.tally1.covered s.key).mpr h)
    · exact hks.2 ((xt_mem_all_keys hts.tally2.covered s.key).mpr h)
  have hinvs : KInv s.table := ⟨hts.tally1.inv, hts.tally2.inv⟩
  have hxi := xk_inner_inv hinvs s.first_slim
  have hnsi : ¬ stored (get_inner_table s.table s.first_slim).xtable s.key := by
    intro h
    apply hnss
    rw [xk_stored_inner s.table s.first_slim]
    exact Or.inl h
  refine ⟨xk_tally_apart hts, hts.tally1.nodup, hts.tally2.nodup, hnss,
    xt_lookup_false hxi hnsi, ?_⟩
  intro fuel r hr
  rcases xt_insert_spec MAX_TABLE_SIZE fuel _ hxi s.key with hi | ⟨hst, _⟩ | ⟨_, t2, hi, _⟩
  · rw [hi] at hr
    cases hr
  · exact absurd hst hnsi
  · rw [hi] at hr
    cases hr
    rfl

/-- Witness for C38: the hybrid table reached by inserting 0, 1 and 2 with
buckets of one key; the third insertion evicts the key 0 from the first inner
table. -/
theorem xuckoo_inner_tables_disjoint_witness :
    (∀ k, ¬ (stored (Xuckoo.after_insert 128 20 (fun _ => 0) (Xuckoo.after_insert 128 20 (fun _ => 0) (Xuckoo.after_insert 128 20 (fun _ => 0) (new_xuckoo_hash_table_with_bucketsize 1) 0) 1) 2).table1.xtable k ∧ stored (Xuckoo.after_insert 128 20 (fun _ => 0) (Xuckoo.after_insert 128 20 (fun _ => 0) (Xuckoo.after_insert 128 20 (fun _ => 0) (new_xuckoo_hash_table_with_bucketsize 1) 0) 1) 2).table2.xtable k)) ∧
    (∀ k, ¬ (k ∈ all_keys (Xuckoo.after_insert 128 20 (fun _ => 0) (Xuckoo.after_insert 128 20 (fun _ => 0) (Xuckoo.after_insert 128 20 (fun _ => 0) (new_xuckoo_hash_table_with_bucketsize 1) 0) 1) 2).table1.xtable ∧ k ∈ all_keys (Xuckoo.after_insert 128 20 (fun _ => 0) (Xuckoo.after_insert 128 20 (fun _ => 0) (Xuckoo.after_insert 128 20 (fun _ => 0) (new_xuckoo_hash_table_with_bucketsize 1) 0) 1) 2).table2.xtable)) ∧
    (all_keys (Xuckoo.after_insert 128 20 (fun _ => 0) (Xuckoo.after_insert 128 20 (fun _ => 0) (Xuckoo.after_insert 128 20 (fun _ => 0) (new_xuckoo_hash_table_with_bucketsize 1) 0) 1) 2).table1.xtable).Nodup ∧ (all_keys (Xuckoo.after_insert 128 20 (fun _ => 0) (Xuckoo.after_insert 128 20 (fun _ => 0) (Xuckoo.after_insert 128 20 (fun _ => 0) (new_xuckoo_hash_table_with_bucketsize 1) 0) 1) 2).table2.xtable).Nodup ∧
    (∀ k, k ∈ all_keys (Xuckoo.after_insert 128 20 (fun _ => 0) (Xuckoo.after_insert 128 20 (fun _ => 0) (Xuckoo.after_insert 128 20 (fun _ => 0) (new_xuckoo_hash_table_with_bucketsize 1) 0) 1) 2).table1.xtable ↔ stored (Xuckoo.after_insert 128 20 (fun _ => 0) (Xuckoo.after_insert 128 20 (fun _ => 0) (Xuckoo.after_insert 128 20 (fun _ => 0) (new_xuckoo_hash_table_with_bucketsize 1) 0) 1) 2).table1.xtable k) ∧
    (∀ k, k ∈ all_keys (Xuckoo.after_insert 128 20 (fun _ => 0) (Xuckoo.after_insert 128 20 (fun _ => 0) (Xuckoo.after_insert 128 20 (fun _ => 0) (new_xuckoo_hash_table_with_bucketsize 1) 0) 1) 2).table2.xtable ↔ stored (Xuckoo.after_insert 128 20 (fun _ => 0) (Xuckoo.after_insert 128 20 (fun _ => 0) (Xuckoo.after_insert 128 20 (fun _ => 0) (new_xuckoo_hash_table_with_bucketsize 1) 0) 1) 2).table2.xtable k) ∧
    (∀ key rnd s, xuckoo_hash_table_lookup (Xuckoo.after_insert 128 20 (fun _ => 0) (Xuckoo.after_insert 128 20 (fun _ => 0) (Xuckoo.after_insert 128 20 (fun _ => 0) (new_xuckoo_hash_table_with_bucketsize 1) 0) 1) 2) key = Res.ret false →
      kicks rnd (Xuckoo.after_insert 128 20 (fun _ => 0) (Xuckoo.after_insert 128 20 (fun _ => 0) (Xuckoo.after_insert 128 20 (fun _ => 0) (new_xuckoo_hash_table_with_bucketsize 1) 0) 1) 2) key = Res.ret s →
      (∀ k, ¬ (stored s.table.table1.xtable k ∧ stored s.table.table2.xtable k)) ∧
      (all_keys s.table.table1.xtable).Nodup ∧ (all_keys s.table.table2.xtable).Nodup ∧
      ¬ storedK s.table s.key ∧
      xtndbln_hash_table_lookup (get_inner_table s.table s.first_slim).xtable s.key
        = Res.ret false ∧
      ∀ fuel r, xtndbln_hash_table_insert 128 fuel
          (get_inner_table s.table s.first_slim).xtable s.key = Res.ret r → r.2 = true) :=
  xuckoo_inner_tables_disjoint 128 1 _
    (xk_hreach_after 128 1 _ (xk_hreach_after 128 1 _
      (xk_hreach_after 128 1 _ HReach.init 20 (fun _ => 0) 0) 20 (fun _ => 0) 1)
      20 (fun _ => 0) 2)

end

namespace Xtndbln

/-- The splitting loop keeps the directory within a bound `M` that is at least
`MAX_TABLE_SIZE`. -/
theorem xt_split_loop_size (MAX M : Nat) (hM : MAX ≤ M) (kh : Int) :
    ∀ fuel (t : XtndblNHashTable) (r : XtndblNHashTable × Nat), XInv t → t.size ≤ M →
      split_loop MAX kh fuel t = Res.ret r → r.1.size ≤ M := by
  intro fuel
  induction fuel with
  | zero =>
    intro t r hinv hsz h
    obtain ⟨a, b, hp, hg⟩ := xt_home hinv kh
    rw [split_loop, xt_bucket_at_eq hp, Res.bind_ret] at h
    simp only at h
    split at h
    · cases h
    · cases h
      exact hsz
  | succ n ih =>
    intro t r hinv hsz h
    obtain ⟨a, b, hp, hg⟩ := xt_home hinv kh
    rw [split_loop, xt_bucket_at_eq hp, Res.bind_ret] at h
    simp only at h
    by_cases hfull : b.nkeys = t.bucketsize
    · rw [if_pos hfull] at h
      rcases xt_split_spec MAX t hinv _ a b hp hfull with ⟨_, _, hs⟩ | ⟨t2, hs, _⟩
      · rw [hs, Res.bind_ret] at h
        exact ih t r hinv hsz h
      · obtain ⟨hinv2, hsz2, _⟩ := xt_split_step_depth MAX t hinv kh a b hp hfull t2 hs
        rw [hs, Res.bind_ret] at h
        refine ih t2 r hinv2 ?_ h
        rcases hsz2 with e | ⟨e, e2⟩ <;> omega
    · rw [if_neg hfull] at h
      cases h
      exact hsz

theorem xt_insert_size (MAX M fuel : Nat) (hM : MAX ≤ M) (t : XtndblNHashTable)
    (hinv : XInv t) (hsz : t.size ≤ M) (key : Nat) (r : XtndblNHashTable × Bool)
    (h : xtndbln_hash_table_insert MAX fuel t key = Res.ret r) : r.1.size ≤ M := by
  unfold xtndbln_hash_table_insert at h
  rw [Res.bind_eq_ret] at h
  obtain ⟨found, _, h⟩ := h
  cases found with
  | true =>
    simp only [if_true, Res.ret.injEq] at h
    subst h
    exact hsz
  | false =>
    simp only [Bool.false_eq_true, if_false, Res.bind_eq_ret] at h
    obtain ⟨r1, hr1, bk, _, b2, _, hp2, _, e⟩ := h
    simp only [Res.ret.injEq] at e
    subst e
    exact xt_split_loop_size MAX M hM _ fuel t r1 hinv hsz hr1

/-- The directory of a reachable table has at most `MAX_TABLE_SIZE` slots, or
the one slot of a new table. -/
theorem xt_reach_size {MAX bucketsize : Nat} {hash : Nat → Int} {t : XtndblNHashTable}
    (h : Reach MAX bucketsize hash t) : t.size ≤ MAX + 1 := by
  induction h with
  | init =>
    show 1 ≤ MAX + 1
    omega
  | insert t key fuel r hre hr ih =>
    exact xt_insert_size MAX (MAX + 1) fuel (by omega) t (xt_reach_inv hre).1 ih key r hr
  | swap t key rnd r _ hr ih =>
    rw [(xt_rand_swap_frame hr).1]
    exact ih

end Xtndbln

namespace Xuckoo

open Xtndbln

theorem xk_kreach_size {MAX bs : Nat} {t : XuckooHashTable} (h : KReach MAX bs t) (f : Bool) :
    (get_inner_table t f).xtable.size ≤ MAX + 1 := by
  cases f
  · exact xt_reach_size h.2
  · exact xt_reach_size h.1

/-- A hybrid insertion returns, with buckets of at least one key, when every
split asked for by its final inner insertion stays within `MAX_TABLE_SIZE`. -/
theorem xk_insert_total (MAX bs fuel : Nat) (hbs : 1 ≤ bs) (hfuel : MAX + 1 ≤ fuel)
    (rnd : Nat → Nat) (t : XuckooHashTable) (hre : KReach MAX bs t) (key : Nat)
    (hroom : ∀ s, xuckoo_hash_table_lookup t key = Res.ret false →
      kicks rnd t key = Res.ret s →
      xtndbln_hash_table_lookup (get_inner_table s.table s.first_slim).xtable s.key
        = Res.ret false →
      SplitsFit MAX ((get_inner_table s.table s.first_slim).xtable.hash s.key)
        (get_inner_table s.table s.first_slim).xtable) :
    ∃ r, xuckoo_hash_table_insert MAX fuel rnd t key = Res.ret r := by
  have hinv : KInv t := ⟨(xt_reach_inv hre.1).1, (xt_reach_inv hre.2).1⟩
  rcases xk_lookup_spec hinv key with ⟨hl, _⟩ | ⟨hl, _⟩
  · refine ⟨(t, false), ?_⟩
    unfold xuckoo_hash_table_insert
    rw [hl, Res.bind_ret]
    rfl
  · obtain ⟨s, hs⟩ := xk_kick_loop_total MAX bs hbs rnd (get_kick_threshold t)
      (get_kick_threshold t) (kick_start t key) hre (Nat.zero_le _) (Nat.sub_le _ _)
    have hre2 : KReach MAX bs s.table := xk_kick_loop_reach MAX bs rnd _ _ _ s hre hs
    obtain ⟨hxi, _⟩ := xk_kreach_inner hre2 s.first_slim
    obtain ⟨r, hr, _⟩ := xt_insert_total MAX (MAX + 1) fuel (by omega) hfuel _ hxi
      (xk_kreach_size hre2 s.first_slim) s.key (hroom s hl hs)
    rw [xk_insert_absent MAX fuel rnd t key hl, hs, Res.bind_ret, hr, Res.bind_ret]
    exact ⟨_, rfl⟩

theorem xk_bind_assoc {α β γ : Type} (x : Res α) (f : α → Res β) (g : β → Res γ) :
    (x.bind f).bind g = x.bind fun a => (f a).bind g := by
  cases x <;> rfl

theorem xk_insert_all_append_eq (MAX fuel : Nat) (ops : List (Nat × (Nat → Nat))) :
    ∀ (ops1 : List (Nat × (Nat → Nat))) (t : XuckooHashTable),
      insert_all MAX fuel t (ops1 ++ ops)
        = (insert_all MAX fuel t ops1).bind fun u => insert_all MAX fuel u ops := by
  intro ops1
  induction ops1 with
  | nil =>
    intro t
    rfl
  | cons o ops1 ih =>
    intro t
    rw [List.cons_append, insert_all, insert_all, xk_bind_assoc]
    congr 1
    funext r
    exact ih r.1

/-- A run of hybrid insertions returns, with buckets of at least one key, when
every split asked for stays within `MAX_TABLE_SIZE`. -/
theorem xk_insert_all_total (MAX bs fuel : Nat) (hbs : 1 ≤ bs) (hfuel : MAX + 1 ≤ fuel)
    (ops : List (Nat × (Nat → Nat))) :
    ∀ t, KReach MAX bs t →
      (∀ ops1 op ops2 u s, ops = ops1 ++ op :: ops2 →
        insert_all MAX fuel t ops1 = Res.ret u →
        xuckoo_hash_table_lookup u op.1 = Res.ret false →
        kicks op.2 u op.1 = Res.ret s →
        xtndbln_hash_table_lookup (get_inner_table s.table s.first_slim).xtable s.key
          = Res.ret false →
        SplitsFit MAX ((get_inner_table s.table s.first_slim).xtable.hash s.key)
          (get_inner_table s.table s.first_slim).xtable) →
      ∃ u, insert_all MAX fuel t ops = Res.ret u := by
  induction ops with
  | nil =>
    intro t _ _
    exact ⟨t, rfl⟩
  | cons o ops ih =>
    intro t hre hroom
    obtain ⟨r, hr⟩ := xk_insert_total MAX bs fuel hbs hfuel o.2 t hre o.1
      (fun s hl hs hl2 => hroom [] o ops t s rfl rfl hl hs hl2)
    rw [insert_all, hr, Res.bind_ret]
    apply ih r.1 (xk_insert_reach MAX fuel bs o.2 t hre o.1 r hr)
    intro ops1 op ops2 u s e hu
    apply hroom (o :: ops1) op ops2 u s (by rw [e]; rfl)
    rw [insert_all, hr, Res.bind_ret]
    exact hu

/-- In a run of hybrid insertions that returns, every split asked for stayed
within `MAX_TABLE_SIZE`. -/
theorem xk_room_of_run (MAX fuel : Nat) (t : XuckooHashTable)
    (ops : List (Nat × (Nat → Nat))) (hrun : (insert_all MAX fuel t ops).returns = true) :
    ∀ ops1 op ops2 u s, ops = ops1 ++ op :: ops2 →
      insert_all MAX fuel t ops1 = Res.ret u →
      xuckoo_hash_table_lookup u op.1 = Res.ret false →
      kicks op.2 u op.1 = Res.ret s →
      xtndbln_hash_table_lookup (get_inner_table s.table s.first_slim).xtable s.key
        = Res.ret false →
      SplitsFit MAX ((get_inner_table s.table s.first_slim).xtable.hash s.key)
        (get_inner_table s.table s.first_slim).xtable := by
  intro ops1 op ops2 u s e hu hl hs hl2
  subst e
  rw [xk_insert_all_append_eq, hu, Res.bind_ret, insert_all] at hrun
  cases hi : xuckoo_hash_table_insert MAX fuel op.2 u op.1 with
  | abort => rw [hi] at hrun; simp [Res.returns, Res.bind] at hrun
  | diverge => rw [hi] at hrun; simp [Res.returns, Res.bind] at hrun
  | ret r =>
    have hs2 : kick_loop op.2 (get_kick_threshold u) (get_kick_threshold u)
        (kick_start u op.1) = Res.ret s := hs
    rw [xk_insert_absent MAX fuel op.2 u op.1 hl, hs2, Res.bind_ret, Res.bind_eq_ret] at hi
    obtain ⟨r1, hr1, _⟩ := hi
    unfold xtndbln_hash_table_insert at hr1
    rw [hl2, Res.bind_ret] at hr1
    simp only [Bool.false_eq_true, if_false, Res.bind_eq_ret] at hr1
    obtain ⟨r2, hr2, _⟩ := hr1
    exact xt_fits_of_returns hr2

/-- A hybrid insertion whose final inner insertion needs a split that the
directory cannot grant never returns. -/
theorem xk_insert_stuck (MAX : Nat) (rnd : Nat → Nat) (t : XuckooHashTable) (key : Nat)
    (habsent : xuckoo_hash_table_lookup t key = Res.ret false)
    (hstuck : ((kicks rnd t key).bind fun s =>
      stuck MAX (get_inner_table s.table s.first_slim).xtable s.key) = Res.ret true) :
    ∀ fuel, xuckoo_hash_table_insert MAX fuel rnd t key = Res.diverge := by
  intro fuel
  rw [Res.bind_eq_ret] at hstuck
  obtain ⟨s, hk, hs⟩ := hstuck
  unfold stuck at hs
  simp only [Res.bind_eq_ret] at hs
  obtain ⟨found, hl, r, hb, hs⟩ := hs
  simp only [Res.ret.injEq, Bool.and_eq_true, Bool.not_eq_true', decide_eq_true_eq] at hs
  obtain ⟨⟨⟨hf, h1⟩, h2⟩, h3⟩ := hs
  subst hf
  unfold xuckoo_hash_table_insert
  rw [habsent, Res.bind_ret]
  simp only [Bool.false_eq_true, if_false]
  rw [hk, Res.bind_ret,
    xt_insert_hangs MAX _ s.key r.1 r.2 hl hb h1 h2 h3 fuel]
  rfl

end Xuckoo

section

open Xtndbln Xuckoo

/-- C4 (the claim as stated fails). On a new hybrid table holding the keys 0 to
7, the insertion of 8 evicts the key 1 from the first inner table (first
kick), later evicts it again from the second inner table (fourth kick), and
when the insertion returns the key 1 is in the first inner table, the one it
was first evicted from, and not in the other one. Besides, not every sequence
of insertions returns: with buckets of no key the first insertion stops on the
assertion of `rand_swap`, and with `MAX_TABLE_SIZE = 1` the insertion of 2
after 0 and 1 asks for a split that does not fit and never returns. -/
theorem xuckoo_evicted_key_returns :
    ((Xuckoo.insert_all 128 20 new_xuckoo_hash_table (first_keys 8)).bind fun t =>
        (kicks (fun _ => 0) t 8).bind fun s => Res.ret s.evicted)
      = Res.ret [(1, true), (4, false), (5, true), (1, false), (8, true), (5, false)] ∧
    ((Xuckoo.insert_all 128 20 new_xuckoo_hash_table (first_keys 8 ++ [(8, fun _ => 0)])).bind
        fun t => xtndbln_hash_table_lookup t.table2.xtable 1) = Res.ret false ∧
    ((Xuckoo.insert_all 128 20 new_xuckoo_hash_table (first_keys 8 ++ [(8, fun _ => 0)])).bind
        fun t => xtndbln_hash_table_lookup t.table1.xtable 1) = Res.ret true ∧
    ((xuckoo_hash_table_insert 128 20 (fun _ => 0)
        (new_xuckoo_hash_table_with_bucketsize 0) 0).bind fun r => Res.ret r.2) = Res.abort ∧
    (∀ fuel, xuckoo_hash_table_insert 1 fuel (fun _ => 0)
      (Xuckoo.after_insert 1 10 (fun _ => 0)
        (Xuckoo.after_insert 1 10 (fun _ => 0) new_xuckoo_hash_table 0) 1) 2
        = Res.diverge) := by
  refine ⟨by decide!, by decide!, by decide!, by decide!, ?_⟩
  exact xk_insert_stuck 1 (fun _ => 0) _ 2 (by decide!) (by decide!)

/-- C4 (amended). Hybrid table membership: for every bucket size of at least
one key, every list of insertions into a new hybrid table followed by one more
insertion of `key`, and every outcome of the random choices, when the splits
all stay within `MAX_TABLE_SIZE` (no call of `split_bucket` made by the final
inner insertion of a hybrid insertion returns false), every call returns, with
`MAX_TABLE_SIZE + 1` splits allowed to each; the final
`xuckoo_hash_table_lookup(K)` is true if `K` is among the inserted keys and
false otherwise, every key evicted by `rand_swap` during the last insertion is
found by lookup when that insertion has returned, and when it has returned
true every such key is found in the inner table other than the one it was
last evicted from. -/
theorem xuckoo_membership (MAX_TABLE_SIZE fuel bucketsize : Nat)
    (ops : List (Nat × (Nat → Nat))) (key : Nat) (rnd : Nat → Nat) (K : Nat)
    (hbs : 1 ≤ bucketsize) (hfuel : MAX_TABLE_SIZE + 1 ≤ fuel)
    (hroom : ∀ ops1 op ops2 u s, ops ++ [(key, rnd)] = ops1 ++ op :: ops2 →
      Xuckoo.insert_all MAX_TABLE_SIZE fuel
        (new_xuckoo_hash_table_with_bucketsize bucketsize) ops1 = Res.ret u →
      xuckoo_hash_table_lookup u op.1 = Res.ret false →
      kicks op.2 u op.1 = Res.ret s →
      xtndbln_hash_table_lookup (get_inner_table s.table s.first_slim).xtable s.key
        = Res.ret false →
      SplitsFit MAX_TABLE_SIZE ((get_inner_table s.table s.first_slim).xtable.hash s.key)
        (get_inner_table s.table s.first_slim).xtable) :
    ∃ t t2 b,
      Xuckoo.insert_all MAX_TABLE_SIZE fuel
        (new_xuckoo_hash_table_with_bucketsize bucketsize) ops = Res.ret t ∧
      xuckoo_hash_table_insert MAX_TABLE_SIZE fuel rnd t key = Res.ret (t2, b) ∧
      Xuckoo.insert_all MAX_TABLE_SIZE fuel
        (new_xuckoo_hash_table_with_bucketsize bucketsize) (ops ++ [(key, rnd)]) = Res.ret t2 ∧
      (xuckoo_hash_table_lookup t2 K = Res.ret true ↔ K ∈ (ops ++ [(key, rnd)]).map Prod.fst) ∧
      (xuckoo_hash_table_lookup t2 K = Res.ret false ↔ K ∉ (ops ++ [(key, rnd)]).map Prod.fst) ∧
      (∀ s, kicks rnd t key = Res.ret s → ∀ e, e ∈ s.evicted →
        xuckoo_hash_table_lookup t2 e.1 = Res.ret true) ∧
      (b = true → ∀ s, kicks rnd t key = Res.ret s → ∀ e f,
        last_from s.evicted e = some f →
        xtndbln_hash_table_lookup (get_inner_table t2 (!f)).xtable e = Res.ret true) := by
  obtain ⟨t2, hr⟩ := xk_insert_all_total MAX_TABLE_SIZE bucketsize fuel hbs hfuel
    (ops ++ [(key, rnd)]) _ (xk_new_reach MAX_TABLE_SIZE bucketsize) hroom
  obtain ⟨t, b, h1, h2⟩ := xk_insert_all_append MAX_TABLE_SIZE fuel ops (key, rnd) _ t2 hr
  obtain ⟨hinv1, _⟩ := xk_insert_all_spec MAX_TABLE_SIZE fuel ops _ t
    (xk_new_inv bucketsize) h1
  obtain ⟨hinv2, hst2⟩ := xk_insert_all_spec MAX_TABLE_SIZE fuel _ _ t2
    (xk_new_inv bucketsize) hr
  obtain ⟨_, _, hev⟩ := xk_insert_ret MAX_TABLE_SIZE fuel rnd t hinv1 key (t2, b) h2
  have hK : storedK t2 K ↔ K ∈ (ops ++ [(key, rnd)]).map Prod.fst := by
    rw [hst2]
    constructor
    · rintro (h | h)
      · exact absurd h (xk_new_not_stored bucketsize K)
      · exact h
    · exact Or.inr
  refine ⟨t, t2, b, h1, h2, hr, ?_, ?_, fun s hs e he => ?_, fun hb s hs e f hl => ?_⟩
  · rcases xk_lookup_spec hinv2 K with ⟨hl, hs⟩ | ⟨hl, hs⟩
    · rw [hl]; simp only [true_iff]; exact hK.mp hs
    · have hK2 : K ∉ (ops ++ [(key, rnd)]).map Prod.fst := fun h => hs (hK.mpr h)
      rw [hl]; simp only [Res.ret.injEq, Bool.false_eq_true, false_iff]; exact hK2
  · rcases xk_lookup_spec hinv2 K with ⟨hl, hs⟩ | ⟨hl, hs⟩
    · rw [hl]
      simp only [Res.ret.injEq, Bool.true_eq_false, false_iff, not_not]
      exact hK.mp hs
    · have hK2 : K ∉ (ops ++ [(key, rnd)]).map Prod.fst := fun h => hs (hK.mpr h)
      rw [hl]; simp only [true_iff]; exact hK2
  · have hst := hev s hs e he
    rcases xk_lookup_spec hinv2 e.1 with ⟨hl, _⟩ | ⟨_, hns⟩
    · exact hl
    · exact absurd hst hns
  · subst hb
    have hst := xk_insert_trail MAX_TABLE_SIZE fuel rnd t hinv1 key t2 h2 s hs e f hl
    rcases xt_lookup_spec (xk_inner_inv hinv2 (!f)) e with ⟨hl2, _⟩ | ⟨_, hns⟩
    · exact hl2
    · exact absurd hst hns

/-- Witness for C4: the keys 0 to 7, then 8, into a new table of bucket size 1,
with 128 slots allowed. -/
theorem xuckoo_membership_witness :
    ∃ t t2 b,
      Xuckoo.insert_all 128 129
        (new_xuckoo_hash_table_with_bucketsize 1) (first_keys 8) = Res.ret t ∧
      xuckoo_hash_table_insert 128 129 (fun _ => 0) t 8 = Res.ret (t2, b) ∧
      Xuckoo.insert_all 128 129
        (new_xuckoo_hash_table_with_bucketsize 1) (first_keys 8 ++ [(8, (fun _ => 0))]) = Res.ret t2 ∧
      (xuckoo_hash_table_lookup t2 1 = Res.ret true ↔ 1 ∈ (first_keys 8 ++ [(8, (fun _ => 0))]).map Prod.fst) ∧
      (xuckoo_hash_table_lookup t2 1 = Res.ret false ↔ 1 ∉ (first_keys 8 ++ [(8, (fun _ => 0))]).map Prod.fst) ∧
      (∀ s, kicks (fun _ => 0) t 8 = Res.ret s → ∀ e, e ∈ s.evicted →
        xuckoo_hash_table_lookup t2 e.1 = Res.ret true) ∧
      (b = true → ∀ s, kicks (fun _ => 0) t 8 = Res.ret s → ∀ e f,
        last_from s.evicted e = some f →
        xtndbln_hash_table_lookup (get_inner_table t2 (!f)).xtable e = Res.ret true) :=
  xuckoo_membership 128 129 1 (first_keys 8) 8 (fun _ => 0) 1 (Nat.le_refl 1) (Nat.le_refl 129)
    (xk_room_of_run 128 129 _ (first_keys 8 ++ [(8, fun _ => 0)]) (by decide!))

end
